import Mathlib

/-!
# RingCT signatures and semantic verification (`src/ringct/rctSigs.cpp`)

A shallow embedding of the CLSAG prover and verifier and of the Haven2/Haven3
semantic verifier `verRctSemanticsSimple2`, with the properties proved about them.

Conventions of the embedding:

* an `rct::key` is 32 bytes; it is modelled by the natural number those bytes
  spell in little-endian order, so that the same value can be used as a scalar
  and as the encoding of a point, exactly as in the source;
* the curve arithmetic of `crypto-ops` / `rctOps` is not part of the sources.
  Its points form a commutative group `Pt`, and the encoding, the two
  generators, the hashes and the Bulletproof verifier are the fields of a
  `CryptoLib Pt` that every function takes as a parameter;
* a C++ exception is `Fault.thrown`, an access outside a vector is
  `Fault.outOfBounds`, a loop that used up its fuel is `Fault.fuel`, and any other
  undefined behaviour (the read of a variable that was never set, a shift by the
  width of its type) is `Fault.undefined`.
-/

namespace Rct

/-! ## Keys and scalars -/

/-- A 32-byte `rct::key`, read as a little-endian integer. -/
abbrev key := Nat

/-- Modelled from the spec: the order of the Ed25519 prime-order subgroup,
`l = 2^252 + 27742317777372353535851937790883648493`. -/
def ell : Nat := 2 ^ 252 + 27742317777372353535851937790883648493

/-- The key `rct::identity()`: bytes `01 00 .. 00`, the encoding of the neutral point. -/
def identity : key := 1

/-- The key `rct::zero()`: 32 zero bytes. -/
def zero : key := 0

/-- Modelled from the spec: `INV_EIGHT` is the scalar inverse of 8. -/
def INV_EIGHT : key :=
  2713877091499598330239944961141122840321418634767465352250731601857045344121

/-- The conversion `d2h` of a 64-bit amount to a key. -/
def d2h (x : Nat) : key := x

/-- Modelled from the spec: `sc_mul(s, a, b)` sets `s = a * b mod l`. -/
def sc_mul (a b : key) : key := (a * b) % ell

/-- Modelled from the spec: `sc_add(s, a, b)` sets `s = a + b mod l`. -/
def sc_add (a b : key) : key := (a + b) % ell

/-- Modelled from the spec: `sc_sub(s, a, b)` sets `s = a - b mod l`. -/
def sc_sub (a b : key) : key := (a % ell + (ell - b % ell)) % ell

/-- Modelled from the spec: `sc_muladd(s, a, b, c)` sets `s = a * b + c mod l`. -/
def sc_muladd (a b c : key) : key := (a * b + c) % ell

/-- Modelled from the spec: `sc_mulsub(s, a, b, c)` sets `s = c - a * b mod l`. -/
def sc_mulsub (a b c : key) : key := (c % ell + (ell - (a * b) % ell)) % ell

/-- Modelled from the spec: `sc_check(s) == 0`, the range check of a canonical scalar. -/
def sc_check (s : key) : Bool := decide (s < ell)

/-- Modelled from the spec: `sc_isnonzero(s)`. -/
def sc_isnonzero (s : key) : Bool := decide (s ≠ 0)

/-! ## Constants of `cryptonote_config.h` -/

def COIN : Nat := 1000000000000
def POU_TRANSACTION_VERSION : Nat := 6
def COLLATERAL_TRANSACTION_VERSION : Nat := 7
def HF_VERSION_HAVEN2 : Nat := 18
def HF_PER_OUTPUT_UNLOCK_VERSION : Nat := 19
def HF_VERSION_USE_COLLATERAL : Nat := 20
def BULLETPROOF_MAX_OUTPUTS : Nat := 16

/-- The bytes of `"CLSAG_round"` in a zeroed key. -/
def HASH_KEY_CLSAG_ROUND : key := 121414208574221047659973699

/-- The bytes of `"CLSAG_agg_0"` in a zeroed key. -/
def HASH_KEY_CLSAG_AGG_0 : key := 58478971621354427055819843

/-- The bytes of `"CLSAG_agg_1"` in a zeroed key. -/
def HASH_KEY_CLSAG_AGG_1 : key := 59687897440969056230526019

/-! ## Outcomes -/

/-- The ways a call can end without returning a value. -/
inductive Fault where
  | thrown
  | outOfBounds
  | fuel
  | undefined
deriving DecidableEq, Repr

/-- The outcome of a call: a value or a fault. -/
abbrev Res (α : Type) := Except Fault α

instance instDecidableEqRes {α : Type} [DecidableEq α] : DecidableEq (Res α) := fun x y =>
  match x, y with
  | .ok a, .ok b => if h : a = b then isTrue (by rw [h]) else isFalse (fun e => h (by cases e; rfl))
  | .error a, .error b =>
      if h : a = b then isTrue (by rw [h]) else isFalse (fun e => h (by cases e; rfl))
  | .ok _, .error _ => isFalse (fun e => by cases e)
  | .error _, .ok _ => isFalse (fun e => by cases e)

/-- The element `xs[i]` of a vector; outside the vector the behaviour is undefined. -/
def idx {α : Type} (xs : List α) (i : Nat) : Res α :=
  match xs[i]? with
  | some x => .ok x
  | none => .error .outOfBounds

/-- A `try` block whose handler returns `false`; undefined behaviour is not caught. -/
def catchFalse (r : Res Bool) : Res Bool :=
  match r with
  | .error .thrown => .ok false
  | r => r

/-- The call ends by returning or by throwing: it makes no access outside a vector
and no loop runs out of fuel. -/
def defined {α : Type} (r : Res α) : Bool :=
  match r with
  | .ok _ => true
  | .error .thrown => true
  | .error _ => false

/-- The value of a call that returned, and a given value otherwise. -/
def Res.value {α : Type} (r : Res α) (d : α) : α :=
  match r with
  | .ok a => a
  | .error _ => d

/-! ## Scalar inversion (`sm`, `invert`) -/

/-- The helper `sm(y, n, x) = y^(2^n) * x`. -/
def sm (y : key) (n : Nat) (x : key) : key :=
  match n with
  | 0 => sc_mul y x
  | n + 1 => sm (sc_mul y y) n x

/-- The value the addition chain of `invert` reaches before its sanity check. -/
def invert_chain (x : key) : key :=
  let _1 := x
  let _10 := sc_mul _1 _1
  let _100 := sc_mul _10 _10
  let _11 := sc_mul _10 _1
  let _101 := sc_mul _10 _11
  let _111 := sc_mul _10 _101
  let _1001 := sc_mul _10 _111
  let _1011 := sc_mul _10 _1001
  let _1111 := sc_mul _100 _1011
  let inv := sc_mul _1111 _1
  let inv := sm inv (123 + 3) _101
  let inv := sm inv (2 + 2) _11
  let inv := sm inv (1 + 4) _1111
  let inv := sm inv (1 + 4) _1111
  let inv := sm inv 4 _1001
  let inv := sm inv 2 _11
  let inv := sm inv (1 + 4) _1111
  let inv := sm inv (1 + 3) _101
  let inv := sm inv (3 + 3) _101
  let inv := sm inv 3 _111
  let inv := sm inv (1 + 4) _1111
  let inv := sm inv (2 + 3) _111
  let inv := sm inv (2 + 2) _11
  let inv := sm inv (1 + 4) _1011
  let inv := sm inv (2 + 4) _1011
  let inv := sm inv (6 + 4) _1001
  let inv := sm inv (2 + 2) _11
  let inv := sm inv (3 + 2) _11
  let inv := sm inv (3 + 2) _11
  let inv := sm inv (1 + 4) _1001
  let inv := sm inv (1 + 3) _111
  let inv := sm inv (2 + 4) _1111
  let inv := sm inv (1 + 4) _1011
  let inv := sm inv 3 _101
  let inv := sm inv (2 + 4) _1111
  let inv := sm inv 3 _101
  let inv := sm inv (1 + 2) _11
  inv

/-- The scalar inverse `invert(x)`: the addition chain, then the check
`inv * x == rct::identity()` that throws "invert failed". -/
def invert (x : key) : Res key :=
  let inv := invert_chain x
  let tmp := sc_mul inv x
  if tmp = identity then .ok inv else .error .thrown

/-! ## The curve library -/

/-- A `rct::Bulletproof`, with its fields in the order of the aggregate initialiser
of `make_dummy_bulletproof`. -/
structure Bulletproof where
  V : List key
  A : key
  S : key
  T1 : key
  T2 : key
  taux : key
  mu : key
  L : List key
  R : List key
  a : key
  b : key
  t : key
deriving DecidableEq, Repr

/-- The tag `rv.type` of a signature. -/
inductive RCTType where
  | RCTTypeNull
  | RCTTypeFull
  | RCTTypeSimple
  | RCTTypeBulletproof
  | RCTTypeBulletproof2
  | RCTTypeCLSAG
  | RCTTypeCLSAGN
  | RCTTypeHaven2
  | RCTTypeHaven3
deriving DecidableEq, Repr

export RCTType (RCTTypeNull RCTTypeFull RCTTypeSimple RCTTypeBulletproof RCTTypeBulletproof2
  RCTTypeCLSAG RCTTypeCLSAGN RCTTypeHaven2 RCTTypeHaven3)

/-- The functions and constants the source takes from outside `rctSigs.cpp`:
point decompression and compression, the generators `G` and `H`, the two hashes,
the Bulletproof verifier and counter, `is_rct_bulletproof` and the asset list. -/
structure CryptoLib (Pt : Type) where
  /-- The function `ge_frombytes_vartime`; `none` when the bytes are no point. -/
  frombytes : key → Option Pt
  /-- The function `ge_p3_tobytes`. -/
  tobytes : Pt → key
  G : Pt
  H : Pt
  hash_to_p3 : key → Pt
  hash_to_scalar : List key → key
  /-- The function `bulletproof_VERIFY`; `none` when it throws. -/
  bulletproof_VERIFY : List Bulletproof → Option Bool
  n_bulletproof_amounts : List Bulletproof → Nat
  is_rct_bulletproof : RCTType → Bool
  ASSET_TYPES : List String

section Ops

variable {Pt : Type} [AddCommGroup Pt] (L : CryptoLib Pt)

/-- Decompression of a key that the caller requires to be a point: the
`CHECK_AND_ASSERT_THROW_MES_L1(ge_frombytes_vartime(..) == 0, ..)` of `rctOps`. -/
def CryptoLib.point (k : key) : Res Pt :=
  match L.frombytes k with
  | some P => .ok P
  | none => .error .thrown

/-- The points a list of keys encodes, when all of them are points. -/
def CryptoLib.points : List key → Option (List Pt)
  | [] => some []
  | k :: ks =>
    match L.frombytes k, CryptoLib.points ks with
    | some P, some Ps => some (P :: Ps)
    | _, _ => none

/-- Modelled from the spec: `precomp` decompresses a key for the multi-scalar products. -/
def precomp (k : key) : Res Pt := L.point k

/-- Modelled from the spec: `scalarmultKey(P, a) = a·P`. -/
def scalarmultKey (P a : key) : Res key := do
  let p ← L.point P
  pure (L.tobytes (a • p))

/-- Modelled from the spec: `scalarmultBase(a) = a·G`. -/
def scalarmultBase (a : key) : key := L.tobytes (a • L.G)

/-- Modelled from the spec: `scalarmultH(a) = a·H`. -/
def scalarmultH (a : key) : key := L.tobytes (a • L.H)

/-- Modelled from the spec: `scalarmult8(P) = 8·P`. -/
def scalarmult8 (P : key) : Res key := do
  let p ← L.point P
  pure (L.tobytes ((8 : ℕ) • p))

/-- Modelled from the spec: `addKeys(A, B) = A + B`. -/
def addKeys (A B : key) : Res key := do
  let a ← L.point A
  let b ← L.point B
  pure (L.tobytes (a + b))

/-- Modelled from the spec: `subKeys(AB, A, B)` sets `AB = A - B`. -/
def subKeys (A B : key) : Res key := do
  let a ← L.point A
  let b ← L.point B
  pure (L.tobytes (a - b))

/-- The running sum of `addKeys(keyV)` after its first element. -/
def addKeysFrom (acc : Pt) : List key → Res Pt
  | [] => .ok acc
  | k :: ks => do
    let p ← L.point k
    addKeysFrom (acc + p) ks

/-- Modelled from the spec: `addKeys(keyV)`, the sum of a vector of points;
`rct::identity()` for the empty vector. -/
def addKeysV (A : List key) : Res key :=
  match A with
  | [] => .ok identity
  | k :: ks => do
    let p ← L.point k
    let s ← addKeysFrom L p ks
    pure (L.tobytes s)

/-- Modelled from the spec: `genC(C, mask, amount)` sets `C = mask·G + amount·H`. -/
def genC (a : key) (amount : Nat) : key := L.tobytes (a • L.G + (d2h amount) • L.H)

/-- Modelled from the spec: `addKeys_aGbBcC` computes `aG + bB + cC`. -/
def addKeys_aGbBcC (a b : key) (B : Pt) (c : key) (C : Pt) : key :=
  L.tobytes (a • L.G + b • B + c • C)

/-- Modelled from the spec: `addKeys_aAbBcC` computes `aA + bB + cC`. -/
def addKeys_aAbBcC (a : key) (A : Pt) (b : key) (B : Pt) (c : key) (C : Pt) : key :=
  L.tobytes (a • A + b • B + c • C)

/-- The comparison `equalKeys` of the bytes of two keys. -/
def equalKeys (a b : key) : Bool := decide (a = b)

/-- The wrapper `verBulletproof(proofs)`: a throw of `bulletproof_VERIFY` is caught
and answered `false`. -/
def verBulletproof (proofs : List Bulletproof) : Bool :=
  match L.bulletproof_VERIFY proofs with
  | some b => b
  | none => false

end Ops

/-! ## Data model -/

/-- A `ctkey`: a one-time key `dest` and a commitment (or a mask) `mask`. -/
structure ctkey where
  dest : key
  mask : key
deriving DecidableEq, Repr

/-- A CLSAG signature. -/
structure clsag where
  s : List key
  c1 : key
  I : key
  D : key
deriving DecidableEq, Repr

/-- An MLSAG signature. -/
structure mgSig where
  ss : List (List key)
  cc : key
  II : List key
deriving DecidableEq, Repr

/-- The sealed `(mask, amount)` blob of one output. -/
structure ecdhTuple where
  mask : key
  amount : key
deriving DecidableEq, Repr

/-- The nonce share `(k, L, R, ki)` a multisig signer is given. -/
structure multisig_kLRki where
  k : key
  L : key
  R : key
  ki : key
deriving DecidableEq, Repr

/-- The prunable part `rv.p` of a signature. -/
structure rctSigPrunable where
  bulletproofs : List Bulletproof
  MGs : List mgSig
  CLSAGs : List clsag
  pseudoOuts : List key
deriving DecidableEq, Repr

/-- The signature `rctSig`; amounts are 64-bit values. -/
structure rctSig where
  type : RCTType
  message : key
  mixRing : List (List ctkey)
  pseudoOuts : List key
  ecdhInfo : List ecdhTuple
  outPk : List ctkey
  outPk_usd : List ctkey
  outPk_xasset : List ctkey
  txnFee : Nat
  txnFee_usd : Nat
  txnFee_xasset : Nat
  txnOffshoreFee : Nat
  txnOffshoreFee_usd : Nat
  txnOffshoreFee_xasset : Nat
  maskSums : List key
  p : rctSigPrunable
deriving DecidableEq, Repr

/-- Modelled from the spec: the pricing record, a mapping from asset tag to a 64-bit
price in which missing tags read as 0, with the distinguished fields `unused1` and
`xUSD`; `empty` is the answer of `pr.empty()`, "no valid record for this block". -/
structure pricing_record where
  xUSD : Nat
  unused1 : Nat
  rates : String → Nat
  empty : Bool

/-- The tag `cryptonote::transaction_type`. -/
inductive transaction_type where
  | UNSET
  | TRANSFER
  | OFFSHORE
  | ONSHORE
  | OFFSHORE_TRANSFER
  | XUSD_TO_XASSET
  | XASSET_TO_XUSD
  | XASSET_TRANSFER
deriving DecidableEq, Repr

/-- The alternatives of the variant `output.target`; only `txout_xasset` carries
data the verifier reads. -/
inductive txout_target_v where
  | txout_to_script
  | txout_to_scripthash
  | txout_to_key
  | txout_offshore
  | txout_xasset (asset_type : String)
deriving DecidableEq, Repr

/-- A transaction output `tx_out`. -/
structure tx_out where
  amount : Nat
  target : txout_target_v
deriving DecidableEq, Repr

/-- The alternatives of the variant `txin_v`; the verifier reads the tag only. -/
inductive txin_v where
  | txin_gen
  | txin_to_script
  | txin_to_scripthash
  | txin_to_key
  | txin_offshore
  | txin_onshore
  | txin_xasset
deriving DecidableEq, Repr

/-! ## CLSAG: `CLSAG_Gen`, `proveRctCLSAGSimple`, `verRctCLSAGSimple` -/

/-- The hash input of an aggregation coefficient: domain, `P`, `C_nonzero`, `I`, `D`,
`C_offset`. -/
def mu_to_hash (domain : key) (P C_nonzero : List key) (I D C_offset : key) : List key :=
  [domain] ++ P ++ C_nonzero ++ [I, D, C_offset]

/-- The hash input of a round: domain, `P`, `C_nonzero`, `C_offset`, `message`, and the
two slots `[2n+3]`, `[2n+4]` that each round overwrites. -/
def c_to_hash (P C_nonzero : List key) (C_offset message Lk Rk : key) : List key :=
  [HASH_KEY_CLSAG_ROUND] ++ P ++ C_nonzero ++ [C_offset, message] ++ [Lk, Rk]

section Clsag

variable {Pt : Type} [AddCommGroup Pt] (L : CryptoLib Pt)

/-- The decoy loop `while (i != l)` of `CLSAG_Gen`; `skGen i` is the scalar drawn for
position `i`. The state is `(c, sig.s, sig.c1)`. -/
def CLSAG_Gen_loop (message : key) (P C C_nonzero : List key) (C_offset : key)
    (I_precomp D_precomp : Pt) (mu_P mu_C : key) (skGen : Nat → key) (n l : Nat) :
    Nat → Nat → key → List key → key → Res (key × List key × key)
  | 0, i, c, s, c1 => if i = l then .ok (c, s, c1) else .error .fuel
  | fuel + 1, i, c, s, c1 =>
    if i = l then .ok (c, s, c1) else do
      let si := skGen i
      let s := s.set i si
      let c_p := sc_mul mu_P c
      let c_c := sc_mul mu_C c
      let Pi ← idx P i
      let P_precomp ← precomp L Pi
      let Ci ← idx C i
      let C_precomp ← precomp L Ci
      let Lk := addKeys_aGbBcC L si c_p P_precomp c_c C_precomp
      let Hi_p3 := L.hash_to_p3 Pi
      let Rk := addKeys_aAbBcC L si Hi_p3 c_p I_precomp c_c D_precomp
      let c_new := L.hash_to_scalar (c_to_hash P C_nonzero C_offset message Lk Rk)
      let i := (i + 1) % n
      let c1 := if i = 0 then c_new else c1
      CLSAG_Gen_loop message P C C_nonzero C_offset I_precomp D_precomp mu_P mu_C skGen n l
        fuel i c_new s c1

/-- What `CLSAG_Gen` hands back: the signature and the values written through
`mscout` and `mspout` when these pointers are present. -/
structure CLSAG_Gen_result where
  sig : clsag
  mscout : Option key
  mspout : Option key
deriving DecidableEq, Repr

/-- The signer `CLSAG_Gen`. The flags `mscout`, `mspout` say whether the pointers are
present; `rand_a` is the scalar drawn by `skpkGen` and `skGen i` the one drawn for the
decoy at position `i`. -/
def CLSAG_Gen (message : key) (P : List key) (p : key) (C : List key) (z : key)
    (C_nonzero : List key) (C_offset : key) (l : Nat) (kLRki : Option multisig_kLRki)
    (mscout mspout : Bool) (rand_a : key) (skGen : Nat → key) : Res CLSAG_Gen_result :=
  let n := P.length
  if n ≠ C.length then .error .thrown else
  if n ≠ C_nonzero.length then .error .thrown else
  if ¬ l < n then .error .thrown else
  if ¬ ((kLRki.isSome ∧ mscout) ∨ (¬ kLRki.isSome ∧ ¬ mscout)) then .error .thrown else
  if ¬ ((mscout ∧ mspout) ∨ ¬ kLRki.isSome) then .error .thrown else do
    -- Key images
    let Pl ← idx P l
    let H := L.tobytes (L.hash_to_p3 Pl)
    let D ← scalarmultKey L H z
    let sigI ← (match kLRki with
      | some m => pure m.ki
      | none => scalarmultKey L H p)
    let I_precomp ← precomp L sigI
    let D_precomp ← precomp L D
    -- Offset key image
    let sigD ← scalarmultKey L D INV_EIGHT
    -- Initial values
    let a := rand_a
    let aG := scalarmultBase L a
    let aH ← scalarmultKey L H a
    -- Aggregation hashes
    let mu_P := L.hash_to_scalar (mu_to_hash HASH_KEY_CLSAG_AGG_0 P C_nonzero sigI sigD C_offset)
    let mu_C := L.hash_to_scalar (mu_to_hash HASH_KEY_CLSAG_AGG_1 P C_nonzero sigI sigD C_offset)
    -- Initial commitment
    let a := (match kLRki with
      | some m => m.k
      | none => a)
    let c := (match kLRki with
      | some m => L.hash_to_scalar (c_to_hash P C_nonzero C_offset message m.L m.R)
      | none => L.hash_to_scalar (c_to_hash P C_nonzero C_offset message aG aH))
    let i := (l + 1) % n
    let c1 := if i = 0 then c else zero
    -- Decoy indices
    let s := List.replicate n zero
    let (c, s, c1) ← CLSAG_Gen_loop L message P C C_nonzero C_offset I_precomp D_precomp
      mu_P mu_C skGen n l n i c s c1
    -- Compute final scalar
    let s0_p_mu_P := sc_mul mu_P p
    let s0_add_z_mu_C := sc_muladd mu_C z s0_p_mu_P
    let s := s.set l (sc_mulsub c s0_add_z_mu_C a)
    pure { sig := { s := s, c1 := c1, I := sigI, D := sigD },
           mscout := if mscout then some c else none,
           mspout := if mspout then some mu_P else none }

/-- The loop over `pubs` of `proveRctCLSAGSimple`: `P`, `C_nonzero`, and the
differences `C[i] = pubs[i].mask - Cout`. -/
def proveRctCLSAGSimple_keys (Cout : key) : List ctkey → Res (List key × List key × List key)
  | [] => .ok ([], [], [])
  | k :: ks => do
    let tmp ← subKeys L k.mask Cout
    let (P, C, C_nonzero) ← proveRctCLSAGSimple_keys Cout ks
    pure (k.dest :: P, tmp :: C, k.mask :: C_nonzero)

/-- The prover `proveRctCLSAGSimple` for one input: `inSk` holds the spend secret and
the mask of the real commitment, `a` is the mask of the pseudo-output `Cout`. -/
def proveRctCLSAGSimple (message : key) (pubs : List ctkey) (inSk : ctkey) (a Cout : key)
    (kLRki : Option multisig_kLRki) (mscout mspout : Bool) (index : Nat)
    (rand_a : key) (skGen : Nat → key) : Res CLSAG_Gen_result :=
  let cols := pubs.length
  if ¬ cols ≥ 1 then .error .thrown else
  if ¬ ((kLRki.isSome ∧ mscout) ∨ (¬ kLRki.isSome ∧ ¬ mscout)) then .error .thrown else do
    let (P, C, C_nonzero) ← proveRctCLSAGSimple_keys L Cout pubs
    let sk0 := inSk.dest
    let sk1 := sc_sub inSk.mask a
    CLSAG_Gen L message P sk0 C sk1 C_nonzero Cout index kLRki mscout mspout rand_a skGen

/-- The loop `while (i < n)` of `verRctCLSAGSimple`; `none` is the early
`return false`. -/
def verRctCLSAGSimple_loop (message : key) (sig : clsag) (pubs : List ctkey) (C_offset : key)
    (C_offset_p3 I_precomp D_precomp : Pt) (mu_P mu_C : key) (n : Nat) :
    Nat → Nat → key → Res (Option key)
  | 0, i, c => if i < n then .error .fuel else .ok (some c)
  | fuel + 1, i, c =>
    if i < n then do
      let c_p := sc_mul mu_P c
      let c_c := sc_mul mu_C c
      let pk ← idx pubs i
      let P_precomp ← precomp L pk.dest
      match L.frombytes pk.mask with
      | none => pure none
      | some temp_p3 =>
        let C_precomp := temp_p3 - C_offset_p3
        let si ← idx sig.s i
        let Lk := addKeys_aGbBcC L si c_p P_precomp c_c C_precomp
        let hash8_p3 := L.hash_to_p3 pk.dest
        let Rk := addKeys_aAbBcC L si hash8_p3 c_p I_precomp c_c D_precomp
        let c_new := L.hash_to_scalar
          (c_to_hash (pubs.map ctkey.dest) (pubs.map ctkey.mask) C_offset message Lk Rk)
        if c_new = zero then pure none else
          verRctCLSAGSimple_loop message sig pubs C_offset C_offset_p3 I_precomp D_precomp
            mu_P mu_C n fuel (i + 1) c_new
    else .ok (some c)

/-- The body of the `try` block of `verRctCLSAGSimple`. -/
def verRctCLSAGSimple_body (message : key) (sig : clsag) (pubs : List ctkey)
    (C_offset : key) : Res Bool :=
  let n := pubs.length
  -- Check data
  if ¬ n ≥ 1 then .ok false else
  if n ≠ sig.s.length then .ok false else
  if ¬ sig.s.all sc_check then .ok false else
  if ¬ sc_check sig.c1 then .ok false else
  if sig.I = identity then .ok false else
  match L.frombytes C_offset with
  | none => .ok false
  | some C_offset_p3 => do
    -- Prepare key images
    let c := sig.c1
    let D_8 ← scalarmult8 L sig.D
    if D_8 = identity then pure false else do
      let I_precomp ← precomp L sig.I
      let D_precomp ← precomp L D_8
      -- Aggregation hashes
      let P := pubs.map ctkey.dest
      let C_nonzero := pubs.map ctkey.mask
      let mu_P := L.hash_to_scalar
        (mu_to_hash HASH_KEY_CLSAG_AGG_0 P C_nonzero sig.I sig.D C_offset)
      let mu_C := L.hash_to_scalar
        (mu_to_hash HASH_KEY_CLSAG_AGG_1 P C_nonzero sig.I sig.D C_offset)
      match ← verRctCLSAGSimple_loop L message sig pubs C_offset C_offset_p3 I_precomp
          D_precomp mu_P mu_C n n 0 c with
      | none => pure false
      | some c =>
        let c_new := sc_sub c sig.c1
        pure (sc_isnonzero c_new == false)

/-- The verifier `verRctCLSAGSimple`: the body, with `catch (...)` answering `false`. -/
def verRctCLSAGSimple (message : key) (sig : clsag) (pubs : List ctkey)
    (C_offset : key) : Res Bool :=
  catchFalse (verRctCLSAGSimple_body L message sig pubs C_offset)

end Clsag

/-! ## Semantic verification: `verRctSemanticsSimple2` -/

/-- The colour of an output, read from the alternative of `output.target`; `none` is
"Invalid output type detected". -/
def output_asset_type (output : tx_out) : Option String :=
  match output.target with
  | .txout_to_key => some "XHV"
  | .txout_offshore => some "XUSD"
  | .txout_xasset asset_type => some asset_type
  | _ => none

/-- The test `onshore_col_idx` of the output loop: the output at position `i` is one of
the two collateral outputs of an onshore. `collateral_indices[1]` is read only when
`collateral_indices[0]` differs from `i`. -/
def onshore_col_idx (tx_type : transaction_type) (version : Nat)
    (collateral_indices : List Nat) (i : Nat) : Res Bool :=
  if version ≥ HF_VERSION_USE_COLLATERAL then
    if tx_type = .ONSHORE then do
      let c0 ← idx collateral_indices 0
      if i = c0 then pure true else do
        let c1 ← idx collateral_indices 1
        pure (decide (i = c1))
    else pure false
  else pure false

/-- The loop `for (auto &output: vout)`: the masks of the outputs in the source colour
and in the destination colour; `none` is an early `return false`. -/
def output_masks (outPk : List ctkey) (tx_type : transaction_type)
    (strSource strDest : String) (version : Nat) (collateral_indices : List Nat) :
    List tx_out → Nat → List key → List key → Res (Option (List key × List key))
  | [], _, masks_C, masks_D => .ok (some (masks_C, masks_D))
  | output :: rest, i, masks_C, masks_D => do
    let col ← onshore_col_idx tx_type version collateral_indices i
    match output_asset_type output with
    | none => pure none
    | some asset =>
      -- exclude the onshore collateral outputs from proof-of-value calculation
      if ¬ col then
        if asset = strSource then do
          let pk ← idx outPk i
          output_masks outPk tx_type strSource strDest version collateral_indices
            rest (i + 1) (masks_C ++ [pk.mask]) masks_D
        else if asset = strDest then do
          let pk ← idx outPk i
          output_masks outPk tx_type strSource strDest version collateral_indices
            rest (i + 1) masks_C (masks_D ++ [pk.mask])
        else pure none
      else
        output_masks outPk tx_type strSource strDest version collateral_indices
          rest (i + 1) masks_C masks_D

section Semantics

variable {Pt : Type} [AddCommGroup Pt] (L : CryptoLib Pt)

/-- The loop over `rv.p.pseudoOuts` of an onshore with collateral: the state is
`(sumPseudoOuts, sumColIns)`. -/
def onshore_input_sums (vin : List txin_v) :
    List key → Nat → key → key → Res (key × key)
  | [], _, sumPseudoOuts, sumColIns => .ok (sumPseudoOuts, sumColIns)
  | po :: rest, i, sumPseudoOuts, sumColIns => do
    let input ← idx vin i
    if input = .txin_to_key then do
      let sumColIns ← addKeys L sumColIns po
      onshore_input_sums vin rest (i + 1) sumPseudoOuts sumColIns
    else do
      let sumPseudoOuts ← addKeys L sumPseudoOuts po
      onshore_input_sums vin rest (i + 1) sumPseudoOuts sumColIns

/-- The pair `(sumPseudoOuts, sumColIns)`: the collateral inputs of an onshore are
kept apart from version `HF_VERSION_USE_COLLATERAL` on. -/
def input_sums (rv : rctSig) (tx_type : transaction_type) (vin : List txin_v)
    (version : Nat) : Res (key × key) :=
  if tx_type = .ONSHORE ∧ version ≥ HF_VERSION_USE_COLLATERAL then
    onshore_input_sums L vin rv.p.pseudoOuts 0 identity identity
  else do
    let sumPseudoOuts ← addKeysV L rv.p.pseudoOuts
    pure (sumPseudoOuts, identity)

/-- The residual `Zi` for each transaction type; `none` is "Invalid transaction type
specified". -/
def calc_Zi (pr : pricing_record) (tx_type : transaction_type) (strSource strDest : String)
    (version : Nat) (sumC sumD : key) : Res (Option key) :=
  match tx_type with
  | .OFFSHORE => do
    let D_scaled ← scalarmultKey L sumD (d2h COIN)
    let yC_invert ← invert (d2h (if version ≥ HF_PER_OUTPUT_UNLOCK_VERSION
      then min pr.unused1 pr.xUSD else pr.unused1))
    let D_final ← scalarmultKey L D_scaled yC_invert
    let Zi ← addKeys L sumC D_final
    pure (some Zi)
  | .ONSHORE => do
    let D_scaled ← scalarmultKey L sumD (d2h (if version ≥ HF_PER_OUTPUT_UNLOCK_VERSION
      then max pr.unused1 pr.xUSD else pr.unused1))
    let yC_invert ← invert (d2h COIN)
    let D_final ← scalarmultKey L D_scaled yC_invert
    let Zi ← addKeys L sumC D_final
    pure (some Zi)
  | .OFFSHORE_TRANSFER => do
    let Zi ← addKeys L sumC sumD
    pure (some Zi)
  | .XUSD_TO_XASSET => do
    let D_scaled ← scalarmultKey L sumD (d2h COIN)
    let yC_invert ← invert (d2h (pr.rates strDest))
    let D_final ← scalarmultKey L D_scaled yC_invert
    let Zi ← addKeys L sumC D_final
    pure (some Zi)
  | .XASSET_TO_XUSD => do
    let D_scaled ← scalarmultKey L sumD (d2h (pr.rates strSource))
    let yC_invert ← invert (d2h COIN)
    let D_final ← scalarmultKey L D_scaled yC_invert
    let Zi ← addKeys L sumC D_final
    pure (some Zi)
  | .XASSET_TRANSFER => do
    let Zi ← addKeys L sumC sumD
    pure (some Zi)
  | .TRANSFER => do
    let Zi ← addKeys L sumC sumD
    pure (some Zi)
  | .UNSET => pure none

/-- The value of `amount_burnt` that the burnt/mint check uses: before
`HF_VERSION_USE_COLLATERAL` and for the xUSD/xAsset conversions, 80% of the offshore
fee is subtracted in 64-bit arithmetic. -/
def burnt_adjusted (rv : rctSig) (tx_type : transaction_type) (version : Nat)
    (amount_burnt : Nat) : Nat :=
  if version < HF_VERSION_USE_COLLATERAL ∧
      (tx_type = .XASSET_TO_XUSD ∨ tx_type = .XUSD_TO_XASSET) then
    let fee_128 := rv.txnOffshoreFee
    let burnt_fee := (fee_128 * 4) / 5
    (amount_burnt + 2 ^ 64 - burnt_fee % 2 ^ 64) % 2 ^ 64
  else amount_burnt

/-- The burnt/mint validation of a conversion; `false` is the early `return false`. -/
def burnt_check (rv : rctSig) (tx_type : transaction_type) (strSource strDest : String)
    (version : Nat) (amount_burnt : Nat) (sumC : key) : Res Bool :=
  if strSource ≠ strDest then do
    let amount_burnt := burnt_adjusted rv tx_type version amount_burnt
    let n ← idx rv.maskSums 1
    let C_n := genC L n 0
    let C_burnt ← addKeys L sumC C_n
    let m ← idx rv.maskSums 0
    let pseudoC_burnt := genC L m amount_burnt
    pure (equalKeys C_burnt pseudoC_burnt)
  else pure true

/-- The collateral validation; `false` is an early `return false`. -/
def collateral_check (rv : rctSig) (tx_type : transaction_type) (version : Nat)
    (collateral_indices : List Nat) (amount_collateral : Nat) (sumColIns : key) : Res Bool :=
  if version ≥ HF_VERSION_USE_COLLATERAL then
    if tx_type = .OFFSHORE then do
      let c0 ← idx collateral_indices 0
      let pk ← idx rv.outPk c0
      let C_col := pk.mask
      let m ← idx rv.maskSums 2
      let pseudoC_col := genC L m amount_collateral
      pure (equalKeys pseudoC_col C_col)
    else if tx_type = .ONSHORE then do
      let m ← idx rv.maskSums 2
      let col_C := genC L m amount_collateral
      let c0 ← idx collateral_indices 0
      let pk0 ← idx rv.outPk c0
      if ¬ equalKeys col_C pk0.mask then pure false else do
        let c1 ← idx collateral_indices 1
        let pk1 ← idx rv.outPk c1
        let sumColOut ← addKeys L pk0.mask pk1.mask
        pure (equalKeys sumColOut sumColIns)
    else pure true
  else pure true

/-- The checks `CHECK_AND_ASSERT_MES(.., false, ..)` at the head of
`verRctSemanticsSimple2`, in their order; `false` when one of them fails. -/
def verRctSemanticsSimple2_checks (rv : rctSig) (pr : pricing_record)
    (tx_type : transaction_type) (strSource strDest : String) (amount_burnt : Nat)
    (collateral_indices : List Nat) (amount_collateral : Nat) : Bool :=
  decide (rv.type = RCTTypeHaven2 ∨ rv.type = RCTTypeHaven3) &&
  L.is_rct_bulletproof rv.type &&
  decide (rv.outPk.length = L.n_bulletproof_amounts rv.p.bulletproofs) &&
  rv.p.MGs.isEmpty &&
  decide (rv.p.pseudoOuts.length = rv.p.CLSAGs.length) &&
  rv.pseudoOuts.isEmpty &&
  decide (rv.outPk.length = rv.ecdhInfo.length) &&
  decide (rv.type = RCTTypeHaven2 → rv.maskSums.length = 2) &&
  decide (strSource ∈ L.ASSET_TYPES) &&
  decide (strDest ∈ L.ASSET_TYPES) &&
  decide (tx_type ≠ .UNSET) &&
  decide (strSource ≠ strDest →
    (pr.empty = false ∧ amount_burnt ≠ 0 ∧
      (rv.type = RCTTypeHaven3 →
        (rv.maskSums.length = 3 ∧ collateral_indices.length = 2 ∧
          (tx_type = .OFFSHORE ∨ tx_type = .ONSHORE → amount_collateral ≠ 0)))))

/-- The first half of the `try` block of `verRctSemanticsSimple2`, from "OUTPUTS SUMMED
FOR EACH COLOUR" to "CALCULATE Zi": it yields `(sumC, sumColIns, Zi)`, and `none` is an
early `return false`. -/
def verRctSemanticsSimple2_sums (rv : rctSig) (pr : pricing_record)
    (tx_type : transaction_type) (strSource strDest : String)
    (vout : List tx_out) (vin : List txin_v) (version : Nat)
    (collateral_indices : List Nat) : Res (Option (key × key × key)) := do
  -- OUTPUTS SUMMED FOR EACH COLOUR
  let zerokey := identity
  match ← output_masks rv.outPk tx_type strSource strDest version collateral_indices
      vout 0 [] [] with
  | none => pure none
  | some (masks_C, masks_D) =>
    let sumOutpks_C ← addKeysV L masks_C
    let sumOutpks_D ← addKeysV L masks_D
    -- FEES FOR EACH COLOUR
    let txnFeeKey := scalarmultH L (d2h rv.txnFee)
    let txnOffshoreFeeKey := scalarmultH L (d2h rv.txnOffshoreFee)
    -- exclude the onshore collateral inputs from proof-of-value calculation
    let (sumPseudoOuts, sumColIns) ← input_sums L rv tx_type vin version
    -- C COLOUR
    let sumC ← subKeys L sumPseudoOuts txnFeeKey
    let sumC ← subKeys L sumC txnOffshoreFeeKey
    let sumC ← subKeys L sumC sumOutpks_C
    -- D COLOUR
    let sumD ← subKeys L zerokey sumOutpks_D
    -- CALCULATE Zi
    match ← calc_Zi L pr tx_type strSource strDest version sumC sumD with
    | none => pure none
    | some Zi => pure (some (sumC, sumColIns, Zi))

/-- The second half of the `try` block of `verRctSemanticsSimple2`, from "check Zi == 0"
to the final `return true`. -/
def verRctSemanticsSimple2_decide (rv : rctSig) (tx_type : transaction_type)
    (strSource strDest : String) (amount_burnt : Nat) (version : Nat)
    (collateral_indices : List Nat) (amount_collateral : Nat)
    (sumC sumColIns Zi : key) : Res Bool :=
  let zerokey := identity
  -- check Zi == 0
  if ¬ equalKeys Zi zerokey then pure false else do
    -- Validate TX amount burnt/mint for conversions
    let burnt_ok ← burnt_check L rv tx_type strSource strDest version amount_burnt sumC
    if ¬ burnt_ok then pure false else do
      -- validate the collateral
      let col_ok ← collateral_check L rv tx_type version collateral_indices
        amount_collateral sumColIns
      if ¬ col_ok then pure false else
        let proofs := rv.p.bulletproofs
        if ¬ proofs.isEmpty ∧ ¬ verBulletproof L proofs then pure false else
          pure true

/-- The body of the `try` block of `verRctSemanticsSimple2`: the checks at its head,
then its two halves. -/
def verRctSemanticsSimple2_body (rv : rctSig) (pr : pricing_record)
    (tx_type : transaction_type) (strSource strDest : String) (amount_burnt : Nat)
    (vout : List tx_out) (vin : List txin_v) (version : Nat)
    (collateral_indices : List Nat) (amount_collateral : Nat) : Res Bool :=
  if ¬ verRctSemanticsSimple2_checks L rv pr tx_type strSource strDest amount_burnt
      collateral_indices amount_collateral then .ok false else do
    match ← verRctSemanticsSimple2_sums L rv pr tx_type strSource strDest vout vin version
        collateral_indices with
    | none => pure false
    | some (sumC, sumColIns, Zi) =>
      verRctSemanticsSimple2_decide L rv tx_type strSource strDest amount_burnt version
        collateral_indices amount_collateral sumC sumColIns Zi

/-- The verifier `verRctSemanticsSimple2`: the body, with both `catch` handlers
answering `false`. -/
def verRctSemanticsSimple2 (rv : rctSig) (pr : pricing_record)
    (tx_type : transaction_type) (strSource strDest : String) (amount_burnt : Nat)
    (vout : List tx_out) (vin : List txin_v) (version : Nat)
    (collateral_indices : List Nat) (amount_collateral : Nat) : Res Bool :=
  catchFalse (verRctSemanticsSimple2_body L rv pr tx_type strSource strDest amount_burnt
    vout vin version collateral_indices amount_collateral)

end Semantics

/-! ## The device, the range-proof provers and the message hash -/

/-- The values `msout->c` and `msout->mu_p` a multisig signing run leaves behind. -/
structure multisig_out where
  c : List key
  mu_p : List key
deriving DecidableEq, Repr

/-- The tag `rct_config.range_proof_type`. -/
inductive RangeProofType where
  | RangeProofBorromean
  | RangeProofBulletproof
  | RangeProofMultiOutputBulletproof
  | RangeProofPaddedBulletproof
deriving DecidableEq, Repr

/-- The configuration `RCTConfig`: the range-proof layout and the Bulletproof version,
an `int` in the source. -/
structure RCTConfig where
  range_proof_type : RangeProofType
  bp_version : Int
deriving DecidableEq, Repr

/-- The functions the source takes from the device `hw::device`, from the Bulletproof
prover and from the serialisation layer. -/
structure device where
  /-- The test `get_mode() == hw::device::TRANSACTION_CREATE_FAKE`. -/
  fake : Bool
  genCommitmentMask : key → key
  /-- The sealing `ecdhEncode(blob, amount_key, short_amount)`. -/
  ecdhEncode : ecdhTuple → key → Bool → ecdhTuple
  /-- The opening `ecdhDecode(blob, amount_key, short_amount)`. -/
  ecdhDecode : ecdhTuple → key → Bool → ecdhTuple
  /-- The prover `bulletproof_PROVE(amounts, masks)`; `none` when it throws. -/
  bulletproof_PROVE : List Nat → List key → Option Bulletproof
  is_rct_simple : RCTType → Bool
  /-- The bytes `serialize_rctsig_base` writes; `none` when it fails. -/
  serialize_rctsig_base : rctSig → Nat → Nat → Option (List Nat)
  get_blob_hash : List Nat → key
  cn_fast_hash : List key → key
  /-- The function `mlsag_prehash(blob, inputs, outputs, hashes, outPk, prehash)`. -/
  mlsag_prehash : List Nat → Nat → Nat → List key → List ctkey → key

/-- The conversion `h2d` of a key to a 64-bit amount: its first eight bytes. -/
def h2d (k : key) : Nat := k % 2 ^ 64

/-- The loop `while ((1u << nrl) < n_outs) ++nrl` of `make_dummy_bulletproof`;
`1u` has 32 bits, so that a shift by 32 is undefined. -/
def make_dummy_bulletproof_nrl (n_outs : Nat) : Nat → Nat → Res Nat
  | 0, _ => .error .fuel
  | fuel + 1, nrl =>
    if nrl ≥ 32 then .error .undefined
    else if 2 ^ nrl < n_outs then make_dummy_bulletproof_nrl n_outs fuel (nrl + 1)
    else .ok nrl

section Provers

variable {Pt : Type} [AddCommGroup Pt] (L : CryptoLib Pt)

/-- Modelled from the spec: `addKeys2(aGbB, a, b, B)` sets `aGbB = a·G + b·B`. -/
def addKeys2 (a b : key) (B : Pt) : key := L.tobytes (a • L.G + b • B)

/-- The stand-in `make_dummy_bulletproof`: it returns the proof and the vectors `C` and
`masks` it fills. -/
def make_dummy_bulletproof (outamounts : List Nat) : Res (Bulletproof × List key × List key) := do
  let n_outs := outamounts.length
  let I := identity
  let nrl ← make_dummy_bulletproof_nrl n_outs 33 0
  let nrl := nrl + 6
  let masks := outamounts.map (fun _ => I)
  let C := outamounts.map (fun amount =>
    let sv := amount % 2 ^ 64
    let sv8 := sc_mul sv INV_EIGHT
    addKeys2 L INV_EIGHT sv8 L.H)
  pure ({ V := List.replicate n_outs I, A := I, S := I, T1 := I, T2 := I, taux := I, mu := I,
          L := List.replicate nrl I, R := List.replicate nrl I, a := I, b := I, t := I },
        C, masks)

/-- The prover `proveRangeBulletproof`: it returns the proof and the vectors `C` and
`masks` it fills. -/
def proveRangeBulletproof (dev : device) (amounts : List Nat) (sk : List key) :
    Res (Bulletproof × List key × List key) :=
  if amounts.length ≠ sk.length then .error .thrown else
    let masks := sk.map dev.genCommitmentMask
    match dev.bulletproof_PROVE amounts masks with
    | none => .error .thrown
    | some proof =>
      if proof.V.length ≠ amounts.length then .error .thrown else
        .ok (proof, proof.V, masks)

end Provers

/-- The keys of one Bulletproof that `get_pre_mlsag_hash` hashes. -/
def bulletproof_keys (p : Bulletproof) : List key :=
  [p.A, p.S, p.T1, p.T2, p.taux, p.mu] ++ p.L ++ p.R ++ [p.a, p.b, p.t]

/-- The message `get_pre_mlsag_hash(rv, hwdev)` that the ring signatures sign. The
signatures built here carry Bulletproofs; the Borromean range proofs of the older
types are not part of `rctSigPrunable` and add no key to the last hash. -/
def get_pre_mlsag_hash (dev : device) (rv : rctSig) : Res key :=
  if rv.mixRing.isEmpty then .error .thrown else do
    let inputs ← (if dev.is_rct_simple rv.type then pure rv.mixRing.length else do
      let ring ← idx rv.mixRing 0
      pure ring.length)
    let outputs := rv.ecdhInfo.length
    match dev.serialize_rctsig_base rv inputs outputs with
    | none => .error .thrown
    | some blob =>
      let h := dev.get_blob_hash blob
      let kv := (if rv.type = RCTTypeBulletproof ∨ rv.type = RCTTypeBulletproof2 ∨
          rv.type = RCTTypeCLSAG ∨ rv.type = RCTTypeCLSAGN ∨ rv.type = RCTTypeHaven2 ∨
          rv.type = RCTTypeHaven3
        then (rv.p.bulletproofs.map bulletproof_keys).flatten
        else [])
      let hashes := [rv.message, h, dev.cn_fast_hash kv]
      pure (dev.mlsag_prehash blob inputs outputs hashes rv.outPk)

/-! ## Assembly: `genRctSimple` -/

/-- An entry of `outamounts`: the colour, then the amount and the collateral flag. -/
abbrev outamount := String × (Nat × Bool)

/-- The direction flags `genRctSimple` works out from the colour sent and the colours
received. -/
structure direction where
  offshore : Bool
  onshore : Bool
  offshore_to_offshore : Bool
  xasset_to_xusd : Bool
  xusd_to_xasset : Bool
  xasset_transfer : Bool
  conversion_tx : Bool
deriving DecidableEq, Repr

/-- The flags `xhv_sent`, `usd_sent`, `xasset_sent`, the flags `xhv_received`,
`usd_received`, `xasset_received` that the loop over `outamounts` sets, and the
direction of the transaction. -/
def genRctSimple_direction (in_asset_type : String) (outamounts : List outamount) :
    direction :=
  -- Work out the type of the TX from the mix of inputs and outputs
  let xhv_sent := decide (in_asset_type = "XHV")
  let usd_sent := !xhv_sent && decide (in_asset_type = "XUSD")
  let xasset_sent := !xhv_sent && !decide (in_asset_type = "XUSD")
  let xhv_received := outamounts.any (fun o => decide (o.1 = "XHV"))
  let usd_received := outamounts.any (fun o => !decide (o.1 = "XHV") && decide (o.1 = "XUSD"))
  let xasset_received :=
    outamounts.any (fun o => !decide (o.1 = "XHV") && !decide (o.1 = "XUSD"))
  -- Determine the tx direction
  let offshore := xhv_sent && !usd_sent && usd_received && xhv_received
  let onshore := usd_sent && !xhv_sent && usd_received && xhv_received
  let offshore_to_offshore := usd_sent && !xhv_sent && usd_received && !xhv_received
  let xasset_to_xusd := xasset_sent && xasset_received && usd_received
  let xusd_to_xasset := usd_sent && xasset_received && usd_received
  let xasset_transfer := xasset_sent && xasset_received && !usd_received
  let conversion_tx := offshore || onshore || xusd_to_xasset || xasset_to_xusd
  { offshore := offshore, onshore := onshore, offshore_to_offshore := offshore_to_offshore,
    xasset_to_xusd := xasset_to_xusd, xusd_to_xasset := xusd_to_xasset,
    xasset_transfer := xasset_transfer, conversion_tx := conversion_tx }

/-- The `switch (rct_config.bp_version)` that sets `rv.type`. -/
def genRctSimple_type (bp_version : Int) : Res RCTType :=
  if bp_version = 0 ∨ bp_version = 6 then .ok RCTTypeHaven3
  else if bp_version = 5 then .ok RCTTypeHaven2
  else if bp_version = 4 then .ok RCTTypeCLSAGN
  else if bp_version = 3 then .ok RCTTypeCLSAG
  else if bp_version = 2 then .ok RCTTypeBulletproof2
  else if bp_version = 1 then .ok RCTTypeBulletproof
  else .error .thrown

/-- The vector `rv.maskSums` before the range proofs are made. -/
def genRctSimple_maskSums (type : RCTType) (conversion_tx : Bool) : List key :=
  if type = RCTTypeHaven3 ∧ conversion_tx then [zero, zero, zero]
  else if type = RCTTypeHaven2 then [zero, zero]
  else []

/-- The write `xs[i] = f(xs[i])` into a vector. -/
def updAt {α : Type} (xs : List α) (i : Nat) (f : α → α) : Res (List α) :=
  match xs[i]? with
  | some x => .ok (xs.set i (f x))
  | none => .error .outOfBounds

/-- What the range-proof stage of `genRctSimple` fills: `rv.p.bulletproofs`, the masks
of `rv.outPk`, `rv.outPk_usd` and `rv.outPk_xasset`, `rv.maskSums` and the masks of
`outSk`, for the outputs proved so far. -/
structure gen_outputs where
  bulletproofs : List Bulletproof
  outPk : List key
  outPk_usd : List key
  outPk_xasset : List key
  maskSums : List key
  outSk : List key
deriving DecidableEq, Repr

section Assembly

variable {Pt : Type} [AddCommGroup Pt] (L : CryptoLib Pt)

/-- The body of the loops over the outputs of a batch: from the commitment `Ci = C[i]`
and the mask `masks[i]` of an output it sets the output commitment and adds the mask to
the mask sums. `padded` tells the loop of the padded layout, the only one that writes
`rv.maskSums[2]`. -/
def genRctSimple_publish (type : RCTType) (d : direction) (use_onshore_col : Bool)
    (onshore_col_amount : Nat) (padded : Bool) (o : outamount) (Ci mask : key)
    (st : gen_outputs) : Res gen_outputs :=
  let zerokey := identity
  if type = RCTTypeHaven2 ∨ type = RCTTypeHaven3 then do
    let pk ← scalarmult8 L Ci
    let maskSums ←
      (if o.1 = "XHV" ∧ d.offshore then
        -- we know these are change outputs
        updAt st.maskSums 1 (fun x => sc_add x mask)
      else if o.1 = "XUSD" ∧ (d.onshore ∨ d.xusd_to_xasset) then
        updAt st.maskSums 1 (fun x => sc_add x mask)
      else if o.1 ≠ "XUSD" ∧ d.xasset_to_xusd then
        updAt st.maskSums 1 (fun x => sc_add x mask)
      else pure st.maskSums)
    let maskSums ←
      (if padded ∧ type = RCTTypeHaven3 then do
        -- save the col output mask for offshore
        let maskSums ← (if d.offshore ∧ o.2.2 then
            updAt maskSums 2 (fun x => sc_add x mask)
          else pure maskSums)
        -- save the actual col output(not change) mask for onshore
        if use_onshore_col ∧ o.2.2 ∧ o.2.1 = onshore_col_amount then
          updAt maskSums 2 (fun _ => mask)
        else pure maskSums
      else pure maskSums)
    pure { st with outPk := st.outPk ++ [pk], outPk_usd := st.outPk_usd ++ [zero],
                   outPk_xasset := st.outPk_xasset ++ [zero], maskSums := maskSums,
                   outSk := st.outSk ++ [mask] }
  else if o.1 = "XHV" then do
    let pk ← scalarmult8 L Ci
    pure { st with outPk := st.outPk ++ [pk], outPk_usd := st.outPk_usd ++ [zerokey],
                   outPk_xasset := st.outPk_xasset ++ [zerokey],
                   outSk := st.outSk ++ [mask] }
  else if o.1 = "XUSD" then do
    let pk ← scalarmult8 L Ci
    pure { st with outPk := st.outPk ++ [zerokey], outPk_usd := st.outPk_usd ++ [pk],
                   outPk_xasset := st.outPk_xasset ++ [zerokey],
                   outSk := st.outSk ++ [mask] }
  else do
    let pk ← scalarmult8 L Ci
    pure { st with outPk := st.outPk ++ [zerokey], outPk_usd := st.outPk_usd ++ [zerokey],
                   outPk_xasset := st.outPk_xasset ++ [pk],
                   outSk := st.outSk ++ [mask] }

/-- The loop `for (i = 0; i < batch_size; ++i)` over the outputs of one batch, which
are given as a list; `i` counts within the batch. -/
def genRctSimple_publish_loop (type : RCTType) (d : direction) (use_onshore_col : Bool)
    (onshore_col_amount : Nat) (padded : Bool) (C masks : List key) :
    List outamount → Nat → gen_outputs → Res gen_outputs
  | [], _, st => .ok st
  | o :: rest, i, st => do
    let Ci ← idx C i
    let mask ← idx masks i
    let st ← genRctSimple_publish L type d use_onshore_col onshore_col_amount padded o Ci mask st
    genRctSimple_publish_loop type d use_onshore_col onshore_col_amount padded C masks
      rest (i + 1) st

/-- The range proof of one batch: the stand-in of a device in the mode
`TRANSACTION_CREATE_FAKE`, and `proveRangeBulletproof` otherwise, with the keys
`amount_keys[first ..]`; taking the address of `amount_keys[first]` requires that
element to exist. -/
def genRctSimple_prove (dev : device) (amounts : List Nat) (amount_keys : List key)
    (first : Nat) : Res (Bulletproof × List key × List key) :=
  if dev.fake then
    -- use a fake bulletproof for speed
    make_dummy_bulletproof L amounts
  else do
    let _ ← idx amount_keys first
    proveRangeBulletproof dev amounts ((amount_keys.drop first).take amounts.length)

/-- The branch `range_proof_type == RangeProofPaddedBulletproof`: one proof over all
outputs. -/
def genRctSimple_padded (dev : device) (type : RCTType) (d : direction)
    (use_onshore_col : Bool) (onshore_col_amount : Nat) (outamounts : List outamount)
    (amount_keys : List key) (st : gen_outputs) : Res gen_outputs := do
  let outamounts_flat_amounts := outamounts.map (fun o => o.2.1)
  let (proof, C, masks) ← genRctSimple_prove L dev outamounts_flat_amounts amount_keys 0
  let st := { st with bulletproofs := st.bulletproofs ++ [proof] }
  genRctSimple_publish_loop L type d use_onshore_col onshore_col_amount true C masks
    outamounts 0 st

/-- The loop `while (batch_size * 2 + amounts_proved <= n_amounts && batch_size * 2 <=
BULLETPROOF_MAX_OUTPUTS) batch_size *= 2`. -/
def genRctSimple_batch_size (amounts_proved n_amounts : Nat) : Nat → Nat → Res Nat
  | 0, _ => .error .fuel
  | fuel + 1, batch_size =>
    if batch_size * 2 + amounts_proved ≤ n_amounts ∧ batch_size * 2 ≤ BULLETPROOF_MAX_OUTPUTS
    then genRctSimple_batch_size amounts_proved n_amounts fuel (batch_size * 2)
    else .ok batch_size

/-- The loop `while (amounts_proved < n_amounts)` of the other layouts: one proof for
each batch, over the amounts `outamounts_flat_amounts[amounts_proved ..]`. -/
def genRctSimple_batches (dev : device) (range_proof_type : RangeProofType)
    (type : RCTType) (d : direction) (use_onshore_col : Bool) (onshore_col_amount : Nat)
    (outamounts : List outamount) (amount_keys : List key) :
    Nat → Nat → gen_outputs → Res gen_outputs
  | 0, amounts_proved, st =>
    if amounts_proved < outamounts.length then .error .fuel else .ok st
  | fuel + 1, amounts_proved, st =>
    if amounts_proved < outamounts.length then do
      let batch_size ← (if range_proof_type = .RangeProofMultiOutputBulletproof then
          genRctSimple_batch_size amounts_proved outamounts.length 5 1
        else pure 1)
      let batch := (outamounts.drop amounts_proved).take batch_size
      let batch_amounts := batch.map (fun o => o.2.1)
      let (proof, C, masks) ← genRctSimple_prove L dev batch_amounts amount_keys amounts_proved
      let st := { st with bulletproofs := st.bulletproofs ++ [proof] }
      let st ← genRctSimple_publish_loop L type d use_onshore_col onshore_col_amount false
        C masks batch 0 st
      genRctSimple_batches dev range_proof_type type d use_onshore_col onshore_col_amount
        outamounts amount_keys fuel (amounts_proved + batch_size) st
    else .ok st

/-- The mask of an output in the accounting basis of the source colour,
`outSk_scaled`, for the colour sent, the colour of the output and its collateral
flag. -/
def genRctSimple_scaled (in_asset_type : String) (pr : pricing_record) (tx_version : Nat)
    (atomic inverse_atomic : key) (o : outamount) (mask : key) : Res key :=
  if in_asset_type = "XHV" then
    -- SPENDING XHV
    if o.1 = "XUSD" then do
      -- OFFSHORE - Convert output amount to XHV for equalKeys() testing
      let inverse_rate ← invert (d2h (if tx_version ≥ POU_TRANSACTION_VERSION
        then min pr.unused1 pr.xUSD else pr.unused1))
      let tempkey := sc_mul mask atomic
      pure (sc_mul tempkey inverse_rate)
    else
      -- Output amount in XHV already - no conversion required
      pure mask
  else if in_asset_type = "XUSD" then
    -- SPENDING XUSD
    if o.1 = "XUSD" then
      -- Output amount in USD already - no conversion required
      pure mask
    else if o.1 = "XHV" ∧ ¬ o.2.2 then
      -- ONSHORE - convert output amount to USD for equalKeys() testing
      let rate := d2h (if tx_version ≥ POU_TRANSACTION_VERSION
        then max pr.unused1 pr.xUSD else pr.unused1)
      let tempkey := sc_mul mask rate
      pure (sc_mul tempkey inverse_atomic)
    else if o.1 ≠ "XHV" ∧ o.1 ≠ "XUSD" then do
      -- xAsset equivalent to OFFSHORE - convert output amount to USD for equalKeys() testing
      let inverse_rate_xasset ← invert (d2h (pr.rates o.1))
      let tempkey := sc_mul mask atomic
      pure (sc_mul tempkey inverse_rate_xasset)
    else
      -- onshore col output
      pure mask
  else
    -- SPENDING XASSET
    if o.1 = "XUSD" then
      -- xAsset equivalent to ONSHORE - convert output amount to USD for equalKeys() testing
      let rate_xasset := d2h (pr.rates in_asset_type)
      let tempkey := sc_mul mask rate_xasset
      pure (sc_mul tempkey inverse_atomic)
    else if o.1 = "XHV" then
      -- SHOULD NOT BE POSSIBLE!!!
      pure zero
    else
      -- Output amount in xAsset already - no conversion required
      pure mask

/-- The loop "do the output encryption and asset conversions" over the outputs and
their masks `outSk[i].mask`: the state is `(sumout, sumout_onshore_col, rv.ecdhInfo)`. -/
def genRctSimple_seal (dev : device) (type : RCTType) (use_onshore_col : Bool)
    (in_asset_type : String) (pr : pricing_record) (tx_version : Nat)
    (atomic inverse_atomic : key) (amount_keys : List key) :
    List (outamount × key) → Nat → key → key → List ecdhTuple →
      Res (key × key × List ecdhTuple)
  | [], _, sumout, sumout_onshore_col, ecdhInfo => .ok (sumout, sumout_onshore_col, ecdhInfo)
  | (o, mask) :: rest, i, sumout, sumout_onshore_col, ecdhInfo => do
    let outSk_scaled ← genRctSimple_scaled in_asset_type pr tx_version atomic inverse_atomic
      o mask
    -- exclude the onshore collateral outs(actual + change)
    let sumout_onshore_col :=
      if use_onshore_col ∧ o.2.2 then sc_add outSk_scaled sumout_onshore_col
      else sumout_onshore_col
    let sumout :=
      if use_onshore_col ∧ o.2.2 then sumout else sc_add outSk_scaled sumout
    -- mask amount and mask
    let amount_key ← idx amount_keys i
    let blob := dev.ecdhEncode { mask := mask, amount := d2h o.2.1 } amount_key
      (decide (type = RCTTypeBulletproof2 ∨ type = RCTTypeCLSAG ∨ type = RCTTypeCLSAGN ∨
        type = RCTTypeHaven2 ∨ type = RCTTypeHaven3))
    genRctSimple_seal dev type use_onshore_col in_asset_type pr tx_version atomic
      inverse_atomic amount_keys rest (i + 1) sumout sumout_onshore_col (ecdhInfo ++ [blob])

/-- The inputs `(i, inamounts[i])` that are not listed in `inamounts_col_indices`, and
those that are: `actual_in_amounts` and `onshore_col_in_amounts`. -/
def genRctSimple_split (inamounts : List Nat) (inamounts_col_indices : List Nat) :
    List (Nat × Nat) × List (Nat × Nat) :=
  (inamounts.enum.filter (fun x => !decide (x.1 ∈ inamounts_col_indices)),
   inamounts.enum.filter (fun x => decide (x.1 ∈ inamounts_col_indices)))

/-- The loop `for (i = 0; i < group.size() - 1; i++)` over a group of inputs: a mask is
drawn for each input but the last, `aGen j` for the input at position `j`, and its
pseudo-out committed. The state is `(sumpouts, a, pseudoOuts)` and the result holds the
last input of the group. On an empty group the bound `size() - 1` wraps and the first
round reads outside the vector. -/
def genRctSimple_commit_loop (aGen : Nat → key) :
    List (Nat × Nat) → key → List key → List key →
      Res ((Nat × Nat) × key × List key × List key)
  | [], _, _, _ => .error .outOfBounds
  | [last], sumpouts, a, pseudoOuts => .ok (last, sumpouts, a, pseudoOuts)
  | x :: y :: rest, sumpouts, a, pseudoOuts =>
    -- Generate a random key
    let ai := aGen x.1
    let a := a.set x.1 ai
    -- Sum the random keys as we iterate
    let sumpouts := sc_add ai sumpouts
    -- Generate a commitment to the amount with the random key
    let pseudoOuts := pseudoOuts.set x.1 (genC L ai x.2)
    genRctSimple_commit_loop aGen (y :: rest) sumpouts a pseudoOuts

/-- The pseudo-outs of a group of inputs: the loop, then the last mask, which closes the
sum on `target`. It returns the last mask, `sumpouts`, `a` and `pseudoOuts`. -/
def genRctSimple_commit (aGen : Nat → key) (target : key) (group : List (Nat × Nat))
    (a pseudoOuts : List key) : Res (key × key × List key × List key) := do
  let (last, sumpouts, a, pseudoOuts) ← genRctSimple_commit_loop L aGen group zero a pseudoOuts
  let a_last := sc_sub target sumpouts
  let a := a.set last.1 a_last
  let pseudoOuts := pseudoOuts.set last.1 (genC L a_last last.2)
  pure (a_last, sumpouts, a, pseudoOuts)

/-- The types whose signatures `rv.p.CLSAGs` is sized for. -/
def genRctSimple_clsag_type (type : RCTType) : Bool :=
  decide (type = RCTTypeCLSAG ∨ type = RCTTypeCLSAGN ∨ type = RCTTypeHaven2 ∨
    type = RCTTypeHaven3)

/-- The loop "do a CLSAG signing for each input" over the positions `i`: the state is
`(rv.p.CLSAGs, msout->c, msout->mu_p)`, filled up to `i`. The write to
`rv.p.CLSAGs[i]`, and with `msout` the address of `msout->mu_p[i]`, is outside the vector
for the types that `rv.p.MGs` is sized for. `rand_a i` and `skGen i` are the scalars
drawn by the signing run of input `i`. -/
def genRctSimple_sign (type : RCTType) (full_message : key) (mixRing : List (List ctkey))
    (inSk : List ctkey) (a pseudoOuts : List key) (kLRki : Option (List multisig_kLRki))
    (msout : Bool) (index : List Nat) (rand_a : Nat → key) (skGen : Nat → Nat → key) :
    List Nat → List clsag → List key → List key → Res (List clsag × List key × List key)
  | [], sigs, cs, mus => .ok (sigs, cs, mus)
  | i :: rest, sigs, cs, mus => do
    let pubs ← idx mixRing i
    let sk ← idx inSk i
    let ai ← idx a i
    let Cout ← idx pseudoOuts i
    let k ← (match kLRki with
      | some ks => do
        let k ← idx ks i
        pure (some k)
      | none => pure none)
    if msout ∧ ¬ genRctSimple_clsag_type type then .error .outOfBounds else do
      let ix ← idx index i
      let r ← proveRctCLSAGSimple L full_message pubs sk ai Cout k msout msout ix
        (rand_a i) (skGen i)
      if ¬ genRctSimple_clsag_type type then .error .outOfBounds else
        genRctSimple_sign type full_message mixRing inSk a pseudoOuts kLRki msout index
          rand_a skGen rest (sigs ++ [r.sig]) (cs ++ r.mscout.toList) (mus ++ r.mspout.toList)

/-- What `genRctSimple` hands back: the signature, the masks `outSk[i].mask`, and the
values left in `msout` when that pointer is present. -/
structure genRctSimple_result where
  rv : rctSig
  outSk : List key
  msout : Option multisig_out
deriving DecidableEq, Repr

/-- The sanity checks at the head of `genRctSimple`; `false` when one of them throws. -/
def genRctSimple_checks (inSk : List ctkey) (destinations : List key) (inamounts : List Nat)
    (outamounts : List outamount) (mixRing : List (List ctkey)) (amount_keys : List key)
    (kLRki : Option (List multisig_kLRki)) (msout : Bool) (index : List Nat) : Bool :=
  decide (inamounts.length > 0) &&
  decide (inamounts.length = inSk.length) &&
  decide (outamounts.length = destinations.length) &&
  decide (amount_keys.length = destinations.length) &&
  decide (index.length = inSk.length) &&
  decide (mixRing.length = inSk.length) &&
  (index.zip mixRing).all (fun x => decide (x.1 < x.2.length)) &&
  decide ((kLRki.isSome ∧ msout) ∨ (¬ kLRki.isSome ∧ ¬ msout)) &&
  (match kLRki with
    | some ks => !msout || decide (ks.length = inamounts.length)
    | none => true)

/-- What `genRctSimple` has computed when it comes to sign: `rv.type`, the direction,
the result of the range-proof stage, `sumout`, `sumout_onshore_col`, `rv.ecdhInfo`,
`rv.maskSums`, the masks `a` of the pseudo-outs and `rv.p.pseudoOuts`. -/
structure gen_core where
  type : RCTType
  d : direction
  use_onshore_col : Bool
  st : gen_outputs
  sumout : key
  sumout_onshore_col : key
  ecdhInfo : List ecdhTuple
  maskSums : List key
  a : List key
  pseudoOuts : List key
deriving DecidableEq, Repr

/-- The first part of `genRctSimple`, from the direction of the transaction to the
pseudo-outs. The mask drawn for the pseudo-out of input `j` is `aGen j`. -/
def genRctSimple_core (dev : device) (inamounts : List Nat)
    (inamounts_col_indices : List Nat) (onshore_col_amount : Nat)
    (in_asset_type : String) (outamounts : List outamount) (amount_keys : List key)
    (rct_config : RCTConfig) (pr : pricing_record) (tx_version : Nat)
    (aGen : Nat → key) : Res gen_core := do
  -- Work out the type of the TX from the mix of inputs and outputs
  let d := genRctSimple_direction in_asset_type outamounts
  -- Set the transaction type.
  let type ← genRctSimple_type rct_config.bp_version
  let use_onshore_col := d.onshore && decide (type = RCTTypeHaven3)
  -- do the bulletproofs
  let st : gen_outputs :=
    { bulletproofs := [], outPk := [], outPk_usd := [], outPk_xasset := [],
      maskSums := genRctSimple_maskSums type d.conversion_tx, outSk := [] }
  let st ← (if rct_config.range_proof_type = .RangeProofPaddedBulletproof then
      genRctSimple_padded L dev type d use_onshore_col onshore_col_amount outamounts
        amount_keys st
    else
      genRctSimple_batches L dev rct_config.range_proof_type type d use_onshore_col
        onshore_col_amount outamounts amount_keys outamounts.length 0 st)
  -- do the output encryption and asset conversions
  let atomic := d2h COIN
  let inverse_atomic ← invert atomic
  let (sumout, sumout_onshore_col, ecdhInfo) ←
    genRctSimple_seal dev type use_onshore_col in_asset_type pr tx_version atomic
      inverse_atomic amount_keys (outamounts.zip st.outSk) 0 zero zero []
  -- separete the actual and colleteral inputs
  let (actual_in_amounts, onshore_col_in_amounts) :=
    genRctSimple_split inamounts inamounts_col_indices
  -- generate commitments per input
  let a := List.replicate inamounts.length zero
  let pseudoOuts := List.replicate inamounts.length zero
  let (a_last, sumpouts, a, pseudoOuts) ←
    genRctSimple_commit L aGen sumout actual_in_amounts a pseudoOuts
  -- set the sum of input blinding factors
  let maskSums ← (if d.conversion_tx ∧ (type = RCTTypeHaven2 ∨ type = RCTTypeHaven3) then
      updAt st.maskSums 0 (fun _ => sc_add a_last sumpouts)
    else pure st.maskSums)
  -- generate the commitments for collateral inputs
  let (a, pseudoOuts) ← (if use_onshore_col then do
      let (_, _, a, pseudoOuts) ←
        genRctSimple_commit L aGen sumout_onshore_col onshore_col_in_amounts a pseudoOuts
      pure (a, pseudoOuts)
    else pure (a, pseudoOuts))
  pure { type := type, d := d, use_onshore_col := use_onshore_col, st := st,
         sumout := sumout, sumout_onshore_col := sumout_onshore_col, ecdhInfo := ecdhInfo,
         maskSums := maskSums, a := a, pseudoOuts := pseudoOuts }

/-- The signature `rv` as it stands when `get_pre_mlsag_hash` is called: everything
but the ring signatures, whose vector is sized and blank. -/
def genRctSimple_rv (c : gen_core) (message : key) (destinations : List key)
    (inamounts : List Nat) (in_asset_type : String) (txnFee txnOffshoreFee : Nat)
    (mixRing : List (List ctkey)) : rctSig :=
  -- set txn fee
  let haven := decide (c.type = RCTTypeHaven2 ∨ c.type = RCTTypeHaven3)
  let own := haven || decide (in_asset_type = "XHV")
  let usd := !own && decide (in_asset_type = "XUSD")
  let xasset := !own && !usd
  { type := c.type, message := message, mixRing := mixRing, pseudoOuts := [],
    ecdhInfo := c.ecdhInfo,
    outPk := List.zipWith (fun D m => { dest := D, mask := m }) destinations c.st.outPk,
    outPk_usd :=
      List.zipWith (fun D m => { dest := D, mask := m }) destinations c.st.outPk_usd,
    outPk_xasset :=
      List.zipWith (fun D m => { dest := D, mask := m }) destinations c.st.outPk_xasset,
    txnFee := if own then txnFee else 0,
    txnFee_usd := if usd then txnFee else 0,
    txnFee_xasset := if xasset then txnFee else 0,
    txnOffshoreFee := if own then txnOffshoreFee else 0,
    txnOffshoreFee_usd := if usd then txnOffshoreFee else 0,
    txnOffshoreFee_xasset := if xasset then txnOffshoreFee else 0,
    maskSums := c.maskSums,
    p := { bulletproofs := c.st.bulletproofs,
           MGs := if genRctSimple_clsag_type c.type then []
             else List.replicate inamounts.length { ss := [], cc := zero, II := [] },
           CLSAGs := if genRctSimple_clsag_type c.type
             then List.replicate inamounts.length { s := [], c1 := zero, I := zero, D := zero }
             else [],
           pseudoOuts := c.pseudoOuts } }

/-- The assembly `genRctSimple`: the sanity checks, the part up to the pseudo-outs, the
message, and one ring signature for each input. `rand_a j` and `skGen j` are the
scalars of the signing run of input `j`; `msout` says whether that pointer is present. -/
def genRctSimple (dev : device) (message : key) (inSk : List ctkey) (destinations : List key)
    (inamounts : List Nat) (inamounts_col_indices : List Nat) (onshore_col_amount : Nat)
    (in_asset_type : String) (outamounts : List outamount) (txnFee txnOffshoreFee : Nat)
    (mixRing : List (List ctkey)) (amount_keys : List key)
    (kLRki : Option (List multisig_kLRki)) (msout : Bool) (index : List Nat)
    (rct_config : RCTConfig) (pr : pricing_record) (tx_version : Nat)
    (aGen : Nat → key) (rand_a : Nat → key) (skGen : Nat → Nat → key) :
    Res genRctSimple_result :=
  -- Sanity checks
  if ¬ genRctSimple_checks inSk destinations inamounts outamounts mixRing amount_keys kLRki
      msout index then .error .thrown else do
    let c ← genRctSimple_core L dev inamounts inamounts_col_indices onshore_col_amount
      in_asset_type outamounts amount_keys rct_config pr tx_version aGen
    let rv := genRctSimple_rv c message destinations inamounts in_asset_type txnFee
      txnOffshoreFee mixRing
    let full_message ← get_pre_mlsag_hash dev rv
    -- do a CLSAG signing for each input
    let (sigs, cs, mus) ← genRctSimple_sign L c.type full_message mixRing inSk c.a
      c.pseudoOuts kLRki msout index rand_a skGen (List.range inamounts.length) [] [] []
    pure { rv := { rv with p := { rv.p with CLSAGs := sigs } },
           outSk := c.st.outSk,
           msout := if msout then some { c := cs, mu_p := mus } else none }

end Assembly

/-! ## Decoding an output: `decodeRctSimple` -/

section Decode

variable {Pt : Type} [AddCommGroup Pt] (L : CryptoLib Pt)

/-- The commitment `C` that `decodeRctSimple` compares with: `rv.outPk[i].mask` for the
Haven2 and Haven3 types, where the identity is refused, and for the older types the
first of the three per-colour masks that is not the identity; `none` when all three
are the identity and `C` is never set. -/
def decodeRctSimple_C (rv : rctSig) (i : Nat) : Res (Option key) := do
  if rv.type = RCTTypeHaven2 ∨ rv.type = RCTTypeHaven3 then do
    let pk ← idx rv.outPk i
    if ¬ (!equalKeys identity pk.mask) then .error .thrown else
      pure (some pk.mask)
  else do
    let pk ← idx rv.outPk i
    if !equalKeys identity pk.mask then pure (some pk.mask) else do
      let pk_usd ← idx rv.outPk_usd i
      if !equalKeys identity pk_usd.mask then pure (some pk_usd.mask) else do
        let pk_xasset ← idx rv.outPk_xasset i
        if !equalKeys identity pk_xasset.mask then pure (some pk_xasset.mask) else
          pure none

/-- The decoder `decodeRctSimple(rv, sk, i, mask, hwdev)`: it returns the amount and the
value of `mask`, which is `mask0` on entry. The first check answers `false`, the amount
0, and leaves `mask` as it is. -/
def decodeRctSimple (dev : device) (rv : rctSig) (sk : key) (i : Nat) (mask0 : key) :
    Res (Nat × key) :=
  if ¬ (rv.type = RCTTypeSimple ∨ rv.type = RCTTypeBulletproof ∨
      rv.type = RCTTypeBulletproof2 ∨ rv.type = RCTTypeCLSAG ∨ rv.type = RCTTypeCLSAGN ∨
      rv.type = RCTTypeHaven2 ∨ rv.type = RCTTypeHaven3) then .ok (0, mask0) else
  if ¬ i < rv.ecdhInfo.length then .error .thrown else
  if rv.outPk.length ≠ rv.ecdhInfo.length then .error .thrown else do
    -- mask amount and mask
    let ecdh_info ← idx rv.ecdhInfo i
    let ecdh_info := dev.ecdhDecode ecdh_info sk
      (decide (rv.type = RCTTypeBulletproof2 ∨ rv.type = RCTTypeCLSAG ∨
        rv.type = RCTTypeCLSAGN ∨ rv.type = RCTTypeHaven2 ∨ rv.type = RCTTypeHaven3))
    let mask := ecdh_info.mask
    let amount := ecdh_info.amount
    let C ← decodeRctSimple_C rv i
    if ¬ sc_check mask then .error .thrown else
    if ¬ sc_check amount then .error .thrown else
      let Ctmp := addKeys2 L mask amount L.H
      match C with
      | none => .error .undefined
      | some C =>
        if equalKeys C Ctmp == false then .error .thrown else
          pure (h2d amount, mask)

end Decode

/-! ## The quantities the specification names -/

/-- The outputs with their position and their commitment: `(i, vout[i], outPk[i])`. -/
def companion_outputs (outPk : List ctkey) (vout : List tx_out) :
    List (Nat × tx_out × ctkey) :=
  (vout.zip outPk).enum

/-- Position `i` is one of the two collateral indices. -/
def collateral_indexed (collateral_indices : List Nat) (i : Nat) : Bool :=
  collateral_indices[0]? == some i || collateral_indices[1]? == some i

/-- The outputs left out of the colour sums: the two collateral-indexed outputs of an
onshore, from version `HF_VERSION_USE_COLLATERAL` on. -/
def onshore_excluded (tx_type : transaction_type) (version : Nat)
    (collateral_indices : List Nat) (i : Nat) : Bool :=
  decide (version ≥ HF_VERSION_USE_COLLATERAL) && decide (tx_type = .ONSHORE) &&
    collateral_indexed collateral_indices i

/-- An output counts for the source colour. -/
def in_source (excl : Nat → Bool) (strSource : String) (x : Nat × tx_out × ctkey) : Bool :=
  !excl x.1 && output_asset_type x.2.1 == some strSource

/-- An output counts for the destination colour: it is not of the source colour and
its colour is the destination colour. -/
def in_dest (excl : Nat → Bool) (strSource strDest : String) (x : Nat × tx_out × ctkey) :
    Bool :=
  !excl x.1 && output_asset_type x.2.1 != some strSource &&
    output_asset_type x.2.1 == some strDest

/-- The masks of the outputs whose companion output is declared in the source colour,
the positions `excl` left out. -/
def source_masks (outPk : List ctkey) (vout : List tx_out) (excl : Nat → Bool)
    (strSource : String) : List key :=
  ((companion_outputs outPk vout).filter (in_source excl strSource)).map
    (fun x => x.2.2.mask)

/-- The masks of the outputs whose companion output is declared in the destination
colour, the positions `excl` left out. -/
def dest_masks (outPk : List ctkey) (vout : List tx_out) (excl : Nat → Bool)
    (strSource strDest : String) : List key :=
  ((companion_outputs outPk vout).filter (in_dest excl strSource strDest)).map
    (fun x => x.2.2.mask)

/-- The pseudo-outs of the collateral inputs: those whose companion input is a
`txin_to_key`. -/
def collateral_pseudo_outs (pseudoOuts : List key) (vin : List txin_v) : List key :=
  ((pseudoOuts.zip vin).filter (fun x => x.2 == txin_v.txin_to_key)).map (fun x => x.1)

/-- The pseudo-outs of the converted inputs: those whose companion input is not a
`txin_to_key`. -/
def converted_pseudo_outs (pseudoOuts : List key) (vin : List txin_v) : List key :=
  ((pseudoOuts.zip vin).filter (fun x => x.2 != txin_v.txin_to_key)).map (fun x => x.1)

/-- The colour partition computed by the output loop. -/
def loop_source (excl : Nat → Bool) (strSource : String) (xs : List (Nat × tx_out × ctkey)) :
    List key :=
  (xs.filter (in_source excl strSource)).map (fun x => x.2.2.mask)

/-- The destination part of the colour partition computed by the output loop. -/
def loop_dest (excl : Nat → Bool) (strSource strDest : String)
    (xs : List (Nat × tx_out × ctkey)) : List key :=
  (xs.filter (in_dest excl strSource strDest)).map (fun x => x.2.2.mask)

section InputSumsDef

variable {Pt : Type} [AddCommGroup Pt]

/-- What `input_sums` returns, in the group: the sum of the converted pseudo-outs and
the sum of the collateral pseudo-outs of an onshore with collateral, and otherwise the
sum of all pseudo-outs and the neutral point. -/
def InputSums (L : CryptoLib Pt) (rv : rctSig) (tx_type : transaction_type)
    (vin : List txin_v) (version : Nat) (pin cin : Pt) : Prop :=
  (tx_type = .ONSHORE ∧ version ≥ HF_VERSION_USE_COLLATERAL →
    ∃ ps cs, L.points (converted_pseudo_outs rv.p.pseudoOuts vin) = some ps ∧
      L.points (collateral_pseudo_outs rv.p.pseudoOuts vin) = some cs ∧
      pin = ps.sum ∧ cin = cs.sum) ∧
  (¬ (tx_type = .ONSHORE ∧ version ≥ HF_VERSION_USE_COLLATERAL) →
    ∃ ps, L.points rv.p.pseudoOuts = some ps ∧ pin = ps.sum ∧ cin = 0)

end InputSumsDef

/-! ## What the assembly publishes -/

/-- The outputs whose masks `genRctSimple` adds to `rv.maskSums[1]`: the XHV outputs of
an offshore, the XUSD outputs of an onshore and of a conversion from xUSD to an xAsset,
the outputs in another colour than XUSD of a conversion from an xAsset to xUSD. -/
def change_class (d : direction) (o : outamount) : Bool :=
  (decide (o.1 = "XHV") && d.offshore) ||
  (decide (o.1 = "XUSD") && (d.onshore || d.xusd_to_xasset)) ||
  (!decide (o.1 = "XUSD") && d.xasset_to_xusd)

/-- The value of `rv.maskSums[1]` after the outputs `xs`, given with their masks, from
the value `x`. -/
def change_sum (d : direction) (x : key) : List (outamount × key) → key
  | [] => x
  | (o, m) :: rest => change_sum d (if change_class d o then sc_add x m else x) rest

/-- The value of `rv.maskSums[2]` after one output of the padded layout under Haven3:
the mask of a flagged output is added for an offshore, and the mask of a flagged output
of the amount `onshore_col_amount` is stored for an onshore with collateral. -/
def col_step (d : direction) (use_onshore_col : Bool) (onshore_col_amount : Nat)
    (x : key) (o : outamount) (m : key) : key :=
  let x := if d.offshore ∧ o.2.2 then sc_add x m else x
  if use_onshore_col ∧ o.2.2 ∧ o.2.1 = onshore_col_amount then m else x

/-- The value of `rv.maskSums[2]` after the outputs `xs`, given with their masks, from
the value `x`, in the padded layout under Haven3. -/
def col_sum (d : direction) (use_onshore_col : Bool) (onshore_col_amount : Nat)
    (x : key) : List (outamount × key) → key
  | [] => x
  | (o, m) :: rest =>
    col_sum d use_onshore_col onshore_col_amount
      (col_step d use_onshore_col onshore_col_amount x o m) rest

/-- The masks of `rv.outPk[i]`, `rv.outPk_usd[i]` and `rv.outPk_xasset[i]` for an
output in the colour of `o` with the commitment `pk`. -/
def slots (type : RCTType) (o : outamount) (pk : key) : key × key × key :=
  if type = RCTTypeHaven2 ∨ type = RCTTypeHaven3 then (pk, zero, zero)
  else if o.1 = "XHV" then (pk, identity, identity)
  else if o.1 = "XUSD" then (identity, pk, identity)
  else (identity, identity, pk)

/-- The mask of an output in the accounting basis of the source colour, as
`genRctSimple` scales it; 0 when the scaling throws. -/
def scaled_mask (in_asset_type : String) (pr : pricing_record) (tx_version : Nat)
    (x : outamount × key) : key :=
  (genRctSimple_scaled in_asset_type pr tx_version (d2h COIN) (invert_chain (d2h COIN))
    x.1 x.2).value 0

/-- The outputs, given with their masks, that `genRctSimple` leaves out of `sumout`:
the flagged ones, when the transaction is an onshore with collateral. -/
def col_outputs (use_onshore_col : Bool) (xs : List (outamount × key)) :
    List (outamount × key) :=
  xs.filter (fun x => use_onshore_col && x.1.2.2)

/-- The outputs, given with their masks, that `genRctSimple` counts in `sumout`. -/
def own_outputs (use_onshore_col : Bool) (xs : List (outamount × key)) :
    List (outamount × key) :=
  xs.filter (fun x => !(use_onshore_col && x.1.2.2))

/-- The outputs, given with their masks, whose masks `genRctSimple` adds to
`rv.maskSums[1]`. -/
def change_outputs (d : direction) (xs : List (outamount × key)) : List (outamount × key) :=
  xs.filter (fun x => change_class d x.1)

/-- The outputs, given with their masks, that carry the collateral flag. -/
def flagged_outputs (xs : List (outamount × key)) : List (outamount × key) :=
  xs.filter (fun x => x.1.2.2)

/-- The flagged outputs, given with their masks, of the amount `onshore_col_amount`. -/
def pledged_outputs (onshore_col_amount : Nat) (xs : List (outamount × key)) :
    List (outamount × key) :=
  xs.filter (fun x => x.1.2.2 && decide (x.1.2.1 = onshore_col_amount))

/-- The arguments of a call of `genRctSimple`, with the device, and the scalars the call
draws: `aGen j` for the pseudo-out of input `j`, `rand_a j` and `skGen j` for its signing
run. -/
structure gen_args where
  dev : device
  message : key
  inSk : List ctkey
  destinations : List key
  inamounts : List Nat
  inamounts_col_indices : List Nat
  onshore_col_amount : Nat
  in_asset_type : String
  outamounts : List outamount
  txnFee : Nat
  txnOffshoreFee : Nat
  mixRing : List (List ctkey)
  amount_keys : List key
  kLRki : Option (List multisig_kLRki)
  msout : Bool
  index : List Nat
  rct_config : RCTConfig
  pr : pricing_record
  tx_version : Nat
  aGen : Nat → key
  rand_a : Nat → key
  skGen : Nat → Nat → key

section Calls

variable {Pt : Type} [AddCommGroup Pt] (L : CryptoLib Pt)

/-- The call of `genRctSimple` with the arguments `x`. -/
def gen_args.run (x : gen_args) : Res genRctSimple_result :=
  genRctSimple L x.dev x.message x.inSk x.destinations x.inamounts x.inamounts_col_indices
    x.onshore_col_amount x.in_asset_type x.outamounts x.txnFee x.txnOffshoreFee x.mixRing
    x.amount_keys x.kLRki x.msout x.index x.rct_config x.pr x.tx_version x.aGen x.rand_a
    x.skGen

/-- What the call has computed when it comes to sign. -/
def gen_args.core (x : gen_args) : Res gen_core :=
  genRctSimple_core L x.dev x.inamounts x.inamounts_col_indices x.onshore_col_amount
    x.in_asset_type x.outamounts x.amount_keys x.rct_config x.pr x.tx_version x.aGen

end Calls

/-- The direction flags of the call. -/
def gen_args.direction (x : gen_args) : direction :=
  genRctSimple_direction x.in_asset_type x.outamounts

/-- The inputs `(i, inamounts[i])` of the call that are listed as collateral. -/
def gen_args.collateral (x : gen_args) : List (Nat × Nat) :=
  (genRctSimple_split x.inamounts x.inamounts_col_indices).2

/-- The scaled mask of an output of the call. -/
def gen_args.scaled (x : gen_args) (o : outamount × key) : key :=
  scaled_mask x.in_asset_type x.pr x.tx_version o

/-! ## What the decoder opens -/

/-- The blob of output `i` as the device opens it with the key `sk`, for the types
with short amounts. -/
def decoded_blob (dev : device) (rv : rctSig) (sk : key) (i : Nat) : ecdhTuple :=
  dev.ecdhDecode (rv.ecdhInfo.getD i { mask := 0, amount := 0 }) sk true

section DecodeSpec

variable {Pt : Type} [AddCommGroup Pt] (L : CryptoLib Pt)

/-- The opened blob of output `i` fits the stored commitment: `i` is in range, the
commitment `rv.outPk[i].mask` is not the identity, the opened mask and amount are
canonical scalars and `mask·G + amount·H` is the stored commitment. -/
def decoded_fits (dev : device) (rv : rctSig) (sk : key) (i : Nat) : Prop :=
  i < rv.ecdhInfo.length ∧ rv.outPk.length = rv.ecdhInfo.length ∧
  (decoded_blob dev rv sk i).mask < ell ∧ (decoded_blob dev rv sk i).amount < ell ∧
  ∃ pk, rv.outPk[i]? = some pk ∧ pk.mask ≠ identity ∧
    L.tobytes ((decoded_blob dev rv sk i).mask • L.G + (decoded_blob dev rv sk i).amount • L.H)
      = pk.mask

end DecodeSpec

/-! ## The challenges of a CLSAG run -/

section ClsagSpec

variable {Pt : Type} [AddCommGroup Pt] (L : CryptoLib Pt)

/-- The point a key encodes, the neutral point when it encodes none. -/
def CryptoLib.pt (k : key) : Pt := (L.frombytes k).getD 0

/-- One round of the ring: from the challenge `c` and the response `s` at position `i`,
`L = s·G + (μ_P·c)·P[i] + (μ_C·c)·(C_nonzero[i] − C_offset)`,
`R = s·hash_to_point(P[i]) + (μ_P·c)·I + (μ_C·c)·D`, and the next challenge is the round
hash of `L` and `R`. -/
def clsag_round (message : key) (pubs : List ctkey) (C_offset : key) (I D : Pt)
    (mu_P mu_C : key) (i : Nat) (s c : key) : key :=
  let pk := pubs.getD i { dest := 0, mask := 0 }
  let c_p := sc_mul mu_P c
  let c_c := sc_mul mu_C c
  let Lk := addKeys_aGbBcC L s c_p (L.pt pk.dest) c_c (L.pt pk.mask - L.pt C_offset)
  let Rk := addKeys_aAbBcC L s (L.hash_to_p3 pk.dest) c_p I c_c D
  L.hash_to_scalar
    (c_to_hash (pubs.map ctkey.dest) (pubs.map ctkey.mask) C_offset message Lk Rk)

/-- The challenge reached from `c` after `k` rounds at the positions `i, i+1, ..`, with
the responses `skGen i, skGen (i+1), ..`. -/
def clsag_walk (message : key) (pubs : List ctkey) (C_offset : key) (I D : Pt)
    (mu_P mu_C : key) (skGen : Nat → key) : Nat → Nat → key → key
  | 0, _, c => c
  | k + 1, i, c =>
    clsag_walk message pubs C_offset I D mu_P mu_C skGen k (i + 1)
      (clsag_round L message pubs C_offset I D mu_P mu_C i (skGen i) c)

/-- The vector `s` after the responses at the `k` positions `i, i+1, ..` are drawn. -/
def clsag_fill (skGen : Nat → key) : Nat → Nat → List key → List key
  | 0, _, s => s
  | k + 1, i, s => clsag_fill skGen k (i + 1) (s.set i (skGen i))

/-- The key image `I = p · hash_to_point(P[l])` of a signing run. -/
def clsag_I (pubs : List ctkey) (inSk : ctkey) (index : Nat) : Pt :=
  inSk.dest • L.hash_to_p3 (pubs.getD index { dest := 0, mask := 0 }).dest

/-- The commitment key image `D = z · hash_to_point(P[l])` with `z = mask − a`. -/
def clsag_D (pubs : List ctkey) (inSk : ctkey) (a : key) (index : Nat) : Pt :=
  sc_sub inSk.mask a • L.hash_to_p3 (pubs.getD index { dest := 0, mask := 0 }).dest

/-- The aggregation coefficient `μ_P` or `μ_C` of a signing run, for its domain. -/
def clsag_mu (domain : key) (pubs : List ctkey) (inSk : ctkey) (a Cout : key)
    (index : Nat) : key :=
  L.hash_to_scalar (mu_to_hash domain (pubs.map ctkey.dest) (pubs.map ctkey.mask)
    (L.tobytes (clsag_I L pubs inSk index))
    (L.tobytes (INV_EIGHT • clsag_D L pubs inSk a index)) Cout)

/-- The first challenge of a signing run, the round hash of `aG` and `aH`. -/
def clsag_c0 (message : key) (pubs : List ctkey) (Cout : key) (index : Nat)
    (rand_a : key) : key :=
  L.hash_to_scalar (c_to_hash (pubs.map ctkey.dest) (pubs.map ctkey.mask) Cout message
    (L.tobytes (rand_a • L.G))
    (L.tobytes (rand_a • L.hash_to_p3 (pubs.getD index { dest := 0, mask := 0 }).dest)))

/-- The challenges of a signing run with the real key at `index`: those from the first
one to the one recorded as `c1`, over the positions after `index`, and those from `c1`
on, over the positions before `index`. -/
def clsag_challenges (message : key) (pubs : List ctkey) (inSk : ctkey) (a Cout : key)
    (index : Nat) (rand_a : key) (skGen : Nat → key) : List key :=
  let n := pubs.length
  let I := clsag_I L pubs inSk index
  let D := clsag_D L pubs inSk a index
  let mu_P := clsag_mu L HASH_KEY_CLSAG_AGG_0 pubs inSk a Cout index
  let mu_C := clsag_mu L HASH_KEY_CLSAG_AGG_1 pubs inSk a Cout index
  let c0 := clsag_c0 L message pubs Cout index rand_a
  let c1 := clsag_walk L message pubs Cout I D mu_P mu_C skGen (n - (index + 1)) (index + 1) c0
  (List.range (n - index)).map
      (fun j => clsag_walk L message pubs Cout I D mu_P mu_C skGen j (index + 1) c0) ++
    (List.range (index + 1)).map
      (fun j => clsag_walk L message pubs Cout I D mu_P mu_C skGen j 0 c1)

/-- Every key of the ring is a point. -/
def ValidRing (pubs : List ctkey) : Prop :=
  ∀ k ∈ pubs, (L.frombytes k.dest).isSome = true ∧ (L.frombytes k.mask).isSome = true

/-- The signature a signing run arrives at: the responses drawn for the decoys, the
closing response `s[l] = a − c·(μ_P·p + μ_C·z)` at the real position, the challenge
recorded as `c1`, the key image and the commitment key image divided by 8. -/
def clsag_expected (message : key) (pubs : List ctkey) (inSk : ctkey) (a Cout : key)
    (index : Nat) (rand_a : key) (skGen : Nat → key) : clsag :=
  let n := pubs.length
  let I := clsag_I L pubs inSk index
  let D := clsag_D L pubs inSk a index
  let mu_P := clsag_mu L HASH_KEY_CLSAG_AGG_0 pubs inSk a Cout index
  let mu_C := clsag_mu L HASH_KEY_CLSAG_AGG_1 pubs inSk a Cout index
  let c0 := clsag_c0 L message pubs Cout index rand_a
  let c1 := clsag_walk L message pubs Cout I D mu_P mu_C skGen (n - (index + 1)) (index + 1) c0
  let c := clsag_walk L message pubs Cout I D mu_P mu_C skGen index 0 c1
  { s := (clsag_fill skGen index 0
        (clsag_fill skGen (n - (index + 1)) (index + 1) (List.replicate n zero))).set index
      (sc_mulsub c (sc_muladd mu_C (sc_sub inSk.mask a) (sc_mul mu_P inSk.dest)) rand_a),
    c1 := c1,
    I := L.tobytes I,
    D := L.tobytes (INV_EIGHT • D) }

/-- The challenge the verifier holds after `j` rounds: the walk from `sig.c1` over the
positions `0, 1, ..` with the responses `sig.s`, the key image `sig.I` and the
commitment key image `8·sig.D`. -/
def clsag_ver_challenge (message : key) (sig : clsag) (pubs : List ctkey) (C_offset : key)
    (j : Nat) : key :=
  let P := pubs.map ctkey.dest
  let C_nonzero := pubs.map ctkey.mask
  let mu_P := L.hash_to_scalar (mu_to_hash HASH_KEY_CLSAG_AGG_0 P C_nonzero sig.I sig.D C_offset)
  let mu_C := L.hash_to_scalar (mu_to_hash HASH_KEY_CLSAG_AGG_1 P C_nonzero sig.I sig.D C_offset)
  clsag_walk L message pubs C_offset (L.pt sig.I) ((8 : ℕ) • L.pt sig.D) mu_P mu_C
    (fun i => sig.s.getD i 0) j 0 sig.c1

/-- The rejections `verRctCLSAGSimple` makes before it walks the ring: an empty ring,
a response vector of another size, a response or a `c1` that is no canonical scalar,
a key image `sig.I` that is the identity, a `sig.D` with `8·sig.D` the neutral point. -/
def clsag_rejected (sig : clsag) (pubs : List ctkey) : Prop :=
  pubs.length = 0 ∨ sig.s.length ≠ pubs.length ∨ (∃ s ∈ sig.s, ¬ s < ell) ∨ ¬ sig.c1 < ell ∨
    sig.I = identity ∨ ∃ Dp, L.frombytes sig.D = some Dp ∧ (8 : ℕ) • Dp = 0

/-- The keys of the ring, `C_offset`, `sig.I` and `sig.D` are points. -/
def clsag_points (sig : clsag) (pubs : List ctkey) (C_offset : key) : Prop :=
  ValidRing L pubs ∧ (L.frombytes C_offset).isSome = true ∧
    (L.frombytes sig.I).isSome = true ∧ (L.frombytes sig.D).isSome = true

/-- The walk over the positions `0 .. n-1` from `sig.c1` closes: none of the `n`
challenges it computes is zero and the last one is `sig.c1`. -/
def clsag_closes (message : key) (sig : clsag) (pubs : List ctkey) (C_offset : key) : Prop :=
  (∀ j, 1 ≤ j → j ≤ pubs.length → clsag_ver_challenge L message sig pubs C_offset j ≠ 0) ∧
    clsag_ver_challenge L message sig pubs C_offset pubs.length = sig.c1

end ClsagSpec

/-! ## Assumptions on the curve library -/

section Laws

variable {Pt : Type} [AddCommGroup Pt]

/-- The encoding of points is faithful: decompression undoes compression, and the
neutral point is encoded by `rct::identity()`. -/
structure CryptoLib.Sound (L : CryptoLib Pt) : Prop where
  frombytes_tobytes : ∀ P : Pt, L.frombytes (L.tobytes P) = some P
  tobytes_zero : L.tobytes 0 = identity

/-- The generators `G` and `H` have order `l`, `hash_to_p3` lands in the subgroup of
order `l`, and `hash_to_scalar` returns reduced scalars. -/
structure CryptoLib.PrimeOrder (L : CryptoLib Pt) : Prop where
  order_G : ∀ k : ℕ, k • L.G = 0 ↔ ell ∣ k
  order_H : ∀ k : ℕ, k • L.H = 0 ↔ ell ∣ k
  order_hash_to_p3 : ∀ x : key, ell • L.hash_to_p3 x = 0
  hash_to_scalar_lt : ∀ ks : List key, L.hash_to_scalar ks < ell

/-- The prover commits to every amount under its mask:
`V[j] = INV_EIGHT·(mask_j·G + amount_j·H)`. -/
def ProverCommits (dev : device) (L : CryptoLib Pt) : Prop :=
  ∀ amounts masks proof, dev.bulletproof_PROVE amounts masks = some proof →
    proof.V = List.zipWith (fun a m => L.tobytes (INV_EIGHT • (m • L.G + a • L.H)))
      amounts masks

/-- The device opens what it sealed, for a blob whose amount has 64 bits, and the masks
it derives from amount keys are canonical scalars. -/
structure device.Lawful (dev : device) : Prop where
  decode_encode : ∀ (t : ecdhTuple) (k : key) (b : Bool), t.amount < 2 ^ 64 →
    dev.ecdhDecode (dev.ecdhEncode t k b) k b = t
  mask_lt : ∀ k : key, dev.genCommitmentMask k < ell

end Laws

/-! ## A concrete library: the cyclic group of order `l` -/

theorem ell_pos : 0 < ell := by decide

/-- An element of the cyclic group of order `l`, as its residue. -/
structure ZPt where
  v : Nat
  h : v < ell

namespace ZPt

theorem ext_v {a b : ZPt} (h : a.v = b.v) : a = b := by
  cases a; cases b; simp_all

instance instDecidableEq : DecidableEq ZPt := fun a b =>
  decidable_of_iff (a.v = b.v) ⟨ext_v, fun h => by rw [h]⟩

/-- The residue of a natural number. -/
def ofNat (n : Nat) : ZPt := ⟨n % ell, Nat.mod_lt _ ell_pos⟩

instance instZero : Zero ZPt := ⟨ofNat 0⟩
instance instAdd : Add ZPt := ⟨fun a b => ofNat (a.v + b.v)⟩
instance instNeg : Neg ZPt := ⟨fun a => ofNat (ell - a.v)⟩
instance instSub : Sub ZPt := ⟨fun a b => ofNat (a.v + (ell - b.v))⟩
instance instSMulNat : SMul ℕ ZPt := ⟨fun n a => ofNat (n * a.v)⟩
instance instSMulInt : SMul ℤ ZPt := ⟨fun z a => ofNat ((z % (ell : ℤ)).toNat * a.v)⟩

/-- The residue class in `ZMod l`. -/
def toZMod (a : ZPt) : ZMod ell := (a.v : ZMod ell)

theorem toZMod_injective : Function.Injective toZMod := by
  intro a b h
  apply ext_v
  have := (ZMod.natCast_eq_natCast_iff' a.v b.v ell).1 h
  rwa [Nat.mod_eq_of_lt a.h, Nat.mod_eq_of_lt b.h] at this

theorem toZMod_ofNat (n : Nat) : toZMod (ofNat n) = (n : ZMod ell) := by
  show ((n % ell : ℕ) : ZMod ell) = n
  exact ZMod.natCast_mod n ell

theorem cast_ell : ((ell : ℕ) : ZMod ell) = 0 := ZMod.natCast_self ell

instance instAddCommGroup : AddCommGroup ZPt :=
  Function.Injective.addCommGroup toZMod toZMod_injective
    (by show toZMod (ofNat 0) = 0; rw [toZMod_ofNat, Nat.cast_zero])
    (by intro a b; show toZMod (ofNat _) = _; rw [toZMod_ofNat, Nat.cast_add]; rfl)
    (by intro a; show toZMod (ofNat _) = _
        rw [toZMod_ofNat, Nat.cast_sub a.h.le, cast_ell, zero_sub]; rfl)
    (by intro a b; show toZMod (ofNat _) = _
        rw [toZMod_ofNat, Nat.cast_add, Nat.cast_sub b.h.le, cast_ell, zero_sub,
          ← sub_eq_add_neg]; rfl)
    (by intro a n; show toZMod (ofNat _) = _
        rw [toZMod_ofNat, Nat.cast_mul, nsmul_eq_mul]; rfl)
    (by intro a z; show toZMod (ofNat _) = _
        rw [toZMod_ofNat, Nat.cast_mul, zsmul_eq_mul]
        congr 1
        have h0 : (0 : ℤ) ≤ z % (ell : ℤ) := Int.emod_nonneg _ (by have := ell_pos; omega)
        have h1 : (((z % (ell : ℤ)).toNat : ℤ) : ZMod ell) = ((z % (ell : ℤ) : ℤ) : ZMod ell) := by
          rw [Int.toNat_of_nonneg h0]
        rw [Int.cast_natCast] at h1
        rw [h1, ZMod.intCast_mod])

end ZPt

/-- A library over the cyclic group of order `l`: the point `x·G` is encoded by the
key `x + 1`, `G = 1·G`, `H = 7·G`, the hashes are affine maps that avoid 0, and every
Bulletproof is accepted. -/
def zLib : CryptoLib ZPt where
  frombytes := fun k => if h : 1 ≤ k ∧ k - 1 < ell then some ⟨k - 1, h.2⟩ else none
  tobytes := fun P => P.v + 1
  G := ZPt.ofNat 1
  H := ZPt.ofNat 7
  hash_to_p3 := fun k => ZPt.ofNat (k % 1000 + 1)
  hash_to_scalar := fun ks => ks.sum % 1000 + 1
  bulletproof_VERIFY := fun _ => some true
  n_bulletproof_amounts := fun ps => (ps.map (fun b => b.V.length)).sum
  is_rct_bulletproof := fun t => decide (t ∈ [RCTTypeBulletproof, RCTTypeBulletproof2,
    RCTTypeCLSAG, RCTTypeCLSAGN, RCTTypeHaven2, RCTTypeHaven3])
  ASSET_TYPES := ["XHV", "XUSD", "xAG", "xAU", "xAUD"]

/-- The library `zLib` with a decompression that accepts the all-zero key as well, the
encoding with `y = 0`; the point it yields is `5·G`. -/
def zLibZero : CryptoLib ZPt :=
  { zLib with
    frombytes := fun k => if k = 0 then some (ZPt.ofNat 5) else zLib.frombytes k }

/-! ## Multisig: completing and accumulating the shares -/

/-- The loop `for n: CHECK_AND_ASSERT_MES(indices[n] < rv.p.CLSAGs[n].s.size(), false, ..)`
of `signMultisigCLSAG`, `accSignMultisigCLSAG` and `accSignMultisigMLSAG`, from the
position `n` on; `false` is the `return false`. -/
def CLSAGs_index_range (CLSAGs : List clsag) : List Nat → Nat → Res Bool
  | [], _ => .ok true
  | i :: rest, n => do
    let sig ← idx CLSAGs n
    if ¬ i < sig.s.length then pure false else CLSAGs_index_range CLSAGs rest (n + 1)

/-- The loop of `signMultisigMLSAG` with the checks "Index out of range" and "empty ss
line", from the position `n` on. -/
def MGs_index_range (MGs : List mgSig) : List Nat → Nat → Res Bool
  | [], _ => .ok true
  | i :: rest, n => do
    let mg ← idx MGs n
    if ¬ i < mg.ss.length then pure false else do
      let line ← idx mg.ss i
      if ¬ (!line.isEmpty) then pure false else MGs_index_range MGs rest (n + 1)

/-- The second loop of `signMultisigMLSAG`: the share `k[n] - c[n]·secret_key` is added
to `rv.p.MGs[n].ss[indices[n]][0]`. -/
def signMultisigMLSAG_loop (k : List key) (msout : multisig_out) (secret_key : key) :
    List Nat → Nat → List mgSig → Res (List mgSig)
  | [], _, MGs => .ok MGs
  | i :: rest, n, MGs => do
    let c ← idx msout.c n
    let kn ← idx k n
    let diff := sc_mulsub c secret_key kn
    let mg ← idx MGs n
    let line ← idx mg.ss i
    let s ← idx line 0
    signMultisigMLSAG_loop k msout secret_key rest (n + 1)
      (MGs.set n { mg with ss := mg.ss.set i (line.set 0 (sc_add s diff)) })

/-- The function `signMultisigMLSAG`: the answer and the signature `rv` it leaves. -/
def signMultisigMLSAG (rv : rctSig) (indices : List Nat) (k : List key)
    (msout : multisig_out) (secret_key : key) : Res (Bool × rctSig) :=
  if ¬ (rv.type = RCTTypeFull ∨ rv.type = RCTTypeSimple ∨ rv.type = RCTTypeBulletproof ∨
      rv.type = RCTTypeBulletproof2) then .ok (false, rv) else
  if ¬ indices.length = k.length then .ok (false, rv) else
  if ¬ k.length = rv.p.MGs.length then .ok (false, rv) else
  if ¬ k.length = msout.c.length then .ok (false, rv) else
  if ¬ rv.p.CLSAGs.isEmpty then .ok (false, rv) else
  if rv.type = RCTTypeFull ∧ ¬ rv.p.MGs.length = 1 then .ok (false, rv) else do
    let in_range ← MGs_index_range rv.p.MGs indices 0
    if ¬ in_range then pure (false, rv) else do
      let MGs ← signMultisigMLSAG_loop k msout secret_key indices 0 rv.p.MGs
      pure (true, { rv with p := { rv.p with MGs := MGs } })

/-- The second loop of `signMultisigCLSAG`: the share `k[n] - c[n]·mu_p[n]·secret_key` is
added to `rv.p.CLSAGs[n].s[indices[n]]`. -/
def signMultisigCLSAG_loop (k : List key) (msout : multisig_out) (secret_key : key) :
    List Nat → Nat → List clsag → Res (List clsag)
  | [], _, CLSAGs => .ok CLSAGs
  | i :: rest, n, CLSAGs => do
    let mu ← idx msout.mu_p n
    let sk := sc_mul mu secret_key
    let c ← idx msout.c n
    let kn ← idx k n
    let diff := sc_mulsub c sk kn
    let sig ← idx CLSAGs n
    let s ← idx sig.s i
    signMultisigCLSAG_loop k msout secret_key rest (n + 1)
      (CLSAGs.set n { sig with s := sig.s.set i (sc_add s diff) })

/-- The function `signMultisigCLSAG`: the answer and the signature `rv` it leaves. -/
def signMultisigCLSAG (rv : rctSig) (indices : List Nat) (k : List key)
    (msout : multisig_out) (secret_key : key) : Res (Bool × rctSig) :=
  if ¬ (rv.type = RCTTypeCLSAG ∨ rv.type = RCTTypeCLSAGN ∨ rv.type = RCTTypeHaven2) then
    .ok (false, rv) else
  if ¬ indices.length = k.length then .ok (false, rv) else
  if ¬ k.length = rv.p.CLSAGs.length then .ok (false, rv) else
  if ¬ k.length = msout.c.length then .ok (false, rv) else
  if ¬ rv.p.MGs.isEmpty then .ok (false, rv) else
  if ¬ msout.c.length = msout.mu_p.length then .ok (false, rv) else do
    let in_range ← CLSAGs_index_range rv.p.CLSAGs indices 0
    if ¬ in_range then pure (false, rv) else do
      let CLSAGs ← signMultisigCLSAG_loop k msout secret_key indices 0 rv.p.CLSAGs
      pure (true, { rv with p := { rv.p with CLSAGs := CLSAGs } })

/-- The function `signMultisig`: the CLSAG variant for the types CLSAG, CLSAGN and
Haven2, the MLSAG variant for every other type. -/
def signMultisig (rv : rctSig) (indices : List Nat) (k : List key)
    (msout : multisig_out) (secret_key : key) : Res (Bool × rctSig) :=
  if rv.type = RCTTypeCLSAG ∨ rv.type = RCTTypeCLSAGN ∨ rv.type = RCTTypeHaven2 then
    signMultisigCLSAG rv indices k msout secret_key
  else
    signMultisigMLSAG rv indices k msout secret_key

/-- The inner loop of `accSignMultisigCLSAG` for the input `n` and the position
`i = indices[n]`, over the shares `ptr`: the scalar of the share is added to
`rv2.p.CLSAGs[n].s[i]`, then that of the base `rv0` is subtracted. -/
def accSignMultisigCLSAG_shares (rv0 : rctSig) (n i : Nat) :
    List rctSig → List clsag → Res (List clsag)
  | [], CLSAGs => .ok CLSAGs
  | ptr :: rest, CLSAGs => do
    let sig ← idx CLSAGs n
    let s ← idx sig.s i
    let sigp ← idx ptr.p.CLSAGs n
    let sp ← idx sigp.s i
    let s := sc_add s sp
    let sig0 ← idx rv0.p.CLSAGs n
    let s0 ← idx sig0.s i
    let s := sc_sub s s0
    accSignMultisigCLSAG_shares rv0 n i rest (CLSAGs.set n { sig with s := sig.s.set i s })

/-- The outer loop of `accSignMultisigCLSAG` over the inputs, from the position `n` on;
`shares` are the members of `rv` from `rv.begin() + 1` up to, and without,
`rv.end() - 1`. -/
def accSignMultisigCLSAG_loop (rv0 : rctSig) (shares : List rctSig) :
    List Nat → Nat → List clsag → Res (List clsag)
  | [], _, CLSAGs => .ok CLSAGs
  | i :: rest, n, CLSAGs => do
    let CLSAGs ← accSignMultisigCLSAG_shares rv0 n i shares CLSAGs
    accSignMultisigCLSAG_loop rv0 shares rest (n + 1) CLSAGs

/-- The function `accSignMultisigCLSAG`: the answer and the signature `rv2` it leaves;
`rv.at(0)` throws for an empty `rv`. -/
def accSignMultisigCLSAG (rv : List rctSig) (rv2 : rctSig) (indices : List Nat) :
    Res (Bool × rctSig) :=
  if ¬ (rv2.type = RCTTypeCLSAG ∨ rv2.type = RCTTypeCLSAGN ∨ rv2.type = RCTTypeHaven2) then
    .ok (false, rv2) else
  if ¬ rv2.p.MGs.isEmpty then .ok (false, rv2) else do
    let in_range ← CLSAGs_index_range rv2.p.CLSAGs indices 0
    if ¬ in_range then pure (false, rv2) else
      match rv with
      | [] => .error .thrown
      | rv0 :: rest => do
        let CLSAGs ← accSignMultisigCLSAG_loop rv0 rest.dropLast indices 0 rv2.p.CLSAGs
        pure (true, { rv2 with p := { rv2.p with CLSAGs := CLSAGs } })

/-- The inner loop of `accSignMultisigMLSAG` for the input `n` and the line
`i = indices[n]`, over the shares `ptr`, on `rv2.p.MGs[n].ss[i][0]`. -/
def accSignMultisigMLSAG_shares (rv0 : rctSig) (n i : Nat) :
    List rctSig → List mgSig → Res (List mgSig)
  | [], MGs => .ok MGs
  | ptr :: rest, MGs => do
    let mg ← idx MGs n
    let line ← idx mg.ss i
    let s ← idx line 0
    let mgp ← idx ptr.p.MGs n
    let linep ← idx mgp.ss i
    let sp ← idx linep 0
    let s := sc_add s sp
    let mg0 ← idx rv0.p.MGs n
    let line0 ← idx mg0.ss i
    let s0 ← idx line0 0
    let s := sc_sub s s0
    accSignMultisigMLSAG_shares rv0 n i rest
      (MGs.set n { mg with ss := mg.ss.set i (line.set 0 s) })

/-- The outer loop of `accSignMultisigMLSAG` over the inputs, from the position `n` on. -/
def accSignMultisigMLSAG_loop (rv0 : rctSig) (shares : List rctSig) :
    List Nat → Nat → List mgSig → Res (List mgSig)
  | [], _, MGs => .ok MGs
  | i :: rest, n, MGs => do
    let MGs ← accSignMultisigMLSAG_shares rv0 n i shares MGs
    accSignMultisigMLSAG_loop rv0 shares rest (n + 1) MGs

/-- The function `accSignMultisigMLSAG`: the answer and the signature `rv2` it leaves.
Its second check is `rv2.p.MGs.empty()` and its loop of range checks reads
`rv2.p.CLSAGs[n].s.size()`, as in the CLSAG variant. -/
def accSignMultisigMLSAG (rv : List rctSig) (rv2 : rctSig) (indices : List Nat) :
    Res (Bool × rctSig) :=
  if ¬ (rv2.type = RCTTypeFull ∨ rv2.type = RCTTypeSimple ∨ rv2.type = RCTTypeBulletproof ∨
      rv2.type = RCTTypeBulletproof2) then .ok (false, rv2) else
  if ¬ rv2.p.MGs.isEmpty then .ok (false, rv2) else do
    let in_range ← CLSAGs_index_range rv2.p.CLSAGs indices 0
    if ¬ in_range then pure (false, rv2) else
      match rv with
      | [] => .error .thrown
      | rv0 :: rest => do
        let MGs ← accSignMultisigMLSAG_loop rv0 rest.dropLast indices 0 rv2.p.MGs
        pure (true, { rv2 with p := { rv2.p with MGs := MGs } })

/-- The function `accMultisig`: the CLSAG variant for the types CLSAG, CLSAGN and
Haven2, the MLSAG variant for every other type. -/
def accMultisig (rv : List rctSig) (recvrv : rctSig) (indices : List Nat) :
    Res (Bool × rctSig) :=
  if recvrv.type = RCTTypeCLSAG ∨ recvrv.type = RCTTypeCLSAGN ∨
      recvrv.type = RCTTypeHaven2 then
    accSignMultisigCLSAG rv recvrv indices
  else
    accSignMultisigMLSAG rv recvrv indices

/-- The scalar `r.p.CLSAGs[n].s[i]` of a signature, when it has one. -/
def clsag_scalar (r : rctSig) (n i : Nat) : Option key :=
  (r.p.CLSAGs[n]?).bind (fun sig => sig.s[i]?)

/-- The value of a scalar `s` after the shares `xs` are accumulated over the base
`base`: for each share `x` in turn, `s` becomes `s + x - base (mod l)`. -/
def acc_fold (base : key) : List key → key → key
  | [], s => s
  | x :: xs, s => acc_fold base xs (sc_sub (sc_add s x) base)

/-! ## The check of the burnt and minted amounts -/

def HF_VERSION_XASSET_FEES_V2 : Nat := 17

/-- What the source leaves to the library of the type `boost::multiprecision::uint128_t`:
the outcome `div_zero a` of a quotient `a / 0`, and the conversion `(uint64_t) a`. -/
structure uint128_ops where
  div_zero : Nat → Res Nat
  to_uint64 : Nat → Nat

/-- A library of 128-bit integers in which a quotient by zero throws, as it does with
`std::overflow_error` in Boost.Multiprecision, and a conversion keeps the low 64 bits. -/
def boost_uint128 : uint128_ops :=
  { div_zero := fun _ => .error .thrown, to_uint64 := fun a => a % 2 ^ 64 }

/-- A library of 128-bit integers in which a quotient by zero throws and a conversion of
a value above `2^64 - 1` yields `2^64 - 1`. -/
def boost_uint128_max : uint128_ops :=
  { div_zero := fun _ => .error .thrown, to_uint64 := fun a => min a (2 ^ 64 - 1) }

/-- The statement `a /= b` on 128-bit values. -/
def uint128_div (W : uint128_ops) (a b : Nat) : Res Nat :=
  if b = 0 then W.div_zero a else .ok (a / b)

/-- The statement `a -= b` on 128-bit values. -/
def uint128_sub (a b : Nat) : Nat := (a + 2 ^ 128 - b % 2 ^ 128) % 2 ^ 128

/-- The product `a * b` of 128-bit values. -/
def uint128_mul (a b : Nat) : Nat := (a * b) % 2 ^ 128

/-- The amount of an xAsset conversion after the burnt fee is taken off, before
`HF_VERSION_USE_COLLATERAL`: `(fee * 4) / 5` is computed on 64-bit values, with
`rv.txnOffshoreFee` from `HF_VERSION_HAVEN2` on and the per-colour fee `fee_old` from
`HF_VERSION_XASSET_FEES_V2` on. -/
def checkBurntAndMinted_net (rv : rctSig) (fee_old : Nat) (version : Nat) (amount : Nat) :
    Nat :=
  if version < HF_VERSION_USE_COLLATERAL then
    if version ≥ HF_VERSION_HAVEN2 then
      uint128_sub amount (((rv.txnOffshoreFee * 4) % 2 ^ 64) / 5)
    else if version ≥ HF_VERSION_XASSET_FEES_V2 then
      uint128_sub amount (((fee_old * 4) % 2 ^ 64) / 5)
    else amount
  else amount

/-- The function `checkBurntAndMinted`. It has no `try` block: what a quotient throws
leaves the function. -/
def checkBurntAndMinted (W : uint128_ops) (rv : rctSig) (amount_burnt amount_minted : Nat)
    (pr : pricing_record) (source destination : String) (version : Nat) : Res Bool :=
  if source = "XHV" ∧ destination = "XUSD" then do
    let xhv_128 := amount_burnt
    let exchange_128 := if version ≥ HF_PER_OUTPUT_UNLOCK_VERSION
      then min pr.unused1 pr.xUSD else pr.unused1
    let xusd_128 := uint128_mul xhv_128 exchange_128
    let xusd_128 ← uint128_div W xusd_128 COIN
    let minted_128 := amount_minted
    if xusd_128 ≠ minted_128 then pure false else pure true
  else if source = "XUSD" ∧ destination = "XHV" then do
    let xusd_128 := amount_burnt
    let exchange_128 := if version ≥ HF_PER_OUTPUT_UNLOCK_VERSION
      then max pr.unused1 pr.xUSD else pr.unused1
    let xhv_128 := uint128_mul xusd_128 COIN
    let xhv_128 ← uint128_div W xhv_128 exchange_128
    let minted_128 := amount_minted
    if W.to_uint64 xhv_128 ≠ minted_128 then pure false else pure true
  else if source = "XUSD" ∧ destination ≠ "XHV" ∧ destination ≠ "XUSD" then do
    let xusd_128 := checkBurntAndMinted_net rv rv.txnOffshoreFee_usd version amount_burnt
    let exchange_128 := pr.rates destination
    let xasset_128 := uint128_mul xusd_128 exchange_128
    let xasset_128 ← uint128_div W xasset_128 COIN
    let minted_128 := amount_minted
    if xasset_128 ≠ minted_128 then pure false else pure true
  else if source ≠ "XHV" ∧ source ≠ "XUSD" ∧ destination = "XUSD" then do
    let xasset_128 := checkBurntAndMinted_net rv rv.txnOffshoreFee_xasset version amount_burnt
    let exchange_128 := pr.rates source
    let xusd_128 := uint128_mul xasset_128 COIN
    let xusd_128 ← uint128_div W xusd_128 exchange_128
    let minted_128 := amount_minted
    if W.to_uint64 xusd_128 ≠ minted_128 then pure false else pure true
  else
    pure false

/-! ## MLSAG: the verifier `MLSAG_Ver` -/

section Mlsag

variable {Pt : Type} [AddCommGroup Pt] (L : CryptoLib Pt)

/-- The loop over the key images `rv.II[i]`, `i < dsRows`, once `rv.II.size() == dsRows`
is checked: `none` is the `return false` of "Bad key image", and `precomp` throws for a
key image that is no point. -/
def MLSAG_Ver_images : List key → Res (Option (List Pt))
  | [] => .ok (some [])
  | I :: rest =>
    if ¬ (!equalKeys I identity) then .ok none else do
      let Ip ← precomp L I
      match ← MLSAG_Ver_images rest with
      | none => pure none
      | some Ips => pure (some (Ip :: Ips))

/-- The loop `for (j = 0; j < dsRows; j++)` of column `i`, from the row `j` on with `k`
rows to go: the entries `pk[i][j]`, `L` and `R` of `toHash`. `addKeys2` throws for a
key that is no point. -/
def MLSAG_Ver_linkable (pk_i ss_i : List key) (Ip : List Pt) (c_old : key) :
    Nat → Nat → Res (List key)
  | 0, _ => .ok []
  | k + 1, j => do
    let s ← idx ss_i j
    let P ← idx pk_i j
    let Pp ← L.point P
    let Lk := addKeys2 L s c_old Pp
    -- Compute R directly
    let hash8_p3 := L.hash_to_p3 P
    let I ← idx Ip j
    let Rk := L.tobytes (s • hash8_p3 + c_old • I)
    let rest ← MLSAG_Ver_linkable pk_i ss_i Ip c_old k (j + 1)
    pure (P :: Lk :: Rk :: rest)

/-- The loop `for (j = dsRows, ii = 0; j < rows; j++, ii++)` of column `i`, from the row
`j` on with `k` rows to go: the entries `pk[i][j]` and `L` of `toHash`. -/
def MLSAG_Ver_plain (pk_i ss_i : List key) (c_old : key) : Nat → Nat → Res (List key)
  | 0, _ => .ok []
  | k + 1, j => do
    let s ← idx ss_i j
    let P ← idx pk_i j
    let Pp ← L.point P
    let Lk := addKeys2 L s c_old Pp
    let rest ← MLSAG_Ver_plain pk_i ss_i c_old k (j + 1)
    pure (P :: Lk :: rest)

/-- The loop `while (i < cols)` from the column `i` on with `k` columns to go: the
challenge it ends with, and `none` for the `return false` of "Bad signature hash". -/
def MLSAG_Ver_columns (message : key) (pk : List (List key)) (rv : mgSig)
    (dsRows rows : Nat) (Ip : List Pt) : Nat → Nat → key → Res (Option key)
  | 0, _, c_old => .ok (some c_old)
  | k + 1, i, c_old => do
    let ss_i ← idx rv.ss i
    let pk_i ← idx pk i
    let linkable ← MLSAG_Ver_linkable L pk_i ss_i Ip c_old dsRows 0
    let plain ← MLSAG_Ver_plain L pk_i ss_i c_old (rows - dsRows) dsRows
    let toHash := message :: (linkable ++ plain)
    let c := L.hash_to_scalar toHash
    if ¬ (!equalKeys c zero) then pure none else
      MLSAG_Ver_columns message pk rv dsRows rows Ip k (i + 1) c

/-- The verifier `MLSAG_Ver`; it has no `try` block. -/
def MLSAG_Ver (message : key) (pk : List (List key)) (rv : mgSig) (dsRows : Nat) :
    Res Bool :=
  let cols := pk.length
  if ¬ cols ≥ 2 then .ok false else do
    let pk0 ← idx pk 0
    let rows := pk0.length
    if ¬ rows ≥ 1 then pure false else
    if ¬ (pk.drop 1).all (fun pk_i => decide (pk_i.length = rows)) then pure false else
    if ¬ rv.II.length = dsRows then pure false else
    if ¬ rv.ss.length = cols then pure false else
    if ¬ rv.ss.all (fun ss_i => decide (ss_i.length = rows)) then pure false else
    if ¬ dsRows ≤ rows then pure false else
    if ¬ rv.ss.all (fun ss_i => ss_i.all sc_check) then pure false else
    if ¬ sc_check rv.cc then pure false else do
      let c_old := rv.cc
      match ← MLSAG_Ver_images L rv.II with
      | none => pure false
      | some Ip =>
        match ← MLSAG_Ver_columns L message pk rv dsRows rows Ip cols 0 c_old with
        | none => pure false
        | some c_old =>
          let c := sc_sub c_old rv.cc
          pure (sc_isnonzero c == false)

/-- The entries of `toHash` for the linkable row `j` of a column: the key, the point
`L = s·G + c·pk` and the point `R = s·hash_to_point(pk) + c·I_j`. -/
def mlsag_linkable_row (pk_i ss_i : List key) (II : List key) (c : key) (j : Nat) :
    List key :=
  let P := pk_i.getD j 0
  let s := ss_i.getD j 0
  [P, L.tobytes (s • L.G + c • L.pt P),
    L.tobytes (s • L.hash_to_p3 P + c • L.pt (II.getD j 0))]

/-- The entries of `toHash` for a row `j` that is not linkable: the key and the point
`L = s·G + c·pk`. -/
def mlsag_plain_row (pk_i ss_i : List key) (c : key) (j : Nat) : List key :=
  let P := pk_i.getD j 0
  let s := ss_i.getD j 0
  [P, L.tobytes (s • L.G + c • L.pt P)]

/-- One column of the walk: the challenge computed from the challenge `c` over the
column `pk_i` with the responses `ss_i`. -/
def mlsag_round (message : key) (pk_i ss_i : List key) (II : List key) (dsRows : Nat)
    (c : key) : key :=
  L.hash_to_scalar (message ::
    (((List.range' 0 dsRows).map (mlsag_linkable_row L pk_i ss_i II c)).flatten ++
      ((List.range' dsRows (pk_i.length - dsRows)).map (mlsag_plain_row L pk_i ss_i c)).flatten))

/-- The challenge after `k` columns of the walk from `rv.cc`. -/
def mlsag_challenge (message : key) (pk : List (List key)) (rv : mgSig) (dsRows : Nat) :
    Nat → key
  | 0 => rv.cc
  | k + 1 =>
    mlsag_round L message (pk.getD k []) (rv.ss.getD k []) rv.II dsRows
      (mlsag_challenge message pk rv dsRows k)

/-- The number of rows of the key matrix: the size of its first column. -/
def mlsag_rows (pk : List (List key)) : Nat := (pk.getD 0 []).length

/-- The rejections `MLSAG_Ver` makes before it reads a key image: fewer than two
columns, no row, a key matrix that is not rectangular, a number of key images other than
`dsRows`, a scalar matrix of other dimensions, `dsRows` above the number of rows, a
scalar of `rv.ss` or a `rv.cc` that is not canonical. -/
def mlsag_rejected (pk : List (List key)) (rv : mgSig) (dsRows : Nat) : Prop :=
  pk.length < 2 ∨ mlsag_rows pk = 0 ∨ (∃ pk_i ∈ pk, pk_i.length ≠ mlsag_rows pk) ∨
    rv.II.length ≠ dsRows ∨ rv.ss.length ≠ pk.length ∨
    (∃ ss_i ∈ rv.ss, ss_i.length ≠ mlsag_rows pk) ∨ dsRows > mlsag_rows pk ∨
    (∃ ss_i ∈ rv.ss, ∃ s ∈ ss_i, ¬ s < ell) ∨ ¬ rv.cc < ell

/-- Every key of the matrix is a point. -/
def mlsag_points (pk : List (List key)) : Prop :=
  ∀ pk_i ∈ pk, ∀ P ∈ pk_i, (L.frombytes P).isSome = true

/-- The walk over the columns from `rv.cc` closes: none of the challenges it computes
is zero and the last one is `rv.cc`. -/
def mlsag_closes (message : key) (pk : List (List key)) (rv : mgSig) (dsRows : Nat) : Prop :=
  (∀ k, k < pk.length → mlsag_challenge L message pk rv dsRows (k + 1) ≠ zero) ∧
    mlsag_challenge L message pk rv dsRows pk.length = rv.cc

end Mlsag

/-! ## Modular powers -/

/-- The power `a^k mod p` by repeated squaring, for an exponent `k` below `2^fuel`. -/
def powmod (p : Nat) : Nat → Nat → Nat → Nat
  | 0, _, _ => 1 % p
  | fuel + 1, a, k =>
    if k = 0 then 1 % p else
      let h := powmod p fuel (a * a % p) (k / 2)
      if k % 2 = 1 then (a * h) % p else h

/-! ## The batches of the range-proof stage -/

/-- The values of `batch_size` that the loop `while (amounts_proved < n_amounts)` of
`genRctSimple` goes through, in order: the loop without its proofs. -/
def genRctSimple_batch_list (range_proof_type : RangeProofType) (n_amounts : Nat) :
    Nat → Nat → Res (List Nat)
  | 0, amounts_proved => if amounts_proved < n_amounts then .error .fuel else .ok []
  | fuel + 1, amounts_proved =>
    if amounts_proved < n_amounts then do
      let batch_size ← (if range_proof_type = .RangeProofMultiOutputBulletproof then
          genRctSimple_batch_size amounts_proved n_amounts 5 1
        else pure 1)
      let rest ← genRctSimple_batch_list range_proof_type n_amounts fuel
        (amounts_proved + batch_size)
      pure (batch_size :: rest)
    else .ok []

/-- The size of a batch in the words of the specification: with
`RangeProofMultiOutputBulletproof` the largest power of two that is at most the number
`remaining` of outputs still unproved and at most `BULLETPROOF_MAX_OUTPUTS`, and 1
otherwise. -/
def spec_batch_size (range_proof_type : RangeProofType) (remaining b : Nat) : Prop :=
  if range_proof_type = .RangeProofMultiOutputBulletproof then
    (∃ e, b = 2 ^ e) ∧ b ≤ remaining ∧ b ≤ BULLETPROOF_MAX_OUTPUTS ∧
      ∀ e, 2 ^ e ≤ remaining → 2 ^ e ≤ BULLETPROOF_MAX_OUTPUTS → 2 ^ e ≤ b
  else b = 1

/-- The split of the specification: consecutive batches from the output `proved` on,
each of the size `spec_batch_size` gives for the outputs then unproved, up to the
output `n`. -/
def spec_batches (range_proof_type : RangeProofType) (n : Nat) : Nat → List Nat → Prop
  | proved, [] => proved = n
  | proved, b :: rest =>
    proved < n ∧ spec_batch_size range_proof_type (n - proved) b ∧
      spec_batches range_proof_type n (proved + b) rest

/-- One Bulletproof for each batch: the proof at position `k` is the one the prover
returns for the amounts of the batch at position `k`, and the masks `ms` are the masks
the prover returns for the outputs of each batch, in the order of the outputs. -/
def batch_proofs {Pt : Type} [AddCommGroup Pt] (L : CryptoLib Pt) (dev : device)
    (outamounts : List outamount) (amount_keys : List key) :
    Nat → List Nat → List Bulletproof → List key → Prop
  | _, [], ps, ms => ps = [] ∧ ms = []
  | _, _ :: _, [], _ => False
  | proved, b :: rest, p :: ps, ms =>
    ∃ C masks ms2, genRctSimple_prove L dev
        (((outamounts.drop proved).take b).map (fun o => o.2.1)) amount_keys proved
          = .ok (p, C, masks) ∧
      b ≤ masks.length ∧ ms = masks.take b ++ ms2 ∧
      batch_proofs L dev outamounts amount_keys (proved + b) rest ps ms2

/-! ## The scaled masks of the specification -/

theorem ell8_pos : 0 < 8 * ell := by decide

/-- An element of the cyclic group of order `8·l`, the order of the whole group of the
curve, as its residue. The multiples of 8 are the subgroup of order `l`, and the
multiples of `l` are the torsion points, of order 1, 2, 4 or 8. -/
structure WPt where
  v : Nat
  h : v < 8 * ell

namespace WPt

theorem ext_w {a b : WPt} (h : a.v = b.v) : a = b := by
  cases a; cases b; simp_all

instance instDecidableEq : DecidableEq WPt := fun a b =>
  decidable_of_iff (a.v = b.v) ⟨ext_w, fun h => by rw [h]⟩

/-- The residue of a natural number. -/
def ofNat (n : Nat) : WPt := ⟨n % (8 * ell), Nat.mod_lt _ ell8_pos⟩

instance instZero : Zero WPt := ⟨ofNat 0⟩
instance instAdd : Add WPt := ⟨fun a b => ofNat (a.v + b.v)⟩
instance instNeg : Neg WPt := ⟨fun a => ofNat (8 * ell - a.v)⟩
instance instSub : Sub WPt := ⟨fun a b => ofNat (a.v + (8 * ell - b.v))⟩
instance instSMulNat : SMul ℕ WPt := ⟨fun n a => ofNat (n * a.v)⟩
instance instSMulInt : SMul ℤ WPt :=
  ⟨fun z a => ofNat ((z % ((8 * ell : ℕ) : ℤ)).toNat * a.v)⟩

/-- The residue class in `ZMod (8·l)`. -/
def toZMod (a : WPt) : ZMod (8 * ell) := (a.v : ZMod (8 * ell))

theorem toZMod_injective_w : Function.Injective toZMod := by
  intro a b h
  apply ext_w
  have := (ZMod.natCast_eq_natCast_iff' a.v b.v (8 * ell)).1 h
  rwa [Nat.mod_eq_of_lt a.h, Nat.mod_eq_of_lt b.h] at this

theorem toZMod_ofNat_w (n : Nat) : toZMod (ofNat n) = (n : ZMod (8 * ell)) := by
  show ((n % (8 * ell) : ℕ) : ZMod (8 * ell)) = n
  exact ZMod.natCast_mod n (8 * ell)

theorem cast_ell8 : ((8 * ell : ℕ) : ZMod (8 * ell)) = 0 := ZMod.natCast_self (8 * ell)

instance instAddCommGroup : AddCommGroup WPt :=
  Function.Injective.addCommGroup toZMod toZMod_injective_w
    (by show toZMod (ofNat 0) = 0; rw [toZMod_ofNat_w, Nat.cast_zero])
    (by intro a b; show toZMod (ofNat _) = _; rw [toZMod_ofNat_w, Nat.cast_add]; rfl)
    (by intro a; show toZMod (ofNat _) = _
        rw [toZMod_ofNat_w, Nat.cast_sub a.h.le, cast_ell8, zero_sub]; rfl)
    (by intro a b; show toZMod (ofNat _) = _
        rw [toZMod_ofNat_w, Nat.cast_add, Nat.cast_sub b.h.le, cast_ell8, zero_sub,
          ← sub_eq_add_neg]; rfl)
    (by intro a n; show toZMod (ofNat _) = _
        rw [toZMod_ofNat_w, Nat.cast_mul, nsmul_eq_mul]; rfl)
    (by intro a z; show toZMod (ofNat _) = _
        rw [toZMod_ofNat_w, Nat.cast_mul, zsmul_eq_mul]
        congr 1
        have h0 : (0 : ℤ) ≤ z % ((8 * ell : ℕ) : ℤ) :=
          Int.emod_nonneg _ (by have := ell8_pos; omega)
        have h1 : (((z % ((8 * ell : ℕ) : ℤ)).toNat : ℤ) : ZMod (8 * ell)) =
            ((z % ((8 * ell : ℕ) : ℤ) : ℤ) : ZMod (8 * ell)) := by
          rw [Int.toNat_of_nonneg h0]
        rw [Int.cast_natCast] at h1
        rw [h1, ZMod.intCast_mod])

end WPt

/-- A library over the cyclic group of order `8·l`: the point of residue `x` is encoded
by the key `x + 1`, the generators `G = 8` and `H = 7·G = 56` have order `l`, the hash
to a point lands in the subgroup of order `l`, and every Bulletproof is accepted. -/
def wLib : CryptoLib WPt where
  frombytes := fun k => if h : 1 ≤ k ∧ k - 1 < 8 * ell then some ⟨k - 1, h.2⟩ else none
  tobytes := fun P => P.v + 1
  G := WPt.ofNat 8
  H := WPt.ofNat 56
  hash_to_p3 := fun k => WPt.ofNat (8 * (k % 1000 + 1))
  hash_to_scalar := fun ks => ks.sum % 1000 + 1
  bulletproof_VERIFY := fun _ => some true
  n_bulletproof_amounts := fun ps => (ps.map (fun b => b.V.length)).sum
  is_rct_bulletproof := fun t => decide (t ∈ [RCTTypeBulletproof, RCTTypeBulletproof2,
    RCTTypeCLSAG, RCTTypeCLSAGN, RCTTypeHaven2, RCTTypeHaven3])
  ASSET_TYPES := ["XHV", "XUSD", "xAG", "xAU", "xAUD"]

/-! ## Sample transactions over the concrete library -/

/-- A Bulletproof over `n` amounts, as far as the library `zLib` looks at it. -/
def exProof (n : Nat) : Bulletproof :=
  { V := List.replicate n identity, A := identity, S := identity, T1 := identity,
    T2 := identity, taux := identity, mu := identity, L := [], R := [], a := identity,
    b := identity, t := identity }

/-- A signature with the given type, fee, commitments, pseudo-outs and mask sums; one
Bulletproof covers its outputs and every input has a (blank) CLSAG. -/
def exSig (type : RCTType) (txnFee txnOffshoreFee : Nat) (outs pseudoOuts maskSums : List key) :
    rctSig :=
  { type := type, message := 0, mixRing := [], pseudoOuts := [],
    ecdhInfo := outs.map (fun _ => { mask := 0, amount := 0 }),
    outPk := outs.map (fun C => { dest := identity, mask := C }),
    outPk_usd := [], outPk_xasset := [],
    txnFee := txnFee, txnFee_usd := 0, txnFee_xasset := 0,
    txnOffshoreFee := txnOffshoreFee, txnOffshoreFee_usd := 0, txnOffshoreFee_xasset := 0,
    maskSums := maskSums,
    p := { bulletproofs := [exProof outs.length], MGs := [],
           CLSAGs := pseudoOuts.map (fun _ => { s := [], c1 := 0, I := 0, D := 0 }),
           pseudoOuts := pseudoOuts } }

/-- A pricing record with the two XHV prices given and every other rate 0. -/
def exPrices (unused1 xUSD : Nat) : pricing_record :=
  { xUSD := xUSD, unused1 := unused1, rates := fun _ => 0, empty := false }

/-- A transfer of XHV: one input of 30 (mask 9), outputs of 10 (mask 4) and 19
(mask 5), fee 1. -/
def exTransfer : rctSig :=
  exSig RCTTypeHaven2 1 0 [genC zLib 4 10, genC zLib 5 19] [genC zLib 9 30] [0, 0]

/-- The outputs of `exTransfer`. -/
def exTransferVout : List tx_out :=
  [{ amount := 0, target := .txout_to_key }, { amount := 0, target := .txout_to_key }]

/-- A signature with two output commitments, of 10 (mask 4) and of 19 (mask 5), whose
single input of 11 (mask 4) pays for the first output and the fee of 1 only. -/
def exUnpaired : rctSig :=
  exSig RCTTypeHaven2 1 0 [genC zLib 4 10, genC zLib 5 19] [genC zLib 4 11] [0, 0]

/-- An offshore at the rate of 500 XUSD for 1 XHV: one XHV input of 100 (mask 15);
outputs 5000 XUSD (mask 5000), 70 XHV of change (mask 2) and 20 XHV of collateral
(mask 3); 10 XHV are burnt. -/
def exOffshore : rctSig :=
  exSig RCTTypeHaven3 0 0 [genC zLib 5000 5000, genC zLib 2 70, genC zLib 3 20]
    [genC zLib 15 100] [15, 5, 3]

/-- The outputs of `exOffshore`. -/
def exOffshoreVout : List tx_out :=
  [{ amount := 0, target := .txout_offshore }, { amount := 0, target := .txout_to_key },
   { amount := 0, target := .txout_to_key }]

/-- An onshore that balances at the rate `rate` XUSD for 1 XHV: an XUSD input of `rate`
(mask `rate`) and an XHV collateral input of 12 (mask 4); outputs 1 XHV (mask 1), the
collateral of 10 XHV (mask 3) and its change of 2 XHV (mask 1). -/
def exOnshore (rate : Nat) : rctSig :=
  exSig RCTTypeHaven3 0 0 [genC zLib 1 1, genC zLib 3 10, genC zLib 1 2]
    [genC zLib rate rate, genC zLib 4 12] [rate, 0, 3]

/-- The outputs of `exOnshore`. -/
def exOnshoreVout : List tx_out :=
  [{ amount := 0, target := .txout_to_key }, { amount := 0, target := .txout_to_key },
   { amount := 0, target := .txout_to_key }]

/-- The inputs of `exOnshore`: the XUSD input, then the collateral input. -/
def exOnshoreVin : List txin_v := [.txin_offshore, .txin_to_key]

/-- A ring of three members; the member at position 1 has the one-time key `3·G` and
a commitment to 30 with mask 5. -/
def exRing : List ctkey :=
  [{ dest := scalarmultBase zLib 2, mask := genC zLib 6 40 },
   { dest := scalarmultBase zLib 3, mask := genC zLib 5 30 },
   { dest := scalarmultBase zLib 8, mask := genC zLib 1 12 }]

/-- The secrets of the member at position 1 of `exRing`: spend secret 3, mask 5. -/
def exInSk : ctkey := { dest := 3, mask := 5 }

/-- The responses drawn for the decoys of the sample runs. -/
def exSkGen (i : Nat) : key := 100 + i

/-- A Bulletproof over one amount, with the six rounds of the inner product. -/
def exProof1 : Bulletproof :=
  { V := [identity], A := identity, S := identity, T1 := identity,
    T2 := identity, taux := identity, mu := identity, L := List.replicate 6 identity,
    R := List.replicate 6 identity, a := identity, b := identity, t := identity }

/-- The transfer `exTransfer` with one Bulletproof for each of its two outputs. -/
def exTwoProofs : rctSig :=
  { exTransfer with p := { exTransfer.p with bulletproofs := [exProof1, exProof1] } }

/-- A signature without outputs and without Bulletproof: its single input of 30
(mask 0) is spent on the fee of 30. -/
def exNoProof : rctSig :=
  { exSig RCTTypeHaven2 30 0 [] [genC zLib 0 30] [0, 0] with
    p := { bulletproofs := [], MGs := [],
           CLSAGs := [{ s := [], c1 := 0, I := 0, D := 0 }],
           pseudoOuts := [genC zLib 0 30] } }

/-- A blank result of `CLSAG_Gen`. -/
def exBlank : CLSAG_Gen_result :=
  { sig := { s := [], c1 := 0, I := 0, D := 0 }, mscout := none, mspout := none }

/-- A signing run over the sample ring, the real key `3·G` at position 1. -/
def exRun1 : Res CLSAG_Gen_result :=
  CLSAG_Gen zLib 77 (exRing.map ctkey.dest) 3 (exRing.map ctkey.mask) 4
    (exRing.map ctkey.mask) (genC zLib 2 30) 1 none false false 11 exSkGen

/-- A signing run over a ring that holds the key `3·G` alone, with another message and
other commitments, offset and scalars. -/
def exRun2 : Res CLSAG_Gen_result :=
  CLSAG_Gen zLib 5 [scalarmultBase zLib 3] 3 [genC zLib 8 1] 6 [genC zLib 9 2]
    (genC zLib 1 2) 0 none false true 23 (fun i => 7 + i)

/-- The signature of the member at position 1 of the sample ring, for the message 77
and the pseudo-output with mask 2. -/
def exSigned : clsag :=
  ((proveRctCLSAGSimple zLib 77 exRing exInSk 2 (genC zLib 2 30) none false false 1 11
    exSkGen).value exBlank).sig

/-- A device over `zLib`: the mask of an output is read off its amount key, a blob is
sealed by adding the amount key to both of its parts, and the prover commits to each
amount, `V[j] = INV_EIGHT·(mask_j·G + amount_j·H)`. -/
def exDev : device where
  fake := false
  genCommitmentMask := fun k => k % 1000 + 1
  ecdhEncode := fun t k _ => { mask := t.mask + k, amount := t.amount + k }
  ecdhDecode := fun t k _ => { mask := t.mask - k, amount := t.amount - k }
  bulletproof_PROVE := fun amounts masks =>
    some { exProof1 with
      V := List.zipWith (fun a m => zLib.tobytes (INV_EIGHT • (m • zLib.G + a • zLib.H)))
        amounts masks }
  is_rct_simple := fun t => decide (t ∈ [RCTTypeSimple, RCTTypeBulletproof,
    RCTTypeBulletproof2, RCTTypeCLSAG, RCTTypeCLSAGN, RCTTypeHaven2, RCTTypeHaven3])
  serialize_rctsig_base := fun rv inputs outputs => some [rv.txnFee, inputs, outputs]
  get_blob_hash := fun blob => blob.sum % 1000 + 1
  cn_fast_hash := fun ks => ks.sum % 1000 + 1
  mlsag_prehash := fun _ _ _ hashes _ => hashes.sum % 1000 + 1

/-- The transfer `exTransfer` with the blobs of its two outputs sealed under the amount
keys 55 and 66. -/
def exSealed : rctSig :=
  { exTransfer with
    ecdhInfo := [exDev.ecdhEncode { mask := 4, amount := 10 } 55 true,
                 exDev.ecdhEncode { mask := 5, amount := 19 } 66 true] }

/-- A call of `genRctSimple` over `zLib` and `exDev`: every input spends the member at
position 1 of a ring of three, whose key is `3·G` and whose commitment has the mask 5;
the destinations, the amount keys and the drawn scalars are fixed. -/
def exArgs (in_asset_type : String) (inamounts : List Nat) (inamounts_col_indices : List Nat)
    (onshore_col_amount : Nat) (outamounts : List outamount) (txnOffshoreFee : Nat)
    (rct_config : RCTConfig) (pr : pricing_record) : gen_args :=
  { dev := exDev, message := 9,
    inSk := inamounts.map (fun _ => exInSk),
    destinations := outamounts.enum.map (fun p => scalarmultBase zLib (21 + p.1)),
    inamounts := inamounts, inamounts_col_indices := inamounts_col_indices,
    onshore_col_amount := onshore_col_amount, in_asset_type := in_asset_type,
    outamounts := outamounts, txnFee := 0, txnOffshoreFee := txnOffshoreFee,
    mixRing := inamounts.map (fun amount =>
      [{ dest := scalarmultBase zLib 2, mask := genC zLib 6 40 },
       { dest := scalarmultBase zLib 3, mask := genC zLib 5 amount },
       { dest := scalarmultBase zLib 8, mask := genC zLib 1 12 }]),
    amount_keys := outamounts.enum.map (fun p => 55 + 11 * p.1),
    kLRki := none, msout := false,
    index := inamounts.map (fun _ => 1),
    rct_config := rct_config, pr := pr, tx_version := 7,
    aGen := fun j => 1000 + j, rand_a := fun j => 11 + j,
    skGen := fun j i => 100 + 10 * j + i }

/-- The configuration of a Haven3 signature with one padded range proof. -/
def exHaven3 : RCTConfig :=
  { range_proof_type := .RangeProofPaddedBulletproof, bp_version := 6 }

/-- A blank result of `genRctSimple`. -/
def exNone : genRctSimple_result :=
  { rv := exSig RCTTypeNull 0 0 [] [] [], outSk := [], msout := none }

/-- An onshore over `zLib`: 600 XUSD and a collateral input of 12 XHV pay 1 XHV at the
rate of 500, with a change of 100 XUSD, a collateral of 10 and a collateral change of 2. -/
def exGenOnshore : gen_args :=
  exArgs "XUSD" [600, 12] [1] 10
    [("XHV", (1, false)), ("XUSD", (100, false)), ("XHV", (10, true)), ("XHV", (2, true))]
    0 exHaven3 (exPrices (500 * COIN) (500 * COIN))

/-- The onshore of `exGenOnshore` without the change in XUSD, paid from one input of
500 XUSD. -/
def exGenNoChange : gen_args :=
  exArgs "XUSD" [500] [] 10
    [("XHV", (1, false)), ("XHV", (10, true)), ("XHV", (2, true))]
    0 exHaven3 (exPrices (500 * COIN) (500 * COIN))

/-- The direction with no flag set. -/
def exNoDirection : direction :=
  { offshore := false, onshore := false, offshore_to_offshore := false,
    xasset_to_xusd := false, xusd_to_xasset := false, xasset_transfer := false,
    conversion_tx := false }

/-- An offshore over `zLib`: 100 XHV pay 5000 XUSD at the rate of 500, with a change of
70 and a collateral of 20, which is flagged. -/
def exGenOffshoreCol : gen_args :=
  exArgs "XHV" [100] [] 0
    [("XHV", (70, false)), ("XUSD", (5000, false)), ("XHV", (20, true))]
    0 exHaven3 (exPrices (500 * COIN) (500 * COIN))

/-- A transfer over `zLib`: inputs of 30 and 12 XHV pay 10 and 31 XHV and an offshore
fee of 1. -/
def exGenTransfer : gen_args :=
  exArgs "XHV" [30, 12] [] 0 [("XHV", (10, false)), ("XHV", (31, false))]
    1 exHaven3 (exPrices (500 * COIN) (500 * COIN))

/-- The companion outputs of `exGenTransfer`. -/
def exGenTransferVout : List tx_out :=
  [{ amount := 0, target := .txout_to_key }, { amount := 0, target := .txout_to_key }]

/-- The offshore scenario over `zLib`: one input of `inamount` XHV pays 5000·COIN XUSD
at the rate of 500, with a change of 90·COIN XHV and an offshore fee of 1·COIN. -/
def exGenOffshore (inamount : Nat) : gen_args :=
  exArgs "XHV" [inamount] [] 0
    [("XHV", (90 * COIN, false)), ("XUSD", (5000 * COIN, false))]
    (1 * COIN) exHaven3 (exPrices (500 * COIN) (500 * COIN))

/-- The companion outputs of `exGenOffshore`. -/
def exGenOffshoreVout : List tx_out :=
  [{ amount := 0, target := .txout_to_key }, { amount := 0, target := .txout_offshore }]

/-- The transfer `exGenTransfer` with its second input listed as collateral. -/
def exGenTransferCol : gen_args :=
  exArgs "XHV" [30, 12] [1] 0 [("XHV", (10, false)), ("XHV", (31, false))]
    1 exHaven3 (exPrices (500 * COIN) (500 * COIN))

/-- The device `exDev` with the mask `l - 70` for every output: under it the commitment
to the amount 10 is the neutral point of `zLib`, where `H = 7·G`. -/
def exDevNeutral : device :=
  { exDev with genCommitmentMask := fun _ => ell - 70 }

/-- The device `exDev` with masks that are no canonical scalars. -/
def exDevWide : device :=
  { exDev with genCommitmentMask := fun k => ell + k }

/-- The transfer `exGenTransfer` made with the device `exDevNeutral`. -/
def exGenNeutral : gen_args := { exGenTransfer with dev := exDevNeutral }

/-- The transfer `exGenTransfer` made with the device `exDevWide`. -/
def exGenWide : gen_args := { exGenTransfer with dev := exDevWide }

/-! ## Basic facts -/

/-- A pricing record with the two XHV prices 500·COIN and the price of 2·COIN `xAU` for
one XUSD; every other rate is 0. -/
def exRates : pricing_record :=
  { xUSD := 500 * COIN, unused1 := 500 * COIN,
    rates := fun a => if a = "xAU" then 2 * COIN else 0, empty := false }

/-- A conversion of XUSD to `xAU` at the rate 2: one XUSD input of 110 (mask 7);
outputs 200 `xAU` (mask 10) and 10 XUSD of change (mask 2); 100 XUSD are burnt. -/
def exToXasset : rctSig :=
  exSig RCTTypeHaven2 0 0 [genC zLib 10 200, genC zLib 2 10] [genC zLib 7 110] [7, 2]

/-- The outputs of `exToXasset`. -/
def exToXassetVout : List tx_out :=
  [{ amount := 0, target := .txout_xasset "xAU" }, { amount := 0, target := .txout_offshore }]

/-- A conversion of `xAU` to XUSD at the rate 2: one `xAU` input of 210 (mask 7);
outputs 100 XUSD (mask 3) and 10 `xAU` of change (mask 1); 200 `xAU` are burnt. -/
def exFromXasset : rctSig :=
  exSig RCTTypeHaven2 0 0 [genC zLib 3 100, genC zLib 1 10] [genC zLib 7 210] [7, 1]

/-- The outputs of `exFromXasset`. -/
def exFromXassetVout : List tx_out :=
  [{ amount := 0, target := .txout_offshore }, { amount := 0, target := .txout_xasset "xAU" }]

/-- The conversion `exToXasset` with an offshore fee of 5 XUSD, paid by an input of 115
XUSD: beside the 100 XUSD converted, 4 XUSD of the fee are burnt. -/
def exToXassetFee : rctSig :=
  exSig RCTTypeHaven2 0 5 [genC zLib 10 200, genC zLib 2 10] [genC zLib 7 115] [7, 2]

/-- The call `exGenTransfer` with `bp_version = 2`, the type `RCTTypeBulletproof2`. -/
def exGenBulletproof2 : gen_args :=
  { exGenTransfer with
    rct_config := { range_proof_type := .RangeProofPaddedBulletproof, bp_version := 2 } }

/-- A signature of the given type with two CLSAGs over rings of three, whose scalars at
the positions 1 and 2 are `a` and `b`, and with no MLSAG. -/
def exMsClsag (type : RCTType) (a b : key) : rctSig :=
  { exSig type 0 0 [] [] [] with
    p := { bulletproofs := [], MGs := [],
           CLSAGs := [{ s := [10, a, 30], c1 := 7, I := 3, D := 4 },
                      { s := [40, 50, b], c1 := 8, I := 5, D := 6 }],
           pseudoOuts := [] } }

/-- A signature of the given type with one MLSAG over three columns of two rows, whose
scalar at the head of the line 1 is `a`, and with no CLSAG. -/
def exMsMlsag (type : RCTType) (a : key) : rctSig :=
  { exSig type 0 0 [] [] [] with
    p := { bulletproofs := [],
           MGs := [{ ss := [[10, 11], [a, 21], [30, 31]], cc := 7, II := [3] }],
           CLSAGs := [], pseudoOuts := [] } }

/-- The values `c = [3, 5]` and `mu_p = [7, 11]` left by a signing run of two inputs. -/
def exMsout : multisig_out := { c := [3, 5], mu_p := [7, 11] }

/-- A key matrix of two columns and two rows over `zLib`. -/
def exMlsagKeys : List (List key) := [[3, 4], [4, 5]]

/-- An MLSAG over `exMlsagKeys` with one linkable row, the key image 9 and the initial
challenge `cc`. -/
def exMlsag (cc : key) : mgSig := { ss := [[3, 6], [3, 7]], cc := cc, II := [9] }

/-- A key matrix of two columns and no row. -/
def exMlsagNoRows : List (List key) := [[], []]

/-- An MLSAG over `exMlsagNoRows`, with no key image. -/
def exMlsagEmpty : mgSig := { ss := [[], []], cc := 78, II := [] }

/-- The conversion `exToXasset` with an offshore fee of `2^62`. -/
def exHugeFee : rctSig := { exToXasset with txnOffshoreFee := 2 ^ 62 }

/-- The outputs of `exTransfer` and one more: `vout` is longer than `rv.outPk`. -/
def exTransferVout3 : List tx_out :=
  exTransferVout ++ [{ amount := 0, target := .txout_to_key }]

/-- The sample onshore with the type `RCTTypeHaven2` and two mask sums. -/
def exOnshoreHaven2 : rctSig :=
  { exOnshore 500 with type := RCTTypeHaven2, maskSums := [500, 0] }

/-- The sample offshore with the type `RCTTypeHaven2` and two mask sums. -/
def exOffshoreHaven2 : rctSig :=
  { exOffshore with type := RCTTypeHaven2, maskSums := [15, 5] }

/-- The device `exDev` in the mode `TRANSACTION_CREATE_FAKE`. -/
def exDevFake : device := { exDev with fake := true }

/-- Five outputs in XHV, of the amounts 1 to 5. -/
def exFiveOuts : List outamount :=
  [("XHV", (1, false)), ("XHV", (2, false)), ("XHV", (3, false)), ("XHV", (4, false)),
   ("XHV", (5, false))]

/-- The state of the range-proof stage before its first batch, with two mask sums. -/
def exStage0 : gen_outputs :=
  { bulletproofs := [], outPk := [], outPk_usd := [], outPk_xasset := [],
    maskSums := [zero, zero], outSk := [] }

/-- The sample offshore with an offshore fee of 5 XHV: one XHV input of 100 (mask 15);
outputs 5000 XUSD (mask 5000), 65 XHV of change (mask 2) and 20 XHV of collateral
(mask 3); 10 XHV are burnt. -/
def exOffshoreFee : rctSig :=
  exSig RCTTypeHaven3 0 5 [genC zLib 5000 5000, genC zLib 2 65, genC zLib 3 20]
    [genC zLib 15 100] [15, 5, 3]

/-- An onshore over `wLib` whose XHV output carries a torsion point: one XUSD input
committing to 30 (mask 9), an XUSD output with the same commitment and an XHV output
whose commitment is the point of residue `l`, of order 8; `maskSums = [0, 7]`, so that
with `H = 7·G` the burnt amount is 1. -/
def exTorsion : rctSig :=
  exSig RCTTypeHaven2 0 0 [genC wLib 9 30, wLib.tobytes (WPt.ofNat ell)] [genC wLib 9 30]
    [0, 7]

/-- The outputs of `exTorsion`: the XUSD output, then the XHV output. -/
def exTorsionVout : List tx_out :=
  [{ amount := 0, target := .txout_offshore }, { amount := 0, target := .txout_to_key }]

section Outcomes

variable {Pt : Type} {L : CryptoLib Pt}

theorem bind_eq_ok {α β : Type} {x : Res α} {f : α → Res β} {b : β} :
    (x >>= f) = .ok b ↔ ∃ a, x = .ok a ∧ f a = .ok b := by
  cases x <;> simp [bind, Except.bind]

theorem ok_bind {α β : Type} (a : α) (f : α → Res β) : ((Except.ok a : Res α) >>= f) = f a :=
  rfl

theorem pure_eq_ok {α : Type} {a b : α} : (pure a : Res α) = .ok b ↔ a = b := by
  simp [pure, Except.pure]

theorem catchFalse_eq_true {r : Res Bool} : catchFalse r = .ok true ↔ r = .ok true := by
  unfold catchFalse
  split
  · simp
  · rfl

theorem idx_eq_ok {α : Type} {xs : List α} {i : Nat} {x : α} :
    idx xs i = .ok x ↔ xs[i]? = some x := by
  unfold idx
  cases h : xs[i]? <;> simp

theorem point_eq_ok {k : key} {P : Pt} : L.point k = .ok P ↔ L.frombytes k = some P := by
  unfold CryptoLib.point
  split <;> simp_all

theorem points_cons {k : key} {ks : List key} {Ps : List Pt} :
    L.points (k :: ks) = some Ps ↔
      ∃ P Qs, L.frombytes k = some P ∧ L.points ks = some Qs ∧ Ps = P :: Qs := by
  simp only [CryptoLib.points]
  split
  · rename_i P Qs hP hQs
    simp only [Option.some.injEq]
    constructor
    · intro h
      exact ⟨P, Qs, hP, hQs, h.symm⟩
    · rintro ⟨P1, Q1, h1, h2, h3⟩
      rw [hP] at h1
      rw [hQs] at h2
      cases h1
      cases h2
      exact h3.symm
  · rename_i hne
    constructor
    · intro h
      cases h
    · rintro ⟨P1, Q1, h1, h2, _⟩
      exact absurd h2 (hne P1 Q1 h1)

theorem points_append {ks ks2 : List key} {Ps Qs : List Pt} (h1 : L.points ks = some Ps)
    (h2 : L.points ks2 = some Qs) : L.points (ks ++ ks2) = some (Ps ++ Qs) := by
  induction ks generalizing Ps with
  | nil =>
    simp only [CryptoLib.points, Option.some.injEq] at h1
    subst h1
    simpa using h2
  | cons k ks ih =>
    obtain ⟨P, Rs, hP, hRs, rfl⟩ := points_cons.1 h1
    rw [List.cons_append, points_cons]
    exact ⟨P, Rs ++ Qs, hP, ih hRs, rfl⟩

end Outcomes

section Basic

variable {Pt : Type} [AddCommGroup Pt] {L : CryptoLib Pt}

theorem CryptoLib.Sound.tobytes_inj (hL : L.Sound) {P Q : Pt} (h : L.tobytes P = L.tobytes Q) :
    P = Q := by
  have h1 := hL.frombytes_tobytes P
  rw [h, hL.frombytes_tobytes Q] at h1
  exact (Option.some.inj h1).symm

theorem CryptoLib.Sound.frombytes_identity (hL : L.Sound) : L.frombytes identity = some 0 := by
  rw [← hL.tobytes_zero]
  exact hL.frombytes_tobytes 0

theorem CryptoLib.Sound.tobytes_eq_identity (hL : L.Sound) {P : Pt} :
    L.tobytes P = identity ↔ P = 0 := by
  rw [← hL.tobytes_zero]
  exact ⟨fun h => hL.tobytes_inj h, fun h => by rw [h]⟩

theorem addKeys_eq_ok {A B K : key} :
    addKeys L A B = .ok K ↔
      ∃ a b, L.frombytes A = some a ∧ L.frombytes B = some b ∧ K = L.tobytes (a + b) := by
  simp only [addKeys, bind_eq_ok, point_eq_ok, pure_eq_ok]
  constructor
  · rintro ⟨a, ha, b, hb, h⟩
    exact ⟨a, b, ha, hb, h.symm⟩
  · rintro ⟨a, b, ha, hb, h⟩
    exact ⟨a, ha, b, hb, h.symm⟩

theorem subKeys_eq_ok {A B K : key} :
    subKeys L A B = .ok K ↔
      ∃ a b, L.frombytes A = some a ∧ L.frombytes B = some b ∧ K = L.tobytes (a - b) := by
  simp only [subKeys, bind_eq_ok, point_eq_ok, pure_eq_ok]
  constructor
  · rintro ⟨a, ha, b, hb, h⟩
    exact ⟨a, b, ha, hb, h.symm⟩
  · rintro ⟨a, b, ha, hb, h⟩
    exact ⟨a, ha, b, hb, h.symm⟩

theorem scalarmultKey_eq_ok {P a K : key} :
    scalarmultKey L P a = .ok K ↔ ∃ p, L.frombytes P = some p ∧ K = L.tobytes (a • p) := by
  simp only [scalarmultKey, bind_eq_ok, point_eq_ok, pure_eq_ok]
  constructor
  · rintro ⟨p, hp, h⟩
    exact ⟨p, hp, h.symm⟩
  · rintro ⟨p, hp, h⟩
    exact ⟨p, hp, h.symm⟩

theorem addKeysFrom_eq_ok {ks : List key} {acc s : Pt} :
    addKeysFrom L acc ks = .ok s ↔ ∃ Ps, L.points ks = some Ps ∧ s = acc + Ps.sum := by
  induction ks generalizing acc with
  | nil => simp [addKeysFrom, CryptoLib.points, eq_comm]
  | cons k ks ih =>
    simp only [addKeysFrom, bind_eq_ok, point_eq_ok, ih, points_cons]
    constructor
    · rintro ⟨P, hP, Qs, hQs, rfl⟩
      exact ⟨P :: Qs, ⟨P, Qs, hP, hQs, rfl⟩, by simp [add_assoc]⟩
    · rintro ⟨Ps, ⟨P, Qs, hP, hQs, rfl⟩, rfl⟩
      exact ⟨P, hP, Qs, hQs, by simp [add_assoc]⟩

theorem addKeysV_eq_ok (hL : L.Sound) {ks : List key} {K : key} :
    addKeysV L ks = .ok K ↔ ∃ Ps, L.points ks = some Ps ∧ K = L.tobytes Ps.sum := by
  cases ks with
  | nil => simp [addKeysV, CryptoLib.points, hL.tobytes_zero, eq_comm]
  | cons k ks =>
    simp only [addKeysV, bind_eq_ok, point_eq_ok, addKeysFrom_eq_ok, pure_eq_ok, points_cons]
    constructor
    · rintro ⟨P, hP, s, ⟨Qs, hQs, rfl⟩, rfl⟩
      exact ⟨P :: Qs, ⟨P, Qs, hP, hQs, rfl⟩, by simp⟩
    · rintro ⟨Ps, ⟨P, Qs, hP, hQs, rfl⟩, rfl⟩
      exact ⟨P, hP, P + Qs.sum, ⟨Qs, hQs, rfl⟩, by simp⟩

end Basic

/-! ## The loops of the semantic verifier -/

section Loops

theorem drop_of_get? {α : Type} {xs : List α} {i : Nat} {x : α} (h : xs[i]? = some x) :
    xs.drop i = x :: xs.drop (i + 1) := by
  induction xs generalizing i with
  | nil => simp at h
  | cons y ys ih =>
    cases i with
    | zero => simp at h; simp [h]
    | succ j => simp at h; simpa using ih h

theorem onshore_col_idx_eq_ok {tx_type : transaction_type} {version : Nat}
    {collateral_indices : List Nat} {i : Nat} {b : Bool}
    (h : onshore_col_idx tx_type version collateral_indices i = .ok b) :
    b = onshore_excluded tx_type version collateral_indices i := by
  unfold onshore_col_idx at h
  unfold onshore_excluded collateral_indexed
  by_cases hv : version ≥ HF_VERSION_USE_COLLATERAL
  · by_cases ht : tx_type = .ONSHORE
    · simp only [hv, ht, if_true] at h
      obtain ⟨c0, h0, h⟩ := bind_eq_ok.1 h
      rw [idx_eq_ok] at h0
      by_cases hi : i = c0
      · simp only [hi, if_true, pure_eq_ok] at h
        subst hi
        simp [hv, ht, h0, ← h]
      · simp only [hi, if_false] at h
        obtain ⟨c1, h1, h⟩ := bind_eq_ok.1 h
        rw [idx_eq_ok] at h1
        rw [pure_eq_ok] at h
        have hi2 : ¬ c0 = i := fun e => hi e.symm
        simp only [hv, ht, h0, h1, ← h, decide_True, Bool.true_and]
        by_cases hc : i = c1
        · simp [hc]
        · have hc2 : ¬ c1 = i := fun e => hc e.symm
          simp [hc, hc2, hi2]
    · simp only [hv, ht, if_true, if_false, pure_eq_ok] at h
      simp [ht, ← h]
  · simp only [hv, if_false, pure_eq_ok] at h
    simp [hv, ← h]

theorem output_masks_eq_ok {outPk : List ctkey} {tx_type : transaction_type}
    {strSource strDest : String} {version : Nat} {collateral_indices : List Nat}
    {vout : List tx_out} {i : Nat} {mC mD C D : List key}
    (h : output_masks outPk tx_type strSource strDest version collateral_indices
      vout i mC mD = .ok (some (C, D))) :
    C = mC ++ loop_source (onshore_excluded tx_type version collateral_indices) strSource
          (List.enumFrom i (vout.zip (outPk.drop i))) ∧
    D = mD ++ loop_dest (onshore_excluded tx_type version collateral_indices) strSource
          strDest (List.enumFrom i (vout.zip (outPk.drop i))) := by
  induction vout generalizing i mC mD with
  | nil =>
    simp only [output_masks, Except.ok.injEq, Option.some.injEq, Prod.mk.injEq] at h
    simp [loop_source, loop_dest, h.1, h.2]
  | cons o rest ih =>
    simp only [output_masks] at h
    obtain ⟨b, hb, h⟩ := bind_eq_ok.1 h
    have hb := onshore_col_idx_eq_ok hb
    cases ha : output_asset_type o with
    | none =>
      rw [ha] at h
      simp [pure, Except.pure] at h
    | some a =>
      rw [ha] at h
      simp only at h
      by_cases hcol : b = true
      · simp only [hcol, not_true_eq_false, if_false] at h
        have := ih h
        rw [hcol] at hb
        cases hd : outPk.drop i with
        | nil =>
          have hd2 : outPk.drop (i + 1) = [] := by
            rw [List.drop_eq_nil_iff] at hd ⊢
            omega
          rw [hd2] at this
          simpa using this
        | cons pk pks =>
          have hd2 : outPk.drop (i + 1) = pks := by
            have h3 := List.drop_drop 1 i outPk
            rw [hd] at h3
            rw [← h3]
            simp
          rw [hd2] at this
          simp only [List.zip_cons_cons, List.enumFrom_cons, loop_source, loop_dest,
            List.filter_cons, in_source, in_dest, ← hb]
          simpa [loop_source, loop_dest, in_source, in_dest] using this
      · have hcol2 : b = false := by simpa using hcol
        rw [hcol2] at hb
        simp only [hcol2, Bool.false_eq_true, not_false_eq_true, if_true] at h
        by_cases hs : a = strSource
        · simp only [hs, if_true] at h
          obtain ⟨pk, hpk, h⟩ := bind_eq_ok.1 h
          rw [idx_eq_ok] at hpk
          have := ih h
          rw [drop_of_get? hpk]
          simp only [List.zip_cons_cons, List.enumFrom_cons, loop_source, loop_dest,
            List.filter_cons, in_source, in_dest, ← hb, ha, hs]
          simpa [loop_source, loop_dest, in_source, in_dest] using this
        · simp only [hs, if_false] at h
          by_cases hdst : a = strDest
          · simp only [hdst, if_true] at h
            obtain ⟨pk, hpk, h⟩ := bind_eq_ok.1 h
            rw [idx_eq_ok] at hpk
            have := ih h
            rw [drop_of_get? hpk]
            have hs2 : ¬ strDest = strSource := fun e => hs (hdst.trans e)
            simp only [List.zip_cons_cons, List.enumFrom_cons, loop_source, loop_dest,
              List.filter_cons, in_source, in_dest, ← hb, ha, hdst]
            simpa [loop_source, loop_dest, in_source, in_dest, hs2] using this
          · simp only [hdst, if_false] at h
            simp [pure, Except.pure] at h

theorem output_masks_coloured {outPk : List ctkey} {tx_type : transaction_type}
    {strSource strDest : String} {version : Nat} {collateral_indices : List Nat}
    {vout : List tx_out} {i : Nat} {mC mD C D : List key}
    (h : output_masks outPk tx_type strSource strDest version collateral_indices
      vout i mC mD = .ok (some (C, D))) :
    ∀ x ∈ List.enumFrom i (vout.zip (outPk.drop i)),
      onshore_excluded tx_type version collateral_indices x.1 = true ∨
      in_source (onshore_excluded tx_type version collateral_indices) strSource x = true ∨
      in_dest (onshore_excluded tx_type version collateral_indices) strSource strDest x
        = true := by
  induction vout generalizing i mC mD with
  | nil => simp
  | cons o rest ih =>
    simp only [output_masks] at h
    obtain ⟨b, hb, h⟩ := bind_eq_ok.1 h
    have hb := onshore_col_idx_eq_ok hb
    cases ha : output_asset_type o with
    | none =>
      rw [ha] at h
      simp [pure, Except.pure] at h
    | some a =>
      rw [ha] at h
      simp only at h
      by_cases hcol : b = true
      · simp only [hcol, not_true_eq_false, if_false] at h
        have := ih h
        rw [hcol] at hb
        cases hd : outPk.drop i with
        | nil => simp
        | cons pk pks =>
          have hd2 : outPk.drop (i + 1) = pks := by
            have h3 := List.drop_drop 1 i outPk
            rw [hd] at h3
            rw [← h3]
            simp
          rw [hd2] at this
          intro x hx
          simp only [List.zip_cons_cons, List.enumFrom_cons, List.mem_cons] at hx
          rcases hx with rfl | hx
          · exact Or.inl hb.symm
          · exact this x hx
      · have hcol2 : b = false := by simpa using hcol
        rw [hcol2] at hb
        simp only [hcol2, Bool.false_eq_true, not_false_eq_true, if_true] at h
        by_cases hs : a = strSource
        · simp only [hs, if_true] at h
          obtain ⟨pk, hpk, h⟩ := bind_eq_ok.1 h
          rw [idx_eq_ok] at hpk
          have := ih h
          rw [drop_of_get? hpk]
          intro x hx
          simp only [List.zip_cons_cons, List.enumFrom_cons, List.mem_cons] at hx
          rcases hx with rfl | hx
          · right; left
            simp [in_source, ← hb, ha, hs]
          · exact this x hx
        · simp only [hs, if_false] at h
          by_cases hdst : a = strDest
          · simp only [hdst, if_true] at h
            obtain ⟨pk, hpk, h⟩ := bind_eq_ok.1 h
            rw [idx_eq_ok] at hpk
            have := ih h
            rw [drop_of_get? hpk]
            have hs2 : ¬ strDest = strSource := fun e => hs (hdst.trans e)
            intro x hx
            simp only [List.zip_cons_cons, List.enumFrom_cons, List.mem_cons] at hx
            rcases hx with rfl | hx
            · right; right
              simp [in_dest, ← hb, ha, hdst, hs2]
            · exact this x hx
          · simp only [hdst, if_false] at h
            simp [pure, Except.pure] at h

theorem companion_masks {outPk : List ctkey} {vout : List tx_out}
    (h : vout.length = outPk.length) :
    (companion_outputs outPk vout).map (fun x => x.2.2.mask) = outPk.map ctkey.mask := by
  have h1 : (companion_outputs outPk vout).map (fun x => x.2.2.mask)
      = ((vout.zip outPk).enum.map Prod.snd).map (fun y => y.2.mask) := by
    rw [List.map_map]
    rfl
  have h2 : (vout.zip outPk).map (fun y => y.2.mask)
      = ((vout.zip outPk).map Prod.snd).map ctkey.mask := by
    rw [List.map_map]
    rfl
  rw [h1, List.enum_map_snd, h2, List.map_snd_zip _ _ (by omega)]

theorem onshore_col_idx_total {tx_type : transaction_type} {version : Nat}
    {collateral_indices : List Nat}
    (hcol : tx_type = .ONSHORE → version ≥ HF_VERSION_USE_COLLATERAL →
      2 ≤ collateral_indices.length) (i : Nat) :
    onshore_col_idx tx_type version collateral_indices i =
      .ok (onshore_excluded tx_type version collateral_indices i) := by
  have hex : ∃ b, onshore_col_idx tx_type version collateral_indices i = .ok b := by
    unfold onshore_col_idx
    by_cases hv : version ≥ HF_VERSION_USE_COLLATERAL
    · by_cases ht : tx_type = .ONSHORE
      · have hlen := hcol ht hv
        match collateral_indices, hlen with
        | c0 :: c1 :: rest, _ =>
          by_cases hi : i = c0
          · exact ⟨true, by simp [hv, ht, idx, hi, bind, Except.bind, pure, Except.pure]⟩
          · exact ⟨decide (i = c1),
              by simp [hv, ht, idx, hi, bind, Except.bind, pure, Except.pure]⟩
      · exact ⟨false, by simp [hv, ht, pure, Except.pure]⟩
    · exact ⟨false, by simp [hv, pure, Except.pure]⟩
  obtain ⟨b, hb⟩ := hex
  rw [hb, onshore_col_idx_eq_ok hb]

theorem output_masks_third_colour {outPk : List ctkey} {tx_type : transaction_type}
    {strSource strDest : String} {version : Nat} {collateral_indices : List Nat}
    (hcol : tx_type = .ONSHORE → version ≥ HF_VERSION_USE_COLLATERAL →
      2 ≤ collateral_indices.length)
    {vout : List tx_out} {i j : Nat} {mC mD : List key} {o : tx_out} {a : String}
    (hj : vout[j]? = some o) (ha : output_asset_type o = some a)
    (hs : a ≠ strSource) (hd : a ≠ strDest)
    (hex : onshore_excluded tx_type version collateral_indices (i + j) = false)
    (hpk : i + j < outPk.length) :
    output_masks outPk tx_type strSource strDest version collateral_indices
      vout i mC mD = .ok none := by
  induction vout generalizing i j mC mD with
  | nil => simp at hj
  | cons o2 rest ih =>
    simp only [output_masks]
    rw [onshore_col_idx_total hcol]
    show (match output_asset_type o2 with
      | none => pure none
      | some asset => _) = _
    cases j with
    | zero =>
      simp only [List.getElem?_cons_zero, Option.some.injEq] at hj
      subst hj
      rw [Nat.add_zero] at hex
      rw [ha]
      simp [hex, hs, hd, pure, Except.pure]
    | succ j2 =>
      simp only [List.getElem?_cons_succ] at hj
      have hex2 : onshore_excluded tx_type version collateral_indices (i + 1 + j2) = false := by
        rw [Nat.add_assoc, Nat.add_comm 1 j2]
        exact hex
      have hpk2 : i + 1 + j2 < outPk.length := by omega
      cases ha2 : output_asset_type o2 with
      | none => simp [pure, Except.pure]
      | some a2 =>
        simp only
        by_cases hb : onshore_excluded tx_type version collateral_indices i = true
        · simp only [hb, not_true_eq_false, if_false]
          exact ih hj hex2 hpk2
        · have hb2 : onshore_excluded tx_type version collateral_indices i = false := by
            simpa using hb
          have hi : i < outPk.length := by omega
          have hidx : idx outPk i = .ok outPk[i] := by
            rw [idx_eq_ok]
            exact List.getElem?_eq_getElem hi
          simp only [hb2, Bool.false_eq_true, not_false_eq_true, if_true]
          by_cases hs2 : a2 = strSource
          · simp only [hs2, if_true, hidx]
            exact ih hj hex2 hpk2
          · by_cases hd2 : a2 = strDest
            · subst hd2
              simp only [hs2, if_false, if_true, hidx]
              exact ih hj hex2 hpk2
            · simp [hs2, hd2, pure, Except.pure]

end Loops

/-! ## The stages of the semantic verifier -/

section Stages

variable {Pt : Type} [AddCommGroup Pt] {L : CryptoLib Pt}

theorem output_masks_total {outPk : List ctkey} {tx_type : transaction_type}
    {strSource strDest : String} {version : Nat} {collateral_indices : List Nat}
    (hcol : tx_type = .ONSHORE → version ≥ HF_VERSION_USE_COLLATERAL →
      2 ≤ collateral_indices.length) :
    ∀ (vout : List tx_out) (i : Nat) (mC mD : List key), i + vout.length ≤ outPk.length →
      (∀ o ∈ vout, output_asset_type o = some strSource ∨
        output_asset_type o = some strDest) →
      ∃ C D, output_masks outPk tx_type strSource strDest version collateral_indices
        vout i mC mD = .ok (some (C, D)) := by
  intro vout
  induction vout with
  | nil =>
    intro i mC mD _ _
    exact ⟨mC, mD, rfl⟩
  | cons o rest ih =>
    intro i mC mD hlen hall
    have hlen2 : i + 1 + rest.length ≤ outPk.length := by
      simp only [List.length_cons] at hlen
      omega
    have hall2 : ∀ o ∈ rest, output_asset_type o = some strSource ∨
        output_asset_type o = some strDest :=
      fun y hy => hall y (List.mem_cons_of_mem _ hy)
    have hi : i < outPk.length := by
      simp only [List.length_cons] at hlen
      omega
    have hpk : idx outPk i = .ok outPk[i] := idx_eq_ok.2 (List.getElem?_eq_getElem hi)
    simp only [output_masks]
    rw [onshore_col_idx_total hcol i, ok_bind]
    by_cases hx : onshore_excluded tx_type version collateral_indices i = true
    · rcases hall o (List.mem_cons_self _ _) with ha | ha
      all_goals
        rw [ha]
        simp only [hx, not_true_eq_false, if_false]
        exact ih (i + 1) mC mD hlen2 hall2
    · rcases hall o (List.mem_cons_self _ _) with ha | ha
      · rw [ha]
        simp only [hx, not_false_eq_true, if_true, hpk, ok_bind]
        exact ih (i + 1) _ mD hlen2 hall2
      · rw [ha]
        simp only [hx, not_false_eq_true, if_true, hpk, ok_bind]
        by_cases hsd : strDest = strSource
        · rw [if_pos hsd]
          exact ih (i + 1) _ mD hlen2 hall2
        · rw [if_neg hsd]
          exact ih (i + 1) mC _ hlen2 hall2

theorem onshore_input_sums_eq_ok {vin : List txin_v} {pos : List key} {i : Nat}
    {sP sC rP rC : key} {p c : Pt} (hp : L.frombytes sP = some p)
    (hc : L.frombytes sC = some c) (hL : L.Sound)
    (h : onshore_input_sums L vin pos i sP sC = .ok (rP, rC)) :
    ∃ ps cs, L.points (converted_pseudo_outs pos (vin.drop i)) = some ps ∧
      L.points (collateral_pseudo_outs pos (vin.drop i)) = some cs ∧
      L.frombytes rP = some (p + ps.sum) ∧ L.frombytes rC = some (c + cs.sum) := by
  induction pos generalizing i sP sC p c with
  | nil =>
    simp only [onshore_input_sums, Except.ok.injEq, Prod.mk.injEq] at h
    refine ⟨[], [], ?_, ?_, ?_, ?_⟩
    · simp [converted_pseudo_outs, CryptoLib.points]
    · simp [collateral_pseudo_outs, CryptoLib.points]
    · simpa [← h.1] using hp
    · simpa [← h.2] using hc
  | cons po rest ih =>
    simp only [onshore_input_sums] at h
    obtain ⟨input, hin, h⟩ := bind_eq_ok.1 h
    rw [idx_eq_ok] at hin
    rw [drop_of_get? hin]
    by_cases hk : input = .txin_to_key
    · simp only [hk, if_true] at h
      obtain ⟨sC2, hadd, h⟩ := bind_eq_ok.1 h
      obtain ⟨a, b, ha, hb, rfl⟩ := addKeys_eq_ok.1 hadd
      rw [hc] at ha
      cases ha
      obtain ⟨ps, cs, h1, h2, h3, h4⟩ := ih hp (hL.frombytes_tobytes _) h
      refine ⟨ps, b :: cs, ?_, ?_, h3, ?_⟩
      · simpa [converted_pseudo_outs, hk] using h1
      · simp only [collateral_pseudo_outs, hk, List.zip_cons_cons, List.filter_cons,
          beq_self_eq_true, if_true, List.map_cons]
        rw [points_cons]
        exact ⟨b, cs, hb, h2, rfl⟩
      · simpa [add_assoc] using h4
    · simp only [hk, if_false] at h
      obtain ⟨sP2, hadd, h⟩ := bind_eq_ok.1 h
      obtain ⟨a, b, ha, hb, rfl⟩ := addKeys_eq_ok.1 hadd
      rw [hp] at ha
      cases ha
      obtain ⟨ps, cs, h1, h2, h3, h4⟩ := ih (hL.frombytes_tobytes _) hc h
      refine ⟨b :: ps, cs, ?_, ?_, ?_, h4⟩
      · simp only [converted_pseudo_outs, List.zip_cons_cons, List.filter_cons, bne_iff_ne,
          ne_eq, hk, not_false_eq_true, if_true, List.map_cons]
        rw [points_cons]
        exact ⟨b, ps, hb, h1, rfl⟩
      · simpa [collateral_pseudo_outs, hk] using h2
      · simpa [add_assoc] using h3

theorem input_sums_eq_ok {rv : rctSig} {tx_type : transaction_type} {vin : List txin_v}
    {version : Nat} {sP sC : key} (hL : L.Sound)
    (h : input_sums L rv tx_type vin version = .ok (sP, sC)) :
    ∃ pin cin, L.frombytes sP = some pin ∧ L.frombytes sC = some cin ∧
      InputSums L rv tx_type vin version pin cin := by
  unfold input_sums at h
  by_cases hc : tx_type = .ONSHORE ∧ version ≥ HF_VERSION_USE_COLLATERAL
  · rw [if_pos hc] at h
    obtain ⟨ps, cs, h1, h2, h3, h4⟩ :=
      onshore_input_sums_eq_ok hL.frombytes_identity hL.frombytes_identity hL h
    rw [List.drop_zero] at h1 h2
    rw [zero_add] at h3 h4
    exact ⟨_, _, h3, h4, fun _ => ⟨ps, cs, h1, h2, rfl, rfl⟩, fun hn => absurd hc hn⟩
  · rw [if_neg hc] at h
    obtain ⟨k, hk, h⟩ := bind_eq_ok.1 h
    obtain ⟨ps, hps, rfl⟩ := (addKeysV_eq_ok hL).1 hk
    simp only [pure_eq_ok, Prod.mk.injEq] at h
    refine ⟨ps.sum, 0, ?_, ?_, fun hn => absurd hn hc, fun _ => ⟨ps, hps, rfl, rfl⟩⟩
    · rw [← h.1]
      exact hL.frombytes_tobytes _
    · rw [← h.2]
      exact hL.frombytes_identity

theorem scaled_Zi_eq_ok {sumC sumD a b Zi : key} {c d : Pt} (hL : L.Sound)
    (hc : L.frombytes sumC = some c) (hd : L.frombytes sumD = some d)
    (h : (do
      let D_scaled ← scalarmultKey L sumD a
      let yC_invert ← invert b
      let D_final ← scalarmultKey L D_scaled yC_invert
      let Zi ← addKeys L sumC D_final
      pure (some Zi)) = (.ok (some Zi) : Res (Option key))) :
    ∃ y, invert b = .ok y ∧ Zi = L.tobytes (c + y • (a • d)) := by
  obtain ⟨Ds, h1, h⟩ := bind_eq_ok.1 h
  obtain ⟨y, hy, h⟩ := bind_eq_ok.1 h
  obtain ⟨Df, h2, h⟩ := bind_eq_ok.1 h
  obtain ⟨Z, h3, h⟩ := bind_eq_ok.1 h
  obtain ⟨d1, hd1, rfl⟩ := scalarmultKey_eq_ok.1 h1
  rw [hd] at hd1
  cases hd1
  obtain ⟨d2, hd2, rfl⟩ := scalarmultKey_eq_ok.1 h2
  rw [hL.frombytes_tobytes] at hd2
  cases hd2
  obtain ⟨c1, d3, hc1, hd3, rfl⟩ := addKeys_eq_ok.1 h3
  rw [hc] at hc1
  cases hc1
  rw [hL.frombytes_tobytes] at hd3
  cases hd3
  simp only [pure_eq_ok, Option.some.injEq] at h
  exact ⟨y, hy, h.symm⟩

theorem plain_Zi_eq_ok {sumC sumD Zi : key} {c d : Pt}
    (hc : L.frombytes sumC = some c) (hd : L.frombytes sumD = some d)
    (h : (do
      let Zi ← addKeys L sumC sumD
      pure (some Zi)) = (.ok (some Zi) : Res (Option key))) :
    Zi = L.tobytes (c + d) := by
  obtain ⟨Z, h3, h⟩ := bind_eq_ok.1 h
  obtain ⟨c1, d1, hc1, hd1, rfl⟩ := addKeys_eq_ok.1 h3
  rw [hc] at hc1
  cases hc1
  rw [hd] at hd1
  cases hd1
  simp only [pure_eq_ok, Option.some.injEq] at h
  exact h.symm

theorem body_eq_true {rv : rctSig} {pr : pricing_record} {tx_type : transaction_type}
    {strSource strDest : String} {amount_burnt : Nat} {vout : List tx_out}
    {vin : List txin_v} {version : Nat} {collateral_indices : List Nat}
    {amount_collateral : Nat}
    (h : verRctSemanticsSimple2 L rv pr tx_type strSource strDest amount_burnt vout vin
      version collateral_indices amount_collateral = .ok true) :
    verRctSemanticsSimple2_checks L rv pr tx_type strSource strDest amount_burnt
      collateral_indices amount_collateral = true ∧
    ∃ sumC sumColIns Zi,
      verRctSemanticsSimple2_sums L rv pr tx_type strSource strDest vout vin version
        collateral_indices = .ok (some (sumC, sumColIns, Zi)) ∧
      verRctSemanticsSimple2_decide L rv tx_type strSource strDest amount_burnt version
        collateral_indices amount_collateral sumC sumColIns Zi = .ok true := by
  rw [verRctSemanticsSimple2, catchFalse_eq_true] at h
  unfold verRctSemanticsSimple2_body at h
  by_cases hchk : verRctSemanticsSimple2_checks L rv pr tx_type strSource strDest amount_burnt
      collateral_indices amount_collateral = true
  · refine ⟨hchk, ?_⟩
    simp only [hchk, not_true_eq_false, if_false] at h
    obtain ⟨r, hr, h⟩ := bind_eq_ok.1 h
    cases r with
    | none => simp [pure, Except.pure] at h
    | some t =>
      obtain ⟨sumC, sumColIns, Zi⟩ := t
      exact ⟨sumC, sumColIns, Zi, hr, h⟩
  · simp [hchk] at h

theorem decide_eq_true {rv : rctSig} {tx_type : transaction_type}
    {strSource strDest : String} {amount_burnt : Nat} {version : Nat}
    {collateral_indices : List Nat} {amount_collateral : Nat} {sumC sumColIns Zi : key}
    (h : verRctSemanticsSimple2_decide L rv tx_type strSource strDest amount_burnt version
      collateral_indices amount_collateral sumC sumColIns Zi = .ok true) :
    Zi = identity ∧
    burnt_check L rv tx_type strSource strDest version amount_burnt sumC = .ok true ∧
    collateral_check L rv tx_type version collateral_indices amount_collateral sumColIns
      = .ok true := by
  unfold verRctSemanticsSimple2_decide at h
  by_cases hz : equalKeys Zi identity = true
  · simp only [hz, not_true_eq_false, if_false] at h
    obtain ⟨b1, hb1, h⟩ := bind_eq_ok.1 h
    cases b1 with
    | false => simp [pure, Except.pure] at h
    | true =>
      simp only [not_true_eq_false, if_false] at h
      obtain ⟨b2, hb2, h⟩ := bind_eq_ok.1 h
      cases b2 with
      | false => simp [pure, Except.pure] at h
      | true =>
        refine ⟨?_, hb1, hb2⟩
        simpa [equalKeys] using hz
  · simp [hz, pure, Except.pure] at h

theorem sums_eq_ok {rv : rctSig} {pr : pricing_record} {tx_type : transaction_type}
    {strSource strDest : String} {vout : List tx_out} {vin : List txin_v} {version : Nat}
    {collateral_indices : List Nat} {sumC sumColIns Zi : key} (hL : L.Sound)
    (h : verRctSemanticsSimple2_sums L rv pr tx_type strSource strDest vout vin version
      collateral_indices = .ok (some (sumC, sumColIns, Zi))) :
    ∃ (cs ds : List Pt) (pin cin : Pt),
      L.points (source_masks rv.outPk vout
        (onshore_excluded tx_type version collateral_indices) strSource) = some cs ∧
      L.points (dest_masks rv.outPk vout
        (onshore_excluded tx_type version collateral_indices) strSource strDest) = some ds ∧
      InputSums L rv tx_type vin version pin cin ∧
      L.frombytes sumColIns = some cin ∧
      sumC = L.tobytes (pin - rv.txnFee • L.H - rv.txnOffshoreFee • L.H - cs.sum) ∧
      calc_Zi L pr tx_type strSource strDest version sumC (L.tobytes (0 - ds.sum))
        = .ok (some Zi) := by
  unfold verRctSemanticsSimple2_sums at h
  obtain ⟨om, hom, h⟩ := bind_eq_ok.1 h
  cases om with
  | none => simp [pure, Except.pure] at h
  | some t =>
    obtain ⟨mC, mD⟩ := t
    simp only at h
    obtain ⟨hC, hD⟩ := output_masks_eq_ok hom
    simp only [List.nil_append, List.drop_zero] at hC hD
    obtain ⟨sOC, h1, h⟩ := bind_eq_ok.1 h
    obtain ⟨sOD, h2, h⟩ := bind_eq_ok.1 h
    obtain ⟨ins, h3, h⟩ := bind_eq_ok.1 h
    obtain ⟨sP, sCol⟩ := ins
    simp only at h
    obtain ⟨c1, h4, h⟩ := bind_eq_ok.1 h
    obtain ⟨c2, h5, h⟩ := bind_eq_ok.1 h
    obtain ⟨c3, h6, h⟩ := bind_eq_ok.1 h
    obtain ⟨dk, h7, h⟩ := bind_eq_ok.1 h
    obtain ⟨z, h8, h⟩ := bind_eq_ok.1 h
    cases z with
    | none => simp [pure, Except.pure] at h
    | some Z =>
      simp only [pure_eq_ok, Option.some.injEq, Prod.mk.injEq] at h
      obtain ⟨rfl, rfl, rfl⟩ := h
      obtain ⟨cs, hcs, rfl⟩ := (addKeysV_eq_ok hL).1 h1
      obtain ⟨ds, hds, rfl⟩ := (addKeysV_eq_ok hL).1 h2
      obtain ⟨pin, cin, hpin, hcin, hsplit⟩ := input_sums_eq_ok hL h3
      obtain ⟨a1, b1, ha1, hb1, rfl⟩ := subKeys_eq_ok.1 h4
      rw [hpin] at ha1
      cases ha1
      simp only [scalarmultH, hL.frombytes_tobytes, Option.some.injEq] at hb1
      subst hb1
      obtain ⟨a2, b2, ha2, hb2, rfl⟩ := subKeys_eq_ok.1 h5
      simp only [scalarmultH, hL.frombytes_tobytes, Option.some.injEq] at ha2 hb2
      subst ha2 hb2
      obtain ⟨a3, b3, ha3, hb3, rfl⟩ := subKeys_eq_ok.1 h6
      simp only [hL.frombytes_tobytes, Option.some.injEq] at ha3 hb3
      subst ha3 hb3
      obtain ⟨a4, b4, ha4, hb4, rfl⟩ := subKeys_eq_ok.1 h7
      simp only [hL.frombytes_identity, hL.frombytes_tobytes, Option.some.injEq] at ha4 hb4
      subst ha4 hb4
      refine ⟨cs, ds, pin, cin, ?_, ?_, hsplit, hcin, rfl, h8⟩
      · rw [hC] at hcs
        exact hcs
      · rw [hD] at hds
        exact hds

theorem points_tobytes (hL : L.Sound) : ∀ Ps : List Pt, L.points (Ps.map L.tobytes) = some Ps := by
  intro Ps
  induction Ps with
  | nil => rfl
  | cons P Ps ih =>
    rw [List.map_cons, points_cons]
    exact ⟨P, Ps, hL.frombytes_tobytes P, ih, rfl⟩

theorem sum_commits : ∀ (as ms : List Nat), as.length = ms.length →
    (List.zipWith (fun a m => m • L.G + a • L.H) as ms).sum = ms.sum • L.G + as.sum • L.H := by
  intro as
  induction as with
  | nil =>
    intro ms h
    cases ms with
    | nil => simp
    | cons m ms => simp at h
  | cons a as ih =>
    intro ms h
    cases ms with
    | nil => simp at h
    | cons m ms =>
      simp only [List.zipWith_cons_cons, List.sum_cons]
      rw [ih ms (by simpa using h), add_nsmul, add_nsmul]
      abel

theorem points_commits (hL : L.Sound) (as ms : List Nat) :
    L.points (List.zipWith (fun a m => genC L m a) as ms) =
      some (List.zipWith (fun a m => m • L.G + a • L.H) as ms) := by
  have : List.zipWith (fun a m => genC L m a) as ms =
      (List.zipWith (fun a m => m • L.G + a • L.H) as ms).map L.tobytes := by
    rw [List.map_zipWith]
    rfl
  rw [this]
  exact points_tobytes hL _

/-- The first half of the verifier evaluated: with the colour sums and the pseudo-outs
given as points, it returns `sumC`, the neutral `sumColIns` and the `Zi` that `calc_Zi`
yields, for every transaction but an onshore with collateral. -/
theorem sums_forward (hL : L.Sound) {rv : rctSig} {pr : pricing_record}
    {tx_type : transaction_type} {strSource strDest : String} {vout : List tx_out}
    {vin : List txin_v} {version : Nat} {collateral_indices : List Nat}
    {mC mD : List key} {cs ds ps : List Pt} {Zi : key}
    (hom : output_masks rv.outPk tx_type strSource strDest version collateral_indices
      vout 0 [] [] = .ok (some (mC, mD)))
    (hcs : L.points mC = some cs) (hds : L.points mD = some ds)
    (hno : ¬ (tx_type = .ONSHORE ∧ version ≥ HF_VERSION_USE_COLLATERAL))
    (hps : L.points rv.p.pseudoOuts = some ps)
    (hZ : calc_Zi L pr tx_type strSource strDest version
      (L.tobytes (ps.sum - rv.txnFee • L.H - rv.txnOffshoreFee • L.H - cs.sum))
      (L.tobytes (0 - ds.sum)) = .ok (some Zi)) :
    verRctSemanticsSimple2_sums L rv pr tx_type strSource strDest vout vin version
      collateral_indices =
      .ok (some (L.tobytes (ps.sum - rv.txnFee • L.H - rv.txnOffshoreFee • L.H - cs.sum),
        identity, Zi)) := by
  have h1 : addKeysV L mC = .ok (L.tobytes cs.sum) := (addKeysV_eq_ok hL).2 ⟨cs, hcs, rfl⟩
  have h2 : addKeysV L mD = .ok (L.tobytes ds.sum) := (addKeysV_eq_ok hL).2 ⟨ds, hds, rfl⟩
  have h3 : input_sums L rv tx_type vin version = .ok (L.tobytes ps.sum, identity) := by
    unfold input_sums
    rw [if_neg hno, (addKeysV_eq_ok hL).2 ⟨ps, hps, rfl⟩]
    rfl
  have h4 : subKeys L (L.tobytes ps.sum) (scalarmultH L (d2h rv.txnFee)) =
      .ok (L.tobytes (ps.sum - rv.txnFee • L.H)) :=
    subKeys_eq_ok.2 ⟨_, _, hL.frombytes_tobytes _, hL.frombytes_tobytes _, rfl⟩
  have h5 : subKeys L (L.tobytes (ps.sum - rv.txnFee • L.H))
      (scalarmultH L (d2h rv.txnOffshoreFee)) =
      .ok (L.tobytes (ps.sum - rv.txnFee • L.H - rv.txnOffshoreFee • L.H)) :=
    subKeys_eq_ok.2 ⟨_, _, hL.frombytes_tobytes _, hL.frombytes_tobytes _, rfl⟩
  have h6 : subKeys L (L.tobytes (ps.sum - rv.txnFee • L.H - rv.txnOffshoreFee • L.H))
      (L.tobytes cs.sum) =
      .ok (L.tobytes (ps.sum - rv.txnFee • L.H - rv.txnOffshoreFee • L.H - cs.sum)) :=
    subKeys_eq_ok.2 ⟨_, _, hL.frombytes_tobytes _, hL.frombytes_tobytes _, rfl⟩
  have h7 : subKeys L identity (L.tobytes ds.sum) = .ok (L.tobytes (0 - ds.sum)) :=
    subKeys_eq_ok.2 ⟨_, _, hL.frombytes_identity, hL.frombytes_tobytes _, rfl⟩
  unfold verRctSemanticsSimple2_sums
  simp only [hom, ok_bind, h1, h2, h3, h4, h5, h6, h7, hZ]
  rfl

theorem plain_Zi (hL : L.Sound) (c d : Pt) :
    (do
      let Zi ← addKeys L (L.tobytes c) (L.tobytes d)
      pure (some Zi)) = (.ok (some (L.tobytes (c + d))) : Res (Option key)) := by
  rw [addKeys_eq_ok.2 ⟨c, d, hL.frombytes_tobytes _, hL.frombytes_tobytes _, rfl⟩]
  rfl

theorem scaled_Zi (hL : L.Sound) (c d : Pt) {a b y : key} (hy : invert b = .ok y) :
    (do
      let D_scaled ← scalarmultKey L (L.tobytes d) a
      let yC_invert ← invert b
      let D_final ← scalarmultKey L D_scaled yC_invert
      let Zi ← addKeys L (L.tobytes c) D_final
      pure (some Zi)) = (.ok (some (L.tobytes (c + y • (a • d)))) : Res (Option key)) := by
  rw [scalarmultKey_eq_ok.2 ⟨d, hL.frombytes_tobytes _, rfl⟩, ok_bind, hy, ok_bind,
    scalarmultKey_eq_ok.2 ⟨a • d, hL.frombytes_tobytes _, rfl⟩, ok_bind,
    addKeys_eq_ok.2 ⟨c, y • (a • d), hL.frombytes_tobytes _, hL.frombytes_tobytes _, rfl⟩]
  rfl

theorem partition_points {xs : List (Nat × tx_out × ctkey)} {excl : Nat → Bool}
    {strSource strDest : String} {cs ds : List Pt}
    (hall : ∀ x ∈ xs, in_source excl strSource x = true ∨
      in_dest excl strSource strDest x = true)
    (hcs : L.points (loop_source excl strSource xs) = some cs)
    (hds : L.points (loop_dest excl strSource strDest xs) = some ds) :
    ∃ os, L.points (xs.map (fun x => x.2.2.mask)) = some os ∧ os.sum = cs.sum + ds.sum := by
  induction xs generalizing cs ds with
  | nil =>
    simp only [loop_source, loop_dest, List.filter_nil, List.map_nil, CryptoLib.points,
      Option.some.injEq] at hcs hds
    subst hcs hds
    exact ⟨[], by simp [CryptoLib.points], by simp⟩
  | cons x xs ih =>
    have hall2 : ∀ y ∈ xs, in_source excl strSource y = true ∨
        in_dest excl strSource strDest y = true :=
      fun y hy => hall y (List.mem_cons_of_mem _ hy)
    by_cases hsrc : in_source excl strSource x = true
    · have hnd : in_dest excl strSource strDest x = false := by
        simp only [in_source, Bool.and_eq_true, beq_iff_eq] at hsrc
        simp [in_dest, hsrc.2]
      simp only [loop_source, List.filter_cons, hsrc, if_true, List.map_cons] at hcs
      simp only [loop_dest, List.filter_cons, hnd, Bool.false_eq_true, if_false] at hds
      obtain ⟨P, Qs, hP, hQs, rfl⟩ := points_cons.1 hcs
      obtain ⟨os, hos, hsum⟩ := ih hall2 hQs hds
      refine ⟨P :: os, ?_, ?_⟩
      · rw [List.map_cons, points_cons]
        exact ⟨P, os, hP, hos, rfl⟩
      · simp [hsum, add_assoc]
    · have hdst : in_dest excl strSource strDest x = true := by
        rcases hall x (List.mem_cons_self _ _) with h | h
        · exact absurd h hsrc
        · exact h
      have hsrc2 : in_source excl strSource x = false := by simpa using hsrc
      simp only [loop_source, List.filter_cons, hsrc2, Bool.false_eq_true, if_false] at hcs
      simp only [loop_dest, List.filter_cons, hdst, if_true, List.map_cons] at hds
      obtain ⟨P, Qs, hP, hQs, rfl⟩ := points_cons.1 hds
      obtain ⟨os, hos, hsum⟩ := ih hall2 hcs hQs
      refine ⟨P :: os, ?_, ?_⟩
      · rw [List.map_cons, points_cons]
        exact ⟨P, os, hP, hos, rfl⟩
      · simp only [List.sum_cons, hsum]
        abel

theorem sums_coloured {rv : rctSig} {pr : pricing_record} {tx_type : transaction_type}
    {strSource strDest : String} {vout : List tx_out} {vin : List txin_v} {version : Nat}
    {collateral_indices : List Nat} {r : key × key × key}
    (h : verRctSemanticsSimple2_sums L rv pr tx_type strSource strDest vout vin version
      collateral_indices = .ok (some r)) :
    ∀ x ∈ companion_outputs rv.outPk vout,
      onshore_excluded tx_type version collateral_indices x.1 = true ∨
      in_source (onshore_excluded tx_type version collateral_indices) strSource x = true ∨
      in_dest (onshore_excluded tx_type version collateral_indices) strSource strDest x
        = true := by
  unfold verRctSemanticsSimple2_sums at h
  obtain ⟨om, hom, h⟩ := bind_eq_ok.1 h
  cases om with
  | none => simp [pure, Except.pure] at h
  | some t =>
    obtain ⟨mC, mD⟩ := t
    have := output_masks_coloured hom
    simpa [companion_outputs, List.enum] using this

theorem onshore_excluded_of_ne {tx_type : transaction_type} (version : Nat)
    (collateral_indices : List Nat) (h : tx_type ≠ .ONSHORE) :
    onshore_excluded tx_type version collateral_indices = fun _ => false := by
  funext i
  simp [onshore_excluded, h]

theorem onshore_excluded_onshore (version : Nat) (collateral_indices : List Nat) :
    onshore_excluded .ONSHORE version collateral_indices =
      fun i => decide (version ≥ HF_VERSION_USE_COLLATERAL) &&
        collateral_indexed collateral_indices i := by
  funext i
  simp [onshore_excluded]

theorem InputSums.converted {rv : rctSig} {tx_type : transaction_type} {vin : List txin_v}
    {version : Nat} {pin cin : Pt} (h : InputSums L rv tx_type vin version pin cin) :
    ∃ ps, L.points (if tx_type = .ONSHORE ∧ version ≥ HF_VERSION_USE_COLLATERAL
        then converted_pseudo_outs rv.p.pseudoOuts vin else rv.p.pseudoOuts) = some ps ∧
      pin = ps.sum := by
  by_cases hc : tx_type = .ONSHORE ∧ version ≥ HF_VERSION_USE_COLLATERAL
  · obtain ⟨ps, cs, h1, _, h3, _⟩ := h.1 hc
    exact ⟨ps, by rw [if_pos hc]; exact h1, h3⟩
  · obtain ⟨ps, h1, h2, _⟩ := h.2 hc
    exact ⟨ps, by rw [if_neg hc]; exact h1, h2⟩

/-- The output loop of a transfer whose outputs are all in the source colour: every
commitment counts for the source colour. -/
theorem output_masks_transfer {outPk : List ctkey} {tx_type : transaction_type}
    {strSource : String} {version : Nat} {collateral_indices : List Nat}
    {vout : List tx_out} (ht : tx_type ≠ .ONSHORE) (hlen : vout.length = outPk.length)
    (hall : ∀ o ∈ vout, output_asset_type o = some strSource) :
    output_masks outPk tx_type strSource strSource version collateral_indices vout 0 [] []
      = .ok (some (outPk.map ctkey.mask, [])) := by
  obtain ⟨C, D, h⟩ := output_masks_total
    (fun e => absurd e ht) vout 0 [] [] (Nat.le_of_eq (by rw [Nat.zero_add, hlen]))
    (fun o ho => Or.inl (hall o ho))
  obtain ⟨hC, hD⟩ := output_masks_eq_ok h
  rw [h, hC, hD, onshore_excluded_of_ne version collateral_indices ht]
  simp only [List.nil_append, List.drop_zero]
  have hmem : ∀ x ∈ List.enumFrom 0 (vout.zip outPk),
      output_asset_type x.2.1 = some strSource := by
    intro x hx
    obtain ⟨i, y, z⟩ := x
    have := (List.mk_mem_enumFrom_iff_le_and_getElem?_sub.1 hx).2
    exact hall y (List.of_mem_zip (List.getElem?_mem this)).1
  have h1 : loop_source (fun _ => false) strSource (List.enumFrom 0 (vout.zip outPk)) =
      outPk.map ctkey.mask := by
    unfold loop_source
    rw [List.filter_eq_self.2 (fun x hx => by simp [in_source, hmem x hx])]
    have e1 : (fun x : Nat × tx_out × ctkey => x.2.2.mask) =
        ctkey.mask ∘ Prod.snd ∘ Prod.snd := rfl
    rw [e1, ← List.map_map, ← List.map_map, List.enumFrom_map_snd, List.map_snd_zip]
    omega
  have h2 : loop_dest (fun _ => false) strSource strSource
      (List.enumFrom 0 (vout.zip outPk)) = [] := by
    unfold loop_dest
    rw [List.filter_eq_nil_iff.2 (fun x hx => by simp [in_dest, hmem x hx])]
    rfl
  rw [h1, h2]

theorem burnt_check_eq_true {rv : rctSig} {tx_type : transaction_type}
    {strSource strDest : String} {version amount_burnt : Nat} {sumC : key}
    (hconv : strSource ≠ strDest)
    (h : burnt_check L rv tx_type strSource strDest version amount_burnt sumC = .ok true) :
    ∃ n m, rv.maskSums[1]? = some n ∧ rv.maskSums[0]? = some m ∧
      addKeys L sumC (genC L n 0) =
        .ok (genC L m (burnt_adjusted rv tx_type version amount_burnt)) := by
  unfold burnt_check at h
  rw [if_pos hconv] at h
  obtain ⟨n, hn, h⟩ := bind_eq_ok.1 h
  obtain ⟨Cb, hCb, h⟩ := bind_eq_ok.1 h
  obtain ⟨m, hm, h⟩ := bind_eq_ok.1 h
  rw [idx_eq_ok] at hn hm
  simp only [pure_eq_ok, equalKeys, decide_eq_true_eq] at h
  exact ⟨n, m, hn, hm, by rw [hCb, h]⟩

theorem collateral_check_offshore {rv : rctSig} {version : Nat}
    {collateral_indices : List Nat} {amount_collateral : Nat} {sumColIns : key}
    (hv : version ≥ HF_VERSION_USE_COLLATERAL)
    (h : collateral_check L rv .OFFSHORE version collateral_indices amount_collateral
      sumColIns = .ok true) :
    ∃ c0 pk0 m, collateral_indices[0]? = some c0 ∧ rv.outPk[c0]? = some pk0 ∧
      rv.maskSums[2]? = some m ∧ genC L m amount_collateral = pk0.mask := by
  unfold collateral_check at h
  simp only [hv, if_true] at h
  obtain ⟨c0, h0, h⟩ := bind_eq_ok.1 h
  obtain ⟨pk, hpk, h⟩ := bind_eq_ok.1 h
  obtain ⟨m, hm, h⟩ := bind_eq_ok.1 h
  rw [idx_eq_ok] at h0 hpk hm
  simp only [pure_eq_ok, equalKeys, decide_eq_true_eq] at h
  exact ⟨c0, pk, m, h0, hpk, hm, h⟩

theorem collateral_check_onshore {rv : rctSig} {version : Nat}
    {collateral_indices : List Nat} {amount_collateral : Nat} {sumColIns : key}
    (hv : version ≥ HF_VERSION_USE_COLLATERAL)
    (h : collateral_check L rv .ONSHORE version collateral_indices amount_collateral
      sumColIns = .ok true) :
    ∃ c0 pk0 m, collateral_indices[0]? = some c0 ∧ rv.outPk[c0]? = some pk0 ∧
      rv.maskSums[2]? = some m ∧ genC L m amount_collateral = pk0.mask ∧
      ∃ c1 pk1, collateral_indices[1]? = some c1 ∧ rv.outPk[c1]? = some pk1 ∧
        addKeys L pk0.mask pk1.mask = .ok sumColIns := by
  unfold collateral_check at h
  simp only [hv, if_true, reduceCtorEq, if_false] at h
  obtain ⟨m, hm, h⟩ := bind_eq_ok.1 h
  obtain ⟨c0, h0, h⟩ := bind_eq_ok.1 h
  obtain ⟨pk0, hpk0, h⟩ := bind_eq_ok.1 h
  rw [idx_eq_ok] at h0 hpk0 hm
  by_cases he : equalKeys (genC L m amount_collateral) pk0.mask = true
  · simp only [he, not_true_eq_false, if_false] at h
    obtain ⟨c1, h1, h⟩ := bind_eq_ok.1 h
    obtain ⟨pk1, hpk1, h⟩ := bind_eq_ok.1 h
    obtain ⟨so, hso, h⟩ := bind_eq_ok.1 h
    rw [idx_eq_ok] at h1 hpk1
    simp only [pure_eq_ok, equalKeys, decide_eq_true_eq] at h he
    exact ⟨c0, pk0, m, h0, hpk0, hm, he, c1, pk1, h1, hpk1, by rw [hso, h]⟩
  · simp [he, pure, Except.pure] at h

theorem nsmul_inj_of_order {P : Pt} (hord : ∀ k : ℕ, k • P = 0 ↔ ell ∣ k) {x y : ℕ}
    (hx : x < ell) (hy : y < ell) (h : x • P = y • P) : x = y := by
  have key : ∀ a b : ℕ, a ≤ b → b < ell → a • P = b • P → a = b := by
    intro a b hab hb hP
    have h1 : (b - a) • P = 0 := by
      have h2 : b • P = (b - a) • P + a • P := by
        rw [← add_nsmul, Nat.sub_add_cancel hab]
      rw [← hP] at h2
      have h3 : (b - a) • P + a • P = 0 + a • P := by rw [zero_add]; exact h2.symm
      exact add_right_cancel h3
    have h4 := (hord _).1 h1
    have h5 : b - a = 0 := Nat.eq_zero_of_dvd_of_lt h4 (by omega)
    omega
  rcases Nat.le_total x y with hxy | hxy
  · exact key x y hxy hy h
  · exact (key y x hxy hx h.symm).symm

theorem genC_amount_inj (hL : L.Sound) (hP : L.PrimeOrder) {m : key} {x y : ℕ}
    (hx : x < ell) (hy : y < ell) (h : genC L m x = genC L m y) : x = y := by
  have h1 := hL.tobytes_inj h
  exact nsmul_inj_of_order hP.order_H hx hy (add_left_cancel h1)

theorem burnt_adjusted_lt {rv : rctSig} {tx_type : transaction_type} {version b : Nat}
    (hb : b < 2 ^ 64) : burnt_adjusted rv tx_type version b < 2 ^ 64 := by
  unfold burnt_adjusted
  split
  · exact Nat.mod_lt _ (by norm_num)
  · exact hb

theorem burnt_adjusted_inj {rv : rctSig} {tx_type : transaction_type} {version b b2 : Nat}
    (hb : b < 2 ^ 64) (hb2 : b2 < 2 ^ 64)
    (h : burnt_adjusted rv tx_type version b = burnt_adjusted rv tx_type version b2) :
    b = b2 := by
  unfold burnt_adjusted at h
  split at h
  · simp only at h
    have hf : rv.txnOffshoreFee * 4 / 5 % 2 ^ 64 < 2 ^ 64 := Nat.mod_lt _ (by norm_num)
    generalize rv.txnOffshoreFee * 4 / 5 % 2 ^ 64 = f at h hf
    norm_num at h hf hb hb2
    omega
  · exact h

theorem two_pow_64_lt_ell : 2 ^ 64 < ell := by decide

theorem body_of_sums {rv : rctSig} {pr : pricing_record} {tx_type : transaction_type}
    {strSource strDest : String} {amount_burnt : Nat} {vout : List tx_out}
    {vin : List txin_v} {version : Nat} {collateral_indices : List Nat}
    {amount_collateral : Nat} {sumC sumColIns Zi : key}
    (hs : verRctSemanticsSimple2_sums L rv pr tx_type strSource strDest vout vin version
      collateral_indices = .ok (some (sumC, sumColIns, Zi)))
    (hd : verRctSemanticsSimple2_decide L rv tx_type strSource strDest amount_burnt version
      collateral_indices amount_collateral sumC sumColIns Zi = .ok false) :
    verRctSemanticsSimple2 L rv pr tx_type strSource strDest amount_burnt vout vin
      version collateral_indices amount_collateral = .ok false := by
  unfold verRctSemanticsSimple2 verRctSemanticsSimple2_body
  by_cases hchk : verRctSemanticsSimple2_checks L rv pr tx_type strSource strDest amount_burnt
      collateral_indices amount_collateral = true
  · simp only [hchk, not_true_eq_false, if_false, hs]
    show catchFalse (verRctSemanticsSimple2_decide L rv tx_type strSource strDest amount_burnt
      version collateral_indices amount_collateral sumC sumColIns Zi) = .ok false
    rw [hd]
    rfl
  · simp [hchk, catchFalse]

theorem invert_eq_ok {x y : key} (h : invert x = .ok y) : (y * x) % ell = 1 := by
  unfold invert at h
  simp only at h
  split at h
  · rename_i ht
    simp only [Except.ok.injEq] at h
    rw [← h]
    exact ht
  · cases h

theorem dvd_of_mul_inverse {y c k : ℕ} (hy : (y * c) % ell = 1) (h : ell ∣ y * k) :
    ell ∣ k := by
  have h1 : y * c = ell * (y * c / ell) + 1 := by
    have := Nat.div_add_mod (y * c) ell
    rw [hy] at this
    exact this.symm
  have h2 : ell ∣ k * (ell * (y * c / ell)) + k := by
    have h3 : k * (ell * (y * c / ell)) + k = c * (y * k) := by
      have : k * (y * c) = k * (ell * (y * c / ell) + 1) := by rw [← h1]
      rw [Nat.mul_add, Nat.mul_one] at this
      rw [← this]
      ring
    rw [h3]
    exact Dvd.dvd.mul_left h c
  have h4 : ell ∣ k * (ell * (y * c / ell)) :=
    Dvd.dvd.mul_left (Dvd.intro _ rfl) k
  exact (Nat.dvd_add_right h4).1 h2

theorem scaled_rate_eq {d : Pt} (hord : ∀ k : ℕ, k • d = 0 → ell ∣ k) {y r1 r2 : ℕ}
    (hy : (y * COIN) % ell = 1) (hle : r1 ≤ r2) (hlt : r2 < ell)
    (h : y • (r1 • d) = y • (r2 • d)) : r1 = r2 := by
  rw [← mul_nsmul', ← mul_nsmul'] at h
  have h1 : (y * (r2 - r1)) • d = 0 := by
    have h2 : y * r2 = y * (r2 - r1) + y * r1 := by
      rw [← Nat.mul_add, Nat.sub_add_cancel hle]
    rw [h2, add_nsmul] at h
    have h3 : 0 + (y * r1) • d = (y * (r2 - r1)) • d + (y * r1) • d := by
      rw [zero_add]
      exact h
    exact (add_right_cancel h3).symm
  have h4 := dvd_of_mul_inverse hy (hord _ h1)
  have h5 : r2 - r1 = 0 := Nat.eq_zero_of_dvd_of_lt h4 (by omega)
  omega

end Stages

/-! ## CLSAG: signing, then verifying -/

section ClsagFacts

variable {Pt : Type} [AddCommGroup Pt] {L : CryptoLib Pt}

theorem nsmul_mod_ell {X : Pt} (hX : ell • X = 0) (a : ℕ) : (a % ell) • X = a • X := by
  conv_rhs => rw [← Nat.div_add_mod a ell]
  rw [add_nsmul, mul_nsmul, hX, nsmul_zero, zero_add]

theorem nsmul_congr_ell {X : Pt} (hX : ell • X = 0) {a b : ℕ} (h : a % ell = b % ell) :
    a • X = b • X := by
  rw [← nsmul_mod_ell hX a, ← nsmul_mod_ell hX b, h]

theorem closing_scalar (mu_P mu_C p z c a : ℕ) :
    (sc_mulsub c (sc_muladd mu_C z (sc_mul mu_P p)) a + sc_mul mu_P c * p + sc_mul mu_C c * z)
      % ell = a % ell := by
  have h : ((sc_mulsub c (sc_muladd mu_C z (sc_mul mu_P p)) a + sc_mul mu_P c * p
      + sc_mul mu_C c * z : ℕ) : ZMod ell) = (a : ZMod ell) := by
    unfold sc_mulsub sc_muladd sc_mul
    have hle : c * ((mu_C * z + mu_P * p % ell) % ell) % ell ≤ ell :=
      (Nat.mod_lt _ ell_pos).le
    push_cast [ZMod.natCast_mod, Nat.cast_sub hle, ZMod.natCast_self]
    ring
  exact (ZMod.natCast_eq_natCast_iff' _ _ _).1 h

theorem closing_point {X : Pt} (hX : ell • X = 0) (mu_P mu_C p z c a : ℕ) :
    sc_mulsub c (sc_muladd mu_C z (sc_mul mu_P p)) a • X + sc_mul mu_P c • (p • X)
      + sc_mul mu_C c • (z • X) = a • X := by
  rw [← mul_nsmul', ← mul_nsmul', ← add_nsmul, ← add_nsmul]
  exact nsmul_congr_ell hX (closing_scalar mu_P mu_C p z c a)

theorem eight_inv_eight {X : Pt} (hX : ell • X = 0) : (8 : ℕ) • (INV_EIGHT • X) = X := by
  rw [← mul_nsmul']
  have h : (8 * INV_EIGHT) % ell = 1 % ell := by decide
  rw [nsmul_congr_ell hX h, one_nsmul]

theorem pt_spec {k : key} (h : (L.frombytes k).isSome = true) :
    L.frombytes k = some (L.pt k) := by
  unfold CryptoLib.pt
  cases hk : L.frombytes k with
  | none => rw [hk] at h; cases h
  | some P => rfl

theorem pt_of_frombytes {k : key} {P : Pt} (h : L.frombytes k = some P) : L.pt k = P := by
  unfold CryptoLib.pt
  rw [h]
  rfl

theorem proveRctCLSAGSimple_keys_eq {Cout : key} {pubs : List ctkey}
    (hv : ValidRing L pubs) (hC : (L.frombytes Cout).isSome = true) :
    proveRctCLSAGSimple_keys L Cout pubs =
      .ok (pubs.map ctkey.dest,
        pubs.map (fun k => L.tobytes (L.pt k.mask - L.pt Cout)),
        pubs.map ctkey.mask) := by
  induction pubs with
  | nil => rfl
  | cons k ks ih =>
    have hk := hv k (List.mem_cons_self _ _)
    have hks : ValidRing L ks := fun x hx => hv x (List.mem_cons_of_mem _ hx)
    simp only [proveRctCLSAGSimple_keys, ih hks, subKeys, CryptoLib.point, pt_spec hk.2,
      pt_spec hC]
    rfl

theorem CLSAG_Gen_loop_done (message : key) (P C C_nonzero : List key) (C_offset : key)
    (I D : Pt) (mu_P mu_C : key) (skGen : Nat → key) (n l fuel : Nat) (c : key)
    (s : List key) (c1 : key) :
    CLSAG_Gen_loop L message P C C_nonzero C_offset I D mu_P mu_C skGen n l fuel l c s c1
      = .ok (c, s, c1) := by
  cases fuel <;> simp [CLSAG_Gen_loop]

theorem CLSAG_Gen_loop_step (hL : L.Sound) {message : key} {pubs : List ctkey}
    {Cout : key} (hv : ValidRing L pubs) (I D : Pt) (mu_P mu_C : key) (skGen : Nat → key)
    {l fuel i : Nat} (c : key) (s : List key) (c1 : key)
    (hi : i < pubs.length) (hne : i ≠ l) :
    CLSAG_Gen_loop L message (pubs.map ctkey.dest)
        (pubs.map (fun k => L.tobytes (L.pt k.mask - L.pt Cout))) (pubs.map ctkey.mask)
        Cout I D mu_P mu_C skGen pubs.length l (fuel + 1) i c s c1 =
      CLSAG_Gen_loop L message (pubs.map ctkey.dest)
        (pubs.map (fun k => L.tobytes (L.pt k.mask - L.pt Cout))) (pubs.map ctkey.mask)
        Cout I D mu_P mu_C skGen pubs.length l fuel ((i + 1) % pubs.length)
        (clsag_round L message pubs Cout I D mu_P mu_C i (skGen i) c)
        (s.set i (skGen i))
        (if (i + 1) % pubs.length = 0
          then clsag_round L message pubs Cout I D mu_P mu_C i (skGen i) c else c1) := by
  have hk := hv pubs[i] (List.getElem_mem hi)
  have h1 : idx (pubs.map ctkey.dest) i = .ok pubs[i].dest := by
    rw [idx_eq_ok]
    simp [List.getElem?_eq_getElem hi]
  have h2 : idx (pubs.map (fun k => L.tobytes (L.pt k.mask - L.pt Cout))) i
      = .ok (L.tobytes (L.pt pubs[i].mask - L.pt Cout)) := by
    rw [idx_eq_ok]
    simp [List.getElem?_eq_getElem hi]
  have h3 : pubs.getD i { dest := 0, mask := 0 } = pubs[i] := by
    simp [List.getD, List.getElem?_eq_getElem hi]
  simp only [CLSAG_Gen_loop, hne, if_false, h1, h2, precomp, CryptoLib.point, ok_bind,
    pt_spec hk.1, hL.frombytes_tobytes, clsag_round, h3]

theorem clsag_fill_length (skGen : Nat → key) (k i : Nat) (s : List key) :
    (clsag_fill skGen k i s).length = s.length := by
  induction k generalizing i s with
  | zero => rfl
  | succ k ih => simp [clsag_fill, ih]

theorem clsag_fill_get (skGen : Nat → key) (k i : Nat) (s : List key) (j : Nat)
    (hj : j < s.length) :
    (clsag_fill skGen k i s)[j]? =
      if i ≤ j ∧ j < i + k then some (skGen j) else s[j]? := by
  induction k generalizing i s with
  | zero =>
    have h0 : ¬ (i ≤ j ∧ j < i + 0) := by omega
    rw [if_neg h0]
    rfl
  | succ k ih =>
    simp only [clsag_fill]
    rw [ih (i + 1) (s.set i (skGen i)) (by simpa using hj)]
    by_cases h1 : i = j
    · subst h1
      have ha : ¬ (i + 1 ≤ i ∧ i < i + 1 + k) := by omega
      have hb : i ≤ i ∧ i < i + (k + 1) := by omega
      rw [if_neg ha, if_pos hb]
      simp [List.getElem?_set, hj]
    · by_cases h2 : i + 1 ≤ j ∧ j < i + 1 + k
      · have hb : i ≤ j ∧ j < i + (k + 1) := by omega
        rw [if_pos h2, if_pos hb]
      · have hb : ¬ (i ≤ j ∧ j < i + (k + 1)) := by omega
        rw [if_neg h2, if_neg hb]
        simp [List.getElem?_set, h1]

theorem CLSAG_Gen_loop_low (hL : L.Sound) {message : key} {pubs : List ctkey}
    {Cout : key} (hv : ValidRing L pubs) (I D : Pt) (mu_P mu_C : key) (skGen : Nat → key)
    {l : Nat} (hl : l < pubs.length) (k : Nat) :
    ∀ (fuel i : Nat) (c : key) (s : List key) (c1 : key), i + k = l → k ≤ fuel →
      CLSAG_Gen_loop L message (pubs.map ctkey.dest)
          (pubs.map (fun k => L.tobytes (L.pt k.mask - L.pt Cout))) (pubs.map ctkey.mask)
          Cout I D mu_P mu_C skGen pubs.length l fuel i c s c1 =
        .ok (clsag_walk L message pubs Cout I D mu_P mu_C skGen k i c,
          clsag_fill skGen k i s, c1) := by
  induction k with
  | zero =>
    intro fuel i c s c1 hik _
    rw [Nat.add_zero] at hik
    subst hik
    exact CLSAG_Gen_loop_done _ _ _ _ _ _ _ _ _ _ _ _ _ _ _ _
  | succ k ih =>
    intro fuel i c s c1 hik hf
    obtain ⟨fuel, rfl⟩ : ∃ f, fuel = f + 1 := ⟨fuel - 1, by omega⟩
    have hi : i < pubs.length := by omega
    have hmod : (i + 1) % pubs.length = i + 1 := Nat.mod_eq_of_lt (by omega)
    rw [CLSAG_Gen_loop_step hL hv I D mu_P mu_C skGen c s c1 hi (by omega), hmod,
      if_neg (Nat.succ_ne_zero i)]
    rw [ih fuel (i + 1) _ _ _ (by omega) (by omega)]
    rfl

theorem CLSAG_Gen_loop_high (hL : L.Sound) {message : key} {pubs : List ctkey}
    {Cout : key} (hv : ValidRing L pubs) (I D : Pt) (mu_P mu_C : key) (skGen : Nat → key)
    {l : Nat} (hl : l < pubs.length) (k : Nat) :
    ∀ (fuel i : Nat) (c : key) (s : List key) (c1 : key), l < i →
      i + k + 1 = pubs.length → k + 1 + l ≤ fuel →
      CLSAG_Gen_loop L message (pubs.map ctkey.dest)
          (pubs.map (fun k => L.tobytes (L.pt k.mask - L.pt Cout))) (pubs.map ctkey.mask)
          Cout I D mu_P mu_C skGen pubs.length l fuel i c s c1 =
        .ok (clsag_walk L message pubs Cout I D mu_P mu_C skGen l 0
              (clsag_walk L message pubs Cout I D mu_P mu_C skGen (k + 1) i c),
          clsag_fill skGen l 0 (clsag_fill skGen (k + 1) i s),
          clsag_walk L message pubs Cout I D mu_P mu_C skGen (k + 1) i c) := by
  induction k with
  | zero =>
    intro fuel i c s c1 hli hik hf
    obtain ⟨fuel, rfl⟩ : ∃ f, fuel = f + 1 := ⟨fuel - 1, by omega⟩
    have hi : i < pubs.length := by omega
    have hmod : (i + 1) % pubs.length = 0 := by
      have : i + 1 = pubs.length := by omega
      rw [this, Nat.mod_self]
    rw [CLSAG_Gen_loop_step hL hv I D mu_P mu_C skGen c s c1 hi (by omega), hmod, if_pos rfl]
    rw [CLSAG_Gen_loop_low hL hv I D mu_P mu_C skGen hl l fuel 0 _ _ _ (by omega) (by omega)]
    rfl
  | succ k ih =>
    intro fuel i c s c1 hli hik hf
    obtain ⟨fuel, rfl⟩ : ∃ f, fuel = f + 1 := ⟨fuel - 1, by omega⟩
    have hi : i < pubs.length := by omega
    have hmod : (i + 1) % pubs.length = i + 1 := Nat.mod_eq_of_lt (by omega)
    rw [CLSAG_Gen_loop_step hL hv I D mu_P mu_C skGen c s c1 hi (by omega), hmod,
      if_neg (Nat.succ_ne_zero i)]
    rw [ih fuel (i + 1) _ _ _ (by omega) (by omega) (by omega)]
    rfl

theorem verRctCLSAGSimple_loop_end (message : key) (sig : clsag) (pubs : List ctkey)
    (C_offset : key) (Q I D : Pt) (mu_P mu_C : key) (fuel : Nat) (c : key) :
    verRctCLSAGSimple_loop L message sig pubs C_offset Q I D mu_P mu_C pubs.length fuel
      pubs.length c = .ok (some c) := by
  cases fuel <;> simp [verRctCLSAGSimple_loop]

theorem verRctCLSAGSimple_loop_step {message : key} {sig : clsag} {pubs : List ctkey}
    {Cout : key} (hv : ValidRing L pubs)
    (I D : Pt) (mu_P mu_C : key) (fuel : Nat) {i : Nat} {si : key} (c : key)
    (hi : i < pubs.length) (hs : sig.s[i]? = some si)
    (hnz : clsag_round L message pubs Cout I D mu_P mu_C i si c ≠ 0) :
    verRctCLSAGSimple_loop L message sig pubs Cout (L.pt Cout) I D mu_P mu_C pubs.length
        (fuel + 1) i c =
      verRctCLSAGSimple_loop L message sig pubs Cout (L.pt Cout) I D mu_P mu_C pubs.length
        fuel (i + 1) (clsag_round L message pubs Cout I D mu_P mu_C i si c) := by
  have hk := hv pubs[i] (List.getElem_mem hi)
  have h1 : idx pubs i = .ok pubs[i] := by
    rw [idx_eq_ok]
    exact List.getElem?_eq_getElem hi
  have h2 : idx sig.s i = .ok si := idx_eq_ok.2 hs
  have h3 : pubs.getD i { dest := 0, mask := 0 } = pubs[i] := by
    simp [List.getD, List.getElem?_eq_getElem hi]
  have hnz2 : ¬ L.hash_to_scalar (c_to_hash (pubs.map ctkey.dest) (pubs.map ctkey.mask)
      Cout message
      (addKeys_aGbBcC L si (sc_mul mu_P c) (L.pt pubs[i].dest) (sc_mul mu_C c)
        (L.pt pubs[i].mask - L.pt Cout))
      (addKeys_aAbBcC L si (L.hash_to_p3 pubs[i].dest) (sc_mul mu_P c) I (sc_mul mu_C c) D))
      = zero := by
    unfold clsag_round at hnz
    rw [h3] at hnz
    exact hnz
  simp only [verRctCLSAGSimple_loop, hi, if_true, h1, h2, precomp, CryptoLib.point, ok_bind,
    pt_spec hk.1, pt_spec hk.2, clsag_round, h3, hnz2, if_false]

theorem verRctCLSAGSimple_loop_walk {message : key} {sig : clsag} {pubs : List ctkey}
    {Cout : key} (hv : ValidRing L pubs)
    (I D : Pt) (mu_P mu_C : key) (skGen : Nat → key) (k : Nat) :
    ∀ (fuel i : Nat) (c : key), i + k ≤ pubs.length →
      (∀ j, i ≤ j → j < i + k → sig.s[j]? = some (skGen j)) →
      (∀ j, 1 ≤ j → j ≤ k →
        clsag_walk L message pubs Cout I D mu_P mu_C skGen j i c ≠ 0) →
      verRctCLSAGSimple_loop L message sig pubs Cout (L.pt Cout) I D mu_P mu_C pubs.length
          (fuel + k) i c =
        verRctCLSAGSimple_loop L message sig pubs Cout (L.pt Cout) I D mu_P mu_C pubs.length
          fuel (i + k) (clsag_walk L message pubs Cout I D mu_P mu_C skGen k i c) := by
  induction k with
  | zero =>
    intro fuel i c _ _ _
    rfl
  | succ k ih =>
    intro fuel i c hik hs hnz
    have h1 := hnz 1 (by omega) (by omega)
    simp only [clsag_walk] at h1
    rw [show fuel + (k + 1) = (fuel + k) + 1 by omega,
      verRctCLSAGSimple_loop_step hv I D mu_P mu_C _ c (by omega)
        (hs i (by omega) (by omega)) h1]
    rw [ih fuel (i + 1) _ (by omega) (fun j h1 h2 => hs j (by omega) (by omega))
      (fun j h1 h2 => by
        have := hnz (j + 1) (by omega) (by omega)
        simpa [clsag_walk] using this)]
    rw [show i + 1 + k = i + (k + 1) by omega]
    rfl

theorem CLSAG_Gen_loop_full (hL : L.Sound) {message : key} {pubs : List ctkey}
    {Cout : key} (hv : ValidRing L pubs) (I D : Pt) (mu_P mu_C : key) (skGen : Nat → key)
    {l : Nat} (hl : l < pubs.length) (c0 : key) (s : List key) :
    CLSAG_Gen_loop L message (pubs.map ctkey.dest)
        (pubs.map (fun k => L.tobytes (L.pt k.mask - L.pt Cout))) (pubs.map ctkey.mask)
        Cout I D mu_P mu_C skGen pubs.length l pubs.length ((l + 1) % pubs.length) c0 s
        (if (l + 1) % pubs.length = 0 then c0 else zero) =
      .ok (clsag_walk L message pubs Cout I D mu_P mu_C skGen l 0
            (clsag_walk L message pubs Cout I D mu_P mu_C skGen (pubs.length - (l + 1))
              (l + 1) c0),
        clsag_fill skGen l 0 (clsag_fill skGen (pubs.length - (l + 1)) (l + 1) s),
        clsag_walk L message pubs Cout I D mu_P mu_C skGen (pubs.length - (l + 1))
          (l + 1) c0) := by
  by_cases hlast : l + 1 = pubs.length
  · have hmod : (l + 1) % pubs.length = 0 := by rw [hlast, Nat.mod_self]
    have hk : pubs.length - (l + 1) = 0 := by omega
    rw [hmod, if_pos rfl, hk,
      CLSAG_Gen_loop_low hL hv I D mu_P mu_C skGen hl l pubs.length 0 _ _ _ (by omega)
        (by omega)]
    rfl
  · have hmod : (l + 1) % pubs.length = l + 1 := Nat.mod_eq_of_lt (by omega)
    have hk : pubs.length - (l + 1) = (pubs.length - (l + 1) - 1) + 1 := by omega
    rw [hmod, if_neg (Nat.succ_ne_zero l), hk,
      CLSAG_Gen_loop_high hL hv I D mu_P mu_C skGen hl (pubs.length - (l + 1) - 1)
        pubs.length (l + 1) _ _ _ (by omega) (by omega) (by omega)]

theorem clsag_round_lt (hP : L.PrimeOrder) (message : key) (pubs : List ctkey)
    (Cout : key) (I D : Pt) (mu_P mu_C : key) (i : Nat) (s c : key) :
    clsag_round L message pubs Cout I D mu_P mu_C i s c < ell :=
  hP.hash_to_scalar_lt _

theorem clsag_walk_lt (hP : L.PrimeOrder) (message : key) (pubs : List ctkey)
    (Cout : key) (I D : Pt) (mu_P mu_C : key) (skGen : Nat → key) (k : Nat) :
    ∀ (i : Nat) (c : key), c < ell →
      clsag_walk L message pubs Cout I D mu_P mu_C skGen k i c < ell := by
  induction k with
  | zero => intro i c hc; exact hc
  | succ k ih =>
    intro i c _
    exact ih (i + 1) _ (clsag_round_lt hP _ _ _ _ _ _ _ _ _ _)

theorem clsag_round_close (hP : L.PrimeOrder) {message : key}
    {pubs : List ctkey} {Cout : key} {mu_P mu_C : key} {l : Nat} {pk : ctkey}
    {p z : key} (rand_a c : key)
    (hidx : pubs[l]? = some pk) (hp : L.frombytes pk.dest = some (p • L.G))
    (hz : L.pt pk.mask - L.pt Cout = z • L.G) :
    clsag_round L message pubs Cout (p • L.hash_to_p3 pk.dest) (z • L.hash_to_p3 pk.dest)
        mu_P mu_C l (sc_mulsub c (sc_muladd mu_C z (sc_mul mu_P p)) rand_a) c =
      L.hash_to_scalar (c_to_hash (pubs.map ctkey.dest) (pubs.map ctkey.mask) Cout message
        (L.tobytes (rand_a • L.G)) (L.tobytes (rand_a • L.hash_to_p3 pk.dest))) := by
  have h3 : pubs.getD l { dest := 0, mask := 0 } = pk := by
    simp [List.getD, hidx]
  have hG : ell • L.G = 0 := (hP.order_G ell).2 (dvd_refl _)
  unfold clsag_round
  simp only [h3, addKeys_aGbBcC, addKeys_aAbBcC, pt_of_frombytes hp, hz]
  rw [closing_point hG, closing_point (hP.order_hash_to_p3 pk.dest)]

theorem proveRctCLSAGSimple_eq (hL : L.Sound) {message : key} {pubs : List ctkey}
    {inSk : ctkey} {a Cout : key} {index : Nat} {rand_a : key} {skGen : Nat → key}
    {pk : ctkey} (hidx : pubs[index]? = some pk) (hv : ValidRing L pubs)
    (hC : (L.frombytes Cout).isSome = true) :
    proveRctCLSAGSimple L message pubs inSk a Cout none false false index rand_a skGen =
      .ok { sig := clsag_expected L message pubs inSk a Cout index rand_a skGen,
            mscout := none, mspout := none } := by
  have hl : index < pubs.length := by
    rcases Nat.lt_or_ge index pubs.length with h | h
    · exact h
    · rw [List.getElem?_eq_none h] at hidx
      cases hidx
  have h3 : pubs.getD index { dest := 0, mask := 0 } = pk := by
    simp [List.getD, hidx]
  have h1 : idx (pubs.map ctkey.dest) index = .ok pk.dest := by
    rw [idx_eq_ok]
    simp [hidx]
  have hn : pubs.length ≥ 1 := by omega
  unfold proveRctCLSAGSimple
  simp only [hn, not_true_eq_false, if_false, Option.isSome_none, Bool.false_eq_true,
    false_and, not_false_eq_true, and_self, or_true, proveRctCLSAGSimple_keys_eq hv hC,
    ok_bind]
  unfold CLSAG_Gen
  simp only [List.length_map, ne_eq, not_true_eq_false, if_false, hl, Option.isSome_none,
    Bool.false_eq_true, false_and, not_false_eq_true, and_self, or_true, h1, ok_bind,
    scalarmultKey, CryptoLib.point, hL.frombytes_tobytes, precomp, pure, Except.pure,
    scalarmultBase]
  rw [CLSAG_Gen_loop_full hL hv _ _ _ _ _ hl]
  simp only [ok_bind, clsag_expected, clsag_I, clsag_D, clsag_mu, clsag_c0, h3]

theorem clsag_expected_length (L : CryptoLib Pt) (message : key) (pubs : List ctkey)
    (inSk : ctkey) (a Cout : key) (index : Nat) (rand_a : key) (skGen : Nat → key) :
    (clsag_expected L message pubs inSk a Cout index rand_a skGen).s.length = pubs.length := by
  simp [clsag_expected, clsag_fill_length]

theorem clsag_expected_decoy (L : CryptoLib Pt) (message : key) (pubs : List ctkey)
    (inSk : ctkey) (a Cout : key) (index : Nat) (rand_a : key) (skGen : Nat → key) {j : Nat}
    (hj : j < pubs.length) (hne : j ≠ index) :
    (clsag_expected L message pubs inSk a Cout index rand_a skGen).s[j]?
      = some (skGen j) := by
  have hne2 : ¬ index = j := fun e => hne e.symm
  simp only [clsag_expected, List.getElem?_set, hne2, if_false]
  rw [clsag_fill_get _ _ _ _ _ (by simpa [clsag_fill_length] using hj)]
  by_cases h1 : j < index
  · have h0 : 0 ≤ j ∧ j < 0 + index := by omega
    rw [if_pos h0]
  · have h2 : ¬ (0 ≤ j ∧ j < 0 + index) := by omega
    have h3 : index + 1 ≤ j ∧ j < index + 1 + (pubs.length - (index + 1)) := by omega
    rw [if_neg h2, clsag_fill_get _ _ _ _ _ (by simpa using hj), if_pos h3]

theorem clsag_expected_real (L : CryptoLib Pt) (message : key) (pubs : List ctkey)
    (inSk : ctkey) (a Cout : key) (index : Nat) (rand_a : key) (skGen : Nat → key)
    (hl : index < pubs.length) :
    ∃ sl, sl < ell ∧
      (clsag_expected L message pubs inSk a Cout index rand_a skGen).s[index]? = some sl ∧
      sl = sc_mulsub
        (clsag_walk L message pubs Cout (clsag_I L pubs inSk index)
          (clsag_D L pubs inSk a index)
          (clsag_mu L HASH_KEY_CLSAG_AGG_0 pubs inSk a Cout index)
          (clsag_mu L HASH_KEY_CLSAG_AGG_1 pubs inSk a Cout index) skGen index 0
          (clsag_expected L message pubs inSk a Cout index rand_a skGen).c1)
        (sc_muladd (clsag_mu L HASH_KEY_CLSAG_AGG_1 pubs inSk a Cout index)
          (sc_sub inSk.mask a)
          (sc_mul (clsag_mu L HASH_KEY_CLSAG_AGG_0 pubs inSk a Cout index) inSk.dest))
        rand_a := by
  refine ⟨_, ?_, ?_, rfl⟩
  · exact Nat.mod_lt _ ell_pos
  · simp only [clsag_expected, List.getElem?_set, if_true]
    simp [clsag_fill_length, hl]

theorem clsag_expected_canonical (L : CryptoLib Pt) (message : key) (pubs : List ctkey)
    (inSk : ctkey) (a Cout : key) (index : Nat) (rand_a : key) (skGen : Nat → key)
    (hl : index < pubs.length) (hs : ∀ i, i < pubs.length → skGen i < ell) :
    (clsag_expected L message pubs inSk a Cout index rand_a skGen).s.all sc_check = true := by
  rw [List.all_eq_true]
  intro x hx
  obtain ⟨j, hj, rfl⟩ := List.getElem_of_mem hx
  have hj2 : j < pubs.length := by
    rw [clsag_expected_length] at hj
    exact hj
  simp only [sc_check, decide_eq_true_eq]
  have hkey : ∃ v, (clsag_expected L message pubs inSk a Cout index rand_a skGen).s[j]?
      = some v ∧ v < ell := by
    by_cases hjl : j = index
    · obtain ⟨sl, hlt, hget, -⟩ :=
        clsag_expected_real L message pubs inSk a Cout index rand_a skGen hl
      exact ⟨sl, by rw [hjl]; exact hget, hlt⟩
    · exact ⟨skGen j,
        clsag_expected_decoy L message pubs inSk a Cout index rand_a skGen hj2 hjl,
        hs j hj2⟩
  obtain ⟨v, hv, hlt⟩ := hkey
  rw [List.getElem?_eq_getElem hj] at hv
  rw [Option.some.inj hv]
  exact hlt

theorem verRctCLSAGSimple_expected (hL : L.Sound) (hP : L.PrimeOrder) {message : key}
    {pubs : List ctkey} {inSk : ctkey} {a Cout : key} {index : Nat} {rand_a : key}
    {skGen : Nat → key} {pk : ctkey}
    (hidx : pubs[index]? = some pk) (hv : ValidRing L pubs)
    (hC : (L.frombytes Cout).isSome = true)
    (hp : L.frombytes pk.dest = some (inSk.dest • L.G))
    (hz : L.pt pk.mask - L.pt Cout = sc_sub inSk.mask a • L.G)
    (hI : clsag_I L pubs inSk index ≠ 0)
    (hD : clsag_D L pubs inSk a index ≠ 0)
    (hs : ∀ i, i < pubs.length → skGen i < ell)
    (hnz : ∀ c ∈ clsag_challenges L message pubs inSk a Cout index rand_a skGen, c ≠ 0) :
    verRctCLSAGSimple L message
      (clsag_expected L message pubs inSk a Cout index rand_a skGen) pubs Cout
      = .ok true := by
  have hl : index < pubs.length := by
    rcases Nat.lt_or_ge index pubs.length with h | h
    · exact h
    · rw [List.getElem?_eq_none h] at hidx
      cases hidx
  have h3 : pubs.getD index { dest := 0, mask := 0 } = pk := by
    simp [List.getD, hidx]
  -- the challenges of the run are not zero
  have hnz1 : ∀ j, j < pubs.length - index →
      clsag_walk L message pubs Cout (clsag_I L pubs inSk index) (clsag_D L pubs inSk a index)
        (clsag_mu L HASH_KEY_CLSAG_AGG_0 pubs inSk a Cout index)
        (clsag_mu L HASH_KEY_CLSAG_AGG_1 pubs inSk a Cout index) skGen j (index + 1)
        (clsag_c0 L message pubs Cout index rand_a) ≠ 0 := by
    intro j hj
    apply hnz
    unfold clsag_challenges
    exact List.mem_append_left _ (List.mem_map.2 ⟨j, List.mem_range.2 hj, rfl⟩)
  have hnz2 : ∀ j, j < index + 1 →
      clsag_walk L message pubs Cout (clsag_I L pubs inSk index) (clsag_D L pubs inSk a index)
        (clsag_mu L HASH_KEY_CLSAG_AGG_0 pubs inSk a Cout index)
        (clsag_mu L HASH_KEY_CLSAG_AGG_1 pubs inSk a Cout index) skGen j 0
        (clsag_expected L message pubs inSk a Cout index rand_a skGen).c1 ≠ 0 := by
    intro j hj
    apply hnz
    unfold clsag_challenges
    exact List.mem_append_right _ (List.mem_map.2 ⟨j, List.mem_range.2 hj, rfl⟩)
  -- the responses
  obtain ⟨sl, -, hsl, hsl2⟩ :=
    clsag_expected_real L message pubs inSk a Cout index rand_a skGen hl
  have hclose : clsag_round L message pubs Cout (clsag_I L pubs inSk index)
      (clsag_D L pubs inSk a index)
      (clsag_mu L HASH_KEY_CLSAG_AGG_0 pubs inSk a Cout index)
      (clsag_mu L HASH_KEY_CLSAG_AGG_1 pubs inSk a Cout index) index sl
      (clsag_walk L message pubs Cout (clsag_I L pubs inSk index)
        (clsag_D L pubs inSk a index)
        (clsag_mu L HASH_KEY_CLSAG_AGG_0 pubs inSk a Cout index)
        (clsag_mu L HASH_KEY_CLSAG_AGG_1 pubs inSk a Cout index) skGen index 0
        (clsag_expected L message pubs inSk a Cout index rand_a skGen).c1)
      = clsag_c0 L message pubs Cout index rand_a := by
    rw [hsl2]
    unfold clsag_I clsag_D clsag_c0
    rw [h3]
    exact clsag_round_close hP rand_a _ hidx hp hz
  -- the walk of the verifier
  have hloop : verRctCLSAGSimple_loop L message
      (clsag_expected L message pubs inSk a Cout index rand_a skGen) pubs Cout (L.pt Cout)
      (clsag_I L pubs inSk index) (clsag_D L pubs inSk a index)
      (clsag_mu L HASH_KEY_CLSAG_AGG_0 pubs inSk a Cout index)
      (clsag_mu L HASH_KEY_CLSAG_AGG_1 pubs inSk a Cout index) pubs.length pubs.length 0
      (clsag_expected L message pubs inSk a Cout index rand_a skGen).c1
      = .ok (some (clsag_expected L message pubs inSk a Cout index rand_a skGen).c1) := by
    have step1 := verRctCLSAGSimple_loop_walk hv (clsag_I L pubs inSk index)
      (clsag_D L pubs inSk a index)
      (clsag_mu L HASH_KEY_CLSAG_AGG_0 pubs inSk a Cout index)
      (clsag_mu L HASH_KEY_CLSAG_AGG_1 pubs inSk a Cout index) skGen index
      (pubs.length - index) 0
      (clsag_expected L message pubs inSk a Cout index rand_a skGen).c1
      (by omega)
      (fun j _ h2 => clsag_expected_decoy L message pubs inSk a Cout index rand_a skGen
        (by omega) (by omega))
      (fun j _ h2 => hnz2 j (by omega))
    have e1 : pubs.length - index + index = pubs.length := by omega
    rw [e1, Nat.zero_add] at step1
    have step2 := verRctCLSAGSimple_loop_step hv
      (clsag_I L pubs inSk index) (clsag_D L pubs inSk a index)
      (clsag_mu L HASH_KEY_CLSAG_AGG_0 pubs inSk a Cout index)
      (clsag_mu L HASH_KEY_CLSAG_AGG_1 pubs inSk a Cout index)
      (pubs.length - (index + 1))
      (clsag_walk L message pubs Cout (clsag_I L pubs inSk index)
        (clsag_D L pubs inSk a index)
        (clsag_mu L HASH_KEY_CLSAG_AGG_0 pubs inSk a Cout index)
        (clsag_mu L HASH_KEY_CLSAG_AGG_1 pubs inSk a Cout index) skGen index 0
        (clsag_expected L message pubs inSk a Cout index rand_a skGen).c1)
      hl hsl (by rw [hclose]; exact hnz1 0 (by omega))
    have e2 : pubs.length - (index + 1) + 1 = pubs.length - index := by omega
    rw [e2, hclose] at step2
    have step3 := verRctCLSAGSimple_loop_walk hv (clsag_I L pubs inSk index)
      (clsag_D L pubs inSk a index)
      (clsag_mu L HASH_KEY_CLSAG_AGG_0 pubs inSk a Cout index)
      (clsag_mu L HASH_KEY_CLSAG_AGG_1 pubs inSk a Cout index) skGen
      (pubs.length - (index + 1)) 0 (index + 1)
      (clsag_c0 L message pubs Cout index rand_a)
      (by omega)
      (fun j h1 h2 => clsag_expected_decoy L message pubs inSk a Cout index rand_a skGen
        (by omega) (by omega))
      (fun j _ h2 => hnz1 j (by omega))
    have e4 : index + 1 + (pubs.length - (index + 1)) = pubs.length := by omega
    rw [Nat.zero_add, e4, verRctCLSAGSimple_loop_end] at step3
    rw [step1, step2, step3]
    rfl
  -- the checks at the head of the verifier
  have hn : pubs.length ≥ 1 := by omega
  have hlen := clsag_expected_length L message pubs inSk a Cout index rand_a skGen
  have hcan := clsag_expected_canonical L message pubs inSk a Cout index rand_a skGen hl hs
  have hc1 : sc_check (clsag_expected L message pubs inSk a Cout index rand_a skGen).c1
      = true := by
    simp only [sc_check, decide_eq_true_eq]
    exact clsag_walk_lt hP _ _ _ _ _ _ _ _ _ _ _ (hP.hash_to_scalar_lt _)
  have hIk : (clsag_expected L message pubs inSk a Cout index rand_a skGen).I
      = L.tobytes (clsag_I L pubs inSk index) := rfl
  have hDk : (clsag_expected L message pubs inSk a Cout index rand_a skGen).D
      = L.tobytes (INV_EIGHT • clsag_D L pubs inSk a index) := rfl
  have hI2 : ¬ L.tobytes (clsag_I L pubs inSk index) = identity :=
    fun e => hI (hL.tobytes_eq_identity.1 e)
  have hD8 : (8 : ℕ) • (INV_EIGHT • clsag_D L pubs inSk a index)
      = clsag_D L pubs inSk a index := by
    apply eight_inv_eight
    unfold clsag_D
    rw [← mul_nsmul', Nat.mul_comm, mul_nsmul', hP.order_hash_to_p3, nsmul_zero]
  have hD2 : ¬ L.tobytes (clsag_D L pubs inSk a index) = identity :=
    fun e => hD (hL.tobytes_eq_identity.1 e)
  have hmuP : L.hash_to_scalar (mu_to_hash HASH_KEY_CLSAG_AGG_0 (pubs.map ctkey.dest)
      (pubs.map ctkey.mask) (L.tobytes (clsag_I L pubs inSk index))
      (L.tobytes (INV_EIGHT • clsag_D L pubs inSk a index)) Cout)
      = clsag_mu L HASH_KEY_CLSAG_AGG_0 pubs inSk a Cout index := rfl
  have hmuC : L.hash_to_scalar (mu_to_hash HASH_KEY_CLSAG_AGG_1 (pubs.map ctkey.dest)
      (pubs.map ctkey.mask) (L.tobytes (clsag_I L pubs inSk index))
      (L.tobytes (INV_EIGHT • clsag_D L pubs inSk a index)) Cout)
      = clsag_mu L HASH_KEY_CLSAG_AGG_1 pubs inSk a Cout index := rfl
  unfold verRctCLSAGSimple verRctCLSAGSimple_body
  simp only [hn, not_true_eq_false, if_false, hlen, ne_eq, hcan, hc1, hIk, hI2, pt_spec hC,
    hDk, scalarmult8, CryptoLib.point, hL.frombytes_tobytes, ok_bind, hD8, hD2, precomp,
    hmuP, hmuC, hloop, pure, Except.pure]
  have hlt : (clsag_expected L message pubs inSk a Cout index rand_a skGen).c1 % ell ≤ ell :=
    (Nat.mod_lt _ ell_pos).le
  have hgen : ∀ x : ℕ, x ≤ ell → x + (ell - x) = ell := fun x hx => by omega
  have hsum := hgen _ hlt
  simp [sc_sub, sc_isnonzero, catchFalse, hsum]

end ClsagFacts

/-! ## CLSAG: what the verifier accepts -/

section ClsagVer

variable {Pt : Type} [AddCommGroup Pt] {L : CryptoLib Pt}

theorem verRctCLSAGSimple_loop_unfold (message : key) (sig : clsag) (pubs : List ctkey)
    (Cout : key) (Q I D : Pt) (mu_P mu_C : key) (fuel : Nat) {i : Nat} {si : key}
    {pk : ctkey} (c : key) (hpk : pubs[i]? = some pk) (hs : sig.s[i]? = some si) :
    verRctCLSAGSimple_loop L message sig pubs Cout Q I D mu_P mu_C pubs.length
        (fuel + 1) i c =
      match L.frombytes pk.dest with
      | none => .error .thrown
      | some Pp =>
        match L.frombytes pk.mask with
        | none => .ok none
        | some T =>
          let c_new := L.hash_to_scalar
            (c_to_hash (pubs.map ctkey.dest) (pubs.map ctkey.mask) Cout message
              (addKeys_aGbBcC L si (sc_mul mu_P c) Pp (sc_mul mu_C c) (T - Q))
              (addKeys_aAbBcC L si (L.hash_to_p3 pk.dest) (sc_mul mu_P c) I (sc_mul mu_C c) D))
          if c_new = zero then .ok none else
            verRctCLSAGSimple_loop L message sig pubs Cout Q I D mu_P mu_C pubs.length
              fuel (i + 1) c_new := by
  have hi : i < pubs.length := by
    rcases Nat.lt_or_ge i pubs.length with h | h
    · exact h
    · rw [List.getElem?_eq_none h] at hpk
      cases hpk
  have h1 : idx pubs i = .ok pk := idx_eq_ok.2 hpk
  have h2 : idx sig.s i = .ok si := idx_eq_ok.2 hs
  simp only [verRctCLSAGSimple_loop, hi, if_true, h1, h2, precomp, CryptoLib.point, ok_bind]
  cases hd : L.frombytes pk.dest with
  | none => rfl
  | some Pp =>
    simp only [ok_bind]
    cases hm : L.frombytes pk.mask with
    | none => rfl
    | some T =>
      simp only [ok_bind]
      rfl

theorem clsag_round_eq (message : key) (pubs : List ctkey) (Cout : key) (I D : Pt)
    (mu_P mu_C : key) {i : Nat} {pk : ctkey} (si c : key) {Pp T : Pt}
    (hpk : pubs[i]? = some pk) (hd : L.frombytes pk.dest = some Pp)
    (hm : L.frombytes pk.mask = some T) :
    clsag_round L message pubs Cout I D mu_P mu_C i si c =
      L.hash_to_scalar
        (c_to_hash (pubs.map ctkey.dest) (pubs.map ctkey.mask) Cout message
          (addKeys_aGbBcC L si (sc_mul mu_P c) Pp (sc_mul mu_C c) (T - L.pt Cout))
          (addKeys_aAbBcC L si (L.hash_to_p3 pk.dest) (sc_mul mu_P c) I (sc_mul mu_C c) D)) := by
  have h3 : pubs.getD i { dest := 0, mask := 0 } = pk := by
    simp [List.getD, hpk]
  unfold clsag_round
  simp only [h3, pt_of_frombytes hd, pt_of_frombytes hm]

theorem verRctCLSAGSimple_loop_char (L : CryptoLib Pt) (message : key) (sig : clsag)
    (pubs : List ctkey)
    (Cout : key) (I D : Pt) (mu_P mu_C : key) (hlen : sig.s.length = pubs.length) (k : Nat) :
    ∀ (fuel i : Nat) (c : key), i + k = pubs.length → k ≤ fuel →
      (verRctCLSAGSimple_loop L message sig pubs Cout (L.pt Cout) I D mu_P mu_C pubs.length
          fuel i c = .ok (some (clsag_walk L message pubs Cout I D mu_P mu_C
            (fun t => sig.s.getD t 0) k i c)) ∧
        (∀ j pk, i ≤ j → pubs[j]? = some pk →
          (L.frombytes pk.dest).isSome = true ∧ (L.frombytes pk.mask).isSome = true) ∧
        (∀ j, 1 ≤ j → j ≤ k → clsag_walk L message pubs Cout I D mu_P mu_C
            (fun t => sig.s.getD t 0) j i c ≠ 0)) ∨
      ((verRctCLSAGSimple_loop L message sig pubs Cout (L.pt Cout) I D mu_P mu_C pubs.length
          fuel i c = .ok none ∨
        verRctCLSAGSimple_loop L message sig pubs Cout (L.pt Cout) I D mu_P mu_C pubs.length
          fuel i c = .error .thrown) ∧
        ¬ ((∀ j pk, i ≤ j → pubs[j]? = some pk →
            (L.frombytes pk.dest).isSome = true ∧ (L.frombytes pk.mask).isSome = true) ∧
          (∀ j, 1 ≤ j → j ≤ k → clsag_walk L message pubs Cout I D mu_P mu_C
            (fun t => sig.s.getD t 0) j i c ≠ 0))) := by
  induction k with
  | zero =>
    intro fuel i c hik _
    left
    have hi : i = pubs.length := by omega
    subst hi
    refine ⟨verRctCLSAGSimple_loop_end message sig pubs Cout _ I D mu_P mu_C fuel c, ?_, ?_⟩
    · intro j pk hj hpk
      rw [List.getElem?_eq_none hj] at hpk
      cases hpk
    · intro j h1 h2
      omega
  | succ k ih =>
    intro fuel i c hik hfuel
    obtain ⟨f, rfl⟩ : ∃ f, fuel = f + 1 := ⟨fuel - 1, by omega⟩
    have hi : i < pubs.length := by omega
    have hpk : pubs[i]? = some pubs[i] := List.getElem?_eq_getElem hi
    have hsi : sig.s[i]? = some (sig.s.getD i 0) := by
      have : i < sig.s.length := by omega
      simp [List.getD, List.getElem?_eq_getElem this]
    rw [verRctCLSAGSimple_loop_unfold message sig pubs Cout (L.pt Cout) I D mu_P mu_C f c
      hpk hsi]
    cases hd : L.frombytes pubs[i].dest with
    | none =>
      right
      refine ⟨Or.inr rfl, ?_⟩
      rintro ⟨hv, -⟩
      have := (hv i _ (Nat.le_refl i) hpk).1
      rw [hd] at this
      cases this
    | some Pp =>
      cases hm : L.frombytes pubs[i].mask with
      | none =>
        right
        refine ⟨Or.inl rfl, ?_⟩
        rintro ⟨hv, -⟩
        have := (hv i _ (Nat.le_refl i) hpk).2
        rw [hm] at this
        cases this
      | some T =>
        have hr := clsag_round_eq message pubs Cout I D mu_P mu_C (sig.s.getD i 0) c hpk hd hm
        simp only
        rw [← hr]
        have hw : ∀ j, clsag_walk L message pubs Cout I D mu_P mu_C
            (fun t => sig.s.getD t 0) (j + 1) i c =
            clsag_walk L message pubs Cout I D mu_P mu_C (fun t => sig.s.getD t 0) j (i + 1)
              (clsag_round L message pubs Cout I D mu_P mu_C i (sig.s.getD i 0) c) := by
          intro j
          rfl
        by_cases hz : clsag_round L message pubs Cout I D mu_P mu_C i (sig.s.getD i 0) c = zero
        · right
          rw [if_pos hz]
          refine ⟨Or.inl rfl, ?_⟩
          rintro ⟨-, hnz⟩
          have := hnz 1 (Nat.le_refl 1) (by omega)
          rw [hw 0] at this
          exact this hz
        · rw [if_neg hz]
          rcases ih f (i + 1)
              (clsag_round L message pubs Cout I D mu_P mu_C i (sig.s.getD i 0) c)
              (by omega) (by omega) with ⟨h1, h2, h3⟩ | ⟨h1, h2⟩
          · left
            refine ⟨?_, ?_, ?_⟩
            · rw [h1, hw k]
            · intro j pk hj hpj
              rcases Nat.eq_or_lt_of_le hj with e | e
              · subst e
                rw [hpk] at hpj
                cases hpj
                rw [hd, hm]
                exact ⟨rfl, rfl⟩
              · exact h2 j pk e hpj
            · intro j hj1 hj2
              obtain ⟨t, rfl⟩ : ∃ t, j = t + 1 := ⟨j - 1, by omega⟩
              rw [hw t]
              rcases Nat.eq_zero_or_pos t with e | e
              · subst e
                exact hz
              · exact h3 t e (by omega)
          · right
            refine ⟨h1, ?_⟩
            rintro ⟨hv, hnz⟩
            apply h2
            refine ⟨fun j pk hj hpj => hv j pk (by omega) hpj, ?_⟩
            intro j hj1 hj2
            have := hnz (j + 1) (by omega) (by omega)
            rw [hw j] at this
            exact this

theorem sub_mod_eq_zero (m a b : ℕ) (ha : a < m) (hb : b < m) :
    (a + (m - b)) % m = 0 ↔ a = b := by
  constructor
  · intro h
    rcases Nat.lt_trichotomy a b with hlt | heq | hgt
    · have h1 : a + (m - b) < m := by omega
      rw [Nat.mod_eq_of_lt h1] at h
      omega
    · exact heq
    · have h1 : a + (m - b) = m + (a - b) := by omega
      have h2 : a - b < m := by omega
      rw [h1, Nat.add_mod_left, Nat.mod_eq_of_lt h2] at h
      omega
  · intro h
    subst h
    have h1 : a + (m - a) = m := by omega
    rw [h1, Nat.mod_self]

theorem sc_sub_eq_zero {a b : key} (ha : a < ell) (hb : b < ell) :
    sc_sub a b = 0 ↔ a = b := by
  unfold sc_sub
  rw [Nat.mod_eq_of_lt ha, Nat.mod_eq_of_lt hb]
  exact sub_mod_eq_zero ell a b ha hb

theorem clsag_walk_lt_of (hH : ∀ ks : List key, L.hash_to_scalar ks < ell)
    (message : key) (pubs : List ctkey) (Cout : key) (I D : Pt) (mu_P mu_C : key)
    (skGen : Nat → key) (k : Nat) :
    ∀ (i : Nat) (c : key), c < ell →
      clsag_walk L message pubs Cout I D mu_P mu_C skGen k i c < ell := by
  induction k with
  | zero => intro i c hc; exact hc
  | succ k ih =>
    intro i c _
    exact ih (i + 1) _ (hH _)

theorem clsag_ver_challenge_lt (hH : ∀ ks : List key, L.hash_to_scalar ks < ell)
    (message : key) (sig : clsag) (pubs : List ctkey) (C_offset : key) (j : Nat)
    (hc : sig.c1 < ell) : clsag_ver_challenge L message sig pubs C_offset j < ell :=
  clsag_walk_lt_of hH _ _ _ _ _ _ _ _ j 0 _ hc

theorem verRctCLSAGSimple_char (hL : L.Sound) (hH : ∀ ks : List key, L.hash_to_scalar ks < ell)
    (message : key) (sig : clsag) (pubs : List ctkey) (C_offset : key) :
    (verRctCLSAGSimple L message sig pubs C_offset = .ok true ∧
      (¬ clsag_rejected L sig pubs ∧ clsag_points L sig pubs C_offset ∧
        clsag_closes L message sig pubs C_offset)) ∨
    (verRctCLSAGSimple L message sig pubs C_offset = .ok false ∧
      ¬ (¬ clsag_rejected L sig pubs ∧ clsag_points L sig pubs C_offset ∧
        clsag_closes L message sig pubs C_offset)) := by
  unfold verRctCLSAGSimple verRctCLSAGSimple_body
  simp only
  by_cases h1 : pubs.length ≥ 1
  swap
  · right
    rw [if_pos h1]
    exact ⟨rfl, fun h => h.1 (Or.inl (by omega))⟩
  rw [if_neg (not_not.2 h1)]
  by_cases h2 : pubs.length ≠ sig.s.length
  · right
    rw [if_pos h2]
    exact ⟨rfl, fun h => h.1 (Or.inr (Or.inl (fun e => h2 e.symm)))⟩
  rw [if_neg h2]
  have h2 : sig.s.length = pubs.length := (not_not.1 h2).symm
  by_cases h3 : sig.s.all sc_check = true
  swap
  · right
    rw [if_pos h3]
    refine ⟨rfl, fun h => h.1 (Or.inr (Or.inr (Or.inl ?_)))⟩
    simpa [List.all_eq_true, sc_check] using h3
  rw [if_neg (not_not.2 h3)]
  by_cases h4 : sc_check sig.c1 = true
  swap
  · right
    rw [if_pos h4]
    refine ⟨rfl, fun h => h.1 (Or.inr (Or.inr (Or.inr (Or.inl ?_))))⟩
    simpa [sc_check] using h4
  rw [if_neg (not_not.2 h4)]
  have h4 : sig.c1 < ell := by simpa [sc_check] using h4
  by_cases h5 : sig.I = identity
  · right
    rw [if_pos h5]
    exact ⟨rfl, fun h => h.1 (Or.inr (Or.inr (Or.inr (Or.inr (Or.inl h5)))))⟩
  rw [if_neg h5]
  cases h6 : L.frombytes C_offset with
  | none =>
    right
    refine ⟨rfl, fun h => ?_⟩
    have := h.2.1.2.1
    rw [h6] at this
    cases this
  | some Cp =>
    simp only
    cases h7 : L.frombytes sig.D with
    | none =>
      right
      refine ⟨?_, fun h => ?_⟩
      · simp [scalarmult8, CryptoLib.point, h7, catchFalse, bind, Except.bind]
      · have := h.2.1.2.2.2
        rw [h7] at this
        cases this
    | some Dp =>
      have hD8 : scalarmult8 L sig.D = .ok (L.tobytes ((8 : ℕ) • Dp)) := by
        simp [scalarmult8, CryptoLib.point, h7, bind, Except.bind, pure, Except.pure]
      rw [hD8, ok_bind]
      by_cases h8 : L.tobytes ((8 : ℕ) • Dp) = identity
      · right
        rw [if_pos h8]
        refine ⟨rfl, fun h => h.1 ?_⟩
        exact Or.inr (Or.inr (Or.inr (Or.inr (Or.inr
          ⟨Dp, h7, hL.tobytes_eq_identity.1 h8⟩))))
      rw [if_neg h8]
      have h8 : (8 : ℕ) • Dp ≠ 0 := fun e => h8 (hL.tobytes_eq_identity.2 e)
      cases h9 : L.frombytes sig.I with
      | none =>
        right
        refine ⟨?_, fun h => ?_⟩
        · simp [precomp, CryptoLib.point, h9, catchFalse, bind, Except.bind]
        · have := h.2.1.2.2.1
          rw [h9] at this
          cases this
      | some Ip =>
        have hI : precomp L sig.I = .ok Ip := by simp [precomp, CryptoLib.point, h9]
        have hDp : precomp L (L.tobytes ((8 : ℕ) • Dp)) = .ok ((8 : ℕ) • Dp) := by
          simp [precomp, CryptoLib.point, hL.frombytes_tobytes]
        rw [hI, ok_bind, hDp, ok_bind]
        have hnr : ¬ clsag_rejected L sig pubs := by
          unfold clsag_rejected
          rintro (e | e | ⟨x, hx, hx2⟩ | e | e | ⟨Dq, hq, hq2⟩)
          · omega
          · exact e h2
          · rw [List.all_eq_true] at h3
            have := h3 x hx
            simp [sc_check] at this
            exact hx2 this
          · exact e h4
          · exact h5 e
          · rw [h7] at hq
            cases hq
            exact h8 hq2
        have hCp : L.pt C_offset = Cp := pt_of_frombytes h6
        have hIp : L.pt sig.I = Ip := pt_of_frombytes h9
        have hDq : L.pt sig.D = Dp := pt_of_frombytes h7
        have hch := verRctCLSAGSimple_loop_char L message sig pubs C_offset Ip ((8 : ℕ) • Dp)
          (L.hash_to_scalar (mu_to_hash HASH_KEY_CLSAG_AGG_0 (pubs.map ctkey.dest)
            (pubs.map ctkey.mask) sig.I sig.D C_offset))
          (L.hash_to_scalar (mu_to_hash HASH_KEY_CLSAG_AGG_1 (pubs.map ctkey.dest)
            (pubs.map ctkey.mask) sig.I sig.D C_offset))
          h2 pubs.length pubs.length 0 sig.c1 (by omega) (Nat.le_refl _)
        rw [hCp] at hch
        have hval : (∀ j pk, 0 ≤ j → pubs[j]? = some pk →
            (L.frombytes pk.dest).isSome = true ∧ (L.frombytes pk.mask).isSome = true) ↔
            ValidRing L pubs := by
          unfold ValidRing
          constructor
          · intro h k hk
            obtain ⟨j, hj, rfl⟩ := List.getElem_of_mem hk
            exact h j _ (Nat.zero_le j) (List.getElem?_eq_getElem hj)
          · intro h j pk _ hpk
            exact h pk (List.getElem?_mem hpk)
        have hchal : ∀ j, clsag_walk L message pubs C_offset Ip ((8 : ℕ) • Dp)
            (L.hash_to_scalar (mu_to_hash HASH_KEY_CLSAG_AGG_0 (pubs.map ctkey.dest)
              (pubs.map ctkey.mask) sig.I sig.D C_offset))
            (L.hash_to_scalar (mu_to_hash HASH_KEY_CLSAG_AGG_1 (pubs.map ctkey.dest)
              (pubs.map ctkey.mask) sig.I sig.D C_offset))
            (fun t => sig.s.getD t 0) j 0 sig.c1 =
            clsag_ver_challenge L message sig pubs C_offset j := by
          intro j
          unfold clsag_ver_challenge
          rw [hIp, hDq]
        simp only [hchal, hval] at hch
        have hpts : ValidRing L pubs → clsag_points L sig pubs C_offset := by
          intro hv
          refine ⟨hv, ?_, ?_, ?_⟩
          · rw [h6]; rfl
          · rw [h9]; rfl
          · rw [h7]; rfl
        rcases hch with ⟨e, hv, hnz⟩ | ⟨e, hno⟩
        · rw [e, ok_bind]
          have hlt := clsag_ver_challenge_lt hH message sig pubs C_offset pubs.length h4
          by_cases hc : clsag_ver_challenge L message sig pubs C_offset pubs.length = sig.c1
          · left
            refine ⟨?_, hnr, hpts hv, hnz, hc⟩
            have : sc_sub (clsag_ver_challenge L message sig pubs C_offset pubs.length) sig.c1
                = 0 := (sc_sub_eq_zero hlt h4).2 hc
            simp [this, sc_isnonzero, catchFalse, pure, Except.pure]
          · right
            refine ⟨?_, fun h => hc h.2.2.2⟩
            have : sc_sub (clsag_ver_challenge L message sig pubs C_offset pubs.length) sig.c1
                ≠ 0 := fun e0 => hc ((sc_sub_eq_zero hlt h4).1 e0)
            simp [this, sc_isnonzero, catchFalse, pure, Except.pure]
        · right
          refine ⟨?_, fun h => hno ⟨h.2.1.1, h.2.2.1⟩⟩
          rcases e with e | e
          · rw [e]
            rfl
          · rw [e]
            rfl

end ClsagVer

/-! ## The assembly, stage by stage -/

section AssemblyFacts

variable {Pt : Type} [AddCommGroup Pt] {L : CryptoLib Pt}

theorem updAt_eq_ok {α : Type} {xs ys : List α} {i : Nat} {f : α → α}
    (h : updAt xs i f = .ok ys) :
    ys.length = xs.length ∧ ys[i]? = (xs[i]?).map f ∧ ∀ j, j ≠ i → ys[j]? = xs[j]? := by
  unfold updAt at h
  cases hx : xs[i]? with
  | none => rw [hx] at h; cases h
  | some x =>
    rw [hx] at h
    simp only [Except.ok.injEq] at h
    subst h
    have hi : i < xs.length := by
      rcases Nat.lt_or_ge i xs.length with hlt | hge
      · exact hlt
      · rw [List.getElem?_eq_none hge] at hx
        cases hx
    refine ⟨List.length_set _ _ _, ?_, ?_⟩
    · rw [List.getElem?_set_self hi]
      rfl
    · intro j hj
      exact List.getElem?_set_ne (fun e => hj e.symm)

theorem scalarmult8_eq_ok {P K : key} :
    scalarmult8 L P = .ok K ↔ ∃ p, L.frombytes P = some p ∧ K = L.tobytes ((8 : ℕ) • p) := by
  unfold scalarmult8 CryptoLib.point
  cases h : L.frombytes P with
  | none => simp [bind, Except.bind]
  | some p =>
    simp only [bind, Except.bind, pure, Except.pure, Except.ok.injEq, Option.some.injEq,
      exists_eq_left']
    exact ⟨fun e => e.symm, fun e => e.symm⟩

theorem genRctSimple_publish_eq_ok {type : RCTType} {d : direction} {use_onshore_col : Bool}
    {onshore_col_amount : Nat} {padded : Bool} {o : outamount} {Ci mask : key}
    {st st2 : gen_outputs}
    (h : genRctSimple_publish L type d use_onshore_col onshore_col_amount padded o Ci mask st
      = .ok st2) :
    ∃ pk, scalarmult8 L Ci = .ok pk ∧
      st2.bulletproofs = st.bulletproofs ∧
      st2.outPk = st.outPk ++ [(slots type o pk).1] ∧
      st2.outPk_usd = st.outPk_usd ++ [(slots type o pk).2.1] ∧
      st2.outPk_xasset = st.outPk_xasset ++ [(slots type o pk).2.2] ∧
      st2.outSk = st.outSk ++ [mask] ∧
      st2.maskSums.length = st.maskSums.length ∧
      st2.maskSums[0]? = st.maskSums[0]? ∧
      (type = RCTTypeHaven2 ∨ type = RCTTypeHaven3 →
        st2.maskSums[1]? = (st.maskSums[1]?).map
          (fun x => if change_class d o then sc_add x mask else x)) ∧
      (padded = true → type = RCTTypeHaven3 →
        st2.maskSums[2]? = (st.maskSums[2]?).map
          (fun x => col_step d use_onshore_col onshore_col_amount x o mask)) ∧
      (padded = false → st2.maskSums[2]? = st.maskSums[2]?) := by
  unfold genRctSimple_publish at h
  simp only at h
  by_cases hH : type = RCTTypeHaven2 ∨ type = RCTTypeHaven3
  · rw [if_pos hH] at h
    obtain ⟨pk, hpk, h⟩ := bind_eq_ok.1 h
    obtain ⟨ms1, h1, h⟩ := bind_eq_ok.1 h
    obtain ⟨ms2, h2, h⟩ := bind_eq_ok.1 h
    rw [pure_eq_ok] at h
    subst h
    have e1 : (if change_class d o = true then
          updAt st.maskSums 1 (fun x => sc_add x mask)
        else pure st.maskSums) = Except.ok ms1 := by
      rw [← h1]
      unfold change_class
      by_cases c1 : o.1 = "XHV" <;> by_cases c2 : o.1 = "XUSD" <;>
        cases d.offshore <;> cases d.onshore <;> cases d.xusd_to_xasset <;>
        cases d.xasset_to_xusd <;> simp [c1, c2]
    have f1 : ms1.length = st.maskSums.length ∧ ms1[0]? = st.maskSums[0]? ∧
        ms1[1]? = (st.maskSums[1]?).map
          (fun x => if change_class d o then sc_add x mask else x) ∧
        ms1[2]? = st.maskSums[2]? := by
      by_cases hc : change_class d o = true
      · rw [if_pos hc] at e1
        obtain ⟨a1, a2, a3⟩ := updAt_eq_ok e1
        refine ⟨a1, a3 0 (by decide), ?_, a3 2 (by decide)⟩
        rw [a2]
        simp [hc]
      · rw [if_neg hc, pure_eq_ok] at e1
        subst e1
        refine ⟨rfl, rfl, ?_, rfl⟩
        simp [hc]
    have f2 : ms2.length = ms1.length ∧ ms2[0]? = ms1[0]? ∧ ms2[1]? = ms1[1]? ∧
        (padded = true → type = RCTTypeHaven3 →
          ms2[2]? = (ms1[2]?).map
            (fun x => col_step d use_onshore_col onshore_col_amount x o mask)) ∧
        (padded = false → ms2[2]? = ms1[2]?) := by
      by_cases hp : padded = true ∧ type = RCTTypeHaven3
      · rw [if_pos hp] at h2
        obtain ⟨ms3, h3, h2⟩ := bind_eq_ok.1 h2
        have g3 : ms3.length = ms1.length ∧ ms3[0]? = ms1[0]? ∧ ms3[1]? = ms1[1]? ∧
            ms3[2]? = (ms1[2]?).map
              (fun x => if d.offshore = true ∧ o.2.2 = true then sc_add x mask else x) := by
          by_cases hc : d.offshore = true ∧ o.2.2 = true
          · rw [if_pos hc] at h3
            obtain ⟨a1, a2, a3⟩ := updAt_eq_ok h3
            refine ⟨a1, a3 0 (by decide), a3 1 (by decide), ?_⟩
            rw [a2]
            simp [hc]
          · rw [if_neg hc, pure_eq_ok] at h3
            subst h3
            refine ⟨rfl, rfl, rfl, ?_⟩
            simp [hc]
        have g4 : ms2.length = ms3.length ∧ ms2[0]? = ms3[0]? ∧ ms2[1]? = ms3[1]? ∧
            ms2[2]? = (ms3[2]?).map
              (fun x => if use_onshore_col = true ∧ o.2.2 = true ∧ o.2.1 = onshore_col_amount
                then mask else x) := by
          by_cases hc : use_onshore_col = true ∧ o.2.2 = true ∧ o.2.1 = onshore_col_amount
          · rw [if_pos hc] at h2
            obtain ⟨a1, a2, a3⟩ := updAt_eq_ok h2
            refine ⟨a1, a3 0 (by decide), a3 1 (by decide), ?_⟩
            rw [a2]
            simp [hc]
          · rw [if_neg hc, pure_eq_ok] at h2
            subst h2
            refine ⟨rfl, rfl, rfl, ?_⟩
            simp [hc]
        refine ⟨g4.1.trans g3.1, g4.2.1.trans g3.2.1, g4.2.2.1.trans g3.2.2.1, ?_, ?_⟩
        · intro _ _
          rw [g4.2.2.2, g3.2.2.2, Option.map_map]
          rfl
        · intro hpf
          rw [hpf] at hp
          exact absurd hp.1 (by decide)
      · rw [if_neg hp, pure_eq_ok] at h2
        subst h2
        refine ⟨rfl, rfl, rfl, ?_, fun _ => rfl⟩
        intro hp1 hp2
        exact absurd ⟨hp1, hp2⟩ hp
    refine ⟨pk, hpk, rfl, ?_, ?_, ?_, rfl, ?_, ?_, ?_, ?_, ?_⟩
    · simp [slots, hH]
    · simp [slots, hH]
    · simp [slots, hH]
    · exact f2.1.trans f1.1
    · exact f2.2.1.trans f1.2.1
    · intro _
      exact f2.2.2.1.trans f1.2.2.1
    · intro hp1 hp2
      rw [f2.2.2.2.1 hp1 hp2, f1.2.2.2]
    · intro hp1
      rw [f2.2.2.2.2 hp1, f1.2.2.2]
  · rw [if_neg hH] at h
    by_cases c1 : o.1 = "XHV"
    · rw [if_pos c1] at h
      obtain ⟨pk, hpk, h⟩ := bind_eq_ok.1 h
      rw [pure_eq_ok] at h
      subst h
      refine ⟨pk, hpk, rfl, ?_, ?_, ?_, rfl, rfl, rfl, fun e => absurd e hH, ?_, fun _ => rfl⟩
      · simp [slots, hH, c1]
      · simp [slots, hH, c1]
      · simp [slots, hH, c1]
      · intro _ e
        exact absurd (Or.inr e) hH
    · rw [if_neg c1] at h
      by_cases c2 : o.1 = "XUSD"
      · rw [if_pos c2] at h
        obtain ⟨pk, hpk, h⟩ := bind_eq_ok.1 h
        rw [pure_eq_ok] at h
        subst h
        refine ⟨pk, hpk, rfl, ?_, ?_, ?_, rfl, rfl, rfl, fun e => absurd e hH, ?_,
          fun _ => rfl⟩
        · simp [slots, hH, c1, c2]
        · simp [slots, hH, c1, c2]
        · simp [slots, hH, c1, c2]
        · intro _ e
          exact absurd (Or.inr e) hH
      · rw [if_neg c2] at h
        obtain ⟨pk, hpk, h⟩ := bind_eq_ok.1 h
        rw [pure_eq_ok] at h
        subst h
        refine ⟨pk, hpk, rfl, ?_, ?_, ?_, rfl, rfl, rfl, fun e => absurd e hH, ?_,
          fun _ => rfl⟩
        · simp [slots, hH, c1, c2]
        · simp [slots, hH, c1, c2]
        · simp [slots, hH, c1, c2]
        · intro _ e
          exact absurd (Or.inr e) hH

theorem genRctSimple_publish_loop_eq_ok {type : RCTType} {d : direction}
    {use_onshore_col : Bool} {onshore_col_amount : Nat} {padded : Bool} {C masks : List key} :
    ∀ (os : List outamount) (i : Nat) (st st2 : gen_outputs),
      genRctSimple_publish_loop L type d use_onshore_col onshore_col_amount padded C masks
        os i st = .ok st2 →
      ∃ pks : List key,
        List.Forall₂ (fun Ck pk => scalarmult8 L Ck = .ok pk) ((C.drop i).take os.length) pks ∧
        ((C.drop i).take os.length).length = os.length ∧
        ((masks.drop i).take os.length).length = os.length ∧
        st2.bulletproofs = st.bulletproofs ∧
        st2.outPk = st.outPk ++ List.zipWith (fun o pk => (slots type o pk).1) os pks ∧
        st2.outPk_usd = st.outPk_usd ++ List.zipWith (fun o pk => (slots type o pk).2.1) os pks ∧
        st2.outPk_xasset =
          st.outPk_xasset ++ List.zipWith (fun o pk => (slots type o pk).2.2) os pks ∧
        st2.outSk = st.outSk ++ (masks.drop i).take os.length ∧
        st2.maskSums.length = st.maskSums.length ∧
        st2.maskSums[0]? = st.maskSums[0]? ∧
        (type = RCTTypeHaven2 ∨ type = RCTTypeHaven3 →
          st2.maskSums[1]? = (st.maskSums[1]?).map
            (fun x => change_sum d x (os.zip ((masks.drop i).take os.length)))) ∧
        (padded = true → type = RCTTypeHaven3 →
          st2.maskSums[2]? = (st.maskSums[2]?).map
            (fun x => col_sum d use_onshore_col onshore_col_amount x
              (os.zip ((masks.drop i).take os.length)))) ∧
        (padded = false → st2.maskSums[2]? = st.maskSums[2]?) := by
  intro os
  induction os with
  | nil =>
    intro i st st2 h
    simp only [genRctSimple_publish_loop, Except.ok.injEq] at h
    subst h
    refine ⟨[], ?_, ?_, ?_, rfl, ?_, ?_, ?_, ?_, rfl, rfl, ?_, ?_, fun _ => rfl⟩
    · simp
    · simp
    · simp
    · simp
    · simp
    · simp
    · simp
    · intro _
      cases st.maskSums[1]? <;> simp [change_sum]
    · intro _ _
      cases st.maskSums[2]? <;> simp [col_sum]
  | cons o rest ih =>
    intro i st st2 h
    simp only [genRctSimple_publish_loop] at h
    obtain ⟨Ci, hCi, h⟩ := bind_eq_ok.1 h
    obtain ⟨mask, hm, h⟩ := bind_eq_ok.1 h
    obtain ⟨st1, h1, h⟩ := bind_eq_ok.1 h
    rw [idx_eq_ok] at hCi hm
    obtain ⟨pk, hpk, b1, b2, b3, b4, b5, b6, b7, b8, b9, b10⟩ := genRctSimple_publish_eq_ok h1
    obtain ⟨pks, c1, c2, c3, c4, c5, c6, c7, c8, c9, c10, c11, c12, c13⟩ := ih (i + 1) st1 st2 h
    have dC : C.drop i = Ci :: C.drop (i + 1) := drop_of_get? hCi
    have dM : masks.drop i = mask :: masks.drop (i + 1) := drop_of_get? hm
    refine ⟨pk :: pks, ?_, ?_, ?_, c4.trans b1, ?_, ?_, ?_, ?_, c9.trans b6, c10.trans b7,
      ?_, ?_, ?_⟩
    · rw [dC]
      simp only [List.length_cons, List.take_succ_cons]
      exact List.Forall₂.cons hpk c1
    · rw [dC]
      simp only [List.length_cons, List.take_succ_cons]
      rw [c2]
    · rw [dM]
      simp only [List.length_cons, List.take_succ_cons]
      rw [c3]
    · rw [c5, b2]
      simp
    · rw [c6, b3]
      simp
    · rw [c7, b4]
      simp
    · rw [c8, b5, dM]
      simp
    · intro hH
      rw [c11 hH, b8 hH, dM, Option.map_map]
      simp only [List.length_cons, List.take_succ_cons, List.zip_cons_cons]
      rfl
    · intro hp hH
      rw [c12 hp hH, b9 hp hH, dM, Option.map_map]
      simp only [List.length_cons, List.take_succ_cons, List.zip_cons_cons]
      rfl
    · intro hp
      rw [c13 hp, b10 hp]

theorem order_commit (hP : L.PrimeOrder) (m a : ℕ) : ell • (m • L.G + a • L.H) = 0 := by
  rw [nsmul_add, ← mul_nsmul, ← mul_nsmul, mul_nsmul', mul_nsmul']
  rw [(hP.order_G ell).2 (dvd_refl _), (hP.order_H ell).2 (dvd_refl _)]
  simp

theorem genRctSimple_prove_eq_ok (hP : L.PrimeOrder) {dev : device}
    (hdev : ProverCommits dev L) {amounts : List Nat} {amount_keys : List key} {first : Nat}
    {proof : Bulletproof} {C masks : List key} (ha : ∀ a ∈ amounts, a < 2 ^ 64)
    (h : genRctSimple_prove L dev amounts amount_keys first = .ok (proof, C, masks)) :
    masks.length = amounts.length ∧
    C = List.zipWith (fun a m => L.tobytes (INV_EIGHT • (m • L.G + a • L.H))) amounts masks ∧
    (dev.fake = true → masks = List.replicate amounts.length identity) ∧
    (dev.fake = false → masks =
      ((amount_keys.drop first).take amounts.length).map dev.genCommitmentMask) := by
  unfold genRctSimple_prove at h
  by_cases hf : dev.fake = true
  · rw [if_pos hf] at h
    unfold make_dummy_bulletproof at h
    obtain ⟨nrl, -, h⟩ := bind_eq_ok.1 h
    simp only [pure_eq_ok, Prod.mk.injEq] at h
    obtain ⟨-, hC, hm⟩ := h
    subst hC hm
    refine ⟨by simp, ?_, fun _ => by simp [List.eq_replicate_iff], fun e => ?_⟩
    · rw [List.zipWith_map_right]
      rw [List.zipWith_same]
      apply List.map_congr_left
      intro a hmem
      simp only [addKeys2]
      congr 1
      rw [Nat.mod_eq_of_lt (ha a hmem)]
      unfold sc_mul identity
      rw [nsmul_mod_ell ((hP.order_H ell).2 (dvd_refl _)), nsmul_add, one_nsmul,
        mul_nsmul']
      congr 1
      rw [← mul_nsmul, ← mul_nsmul, mul_comm]
    · rw [hf] at e
      cases e
  · rw [if_neg hf] at h
    obtain ⟨k0, -, h⟩ := bind_eq_ok.1 h
    unfold proveRangeBulletproof at h
    split_ifs at h with h1
    cases hp : dev.bulletproof_PROVE amounts
        (((amount_keys.drop first).take amounts.length).map dev.genCommitmentMask) with
    | none => simp only [hp] at h; cases h
    | some pr =>
      simp only [hp] at h
      split_ifs at h with h2
      simp only [Except.ok.injEq, Prod.mk.injEq] at h
      obtain ⟨rfl, rfl, rfl⟩ := h
      refine ⟨?_, hdev _ _ _ hp, fun e => absurd e hf, fun _ => rfl⟩
      rw [List.length_map]
      exact (not_not.1 h1).symm

theorem genRctSimple_batch_size_le {amounts_proved n_amounts : Nat} :
    ∀ (fuel bs bs2 : Nat), bs + amounts_proved ≤ n_amounts →
      genRctSimple_batch_size amounts_proved n_amounts fuel bs = .ok bs2 →
      bs2 + amounts_proved ≤ n_amounts := by
  intro fuel
  induction fuel with
  | zero =>
    intro bs bs2 _ h
    cases h
  | succ fuel ih =>
    intro bs bs2 hle h
    simp only [genRctSimple_batch_size] at h
    split_ifs at h with hc
    · exact ih (bs * 2) bs2 hc.1 h
    · cases h
      exact hle

/-- An invariant of the range-proof stage: it holds of the state after every batch
when it holds at the start and each batch keeps it. -/
theorem genRctSimple_stage_induct {dev : device} {range_proof_type : RangeProofType}
    {type : RCTType} {d : direction} {use_onshore_col : Bool} {onshore_col_amount : Nat}
    {outamounts : List outamount} {amount_keys : List key} {st0 st : gen_outputs}
    (I : Nat → gen_outputs → Prop) (h0 : I 0 st0)
    (hstep : ∀ (proved bs : Nat) (s s2 : gen_outputs) (proof : Bulletproof)
      (C masks : List key), bs + proved ≤ outamounts.length → I proved s →
      genRctSimple_prove L dev (((outamounts.drop proved).take bs).map (fun o => o.2.1))
        amount_keys proved = .ok (proof, C, masks) →
      genRctSimple_publish_loop L type d use_onshore_col onshore_col_amount
        (decide (range_proof_type = .RangeProofPaddedBulletproof)) C masks
        ((outamounts.drop proved).take bs) 0
        { s with bulletproofs := s.bulletproofs ++ [proof] } = .ok s2 →
      I (proved + bs) s2)
    (h : (if range_proof_type = .RangeProofPaddedBulletproof then
        genRctSimple_padded L dev type d use_onshore_col onshore_col_amount outamounts
          amount_keys st0
      else
        genRctSimple_batches L dev range_proof_type type d use_onshore_col
          onshore_col_amount outamounts amount_keys outamounts.length 0 st0) = .ok st) :
    I outamounts.length st := by
  by_cases hp : range_proof_type = .RangeProofPaddedBulletproof
  · rw [if_pos hp] at h
    unfold genRctSimple_padded at h
    obtain ⟨t, h1, h⟩ := bind_eq_ok.1 h
    obtain ⟨proof, C, masks⟩ := t
    simp only at h
    have := hstep 0 outamounts.length st0 st proof C masks (by omega) h0
      (by simpa using h1) (by simpa [hp] using h)
    simpa using this
  · rw [if_neg hp] at h
    have key : ∀ (fuel proved : Nat) (s : gen_outputs), proved ≤ outamounts.length →
        I proved s →
        genRctSimple_batches L dev range_proof_type type d use_onshore_col
          onshore_col_amount outamounts amount_keys fuel proved s = .ok st →
        I outamounts.length st := by
      intro fuel
      induction fuel with
      | zero =>
        intro proved s hle hI hb
        simp only [genRctSimple_batches] at hb
        split_ifs at hb with hlt
        cases hb
        have : proved = outamounts.length := by omega
        rw [← this]
        exact hI
      | succ fuel ih =>
        intro proved s hle hI hb
        simp only [genRctSimple_batches] at hb
        by_cases hlt : proved < outamounts.length
        · rw [if_pos hlt] at hb
          obtain ⟨bs, hbs, hb⟩ := bind_eq_ok.1 hb
          obtain ⟨t, h1, hb⟩ := bind_eq_ok.1 hb
          obtain ⟨proof, C, masks⟩ := t
          simp only at hb
          obtain ⟨s2, h2, hb⟩ := bind_eq_ok.1 hb
          have hbsle : bs + proved ≤ outamounts.length := by
            by_cases hm : range_proof_type = .RangeProofMultiOutputBulletproof
            · rw [if_pos hm] at hbs
              exact genRctSimple_batch_size_le 5 1 bs (by omega) hbs
            · rw [if_neg hm, pure_eq_ok] at hbs
              omega
          have hI2 := hstep proved bs s s2 proof C masks hbsle hI h1
            (by simpa [hp] using h2)
          exact ih (proved + bs) s2 (by omega) hI2 hb
        · rw [if_neg hlt] at hb
          cases hb
          have : proved = outamounts.length := by omega
          rw [← this]
          exact hI
    exact key outamounts.length 0 st0 (Nat.zero_le _) h0 h

theorem change_sum_append (d : direction) (xs ys : List (outamount × key)) (x : key) :
    change_sum d x (xs ++ ys) = change_sum d (change_sum d x xs) ys := by
  induction xs generalizing x with
  | nil => rfl
  | cons p rest ih =>
    obtain ⟨o, m⟩ := p
    simp only [List.cons_append, change_sum]
    exact ih _

theorem col_sum_append (d : direction) (use_onshore_col : Bool) (onshore_col_amount : Nat)
    (xs ys : List (outamount × key)) (x : key) :
    col_sum d use_onshore_col onshore_col_amount x (xs ++ ys) =
      col_sum d use_onshore_col onshore_col_amount
        (col_sum d use_onshore_col onshore_col_amount x xs) ys := by
  induction xs generalizing x with
  | nil => rfl
  | cons p rest ih =>
    obtain ⟨o, m⟩ := p
    simp only [List.cons_append, col_sum]
    exact ih _

theorem genRctSimple_stage_sums {dev : device} {range_proof_type : RangeProofType}
    {type : RCTType} {d : direction} {use_onshore_col : Bool} {onshore_col_amount : Nat}
    {outamounts : List outamount} {amount_keys : List key} {ms0 : List key}
    {st : gen_outputs}
    (h : (if range_proof_type = .RangeProofPaddedBulletproof then
        genRctSimple_padded L dev type d use_onshore_col onshore_col_amount outamounts
          amount_keys
          { bulletproofs := [], outPk := [], outPk_usd := [], outPk_xasset := [],
            maskSums := ms0, outSk := [] }
      else
        genRctSimple_batches L dev range_proof_type type d use_onshore_col
          onshore_col_amount outamounts amount_keys outamounts.length 0
          { bulletproofs := [], outPk := [], outPk_usd := [], outPk_xasset := [],
            maskSums := ms0, outSk := [] }) = .ok st) :
    st.outSk.length = outamounts.length ∧
    st.maskSums.length = ms0.length ∧
    st.maskSums[0]? = ms0[0]? ∧
    (type = RCTTypeHaven2 ∨ type = RCTTypeHaven3 →
      st.maskSums[1]? = (ms0[1]?).map (fun x => change_sum d x (outamounts.zip st.outSk))) ∧
    (range_proof_type = .RangeProofPaddedBulletproof → type = RCTTypeHaven3 →
      st.maskSums[2]? = (ms0[2]?).map
        (fun x => col_sum d use_onshore_col onshore_col_amount x (outamounts.zip st.outSk))) ∧
    (range_proof_type ≠ .RangeProofPaddedBulletproof → st.maskSums[2]? = ms0[2]?) := by
  have hI := genRctSimple_stage_induct
    (fun proved s =>
      s.outSk.length = proved ∧
      s.maskSums.length = ms0.length ∧
      s.maskSums[0]? = ms0[0]? ∧
      (type = RCTTypeHaven2 ∨ type = RCTTypeHaven3 →
        s.maskSums[1]? = (ms0[1]?).map
          (fun x => change_sum d x ((outamounts.take proved).zip s.outSk))) ∧
      (range_proof_type = .RangeProofPaddedBulletproof → type = RCTTypeHaven3 →
        s.maskSums[2]? = (ms0[2]?).map
          (fun x => col_sum d use_onshore_col onshore_col_amount x
            ((outamounts.take proved).zip s.outSk))) ∧
      (range_proof_type ≠ .RangeProofPaddedBulletproof → s.maskSums[2]? = ms0[2]?))
    ?_ ?_ h
  · simpa using hI
  · refine ⟨rfl, rfl, rfl, ?_, ?_, fun _ => rfl⟩
    · intro _
      cases ms0[1]? <;> simp [change_sum]
    · intro _ _
      cases ms0[2]? <;> simp [col_sum]
  · intro proved bs s s2 proof C masks hle hI _ h2
    obtain ⟨i1, i2, i3, i4, i5, i6⟩ := hI
    obtain ⟨pks, -, -, c3, -, -, -, -, c8, c9, c10, c11, c12, c13⟩ :=
      genRctSimple_publish_loop_eq_ok _ _ _ _ h2
    simp only [List.drop_zero] at c3 c8 c11 c12
    have hbl : ((outamounts.drop proved).take bs).length = bs := by
      rw [List.length_take, List.length_drop]
      omega
    rw [hbl] at c3 c8 c11 c12
    have hz : (outamounts.take (proved + bs)).zip s2.outSk =
        (outamounts.take proved).zip s.outSk ++
          ((outamounts.drop proved).take bs).zip (masks.take bs) := by
      rw [c8, List.take_add]
      apply List.zip_append
      rw [List.length_take, i1]
      omega
    refine ⟨?_, c9.trans i2, c10.trans i3, ?_, ?_, ?_⟩
    · rw [c8, List.length_append, i1, c3]
    · intro hH
      rw [c11 hH, i4 hH, Option.map_map, hz]
      congr 1
      funext x
      simp only [Function.comp]
      rw [change_sum_append]
    · intro hp hH
      rw [c12 (by simp [hp]) hH, i5 hp hH, Option.map_map, hz]
      congr 1
      funext x
      simp only [Function.comp]
      rw [col_sum_append]
    · intro hp
      rw [c13 (by simp [hp]), i6 hp]

theorem scalarmult8_commit (hL : L.Sound) (hP : L.PrimeOrder) (m a : ℕ) :
    scalarmult8 L (L.tobytes (INV_EIGHT • (m • L.G + a • L.H))) = .ok (genC L m a) := by
  rw [scalarmult8_eq_ok]
  refine ⟨_, hL.frombytes_tobytes _, ?_⟩
  rw [eight_inv_eight (order_commit hP m a)]
  rfl

theorem scalarmult8_commits (hL : L.Sound) (hP : L.PrimeOrder) :
    ∀ (as : List Nat) (ms pks : List key),
      List.Forall₂ (fun Ck pk => scalarmult8 L Ck = .ok pk)
        (List.zipWith (fun a m => L.tobytes (INV_EIGHT • (m • L.G + a • L.H))) as ms) pks →
      pks = List.zipWith (fun a m => genC L m a) as ms := by
  intro as
  induction as with
  | nil =>
    intro ms pks h
    simp only [List.zipWith_nil_left, List.forall₂_nil_left_iff] at h
    simp [h]
  | cons a as ih =>
    intro ms pks h
    cases ms with
    | nil =>
      simp only [List.zipWith_nil_right, List.forall₂_nil_left_iff] at h
      simp [h]
    | cons m ms =>
      simp only [List.zipWith_cons_cons] at h ⊢
      obtain ⟨pk, rest, h1, h2, rfl⟩ := List.forall₂_cons_left_iff.1 h
      rw [scalarmult8_commit hL hP] at h1
      rw [← Except.ok.inj h1, ih ms rest h2]

theorem zipWith_commits {γ : Type} (f : outamount → key → γ) :
    ∀ (os : List outamount) (ms : List key),
      List.zipWith f os (List.zipWith (fun a m => genC L m a) (os.map (fun o => o.2.1)) ms) =
        List.zipWith (fun o m => f o (genC L m o.2.1)) os ms := by
  intro os
  induction os with
  | nil => intro ms; simp
  | cons o os ih =>
    intro ms
    cases ms with
    | nil => simp
    | cons m ms => simp [ih ms]

theorem zipWith_take_step {α β γ : Type} (f : α → β → γ) (os : List α) (proved bs : Nat)
    (sk masks : List β) (hlen : sk.length = proved) (hp : proved ≤ os.length) :
    List.zipWith f (os.take proved) sk ++ List.zipWith f ((os.drop proved).take bs) masks =
      List.zipWith f (os.take (proved + bs)) (sk ++ masks) := by
  rw [List.take_add]
  symm
  apply List.zipWith_append
  rw [List.length_take, hlen]
  omega

/-- The range-proof stage commits to every output: the slot of its colour holds
`mask·G + amount·H`, and every mask is the identity or derived by the device. -/
theorem genRctSimple_stage_commits (hL : L.Sound) (hP : L.PrimeOrder) {dev : device}
    (hdev : ProverCommits dev L) {range_proof_type : RangeProofType}
    {type : RCTType} {d : direction} {use_onshore_col : Bool} {onshore_col_amount : Nat}
    {outamounts : List outamount} {amount_keys : List key} {ms0 : List key}
    {st : gen_outputs} (ha : ∀ o ∈ outamounts, o.2.1 < 2 ^ 64)
    (h : (if range_proof_type = .RangeProofPaddedBulletproof then
        genRctSimple_padded L dev type d use_onshore_col onshore_col_amount outamounts
          amount_keys
          { bulletproofs := [], outPk := [], outPk_usd := [], outPk_xasset := [],
            maskSums := ms0, outSk := [] }
      else
        genRctSimple_batches L dev range_proof_type type d use_onshore_col
          onshore_col_amount outamounts amount_keys outamounts.length 0
          { bulletproofs := [], outPk := [], outPk_usd := [], outPk_xasset := [],
            maskSums := ms0, outSk := [] }) = .ok st) :
    st.outPk = List.zipWith (fun o m => (slots type o (genC L m o.2.1)).1)
      outamounts st.outSk ∧
    st.outPk_usd = List.zipWith (fun o m => (slots type o (genC L m o.2.1)).2.1)
      outamounts st.outSk ∧
    st.outPk_xasset = List.zipWith (fun o m => (slots type o (genC L m o.2.1)).2.2)
      outamounts st.outSk ∧
    (∀ m ∈ st.outSk, m = identity ∨ ∃ k, m = dev.genCommitmentMask k) := by
  have hI := genRctSimple_stage_induct
    (fun proved s =>
      s.outSk.length = proved ∧
      s.outPk = List.zipWith (fun o m => (slots type o (genC L m o.2.1)).1)
        (outamounts.take proved) s.outSk ∧
      s.outPk_usd = List.zipWith (fun o m => (slots type o (genC L m o.2.1)).2.1)
        (outamounts.take proved) s.outSk ∧
      s.outPk_xasset = List.zipWith (fun o m => (slots type o (genC L m o.2.1)).2.2)
        (outamounts.take proved) s.outSk ∧
      (∀ m ∈ s.outSk, m = identity ∨ ∃ k, m = dev.genCommitmentMask k))
    ?_ ?_ h
  · obtain ⟨-, i2, i3, i4, i5⟩ := hI
    rw [List.take_length] at i2 i3 i4
    exact ⟨i2, i3, i4, i5⟩
  · refine ⟨rfl, by simp, by simp, by simp, ?_⟩
    intro m hm
    cases hm
  · intro proved bs s s2 proof C masks hle hI h1 h2
    obtain ⟨i1, i2, i3, i4, i5⟩ := hI
    have hbl : ((outamounts.drop proved).take bs).length = bs := by
      rw [List.length_take, List.length_drop]
      omega
    have hamt : ∀ a ∈ ((outamounts.drop proved).take bs).map (fun o => o.2.1), a < 2 ^ 64 := by
      intro a hmem
      obtain ⟨o, ho, rfl⟩ := List.mem_map.1 hmem
      exact ha o (List.mem_of_mem_drop (List.mem_of_mem_take ho))
    obtain ⟨p1, p2, p3, p4⟩ := genRctSimple_prove_eq_ok hP hdev hamt h1
    rw [List.length_map, hbl] at p1
    obtain ⟨pks, c1, -, -, -, c5, c6, c7, c8, -⟩ :=
      genRctSimple_publish_loop_eq_ok _ _ _ _ h2
    simp only [List.drop_zero] at c1 c8
    rw [hbl] at c1 c8
    have hmt : masks.take bs = masks := List.take_of_length_le (by omega)
    have hCl : C.length = bs := by
      rw [p2, List.length_zipWith, List.length_map, hbl, p1, Nat.min_self]
    have hCt : C.take bs = C := List.take_of_length_le (by omega)
    rw [hmt] at c8
    rw [hCt, p2] at c1
    have hpk := scalarmult8_commits hL hP _ _ _ c1
    simp only at c5 c6 c7
    rw [hpk, zipWith_commits] at c5 c6 c7
    rw [i2] at c5
    rw [i3] at c6
    rw [i4] at c7
    rw [zipWith_take_step _ _ _ _ _ _ i1 (by omega)] at c5 c6 c7
    rw [← c8] at c5 c6 c7
    refine ⟨?_, c5, c6, c7, ?_⟩
    · rw [c8, List.length_append, i1, p1]
    · intro m hm
      rw [c8] at hm
      rcases List.mem_append.1 hm with hm | hm
      · exact i5 m hm
      · by_cases hf : dev.fake = true
        · rw [p3 hf] at hm
          exact Or.inl (List.eq_of_mem_replicate hm)
        · rw [p4 (by simpa using hf)] at hm
          obtain ⟨k, -, rfl⟩ := List.mem_map.1 hm
          exact Or.inr ⟨k, rfl⟩

theorem invert_eq_chain {x y : key} (h : invert x = .ok y) : y = invert_chain x := by
  unfold invert at h
  simp only at h
  split_ifs at h
  cases h
  rfl

theorem own_outputs_cons_col {use_onshore_col : Bool} {o : outamount} (m : key)
    (rest : List (outamount × key)) (h : (use_onshore_col && o.2.2) = true) :
    own_outputs use_onshore_col ((o, m) :: rest) = own_outputs use_onshore_col rest ∧
    col_outputs use_onshore_col ((o, m) :: rest) = (o, m) :: col_outputs use_onshore_col rest := by
  constructor
  · exact List.filter_cons_of_neg (by simp only [h]; decide)
  · exact List.filter_cons_of_pos (by simp only [h])

theorem own_outputs_cons_own {use_onshore_col : Bool} {o : outamount} (m : key)
    (rest : List (outamount × key)) (h : (use_onshore_col && o.2.2) = false) :
    own_outputs use_onshore_col ((o, m) :: rest) = (o, m) :: own_outputs use_onshore_col rest ∧
    col_outputs use_onshore_col ((o, m) :: rest) = col_outputs use_onshore_col rest := by
  constructor
  · exact List.filter_cons_of_pos (by simp only [h]; decide)
  · exact List.filter_cons_of_neg (by simp only [h]; decide)

theorem genRctSimple_seal_eq_ok {dev : device} {type : RCTType} {use_onshore_col : Bool}
    {in_asset_type : String} {pr : pricing_record} {tx_version : Nat}
    {amount_keys : List key} :
    ∀ (xs : List (outamount × key)) (i : Nat) (so sc : key) (e : List ecdhTuple)
      (so2 sc2 : key) (e2 : List ecdhTuple),
      genRctSimple_seal dev type use_onshore_col in_asset_type pr tx_version (d2h COIN)
        (invert_chain (d2h COIN)) amount_keys xs i so sc e = .ok (so2, sc2, e2) →
      so2 % ell = (so + ((own_outputs use_onshore_col xs).map
        (scaled_mask in_asset_type pr tx_version)).sum) % ell ∧
      sc2 % ell = (sc + ((col_outputs use_onshore_col xs).map
        (scaled_mask in_asset_type pr tx_version)).sum) % ell ∧
      (so < ell → so2 < ell) ∧ (sc < ell → sc2 < ell) ∧
      (∀ x ∈ xs, genRctSimple_scaled in_asset_type pr tx_version (d2h COIN)
        (invert_chain (d2h COIN)) x.1 x.2 = .ok (scaled_mask in_asset_type pr tx_version x)) ∧
      e2.length = e.length + xs.length ∧
      (∀ k, k < e.length → e2[k]? = e[k]?) ∧
      (∀ k x, xs[k]? = some x → ∃ ak, amount_keys[i + k]? = some ak ∧
        e2[e.length + k]? = some (dev.ecdhEncode { mask := x.2, amount := d2h x.1.2.1 } ak
          (decide (type = RCTTypeBulletproof2 ∨ type = RCTTypeCLSAG ∨ type = RCTTypeCLSAGN ∨
            type = RCTTypeHaven2 ∨ type = RCTTypeHaven3)))) := by
  intro xs
  induction xs with
  | nil =>
    intro i so sc e so2 sc2 e2 h
    simp only [genRctSimple_seal, Except.ok.injEq, Prod.mk.injEq] at h
    obtain ⟨rfl, rfl, rfl⟩ := h
    refine ⟨by simp [own_outputs], by simp [col_outputs], id, id, ?_, by simp, fun _ _ => rfl, ?_⟩
    · intro x hx
      cases hx
    · intro k x hx
      simp at hx
  | cons p rest ih =>
    intro i so sc e so2 sc2 e2 h
    obtain ⟨o, m⟩ := p
    simp only [genRctSimple_seal] at h
    obtain ⟨scaled, hs, h⟩ := bind_eq_ok.1 h
    obtain ⟨ak, hak, h⟩ := bind_eq_ok.1 h
    rw [idx_eq_ok] at hak
    have hsm : scaled_mask in_asset_type pr tx_version (o, m) = scaled := by
      unfold scaled_mask
      simp only [hs]
      rfl
    have hlt : ∀ y, sc_add scaled y < ell := fun y => Nat.mod_lt _ ell_pos
    by_cases hc : use_onshore_col = true ∧ o.2.2 = true
    · have hcb : (use_onshore_col && o.2.2) = true := by simp [hc.1, hc.2]
      rw [if_pos hc, if_pos hc] at h
      obtain ⟨a1, a2, a3, a4, a5, a6, a7, a8⟩ := ih _ _ _ _ _ _ _ h
      refine ⟨?_, ?_, a3, fun _ => a4 (hlt _), ?_, ?_, ?_, ?_⟩
      · rw [a1, (own_outputs_cons_col m rest hcb).1]
      · rw [a2, (own_outputs_cons_col m rest hcb).2]
        simp only [List.map_cons, List.sum_cons, hsm]
        unfold sc_add
        rw [Nat.add_mod, Nat.mod_mod, ← Nat.add_mod]
        congr 1
        ring
      · intro x hx
        rcases List.mem_cons.1 hx with e1 | e1
        · subst e1
          rw [hsm]
          exact hs
        · exact a5 x e1
      · rw [a6]
        simp
        omega
      · intro k hk
        rw [a7 k (by simp; omega)]
        exact List.getElem?_append_left hk
      · intro k x hx
        cases k with
        | zero =>
          simp only [List.getElem?_cons_zero, Option.some.injEq] at hx
          subst hx
          refine ⟨ak, by simpa using hak, ?_⟩
          rw [a7 _ (by simp)]
          simp
        | succ k =>
          simp only [List.getElem?_cons_succ] at hx
          obtain ⟨ak2, h1, h2⟩ := a8 k x hx
          refine ⟨ak2, ?_, ?_⟩
          · rw [← h1]
            congr 1
            omega
          · rw [← h2]
            congr 1
            simp
            omega
    · have hcb : (use_onshore_col && o.2.2) = false := by
        cases hu : use_onshore_col <;> cases hf : o.2.2 <;> simp_all
      rw [if_neg hc, if_neg hc] at h
      obtain ⟨a1, a2, a3, a4, a5, a6, a7, a8⟩ := ih _ _ _ _ _ _ _ h
      refine ⟨?_, ?_, fun _ => a3 (hlt _), a4, ?_, ?_, ?_, ?_⟩
      · rw [a1, (own_outputs_cons_own m rest hcb).1]
        simp only [List.map_cons, List.sum_cons, hsm]
        unfold sc_add
        rw [Nat.add_mod, Nat.mod_mod, ← Nat.add_mod]
        congr 1
        ring
      · rw [a2, (own_outputs_cons_own m rest hcb).2]
      · intro x hx
        rcases List.mem_cons.1 hx with e1 | e1
        · subst e1
          rw [hsm]
          exact hs
        · exact a5 x e1
      · rw [a6]
        simp
        omega
      · intro k hk
        rw [a7 k (by simp; omega)]
        exact List.getElem?_append_left hk
      · intro k x hx
        cases k with
        | zero =>
          simp only [List.getElem?_cons_zero, Option.some.injEq] at hx
          subst hx
          refine ⟨ak, by simpa using hak, ?_⟩
          rw [a7 _ (by simp)]
          simp
        | succ k =>
          simp only [List.getElem?_cons_succ] at hx
          obtain ⟨ak2, h1, h2⟩ := a8 k x hx
          refine ⟨ak2, ?_, ?_⟩
          · rw [← h1]
            congr 1
            omega
          · rw [← h2]
            congr 1
            simp
            omega

theorem mod_sub_cancel (m t s : ℕ) (hm : 0 < m) :
    (s + (t % m + (m - s % m)) % m) % m = t % m := by
  have hs : s % m < m := Nat.mod_lt _ hm
  have h1 : s % m + (t % m + (m - s % m)) = t % m + m := by omega
  rw [Nat.add_mod_mod, ← Nat.mod_add_mod, h1, Nat.add_mod_right, Nat.mod_mod]

theorem genRctSimple_commit_loop_eq_ok (L : CryptoLib Pt) {aGen : Nat → key} :
    ∀ (xs : List (Nat × Nat)) (s : key) (a po : List key) (last : Nat × Nat) (s2 : key)
      (a2 po2 : List key),
      genRctSimple_commit_loop L aGen xs s a po = .ok (last, s2, a2, po2) →
      (xs.map Prod.fst).Nodup →
      ∃ pre, xs = pre ++ [last] ∧
        a2.length = a.length ∧ po2.length = po.length ∧
        s2 % ell = (s + (pre.map (fun x => aGen x.1)).sum) % ell ∧
        (∀ j, j ∉ pre.map Prod.fst → a2[j]? = a[j]? ∧ po2[j]? = po[j]?) ∧
        (∀ x ∈ pre, x.1 < a.length → a2[x.1]? = some (aGen x.1)) ∧
        (∀ x ∈ pre, x.1 < po.length → po2[x.1]? = some (genC L (aGen x.1) x.2)) := by
  intro xs
  induction xs with
  | nil =>
    intro s a po last s2 a2 po2 h _
    simp [genRctSimple_commit_loop] at h
  | cons x rest ih =>
    intro s a po last s2 a2 po2 h hnd
    cases rest with
    | nil =>
      simp only [genRctSimple_commit_loop, Except.ok.injEq, Prod.mk.injEq] at h
      obtain ⟨rfl, rfl, rfl, rfl⟩ := h
      refine ⟨[], rfl, rfl, rfl, by simp, fun _ _ => ⟨rfl, rfl⟩, ?_, ?_⟩
      · intro y hy
        cases hy
      · intro y hy
        cases hy
    | cons y rest =>
      simp only [genRctSimple_commit_loop] at h
      have hnd2 : ((y :: rest).map Prod.fst).Nodup := by
        simp only [List.map_cons, List.nodup_cons] at hnd ⊢
        exact hnd.2
      have hx : x.1 ∉ (y :: rest).map Prod.fst := by
        simp only [List.map_cons, List.nodup_cons] at hnd
        exact hnd.1
      obtain ⟨pre, e1, e2, e3, e4, e5, e6, e7⟩ := ih _ _ _ _ _ _ _ h hnd2
      have hxpre : x.1 ∉ pre.map Prod.fst := by
        intro hmem
        apply hx
        rw [e1, List.map_append]
        exact List.mem_append_left _ hmem
      refine ⟨x :: pre, ?_, ?_, ?_, ?_, ?_, ?_, ?_⟩
      · rw [e1]
        rfl
      · rw [e2, List.length_set]
      · rw [e3, List.length_set]
      · rw [e4]
        simp only [List.map_cons, List.sum_cons]
        unfold sc_add
        rw [Nat.add_mod, Nat.mod_mod, ← Nat.add_mod]
        congr 1
        ring
      · intro j hj
        simp only [List.map_cons, List.mem_cons, not_or] at hj
        obtain ⟨f1, f2⟩ := e5 j hj.2
        rw [f1, f2]
        exact ⟨List.getElem?_set_ne (fun e => hj.1 e.symm),
          List.getElem?_set_ne (fun e => hj.1 e.symm)⟩
      · intro z hz hlt
        rcases List.mem_cons.1 hz with e | e
        · subst e
          rw [(e5 z.1 hxpre).1]
          exact List.getElem?_set_self hlt
        · exact e6 z e (by rw [List.length_set]; exact hlt)
      · intro z hz hlt
        rcases List.mem_cons.1 hz with e | e
        · subst e
          rw [(e5 z.1 hxpre).2]
          exact List.getElem?_set_self hlt
        · exact e7 z e (by rw [List.length_set]; exact hlt)

theorem genRctSimple_commit_eq_ok (L : CryptoLib Pt) {aGen : Nat → key} {target : key}
    {xs : List (Nat × Nat)} {a po : List key} {a_last s2 : key} {a2 po2 : List key}
    (h : genRctSimple_commit L aGen target xs a po = .ok (a_last, s2, a2, po2))
    (hnd : (xs.map Prod.fst).Nodup) (hlt : ∀ x ∈ xs, x.1 < a.length)
    (hlen : po.length = a.length) :
    a2.length = a.length ∧ po2.length = po.length ∧
    (∀ j, j ∉ xs.map Prod.fst → a2[j]? = a[j]? ∧ po2[j]? = po[j]?) ∧
    (∀ x ∈ xs, ∃ v, a2[x.1]? = some v ∧ po2[x.1]? = some (genC L v x.2)) ∧
    ((xs.map (fun x => a2.getD x.1 0)).sum) % ell = target % ell ∧
    sc_add a_last s2 = target % ell := by
  unfold genRctSimple_commit at h
  obtain ⟨t, hloop, h⟩ := bind_eq_ok.1 h
  obtain ⟨last, s1, a1, po1⟩ := t
  simp only [pure_eq_ok, Prod.mk.injEq] at h
  obtain ⟨rfl, rfl, rfl, rfl⟩ := h
  obtain ⟨pre, e1, e2, e3, e4, e5, e6, e7⟩ :=
    genRctSimple_commit_loop_eq_ok L _ _ _ _ _ _ _ _ hloop hnd
  have hlast : last ∈ xs := by
    rw [e1]
    exact List.mem_append_right _ (List.mem_singleton.2 rfl)
  have hpre : ∀ x ∈ pre, x ∈ xs := by
    intro x hx
    rw [e1]
    exact List.mem_append_left _ hx
  have hne : ∀ x ∈ pre, x.1 ≠ last.1 := by
    intro x hx heq
    rw [e1, List.map_append, List.nodup_append] at hnd
    exact hnd.2.2 (List.mem_map_of_mem Prod.fst hx)
      (by rw [heq]; exact List.mem_map_of_mem Prod.fst (List.mem_singleton.2 rfl))
  have hl1 : last.1 < a1.length := by
    rw [e2]
    exact hlt last hlast
  have hl2 : last.1 < po1.length := by
    rw [e3, hlen]
    exact hlt last hlast
  have hz : zero + (pre.map (fun x => aGen x.1)).sum = (pre.map (fun x => aGen x.1)).sum :=
    Nat.zero_add _
  rw [hz] at e4
  refine ⟨?_, ?_, ?_, ?_, ?_, ?_⟩
  · rw [List.length_set, e2]
  · rw [List.length_set, e3]
  · intro j hj
    rw [e1, List.map_append, List.mem_append, not_or] at hj
    have hjl : last.1 ≠ j := by
      intro e
      apply hj.2
      rw [← e]
      exact List.mem_map_of_mem Prod.fst (List.mem_singleton.2 rfl)
    rw [List.getElem?_set_ne hjl, List.getElem?_set_ne hjl]
    exact e5 j hj.1
  · intro x hx
    rw [e1, List.mem_append, List.mem_singleton] at hx
    rcases hx with hx | hx
    · refine ⟨aGen x.1, ?_, ?_⟩
      · rw [List.getElem?_set_ne (fun e => hne x hx e.symm)]
        exact e6 x hx (hlt x (hpre x hx))
      · rw [List.getElem?_set_ne (fun e => hne x hx e.symm)]
        exact e7 x hx (by rw [hlen]; exact hlt x (hpre x hx))
    · subst hx
      exact ⟨_, List.getElem?_set_self hl1, List.getElem?_set_self hl2⟩
  · have hm : (xs.map (fun x => (a1.set last.1 (sc_sub target s1)).getD x.1 0)).sum =
        (pre.map (fun x => aGen x.1)).sum + sc_sub target s1 := by
      rw [e1, List.map_append, List.sum_append]
      congr 1
      · congr 1
        apply List.map_congr_left
        intro x hx
        have : (a1.set last.1 (sc_sub target s1))[x.1]? = some (aGen x.1) := by
          rw [List.getElem?_set_ne (fun e => hne x hx e.symm)]
          exact e6 x hx (hlt x (hpre x hx))
        simp [List.getD, this]
      · simp [List.getD, List.getElem?_set_self hl1]
    rw [hm]
    unfold sc_sub
    rw [e4]
    exact mod_sub_cancel ell target _ ell_pos
  · unfold sc_add sc_sub
    rw [Nat.add_comm]
    exact mod_sub_cancel ell target s1 ell_pos

theorem mem_enum_iff {α : Type} {l : List α} {x : Nat × α} :
    x ∈ l.enum ↔ l[x.1]? = some x.2 := by
  obtain ⟨i, v⟩ := x
  exact List.mk_mem_enum_iff_getElem?

theorem genRctSimple_split_facts (inamounts : List Nat) (cols : List Nat) :
    ((genRctSimple_split inamounts cols).1.map Prod.fst).Nodup ∧
    ((genRctSimple_split inamounts cols).2.map Prod.fst).Nodup ∧
    (∀ x, x ∈ (genRctSimple_split inamounts cols).1 ↔ inamounts[x.1]? = some x.2 ∧ x.1 ∉ cols) ∧
    (∀ x, x ∈ (genRctSimple_split inamounts cols).2 ↔ inamounts[x.1]? = some x.2 ∧ x.1 ∈ cols) := by
  have hnd : (inamounts.enum.map Prod.fst).Nodup := by
    rw [List.enum_map_fst]
    exact List.nodup_range _
  refine ⟨?_, ?_, ?_, ?_⟩
  · exact hnd.sublist ((List.filter_sublist _).map _)
  · exact hnd.sublist ((List.filter_sublist _).map _)
  · intro x
    simp only [genRctSimple_split, List.mem_filter, mem_enum_iff, Bool.not_eq_eq_eq_not,
      Bool.not_true, decide_eq_false_iff_not]
  · intro x
    simp only [genRctSimple_split, List.mem_filter, mem_enum_iff, decide_eq_true_eq]

theorem genRctSimple_core_eq_ok {dev : device} {inamounts : List Nat}
    {inamounts_col_indices : List Nat} {onshore_col_amount : Nat}
    {in_asset_type : String} {outamounts : List outamount} {amount_keys : List key}
    {rct_config : RCTConfig} {pr : pricing_record} {tx_version : Nat}
    {aGen : Nat → key} {c : gen_core}
    (h : genRctSimple_core L dev inamounts inamounts_col_indices onshore_col_amount
      in_asset_type outamounts amount_keys rct_config pr tx_version aGen = .ok c) :
    c.d = genRctSimple_direction in_asset_type outamounts ∧
    genRctSimple_type rct_config.bp_version = .ok c.type ∧
    c.use_onshore_col = (c.d.onshore && decide (c.type = RCTTypeHaven3)) ∧
    (if rct_config.range_proof_type = .RangeProofPaddedBulletproof then
        genRctSimple_padded L dev c.type c.d c.use_onshore_col onshore_col_amount outamounts
          amount_keys
          { bulletproofs := [], outPk := [], outPk_usd := [], outPk_xasset := [],
            maskSums := genRctSimple_maskSums c.type c.d.conversion_tx, outSk := [] }
      else
        genRctSimple_batches L dev rct_config.range_proof_type c.type c.d c.use_onshore_col
          onshore_col_amount outamounts amount_keys outamounts.length 0
          { bulletproofs := [], outPk := [], outPk_usd := [], outPk_xasset := [],
            maskSums := genRctSimple_maskSums c.type c.d.conversion_tx, outSk := [] })
      = .ok c.st ∧
    ∃ inverse_atomic a_last sumpouts a1 po1,
      invert (d2h COIN) = .ok inverse_atomic ∧
      genRctSimple_seal dev c.type c.use_onshore_col in_asset_type pr tx_version (d2h COIN)
        inverse_atomic amount_keys (outamounts.zip c.st.outSk) 0 zero zero []
        = .ok (c.sumout, c.sumout_onshore_col, c.ecdhInfo) ∧
      genRctSimple_commit L aGen c.sumout
        (genRctSimple_split inamounts inamounts_col_indices).1
        (List.replicate inamounts.length zero) (List.replicate inamounts.length zero)
        = .ok (a_last, sumpouts, a1, po1) ∧
      (if c.d.conversion_tx ∧ (c.type = RCTTypeHaven2 ∨ c.type = RCTTypeHaven3) then
          updAt c.st.maskSums 0 (fun _ => sc_add a_last sumpouts)
        else pure c.st.maskSums) = .ok c.maskSums ∧
      (if c.use_onshore_col then
          ∃ al sp, genRctSimple_commit L aGen c.sumout_onshore_col
            (genRctSimple_split inamounts inamounts_col_indices).2 a1 po1
            = .ok (al, sp, c.a, c.pseudoOuts)
        else c.a = a1 ∧ c.pseudoOuts = po1) := by
  unfold genRctSimple_core at h
  obtain ⟨type, ht, h⟩ := bind_eq_ok.1 h
  obtain ⟨st, hst, h⟩ := bind_eq_ok.1 h
  obtain ⟨ia, hia, h⟩ := bind_eq_ok.1 h
  obtain ⟨t1, hseal, h⟩ := bind_eq_ok.1 h
  obtain ⟨sumout, sumcol, ecdhInfo⟩ := t1
  simp only at h
  obtain ⟨t2, hcommit, h⟩ := bind_eq_ok.1 h
  obtain ⟨a_last, sumpouts, a1, po1⟩ := t2
  simp only at h
  obtain ⟨ms, hms, h⟩ := bind_eq_ok.1 h
  obtain ⟨t3, hcol, h⟩ := bind_eq_ok.1 h
  obtain ⟨a2, po2⟩ := t3
  simp only [pure_eq_ok] at h
  subst h
  refine ⟨rfl, ht, rfl, hst, ia, a_last, sumpouts, a1, po1, hia, hseal, hcommit, hms, ?_⟩
  simp only
  by_cases hu : ((genRctSimple_direction in_asset_type outamounts).onshore &&
      decide (type = RCTTypeHaven3)) = true
  · rw [if_pos hu] at hcol ⊢
    obtain ⟨t4, hc2, hcol⟩ := bind_eq_ok.1 hcol
    obtain ⟨al, sp, a3, po3⟩ := t4
    simp only [pure_eq_ok, Prod.mk.injEq] at hcol
    obtain ⟨rfl, rfl⟩ := hcol
    exact ⟨al, sp, hc2⟩
  · rw [if_neg hu] at hcol ⊢
    simp only [pure_eq_ok, Prod.mk.injEq] at hcol
    exact ⟨hcol.1.symm, hcol.2.symm⟩

theorem genRctSimple_core_closure (L : CryptoLib Pt) {dev : device} {inamounts : List Nat}
    {inamounts_col_indices : List Nat} {onshore_col_amount : Nat}
    {in_asset_type : String} {outamounts : List outamount} {amount_keys : List key}
    {rct_config : RCTConfig} {pr : pricing_record} {tx_version : Nat}
    {aGen : Nat → key} {c : gen_core}
    (h : genRctSimple_core L dev inamounts inamounts_col_indices onshore_col_amount
      in_asset_type outamounts amount_keys rct_config pr tx_version aGen = .ok c) :
    c.a.length = inamounts.length ∧ c.pseudoOuts.length = inamounts.length ∧
    c.sumout = ((own_outputs c.use_onshore_col (outamounts.zip c.st.outSk)).map
      (scaled_mask in_asset_type pr tx_version)).sum % ell ∧
    c.sumout_onshore_col = ((col_outputs c.use_onshore_col (outamounts.zip c.st.outSk)).map
      (scaled_mask in_asset_type pr tx_version)).sum % ell ∧
    (∀ x ∈ (genRctSimple_split inamounts inamounts_col_indices).1,
      ∃ v, c.a[x.1]? = some v ∧ c.pseudoOuts[x.1]? = some (genC L v x.2)) ∧
    (((genRctSimple_split inamounts inamounts_col_indices).1.map
      (fun x => c.a.getD x.1 0)).sum % ell = c.sumout) ∧
    (c.d.conversion_tx = true → c.type = RCTTypeHaven2 ∨ c.type = RCTTypeHaven3 →
      c.maskSums[0]? = some c.sumout) ∧
    (c.use_onshore_col = true →
      (∀ x ∈ (genRctSimple_split inamounts inamounts_col_indices).2,
        ∃ v, c.a[x.1]? = some v ∧ c.pseudoOuts[x.1]? = some (genC L v x.2)) ∧
      ((genRctSimple_split inamounts inamounts_col_indices).2.map
        (fun x => c.a.getD x.1 0)).sum % ell = c.sumout_onshore_col) := by
  obtain ⟨-, -, -, -, ia, a_last, sumpouts, a1, po1, hia, hseal, hcommit, hms, hcol⟩ :=
    genRctSimple_core_eq_ok h
  rw [invert_eq_chain hia] at hseal
  obtain ⟨s1, s2, s3, s4, -, -, -, -⟩ := genRctSimple_seal_eq_ok _ _ _ _ _ _ _ _ hseal
  have hz : ∀ n : ℕ, zero + n = n := fun n => Nat.zero_add n
  have hzl : zero < ell := ell_pos
  rw [hz] at s1 s2
  have hso := s3 hzl
  have hsc := s4 hzl
  rw [Nat.mod_eq_of_lt hso] at s1
  rw [Nat.mod_eq_of_lt hsc] at s2
  obtain ⟨n1, n2, m1, m2⟩ := genRctSimple_split_facts inamounts inamounts_col_indices
  have hlt1 : ∀ x ∈ (genRctSimple_split inamounts inamounts_col_indices).1,
      x.1 < (List.replicate inamounts.length zero).length := by
    intro x hx
    rw [List.length_replicate]
    have := ((m1 x).1 hx).1
    rcases Nat.lt_or_ge x.1 inamounts.length with hl | hl
    · exact hl
    · rw [List.getElem?_eq_none hl] at this
      cases this
  obtain ⟨c1, c2, c3, c4, c5, c6⟩ := genRctSimple_commit_eq_ok L hcommit n1 hlt1 rfl
  rw [List.length_replicate] at c1 c2
  have hm0 : c.d.conversion_tx = true → c.type = RCTTypeHaven2 ∨ c.type = RCTTypeHaven3 →
      c.maskSums[0]? = some c.sumout := by
    intro hc hH
    rw [if_pos ⟨hc, hH⟩] at hms
    obtain ⟨-, u2, -⟩ := updAt_eq_ok hms
    have hex : ∃ v, c.st.maskSums[0]? = some v := by
      unfold updAt at hms
      cases hv : c.st.maskSums[0]? with
      | none => rw [hv] at hms; cases hms
      | some v => exact ⟨v, rfl⟩
    obtain ⟨v, hv⟩ := hex
    rw [u2, hv, c6, Nat.mod_eq_of_lt hso]
    rfl
  by_cases hu : c.use_onshore_col = true
  · rw [if_pos hu] at hcol
    obtain ⟨al, sp, hcommit2⟩ := hcol
    have hlt2 : ∀ x ∈ (genRctSimple_split inamounts inamounts_col_indices).2,
        x.1 < a1.length := by
      intro x hx
      rw [c1]
      have := ((m2 x).1 hx).1
      rcases Nat.lt_or_ge x.1 inamounts.length with hl | hl
      · exact hl
      · rw [List.getElem?_eq_none hl] at this
        cases this
    obtain ⟨d1, d2, d3, d4, d5, d6⟩ :=
      genRctSimple_commit_eq_ok L hcommit2 n2 hlt2 (c2.trans c1.symm)
    have hdisj : ∀ x ∈ (genRctSimple_split inamounts inamounts_col_indices).1,
        x.1 ∉ (genRctSimple_split inamounts inamounts_col_indices).2.map Prod.fst := by
      intro x hx hmem
      obtain ⟨y, hy, hyx⟩ := List.mem_map.1 hmem
      have := ((m2 y).1 hy).2
      rw [hyx] at this
      exact ((m1 x).1 hx).2 this
    refine ⟨d1.trans c1, d2.trans c2, s1, s2, ?_, ?_, hm0, fun _ => ⟨d4, ?_⟩⟩
    · intro x hx
      obtain ⟨v, hv1, hv2⟩ := c4 x hx
      obtain ⟨f1, f2⟩ := d3 x.1 (hdisj x hx)
      exact ⟨v, f1.trans hv1, f2.trans hv2⟩
    · have hsum : ((genRctSimple_split inamounts inamounts_col_indices).1.map
          (fun x => c.a.getD x.1 0)) =
          ((genRctSimple_split inamounts inamounts_col_indices).1.map
            (fun x => a1.getD x.1 0)) := by
        apply List.map_congr_left
        intro x hx
        rw [List.getD_eq_getElem?_getD, List.getD_eq_getElem?_getD, (d3 x.1 (hdisj x hx)).1]
      rw [hsum, c5, Nat.mod_eq_of_lt hso]
    · rw [d5, Nat.mod_eq_of_lt hsc]
  · rw [if_neg hu] at hcol
    obtain ⟨e1, e2⟩ := hcol
    rw [e1, e2]
    refine ⟨c1, c2, s1, s2, c4, ?_, hm0, fun e => absurd e hu⟩
    rw [c5, Nat.mod_eq_of_lt hso]

theorem genRctSimple_core_maskSums {dev : device} {inamounts : List Nat}
    {inamounts_col_indices : List Nat} {onshore_col_amount : Nat}
    {in_asset_type : String} {outamounts : List outamount} {amount_keys : List key}
    {rct_config : RCTConfig} {pr : pricing_record} {tx_version : Nat}
    {aGen : Nat → key} {c : gen_core}
    (h : genRctSimple_core L dev inamounts inamounts_col_indices onshore_col_amount
      in_asset_type outamounts amount_keys rct_config pr tx_version aGen = .ok c) :
    c.st.outSk.length = outamounts.length ∧
    c.maskSums.length = (genRctSimple_maskSums c.type c.d.conversion_tx).length ∧
    (c.type = RCTTypeHaven2 ∨ c.type = RCTTypeHaven3 →
      c.maskSums[1]? = ((genRctSimple_maskSums c.type c.d.conversion_tx)[1]?).map
        (fun x => change_sum c.d x (outamounts.zip c.st.outSk))) ∧
    (rct_config.range_proof_type = .RangeProofPaddedBulletproof → c.type = RCTTypeHaven3 →
      c.maskSums[2]? = ((genRctSimple_maskSums c.type c.d.conversion_tx)[2]?).map
        (fun x => col_sum c.d c.use_onshore_col onshore_col_amount x
          (outamounts.zip c.st.outSk))) ∧
    (rct_config.range_proof_type ≠ .RangeProofPaddedBulletproof →
      c.maskSums[2]? = (genRctSimple_maskSums c.type c.d.conversion_tx)[2]?) := by
  obtain ⟨-, -, -, hst, ia, a_last, sumpouts, a1, po1, -, -, -, hms, -⟩ :=
    genRctSimple_core_eq_ok h
  obtain ⟨g1, g2, -, g4, g5, g6⟩ := genRctSimple_stage_sums hst
  have hk : c.maskSums.length = c.st.maskSums.length ∧
      ∀ j, j ≠ 0 → c.maskSums[j]? = c.st.maskSums[j]? := by
    by_cases hc : c.d.conversion_tx ∧ (c.type = RCTTypeHaven2 ∨ c.type = RCTTypeHaven3)
    · rw [if_pos hc] at hms
      obtain ⟨u1, -, u3⟩ := updAt_eq_ok hms
      exact ⟨u1, u3⟩
    · rw [if_neg hc] at hms
      have he : c.st.maskSums = c.maskSums := by
        simpa [pure, Except.pure] using hms
      rw [he]
      exact ⟨rfl, fun _ _ => rfl⟩
  refine ⟨g1, by rw [hk.1, g2], ?_, ?_, ?_⟩
  · intro hH
    rw [hk.2 1 (by decide), g4 hH]
  · intro hp hH
    rw [hk.2 2 (by decide), g5 hp hH]
  · intro hp
    rw [hk.2 2 (by decide), g6 hp]

theorem change_sum_mod (d : direction) (xs : List (outamount × key)) :
    ∀ x, change_sum d x xs % ell = (x + ((change_outputs d xs).map Prod.snd).sum) % ell := by
  induction xs with
  | nil => intro x; simp [change_sum, change_outputs]
  | cons p rest ih =>
    intro x
    obtain ⟨o, m⟩ := p
    unfold change_sum
    rw [ih]
    unfold change_outputs
    by_cases hc : change_class d o = true
    · rw [if_pos hc, List.filter_cons_of_pos (by simpa using hc)]
      simp only [List.map_cons, List.sum_cons]
      unfold sc_add
      rw [Nat.mod_add_mod, Nat.add_assoc]
    · rw [if_neg hc, List.filter_cons_of_neg (by simpa using hc)]

theorem change_sum_lt (d : direction) (xs : List (outamount × key)) :
    ∀ x, x < ell → change_sum d x xs < ell := by
  induction xs with
  | nil => intro x hx; simpa [change_sum] using hx
  | cons p rest ih =>
    intro x hx
    obtain ⟨o, m⟩ := p
    unfold change_sum
    apply ih
    split_ifs
    · exact Nat.mod_lt _ ell_pos
    · exact hx

theorem change_sum_zero (d : direction) (xs : List (outamount × key)) :
    change_sum d zero xs = ((change_outputs d xs).map Prod.snd).sum % ell := by
  have h1 := change_sum_mod d xs zero
  rw [Nat.mod_eq_of_lt (change_sum_lt d xs zero ell_pos)] at h1
  rw [h1]
  unfold zero
  rw [Nat.zero_add]

theorem col_sum_offshore (d : direction) (amount : Nat) (hd : d.offshore = true)
    (xs : List (outamount × key)) :
    ∀ x, x < ell → col_sum d false amount x xs < ell ∧
      col_sum d false amount x xs = (x + ((flagged_outputs xs).map Prod.snd).sum) % ell := by
  induction xs with
  | nil =>
    intro x hx
    simp [col_sum, flagged_outputs, hx, Nat.mod_eq_of_lt hx]
  | cons p rest ih =>
    intro x hx
    obtain ⟨o, m⟩ := p
    unfold col_sum col_step flagged_outputs
    simp only [hd, true_and, Bool.false_eq_true, false_and, if_false]
    by_cases hf : o.2.2 = true
    · rw [if_pos hf, List.filter_cons_of_pos (by simpa using hf)]
      simp only [List.map_cons, List.sum_cons]
      obtain ⟨i1, i2⟩ := ih (sc_add x m) (Nat.mod_lt _ ell_pos)
      refine ⟨i1, ?_⟩
      rw [i2]
      unfold sc_add flagged_outputs
      rw [Nat.mod_add_mod, Nat.add_assoc]
    · rw [if_neg hf, List.filter_cons_of_neg (by simpa using hf)]
      exact ih x hx

theorem col_sum_onshore (d : direction) (amount : Nat) (hd : d.offshore = false)
    (xs : List (outamount × key)) :
    ∀ x, col_sum d true amount x xs =
      (((pledged_outputs amount xs).map Prod.snd).getLast?).getD x := by
  induction xs with
  | nil => intro x; simp [col_sum, pledged_outputs]
  | cons p rest ih =>
    intro x
    obtain ⟨o, m⟩ := p
    unfold col_sum col_step pledged_outputs
    simp only [hd, Bool.false_eq_true, false_and, if_false, true_and]
    by_cases hf : o.2.2 = true ∧ o.2.1 = amount
    · rw [if_pos hf, List.filter_cons_of_pos (by simpa using hf)]
      rw [ih, List.map_cons, List.getLast?_cons]
      rfl
    · rw [if_neg hf, List.filter_cons_of_neg (by simpa using hf)]
      exact ih x

theorem col_sum_other (d : direction) (amount : Nat) (hd : d.offshore = false)
    (xs : List (outamount × key)) :
    ∀ x, col_sum d false amount x xs = x := by
  induction xs with
  | nil => intro x; simp [col_sum]
  | cons p rest ih =>
    intro x
    obtain ⟨o, m⟩ := p
    unfold col_sum col_step
    simp only [hd, Bool.false_eq_true, false_and, if_false]
    exact ih x

theorem genRctSimple_eq_ok {dev : device} {message : key} {inSk : List ctkey}
    {destinations : List key} {inamounts : List Nat} {inamounts_col_indices : List Nat}
    {onshore_col_amount : Nat} {in_asset_type : String} {outamounts : List outamount}
    {txnFee txnOffshoreFee : Nat} {mixRing : List (List ctkey)} {amount_keys : List key}
    {kLRki : Option (List multisig_kLRki)} {msout : Bool} {index : List Nat}
    {rct_config : RCTConfig} {pr : pricing_record} {tx_version : Nat}
    {aGen : Nat → key} {rand_a : Nat → key} {skGen : Nat → Nat → key}
    {r : genRctSimple_result}
    (h : genRctSimple L dev message inSk destinations inamounts inamounts_col_indices
      onshore_col_amount in_asset_type outamounts txnFee txnOffshoreFee mixRing amount_keys
      kLRki msout index rct_config pr tx_version aGen rand_a skGen = .ok r) :
    genRctSimple_checks inSk destinations inamounts outamounts mixRing amount_keys kLRki
      msout index = true ∧
    ∃ c sigs,
      genRctSimple_core L dev inamounts inamounts_col_indices onshore_col_amount
        in_asset_type outamounts amount_keys rct_config pr tx_version aGen = .ok c ∧
      r.outSk = c.st.outSk ∧
      r.rv = { genRctSimple_rv c message destinations inamounts in_asset_type txnFee
                 txnOffshoreFee mixRing with
               p := { (genRctSimple_rv c message destinations inamounts in_asset_type txnFee
                 txnOffshoreFee mixRing).p with CLSAGs := sigs } } := by
  unfold genRctSimple at h
  by_cases hchk : genRctSimple_checks inSk destinations inamounts outamounts mixRing
      amount_keys kLRki msout index = true
  · rw [if_neg (not_not.2 hchk)] at h
    obtain ⟨c, hc, h⟩ := bind_eq_ok.1 h
    obtain ⟨fm, -, h⟩ := bind_eq_ok.1 h
    obtain ⟨t, -, h⟩ := bind_eq_ok.1 h
    obtain ⟨sigs, cs, mus⟩ := t
    simp only [pure_eq_ok] at h
    subst h
    exact ⟨hchk, c, sigs, hc, rfl, rfl⟩
  · rw [if_pos hchk] at h
    cases h

theorem genRctSimple_sign_type {type : RCTType} {full_message : key}
    {mixRing : List (List ctkey)} {inSk : List ctkey} {a pseudoOuts : List key}
    {kLRki : Option (List multisig_kLRki)} {msout : Bool} {index : List Nat}
    {rand_a : Nat → key} {skGen : Nat → Nat → key} {i : Nat} {rest : List Nat}
    {sigs : List clsag} {cs mus : List key} {t : List clsag × List key × List key}
    (h : genRctSimple_sign L type full_message mixRing inSk a pseudoOuts kLRki msout index
      rand_a skGen (i :: rest) sigs cs mus = .ok t) :
    genRctSimple_clsag_type type = true := by
  by_contra hn
  simp only [genRctSimple_sign] at h
  obtain ⟨pubs, -, h⟩ := bind_eq_ok.1 h
  obtain ⟨sk, -, h⟩ := bind_eq_ok.1 h
  obtain ⟨ai, -, h⟩ := bind_eq_ok.1 h
  obtain ⟨Cout, -, h⟩ := bind_eq_ok.1 h
  obtain ⟨k, -, h⟩ := bind_eq_ok.1 h
  by_cases hm : msout = true ∧ ¬ genRctSimple_clsag_type type = true
  · rw [if_pos hm] at h
    cases h
  · rw [if_neg hm] at h
    obtain ⟨ix, -, h⟩ := bind_eq_ok.1 h
    obtain ⟨r, -, h⟩ := bind_eq_ok.1 h
    rw [if_pos hn] at h
    cases h

theorem genRctSimple_type_of_ok {dev : device} {message : key} {inSk : List ctkey}
    {destinations : List key} {inamounts : List Nat} {inamounts_col_indices : List Nat}
    {onshore_col_amount : Nat} {in_asset_type : String} {outamounts : List outamount}
    {txnFee txnOffshoreFee : Nat} {mixRing : List (List ctkey)} {amount_keys : List key}
    {kLRki : Option (List multisig_kLRki)} {msout : Bool} {index : List Nat}
    {rct_config : RCTConfig} {pr : pricing_record} {tx_version : Nat}
    {aGen : Nat → key} {rand_a : Nat → key} {skGen : Nat → Nat → key}
    {r : genRctSimple_result}
    (h : genRctSimple L dev message inSk destinations inamounts inamounts_col_indices
      onshore_col_amount in_asset_type outamounts txnFee txnOffshoreFee mixRing amount_keys
      kLRki msout index rct_config pr tx_version aGen rand_a skGen = .ok r) :
    genRctSimple_clsag_type r.rv.type = true := by
  unfold genRctSimple at h
  by_cases hchk : genRctSimple_checks inSk destinations inamounts outamounts mixRing
      amount_keys kLRki msout index = true
  · rw [if_neg (not_not.2 hchk)] at h
    obtain ⟨c, hc, h⟩ := bind_eq_ok.1 h
    obtain ⟨fm, -, h⟩ := bind_eq_ok.1 h
    obtain ⟨t, hsign, h⟩ := bind_eq_ok.1 h
    obtain ⟨sigs, cs, mus⟩ := t
    simp only [pure_eq_ok] at h
    subst h
    have hpos : 0 < inamounts.length := by
      unfold genRctSimple_checks at hchk
      simp only [Bool.and_eq_true, decide_eq_true_eq] at hchk
      exact hchk.1.1.1.1.1.1.1.1
    obtain ⟨n, hn⟩ := Nat.exists_eq_succ_of_ne_zero (Nat.pos_iff_ne_zero.1 hpos)
    rw [hn, List.range_succ_eq_map] at hsign
    exact genRctSimple_sign_type hsign
  · rw [if_pos hchk] at h
    cases h

theorem gen_args.run_eq_ok {x : gen_args} {r : genRctSimple_result}
    (h : x.run L = .ok r) :
    genRctSimple_checks x.inSk x.destinations x.inamounts x.outamounts x.mixRing
      x.amount_keys x.kLRki x.msout x.index = true ∧
    ∃ c, x.core L = .ok c ∧ r.outSk = c.st.outSk ∧ r.rv.type = c.type ∧
      r.rv.maskSums = c.maskSums ∧ r.rv.p.pseudoOuts = c.pseudoOuts ∧
      r.rv.ecdhInfo = c.ecdhInfo ∧ r.rv.p.bulletproofs = c.st.bulletproofs ∧
      r.rv.outPk =
        List.zipWith (fun D m => { dest := D, mask := m }) x.destinations c.st.outPk ∧
      r.rv.outPk_usd =
        List.zipWith (fun D m => { dest := D, mask := m }) x.destinations c.st.outPk_usd ∧
      r.rv.outPk_xasset =
        List.zipWith (fun D m => { dest := D, mask := m }) x.destinations c.st.outPk_xasset ∧
      (c.type = RCTTypeHaven2 ∨ c.type = RCTTypeHaven3 →
        r.rv.txnFee = x.txnFee ∧ r.rv.txnOffshoreFee = x.txnOffshoreFee) := by
  obtain ⟨hchk, c, sigs, hc, ho, hrv⟩ := genRctSimple_eq_ok h
  refine ⟨hchk, c, hc, ho, ?_, ?_, ?_, ?_, ?_, ?_, ?_, ?_, ?_⟩
  all_goals rw [hrv]
  any_goals rfl
  intro hH
  simp [genRctSimple_rv, hH]

theorem map_mask_zipWith : ∀ (ds ms : List key), ms.length ≤ ds.length →
    (List.zipWith (fun D m => ({ dest := D, mask := m } : ctkey)) ds ms).map ctkey.mask = ms := by
  intro ds
  induction ds with
  | nil =>
    intro ms h
    cases ms with
    | nil => rfl
    | cons m ms => simp at h
  | cons D ds ih =>
    intro ms h
    cases ms with
    | nil => rfl
    | cons m ms =>
      simp only [List.zipWith_cons_cons, List.map_cons, List.cons.injEq, true_and]
      exact ih ms (by simpa using h)

/-- What a returned signature holds for its outputs, when the prover commits: the type
is one that carries CLSAGs, the slot of the colour of every output holds
`mask·G + amount·H`, every mask is the identity or derived by the device, and every blob
seals the mask and the amount under the amount key of its output. -/
theorem gen_args.run_outputs (hL : L.Sound) (hP : L.PrimeOrder) {x : gen_args}
    {r : genRctSimple_result} (hpr : ProverCommits x.dev L)
    (ha : ∀ o ∈ x.outamounts, o.2.1 < 2 ^ 64) (h : x.run L = .ok r) :
    genRctSimple_clsag_type r.rv.type = true ∧
    r.outSk.length = x.outamounts.length ∧
    r.rv.ecdhInfo.length = x.outamounts.length ∧
    r.rv.outPk.length = x.outamounts.length ∧
    r.rv.outPk.map ctkey.mask =
      List.zipWith (fun o m => (slots r.rv.type o (genC L m o.2.1)).1) x.outamounts r.outSk ∧
    r.rv.outPk_usd.map ctkey.mask =
      List.zipWith (fun o m => (slots r.rv.type o (genC L m o.2.1)).2.1) x.outamounts r.outSk ∧
    r.rv.outPk_xasset.map ctkey.mask =
      List.zipWith (fun o m => (slots r.rv.type o (genC L m o.2.1)).2.2) x.outamounts
        r.outSk ∧
    (∀ m ∈ r.outSk, m = identity ∨ ∃ k, m = x.dev.genCommitmentMask k) ∧
    (∀ (i : Nat) (o : outamount) (m : key), x.outamounts[i]? = some o →
      r.outSk[i]? = some m →
      ∃ ak, x.amount_keys[i]? = some ak ∧
        r.rv.ecdhInfo[i]? = some (x.dev.ecdhEncode { mask := m, amount := d2h o.2.1 } ak
          (decide (r.rv.type = RCTTypeBulletproof2 ∨ r.rv.type = RCTTypeCLSAG ∨
            r.rv.type = RCTTypeCLSAGN ∨ r.rv.type = RCTTypeHaven2 ∨
            r.rv.type = RCTTypeHaven3)))) := by
  have hty := genRctSimple_type_of_ok h
  obtain ⟨hchk, c, hc, ho, ht, -, -, he, -, hpk, husd, hxa, -⟩ := gen_args.run_eq_ok h
  obtain ⟨-, -, -, hst, ia, a_last, sumpouts, a1, po1, hia, hseal, -⟩ :=
    genRctSimple_core_eq_ok hc
  obtain ⟨g1, -⟩ := genRctSimple_stage_sums hst
  obtain ⟨q1, q2, q3, q4⟩ := genRctSimple_stage_commits hL hP hpr ha hst
  rw [invert_eq_chain hia] at hseal
  obtain ⟨-, -, -, -, -, s6, -, s8⟩ := genRctSimple_seal_eq_ok _ _ _ _ _ _ _ _ hseal
  have hd : x.outamounts.length = x.destinations.length := by
    unfold genRctSimple_checks at hchk
    simp only [Bool.and_eq_true, decide_eq_true_eq] at hchk
    exact hchk.1.1.1.1.1.1.2
  have hzl : (x.outamounts.zip c.st.outSk).length = x.outamounts.length := by
    rw [List.length_zip, g1, Nat.min_self]
  have hl1 : c.st.outPk.length = x.outamounts.length := by
    rw [q1, List.length_zipWith, g1, Nat.min_self]
  have hl2 : c.st.outPk_usd.length = x.outamounts.length := by
    rw [q2, List.length_zipWith, g1, Nat.min_self]
  have hl3 : c.st.outPk_xasset.length = x.outamounts.length := by
    rw [q3, List.length_zipWith, g1, Nat.min_self]
  rw [ho, ht, he, hpk, husd, hxa]
  refine ⟨by rw [← ht]; exact hty, g1, ?_, ?_, ?_, ?_, ?_, q4, ?_⟩
  · rw [s6, hzl, List.length_nil, Nat.zero_add]
  · rw [List.length_zipWith, hl1, ← hd, Nat.min_self]
  · rw [map_mask_zipWith _ _ (by omega), q1]
  · rw [map_mask_zipWith _ _ (by omega), q2]
  · rw [map_mask_zipWith _ _ (by omega), q3]
  · intro i o m hio him
    have hz : (x.outamounts.zip c.st.outSk)[i]? = some (o, m) := by
      rw [List.getElem?_zip_eq_some]
      exact ⟨hio, him⟩
    obtain ⟨ak, hak, hb⟩ := s8 i (o, m) hz
    rw [Nat.zero_add] at hak
    simp only [List.length_nil, Nat.zero_add] at hb
    exact ⟨ak, hak, hb⟩

theorem genRctSimple_split_all {inamounts : List Nat} {cols : List Nat}
    (h : (genRctSimple_split inamounts cols).2 = []) :
    (genRctSimple_split inamounts cols).1 = inamounts.enum := by
  unfold genRctSimple_split at h ⊢
  simp only at h ⊢
  rw [List.filter_eq_nil_iff] at h
  rw [List.filter_eq_self]
  intro x hx
  simpa using h x hx

theorem enum_getD_self (a : List key) (xs : List Nat) (hl : a.length = xs.length) :
    xs.enum.map (fun x => a.getD x.1 0) = a := by
  apply List.ext_getElem?
  intro i
  rw [List.getElem?_map, List.getElem?_enum]
  rcases Nat.lt_or_ge i xs.length with hi | hi
  · rw [List.getElem?_eq_getElem hi, List.getElem?_eq_getElem (by omega)]
    simp [List.getD, List.getElem?_eq_getElem (hl ▸ hi)]
  · rw [List.getElem?_eq_none hi, List.getElem?_eq_none (by omega)]
    rfl

/-- The pseudo-outs of a returned signature none of whose inputs is listed as
collateral: each commits to its amount under its mask, and the masks add up to the sum
of the scaled masks of the outputs. -/
theorem gen_args.run_inputs {x : gen_args} {r : genRctSimple_result}
    (h : x.run L = .ok r) (hcol : x.collateral = []) :
    ∃ c, x.core L = .ok c ∧ c.a.length = x.inamounts.length ∧
      c.use_onshore_col = (x.direction.onshore && decide (r.rv.type = RCTTypeHaven3)) ∧
      r.rv.p.pseudoOuts = List.zipWith (fun amount v => genC L v amount) x.inamounts c.a ∧
      c.a.sum % ell =
        ((own_outputs c.use_onshore_col (x.outamounts.zip r.outSk)).map x.scaled).sum % ell := by
  obtain ⟨-, c, hc, ho, ht, -, hp, -⟩ := gen_args.run_eq_ok h
  obtain ⟨hd, -, hu, -⟩ := genRctSimple_core_eq_ok hc
  obtain ⟨k1, k2, k3, -, k5, k6, -, -⟩ := genRctSimple_core_closure L hc
  have hall := genRctSimple_split_all hcol
  rw [hall] at k5 k6
  refine ⟨c, hc, k1, by rw [hu, hd, ht]; rfl, ?_, ?_⟩
  · rw [hp]
    apply List.ext_getElem?
    intro i
    rw [List.getElem?_zipWith]
    rcases Nat.lt_or_ge i x.inamounts.length with hi | hi
    · have hmem : (i, x.inamounts[i]) ∈ x.inamounts.enum :=
        mem_enum_iff.2 (List.getElem?_eq_getElem hi)
      obtain ⟨v, hv, hpo⟩ := k5 _ hmem
      simp only at hv hpo
      rw [hpo, List.getElem?_eq_getElem hi, hv]
    · rw [List.getElem?_eq_none (by omega), List.getElem?_eq_none hi]
  · rw [enum_getD_self c.a x.inamounts k1] at k6
    rw [k6, k3, ho]
    rfl

theorem direction_onshore_sent {in_asset_type : String} {outamounts : List outamount}
    (h : (genRctSimple_direction in_asset_type outamounts).onshore = true) :
    in_asset_type = "XUSD" ∧ in_asset_type ≠ "XHV" := by
  unfold genRctSimple_direction at h
  simp only [Bool.and_eq_true, Bool.not_eq_true', decide_eq_true_eq, decide_eq_false_iff_not]
    at h
  exact ⟨h.1.1.1.2, h.1.1.1.1⟩

theorem offshore_rate_scalar {y : ℕ} (hy : (y * (500 * COIN)) % ell = 1) :
    (y * (COIN * (5000 * COIN))) % ell = (10 * COIN) % ell := by
  have e : y * (COIN * (5000 * COIN)) = (y * (500 * COIN)) * (10 * COIN) := by ring
  rw [e, Nat.mul_mod, hy, Nat.one_mul, Nat.mod_mod]

theorem sc_mul_scalar (m y : ℕ) :
    (sc_mul (sc_mul m (d2h COIN)) y) % ell = (y * (COIN * m)) % ell := by
  unfold sc_mul d2h
  rw [Nat.mod_mod, Nat.mod_mul_mod]
  congr 1
  ring

/-- A call with one input that returns has not listed that input as collateral. -/
theorem gen_args.single_input {x : gen_args} {r : genRctSimple_result} {v : Nat}
    (h : x.run L = .ok r) (hin : x.inamounts = [v]) : x.collateral = [] := by
  obtain ⟨-, c, hc, -⟩ := gen_args.run_eq_ok h
  obtain ⟨-, -, -, -, ia, a_last, sumpouts, a1, po1, -, -, hcommit, -⟩ :=
    genRctSimple_core_eq_ok hc
  have e : ([v] : List Nat).enum = [(0, v)] := rfl
  unfold gen_args.collateral
  unfold genRctSimple_split at hcommit ⊢
  rw [hin, e] at hcommit ⊢
  simp only at hcommit ⊢
  by_cases hp : 0 ∈ x.inamounts_col_indices
  · rw [List.filter_cons_of_neg (by simpa using hp)] at hcommit
    simp only [List.filter_nil, genRctSimple_commit, genRctSimple_commit_loop] at hcommit
    cases hcommit
  · rw [List.filter_cons_of_neg (by simpa using hp)]
    rfl

theorem scaled_mask_same {in_asset_type : String} {pr : pricing_record} {tx_version : Nat}
    (o : outamount × key) (hc : o.1.1 = in_asset_type) :
    scaled_mask in_asset_type pr tx_version o = o.2 := by
  unfold scaled_mask genRctSimple_scaled
  rw [hc]
  by_cases h1 : in_asset_type = "XHV"
  · have hne : ¬ ("XHV" : String) = "XUSD" := by decide
    simp [h1, hne, Res.value, pure, Except.pure]
  · by_cases h2 : in_asset_type = "XUSD"
    · simp [h2, Res.value, pure, Except.pure]
    · simp [h1, h2, Res.value, pure, Except.pure]

theorem direction_same_colour {in_asset_type : String} {outamounts : List outamount}
    (hc : ∀ o ∈ outamounts, o.1 = in_asset_type) :
    (genRctSimple_direction in_asset_type outamounts).onshore = false := by
  by_contra hn
  have hon : (genRctSimple_direction in_asset_type outamounts).onshore = true := by
    simpa using hn
  have hs := (direction_onshore_sent hon).1
  unfold genRctSimple_direction at hon
  simp only [Bool.and_eq_true, Bool.not_eq_true', decide_eq_true_eq,
    decide_eq_false_iff_not, List.any_eq_true] at hon
  obtain ⟨o, ho, hx⟩ := hon.2
  have := hc o ho
  rw [hx, hs] at this
  exact absurd this (by decide)

end AssemblyFacts

/-! ## The decoder -/

section DecodeFacts

variable {Pt : Type} [AddCommGroup Pt] {L : CryptoLib Pt}

theorem decodeRctSimple_haven (L : CryptoLib Pt) (dev : device) (rv : rctSig) (sk : key)
    (i : Nat) (mask0 : key) (ht : rv.type = RCTTypeHaven2 ∨ rv.type = RCTTypeHaven3) :
    (decoded_fits L dev rv sk i ∧
      decodeRctSimple L dev rv sk i mask0 =
        .ok (h2d (decoded_blob dev rv sk i).amount, (decoded_blob dev rv sk i).mask)) ∨
    (¬ decoded_fits L dev rv sk i ∧ decodeRctSimple L dev rv sk i mask0 = .error .thrown) := by
  have hty : (rv.type = RCTTypeSimple ∨ rv.type = RCTTypeBulletproof ∨
      rv.type = RCTTypeBulletproof2 ∨ rv.type = RCTTypeCLSAG ∨ rv.type = RCTTypeCLSAGN ∨
      rv.type = RCTTypeHaven2 ∨ rv.type = RCTTypeHaven3) := by
    rcases ht with h | h <;> simp [h]
  have hv2 : (rv.type = RCTTypeBulletproof2 ∨ rv.type = RCTTypeCLSAG ∨
      rv.type = RCTTypeCLSAGN ∨ rv.type = RCTTypeHaven2 ∨ rv.type = RCTTypeHaven3) := by
    rcases ht with h | h <;> simp [h]
  unfold decodeRctSimple
  rw [if_neg (not_not.2 hty)]
  by_cases h1 : i < rv.ecdhInfo.length
  swap
  · right
    rw [if_pos h1]
    exact ⟨fun h => h1 h.1, rfl⟩
  rw [if_neg (not_not.2 h1)]
  by_cases h2 : rv.outPk.length ≠ rv.ecdhInfo.length
  · right
    rw [if_pos h2]
    exact ⟨fun h => h2 h.2.1, rfl⟩
  rw [if_neg h2]
  have h2 : rv.outPk.length = rv.ecdhInfo.length := not_not.1 h2
  have he : idx rv.ecdhInfo i = .ok (rv.ecdhInfo.getD i { mask := 0, amount := 0 }) := by
    rw [idx_eq_ok]
    simp [List.getD, List.getElem?_eq_getElem h1]
  have hi2 : i < rv.outPk.length := by omega
  have hp : rv.outPk[i]? = some rv.outPk[i] := List.getElem?_eq_getElem hi2
  have hpk : idx rv.outPk i = .ok rv.outPk[i] := idx_eq_ok.2 hp
  rw [he, ok_bind]
  simp only [hv2, decide_True]
  have hb : dev.ecdhDecode (rv.ecdhInfo.getD i { mask := 0, amount := 0 }) sk true
      = decoded_blob dev rv sk i := rfl
  rw [hb]
  have hC : decodeRctSimple_C rv i =
      if rv.outPk[i].mask = identity then .error .thrown else .ok (some rv.outPk[i].mask) := by
    unfold decodeRctSimple_C
    rw [if_pos ht, hpk, ok_bind]
    by_cases hid : rv.outPk[i].mask = identity
    · have : equalKeys identity rv.outPk[i].mask = true := by simp [equalKeys, hid]
      rw [this, if_pos hid]
      rfl
    · have : equalKeys identity rv.outPk[i].mask = false := by
        simp only [equalKeys, decide_eq_false_iff_not]
        exact fun e => hid e.symm
      rw [this, if_neg hid]
      rfl
  rw [hC]
  by_cases hid : rv.outPk[i].mask = identity
  · right
    rw [if_pos hid]
    refine ⟨?_, rfl⟩
    rintro ⟨-, -, -, -, pk, hpk2, hne, -⟩
    rw [hp] at hpk2
    cases hpk2
    exact hne hid
  rw [if_neg hid, ok_bind]
  by_cases h3 : (decoded_blob dev rv sk i).mask < ell
  swap
  · right
    have : sc_check (decoded_blob dev rv sk i).mask = false := by simp [sc_check, h3]
    simp only [this, Bool.false_eq_true, not_false_eq_true, if_true]
    exact ⟨fun h => h3 h.2.2.1, trivial⟩
  have h3c : sc_check (decoded_blob dev rv sk i).mask = true := by simp [sc_check, h3]
  simp only [h3c, not_true_eq_false, if_false]
  by_cases h4 : (decoded_blob dev rv sk i).amount < ell
  swap
  · right
    have : sc_check (decoded_blob dev rv sk i).amount = false := by simp [sc_check, h4]
    simp only [this, Bool.false_eq_true, not_false_eq_true, if_true]
    exact ⟨fun h => h4 h.2.2.2.1, trivial⟩
  have h4c : sc_check (decoded_blob dev rv sk i).amount = true := by simp [sc_check, h4]
  simp only [h4c, not_true_eq_false, if_false]
  by_cases h5 : rv.outPk[i].mask = addKeys2 L (decoded_blob dev rv sk i).mask
      (decoded_blob dev rv sk i).amount L.H
  · left
    have : equalKeys rv.outPk[i].mask (addKeys2 L (decoded_blob dev rv sk i).mask
        (decoded_blob dev rv sk i).amount L.H) = true := by simp [equalKeys, ← h5]
    simp only [this]
    exact ⟨⟨h1, h2, h3, h4, rv.outPk[i], hp, hid, h5.symm⟩, rfl⟩
  · right
    have : equalKeys rv.outPk[i].mask (addKeys2 L (decoded_blob dev rv sk i).mask
        (decoded_blob dev rv sk i).amount L.H) = false := by simp [equalKeys, h5]
    simp only [this]
    refine ⟨?_, rfl⟩
    rintro ⟨-, -, -, -, pk, hpk2, -, e⟩
    rw [hp] at hpk2
    cases hpk2
    exact h5 e.symm

theorem equalKeys_identity_self : equalKeys identity identity = true := by
  simp [equalKeys]

theorem equalKeys_identity_ne {k : key} (h : k ≠ identity) : equalKeys identity k = false := by
  simp only [equalKeys, decide_eq_false_iff_not]
  exact fun e => h e.symm

/-- The commitment the decoder compares with, when the slots of output `i` are those of
an output in the colour of `o` with the commitment `pk`, which is not the identity. -/
theorem decodeRctSimple_C_slots {rv : rctSig} {i : Nat} {o : outamount} {pk : key}
    (h1 : (rv.outPk[i]?).map ctkey.mask = some (slots rv.type o pk).1)
    (h2 : (rv.outPk_usd[i]?).map ctkey.mask = some (slots rv.type o pk).2.1)
    (h3 : (rv.outPk_xasset[i]?).map ctkey.mask = some (slots rv.type o pk).2.2)
    (hne : pk ≠ identity) :
    decodeRctSimple_C rv i = .ok (some pk) := by
  obtain ⟨p1, e1, m1⟩ := Option.map_eq_some'.1 h1
  obtain ⟨p2, e2, m2⟩ := Option.map_eq_some'.1 h2
  obtain ⟨p3, e3, m3⟩ := Option.map_eq_some'.1 h3
  have i1 : idx rv.outPk i = .ok p1 := idx_eq_ok.2 e1
  have i2 : idx rv.outPk_usd i = .ok p2 := idx_eq_ok.2 e2
  have i3 : idx rv.outPk_xasset i = .ok p3 := idx_eq_ok.2 e3
  unfold decodeRctSimple_C
  unfold slots at m1 m2 m3
  by_cases hH : rv.type = RCTTypeHaven2 ∨ rv.type = RCTTypeHaven3
  · rw [if_pos hH] at m1
    simp only at m1
    rw [if_pos hH, i1, ok_bind, m1, equalKeys_identity_ne hne]
    rfl
  · rw [if_neg hH] at m1 m2 m3
    rw [if_neg hH, i1, ok_bind]
    by_cases c1 : o.1 = "XHV"
    · rw [if_pos c1] at m1
      simp only at m1
      rw [m1, equalKeys_identity_ne hne]
      rfl
    · rw [if_neg c1] at m1 m2 m3
      by_cases c2 : o.1 = "XUSD"
      · rw [if_pos c2] at m1 m2
        simp only at m1 m2
        rw [m1, equalKeys_identity_self, i2]
        simp only [Bool.not_true, Bool.false_eq_true, if_false, ok_bind]
        rw [m2, equalKeys_identity_ne hne]
        rfl
      · rw [if_neg c2] at m1 m2 m3
        simp only at m1 m2 m3
        rw [m1, equalKeys_identity_self, i2]
        simp only [Bool.not_true, Bool.false_eq_true, if_false, ok_bind]
        rw [m2, equalKeys_identity_self, i3]
        simp only [Bool.not_true, Bool.false_eq_true, if_false, ok_bind]
        rw [m3, equalKeys_identity_ne hne]
        rfl

/-- The decoder opens an output whose blob yields the mask `m` and the amount `a`, when
the slot of its colour holds `m·G + a·H` and that commitment is not the identity. -/
theorem decodeRctSimple_opens (L : CryptoLib Pt) (dev : device) (rv : rctSig) (sk : key)
    (i : Nat) (mask0 : key) (o : outamount) (m : key) (a : Nat) (t : ecdhTuple)
    (ht : genRctSimple_clsag_type rv.type = true)
    (hlen : rv.outPk.length = rv.ecdhInfo.length)
    (hb : rv.ecdhInfo[i]? = some t)
    (hd : dev.ecdhDecode t sk (decide (rv.type = RCTTypeBulletproof2 ∨
      rv.type = RCTTypeCLSAG ∨ rv.type = RCTTypeCLSAGN ∨ rv.type = RCTTypeHaven2 ∨
      rv.type = RCTTypeHaven3)) = { mask := m, amount := d2h a })
    (hm : m < ell) (ha : a < 2 ^ 64)
    (h1 : (rv.outPk[i]?).map ctkey.mask = some (slots rv.type o (genC L m a)).1)
    (h2 : (rv.outPk_usd[i]?).map ctkey.mask = some (slots rv.type o (genC L m a)).2.1)
    (h3 : (rv.outPk_xasset[i]?).map ctkey.mask = some (slots rv.type o (genC L m a)).2.2)
    (hne : genC L m a ≠ identity) :
    decodeRctSimple L dev rv sk i mask0 = .ok (a, m) := by
  have hty : (rv.type = RCTTypeSimple ∨ rv.type = RCTTypeBulletproof ∨
      rv.type = RCTTypeBulletproof2 ∨ rv.type = RCTTypeCLSAG ∨ rv.type = RCTTypeCLSAGN ∨
      rv.type = RCTTypeHaven2 ∨ rv.type = RCTTypeHaven3) := by
    unfold genRctSimple_clsag_type at ht
    rcases of_decide_eq_true ht with e | e | e | e <;> simp [e]
  have hi : i < rv.ecdhInfo.length := by
    rcases Nat.lt_or_ge i rv.ecdhInfo.length with hl | hl
    · exact hl
    · rw [List.getElem?_eq_none hl] at hb
      cases hb
  unfold decodeRctSimple
  rw [if_neg (not_not.2 hty), if_neg (not_not.2 hi), if_neg (not_not.2 hlen),
    idx_eq_ok.2 hb, ok_bind]
  simp only [hd]
  rw [decodeRctSimple_C_slots h1 h2 h3 hne, ok_bind]
  have hal : d2h a < ell := Nat.lt_trans ha two_pow_64_lt_ell
  have c1 : sc_check m = true := by simp [sc_check, hm]
  have c2 : sc_check (d2h a) = true := by simp [sc_check, hal]
  have c3 : equalKeys (genC L m a) (addKeys2 L m (d2h a) L.H) = true := by
    simp [equalKeys, genC, addKeys2]
  simp only [c1, c2, c3, not_true_eq_false, if_false]
  have : h2d (d2h a) = a := by
    unfold h2d d2h
    exact Nat.mod_eq_of_lt ha
  rw [this]
  rfl

end DecodeFacts

/-! ## Key images -/

section KeyImage

variable {Pt : Type} [AddCommGroup Pt] {L : CryptoLib Pt}

theorem CLSAG_Gen_key_image (hL : L.Sound) {message : key} {P : List key} {p : key}
    {C : List key} {z : key} {C_nonzero : List key} {C_offset : key} {l : Nat}
    {mscout mspout : Bool} {rand_a : key} {skGen : Nat → key} {r : CLSAG_Gen_result}
    {Pl : key} (hl : P[l]? = some Pl)
    (h : CLSAG_Gen L message P p C z C_nonzero C_offset l none mscout mspout rand_a skGen
      = .ok r) :
    r.sig.I = L.tobytes (p • L.hash_to_p3 Pl) := by
  unfold CLSAG_Gen at h
  simp only at h
  split_ifs at h
  all_goals
    obtain ⟨Pl2, h1, h⟩ := bind_eq_ok.1 h
    rw [idx_eq_ok, hl] at h1
    cases h1
    obtain ⟨D, -, h⟩ := bind_eq_ok.1 h
    obtain ⟨sigI, h3, h⟩ := bind_eq_ok.1 h
    obtain ⟨Ip, -, h⟩ := bind_eq_ok.1 h
    obtain ⟨Dp, -, h⟩ := bind_eq_ok.1 h
    obtain ⟨sigD, -, h⟩ := bind_eq_ok.1 h
    obtain ⟨aH, -, h⟩ := bind_eq_ok.1 h
    obtain ⟨t, -, h⟩ := bind_eq_ok.1 h
    obtain ⟨c, s, c1⟩ := t
    simp only [pure_eq_ok] at h
    rw [← h]
    obtain ⟨q, hq, rfl⟩ := scalarmultKey_eq_ok.1 h3
    rw [hL.frombytes_tobytes] at hq
    cases hq
    rfl

end KeyImage

/-! ## The concrete library meets the assumptions -/

section ZLib

theorem ZPt.nsmul_v (k : ℕ) (a : ZPt) : (k • a).v = (k * a.v) % ell := rfl

theorem ZPt.zero_v : (0 : ZPt).v = 0 := rfl

theorem ZPt.eq_zero_iff (a : ZPt) : a = 0 ↔ a.v = 0 :=
  ⟨fun h => by rw [h]; rfl, fun h => ZPt.ext_v (by rw [h]; rfl)⟩

theorem zLib_sound : zLib.Sound where
  frombytes_tobytes := by
    intro P
    have h : 1 ≤ P.v + 1 ∧ P.v + 1 - 1 < ell := ⟨by omega, by simpa using P.h⟩
    show (if h : 1 ≤ P.v + 1 ∧ P.v + 1 - 1 < ell then some (⟨P.v + 1 - 1, h.2⟩ : ZPt)
      else none) = some P
    rw [dif_pos h]
    exact congrArg some (ZPt.ext_v (by simp))
  tobytes_zero := rfl

theorem zLib_primeOrder : zLib.PrimeOrder where
  order_G := by
    intro k
    rw [ZPt.eq_zero_iff, ZPt.nsmul_v]
    show k * (1 % ell) % ell = 0 ↔ ell ∣ k
    rw [Nat.mod_eq_of_lt (by decide : 1 < ell), Nat.mul_one]
    exact Nat.dvd_iff_mod_eq_zero.symm
  order_H := by
    intro k
    rw [ZPt.eq_zero_iff, ZPt.nsmul_v]
    show k * (7 % ell) % ell = 0 ↔ ell ∣ k
    rw [Nat.mod_eq_of_lt (by decide : 7 < ell), ← Nat.dvd_iff_mod_eq_zero]
    have hc : Nat.Coprime ell 7 := by decide
    exact ⟨fun h => hc.dvd_of_dvd_mul_right h, fun h => Dvd.dvd.mul_right h 7⟩
  order_hash_to_p3 := by
    intro x
    rw [ZPt.eq_zero_iff, ZPt.nsmul_v]
    exact Nat.mul_mod_right _ _
  hash_to_scalar_lt := by
    intro ks
    show ks.sum % 1000 + 1 < ell
    have h1 : ks.sum % 1000 < 1000 := Nat.mod_lt _ (by decide)
    have h2 : 1001 < ell := by decide
    exact Nat.lt_of_le_of_lt (Nat.succ_le_of_lt (Nat.lt_of_lt_of_le h1 (by decide))) h2

theorem zLibZero_sound : zLibZero.Sound where
  frombytes_tobytes := by
    intro P
    show (if P.v + 1 = 0 then some (ZPt.ofNat 5) else zLib.frombytes (P.v + 1)) = some P
    rw [if_neg (Nat.succ_ne_zero _)]
    exact zLib_sound.frombytes_tobytes P
  tobytes_zero := rfl

theorem zLibZero_primeOrder : zLibZero.PrimeOrder where
  order_G := zLib_primeOrder.order_G
  order_H := zLib_primeOrder.order_H
  order_hash_to_p3 := zLib_primeOrder.order_hash_to_p3
  hash_to_scalar_lt := zLib_primeOrder.hash_to_scalar_lt

theorem exDev_lawful : exDev.Lawful where
  decode_encode := by
    intro t k b _
    show ({ mask := t.mask + k - k, amount := t.amount + k - k } : ecdhTuple) = t
    simp
  mask_lt := by
    intro k
    show k % 1000 + 1 < ell
    have h1 : k % 1000 < 1000 := Nat.mod_lt _ (by decide)
    have h2 : 1001 < ell := by decide
    exact Nat.lt_of_le_of_lt (Nat.succ_le_of_lt (Nat.lt_of_lt_of_le h1 (by decide))) h2

theorem exDevNeutral_lawful : exDevNeutral.Lawful where
  decode_encode := exDev_lawful.decode_encode
  mask_lt := fun _ => by
    show ell - 70 < ell
    decide

theorem exDev_commits : ProverCommits exDev zLib := by
  intro amounts masks proof h
  have h2 : some { exProof1 with
      V := List.zipWith (fun a m => zLib.tobytes (INV_EIGHT • (m • zLib.G + a • zLib.H)))
        amounts masks } = some proof := h
  rw [← Option.some.inj h2]

end ZLib

/-! ## Transfers: the pricing record is not read -/

theorem checks_plain {Pt : Type} {L : CryptoLib Pt} (rv : rctSig) (pr pr2 : pricing_record)
    (tx_type : transaction_type) (strSource strDest : String) (amount_burnt : Nat)
    (collateral_indices : List Nat)
    (amount_collateral : Nat) (h : strSource = strDest ∨ pr.empty = pr2.empty) :
    verRctSemanticsSimple2_checks L rv pr tx_type strSource strDest amount_burnt
        collateral_indices amount_collateral =
      verRctSemanticsSimple2_checks L rv pr2 tx_type strSource strDest amount_burnt
        collateral_indices amount_collateral := by
  unfold verRctSemanticsSimple2_checks
  rcases h with h | h
  · simp [h]
  · rw [h]

section PlainFacts

variable {Pt : Type} [AddCommGroup Pt] {L : CryptoLib Pt}

theorem calc_Zi_plain {tx_type : transaction_type}
    (ht : tx_type = .TRANSFER ∨ tx_type = .OFFSHORE_TRANSFER ∨ tx_type = .XASSET_TRANSFER)
    (pr pr2 : pricing_record) (strSource strDest : String) (version : Nat) :
    calc_Zi L pr tx_type strSource strDest version =
      calc_Zi L pr2 tx_type strSource strDest version := by
  funext sumC sumD
  rcases ht with rfl | rfl | rfl <;> rfl

theorem sums_plain {tx_type : transaction_type}
    (ht : tx_type = .TRANSFER ∨ tx_type = .OFFSHORE_TRANSFER ∨ tx_type = .XASSET_TRANSFER)
    (rv : rctSig) (pr pr2 : pricing_record) (strSource strDest : String)
    (vout : List tx_out) (vin : List txin_v) (version : Nat) (collateral_indices : List Nat) :
    verRctSemanticsSimple2_sums L rv pr tx_type strSource strDest vout vin version
        collateral_indices =
      verRctSemanticsSimple2_sums L rv pr2 tx_type strSource strDest vout vin version
        collateral_indices := by
  unfold verRctSemanticsSimple2_sums
  rw [calc_Zi_plain ht pr pr2]

end PlainFacts

/-! ## The burnt fee -/

theorem burnt_adjusted_cond {rv : rctSig} {tx_type : transaction_type}
    {version amount_burnt : Nat}
    (hc : version < HF_VERSION_USE_COLLATERAL ∧
      (tx_type = .XUSD_TO_XASSET ∨ tx_type = .XASSET_TO_XUSD))
    (hf : rv.txnOffshoreFee < 2 ^ 64) :
    burnt_adjusted rv tx_type version amount_burnt =
      (amount_burnt + 2 ^ 64 - 4 * rv.txnOffshoreFee / 5) % 2 ^ 64 := by
  have hc2 : version < HF_VERSION_USE_COLLATERAL ∧
      (tx_type = .XASSET_TO_XUSD ∨ tx_type = .XUSD_TO_XASSET) := ⟨hc.1, hc.2.symm⟩
  have hq : rv.txnOffshoreFee * 4 / 5 < 2 ^ 64 := by
    norm_num at hf ⊢
    omega
  simp only [burnt_adjusted, if_pos hc2, Nat.mod_eq_of_lt hq, Nat.mul_comm 4]

theorem burnt_adjusted_else {rv : rctSig} {tx_type : transaction_type}
    {version amount_burnt : Nat}
    (hc : ¬ (version < HF_VERSION_USE_COLLATERAL ∧
      (tx_type = .XUSD_TO_XASSET ∨ tx_type = .XASSET_TO_XUSD))) :
    burnt_adjusted rv tx_type version amount_burnt = amount_burnt := by
  have hc2 : ¬ (version < HF_VERSION_USE_COLLATERAL ∧
      (tx_type = .XASSET_TO_XUSD ∨ tx_type = .XUSD_TO_XASSET)) := fun h => hc ⟨h.1, h.2.symm⟩
  simp only [burnt_adjusted, if_neg hc2]

/-! ## Calls that return or throw -/

theorem defined_bind {α β : Type} {x : Res α} {f : α → Res β} (hx : defined x = true)
    (hf : ∀ a, x = .ok a → defined (f a) = true) : defined (x >>= f) = true := by
  cases x with
  | ok a => exact hf a rfl
  | error e =>
    cases e <;> first | rfl | cases hx

theorem catchFalse_defined {r : Res Bool} (hd : defined r = true) (ht : r ≠ .ok true) :
    catchFalse r = .ok false := by
  cases r with
  | ok b =>
    cases b with
    | false => rfl
    | true => exact absurd rfl ht
  | error e =>
    cases e <;> first | rfl | cases hd

theorem invert_zero : invert (d2h 0) = .error .thrown := by
  have h : sc_mul (invert_chain (d2h 0)) (d2h 0) ≠ identity := by
    simp [sc_mul, d2h, identity]
  unfold invert
  simp only [if_neg h]

theorem defined_point {Pt : Type} {L : CryptoLib Pt} (k : key) :
    defined (L.point k) = true := by
  unfold CryptoLib.point
  cases L.frombytes k <;> rfl

section DefinedFacts

variable {Pt : Type} [AddCommGroup Pt] {L : CryptoLib Pt}

theorem defined_addKeys (A B : key) : defined (addKeys L A B) = true :=
  defined_bind (defined_point A) fun _ _ => defined_bind (defined_point B) fun _ _ => rfl

theorem defined_subKeys (A B : key) : defined (subKeys L A B) = true :=
  defined_bind (defined_point A) fun _ _ => defined_bind (defined_point B) fun _ _ => rfl

theorem defined_scalarmultKey (P a : key) : defined (scalarmultKey L P a) = true :=
  defined_bind (defined_point P) fun _ _ => rfl

theorem defined_addKeysFrom : ∀ (ks : List key) (acc : Pt),
    defined (addKeysFrom L acc ks) = true
  | [], _ => rfl
  | k :: ks, acc =>
    defined_bind (defined_point k) fun p _ => defined_addKeysFrom ks (acc + p)

theorem defined_addKeysV (A : List key) : defined (addKeysV L A) = true := by
  cases A with
  | nil => rfl
  | cons k ks =>
    exact defined_bind (defined_point k) fun p _ =>
      defined_bind (defined_addKeysFrom ks p) fun _ _ => rfl

theorem defined_invert (x : key) : defined (invert x) = true := by
  unfold invert
  simp only
  split <;> rfl

theorem defined_calc_Zi (pr : pricing_record) (tx_type : transaction_type)
    (strSource strDest : String) (version : Nat) (sumC sumD : key) :
    defined (calc_Zi L pr tx_type strSource strDest version sumC sumD) = true := by
  have hs : ∀ a b : key, defined (do
      let D_scaled ← scalarmultKey L sumD a
      let yC_invert ← invert b
      let D_final ← scalarmultKey L D_scaled yC_invert
      let Zi ← addKeys L sumC D_final
      pure (some Zi) : Res (Option key)) = true := fun a b =>
    defined_bind (defined_scalarmultKey _ _) fun _ _ =>
      defined_bind (defined_invert _) fun _ _ =>
        defined_bind (defined_scalarmultKey _ _) fun _ _ =>
          defined_bind (defined_addKeys _ _) fun _ _ => rfl
  have hp : defined (do
      let Zi ← addKeys L sumC sumD
      pure (some Zi) : Res (Option key)) = true :=
    defined_bind (defined_addKeys _ _) fun _ _ => rfl
  cases tx_type
  · rfl
  · exact hp
  · exact hs _ _
  · exact hs _ _
  · exact hp
  · exact hs _ _
  · exact hs _ _
  · exact hp

theorem defined_idx {α : Type} {xs : List α} {i : Nat} (h : i < xs.length) :
    defined (idx xs i) = true := by
  unfold idx
  rw [List.getElem?_eq_getElem h]
  rfl

theorem defined_output_masks {outPk : List ctkey} {tx_type : transaction_type}
    {strSource strDest : String} {version : Nat} {collateral_indices : List Nat}
    (ht : tx_type ≠ .ONSHORE) :
    ∀ (vout : List tx_out) (i : Nat) (mC mD : List key), i + vout.length ≤ outPk.length →
      defined (output_masks outPk tx_type strSource strDest version collateral_indices
        vout i mC mD) = true := by
  intro vout
  induction vout with
  | nil =>
    intro i mC mD _
    rfl
  | cons o rest ih =>
    intro i mC mD hlen
    have hcol : onshore_col_idx tx_type version collateral_indices i = .ok false := by
      rw [onshore_col_idx_total (fun e => absurd e ht), onshore_excluded_of_ne _ _ ht]
    have hi : i < outPk.length := by
      simp only [List.length_cons] at hlen
      omega
    have hrest : i + 1 + rest.length ≤ outPk.length := by
      simp only [List.length_cons] at hlen
      omega
    unfold output_masks
    rw [hcol, ok_bind]
    cases output_asset_type o with
    | none => rfl
    | some asset =>
      simp only [Bool.false_eq_true, not_false_eq_true, if_true]
      by_cases h1 : asset = strSource
      · rw [if_pos h1]
        exact defined_bind (defined_idx hi) fun _ _ => ih _ _ _ hrest
      · rw [if_neg h1]
        by_cases h2 : asset = strDest
        · rw [if_pos h2]
          exact defined_bind (defined_idx hi) fun _ _ => ih _ _ _ hrest
        · rw [if_neg h2]
          rfl

theorem defined_sums {rv : rctSig} {pr : pricing_record} {tx_type : transaction_type}
    {strSource strDest : String} {vout : List tx_out} {vin : List txin_v} {version : Nat}
    {collateral_indices : List Nat} (ht : tx_type ≠ .ONSHORE)
    (hlen : vout.length ≤ rv.outPk.length) :
    defined (verRctSemanticsSimple2_sums L rv pr tx_type strSource strDest vout vin version
      collateral_indices) = true := by
  unfold verRctSemanticsSimple2_sums
  refine defined_bind (defined_output_masks ht vout 0 [] [] (by omega)) fun om _ => ?_
  cases om with
  | none => rfl
  | some t =>
    obtain ⟨mC, mD⟩ := t
    refine defined_bind (defined_addKeysV _) fun _ _ =>
      defined_bind (defined_addKeysV _) fun _ _ => defined_bind ?_ fun ins _ =>
        defined_bind (defined_subKeys _ _) fun _ _ =>
          defined_bind (defined_subKeys _ _) fun _ _ =>
            defined_bind (defined_subKeys _ _) fun _ _ =>
              defined_bind (defined_subKeys _ _) fun _ _ =>
                defined_bind (defined_calc_Zi _ _ _ _ _ _ _) fun z _ => ?_
    · unfold input_sums
      rw [if_neg (fun h => ht h.1)]
      exact defined_bind (defined_addKeysV _) fun _ _ => rfl
    · cases z <;> rfl

/-- With a rate whose inversion throws, the first half of the verifier yields no
residual. -/
theorem sums_rate_zero (hL : L.Sound) {rv : rctSig} {pr : pricing_record}
    {tx_type : transaction_type} {strSource strDest : String} {vout : List tx_out}
    {vin : List txin_v} {version : Nat} {collateral_indices : List Nat}
    (hz : (tx_type = .OFFSHORE ∧
        (if version ≥ HF_PER_OUTPUT_UNLOCK_VERSION then min pr.unused1 pr.xUSD
          else pr.unused1) = 0) ∨
      (tx_type = .XUSD_TO_XASSET ∧ pr.rates strDest = 0)) (x : key × key × key) :
    verRctSemanticsSimple2_sums L rv pr tx_type strSource strDest vout vin version
      collateral_indices ≠ .ok (some x) := by
  intro h
  obtain ⟨sumC, sumColIns, Zi⟩ := x
  obtain ⟨cs, ds, pin, cin, -, -, -, -, rfl, hZ⟩ := sums_eq_ok hL h
  rcases hz with ⟨rfl, h0⟩ | ⟨rfl, h0⟩
  · simp only [calc_Zi, h0] at hZ
    obtain ⟨y, hy, -⟩ :=
      scaled_Zi_eq_ok hL (hL.frombytes_tobytes _) (hL.frombytes_tobytes _) hZ
    rw [invert_zero] at hy
    cases hy
  · simp only [calc_Zi, h0] at hZ
    obtain ⟨y, hy, -⟩ :=
      scaled_Zi_eq_ok hL (hL.frombytes_tobytes _) (hL.frombytes_tobytes _) hZ
    rw [invert_zero] at hy
    cases hy

end DefinedFacts

/-! ## The signing loop of `genRctSimple` -/

section SignLoop

variable {Pt : Type} [AddCommGroup Pt] {L : CryptoLib Pt}

theorem genRctSimple_sign_length {type : RCTType} {full_message : key}
    {mixRing : List (List ctkey)} {inSk : List ctkey} {a pseudoOuts : List key}
    {kLRki : Option (List multisig_kLRki)} {msout : Bool} {index : List Nat}
    {rand_a : Nat → key} {skGen : Nat → Nat → key} :
    ∀ (is : List Nat) (sigs : List clsag) (cs mus : List key)
      (t : List clsag × List key × List key),
      genRctSimple_sign L type full_message mixRing inSk a pseudoOuts kLRki msout index
        rand_a skGen is sigs cs mus = .ok t →
      t.1.length = sigs.length + is.length := by
  intro is
  induction is with
  | nil =>
    intro sigs cs mus t h
    simp only [genRctSimple_sign, Except.ok.injEq] at h
    rw [← h]
    rfl
  | cons i rest ih =>
    intro sigs cs mus t h
    simp only [genRctSimple_sign] at h
    obtain ⟨pubs, -, h⟩ := bind_eq_ok.1 h
    obtain ⟨sk, -, h⟩ := bind_eq_ok.1 h
    obtain ⟨ai, -, h⟩ := bind_eq_ok.1 h
    obtain ⟨Cout, -, h⟩ := bind_eq_ok.1 h
    obtain ⟨k, -, h⟩ := bind_eq_ok.1 h
    by_cases hm : msout = true ∧ ¬ genRctSimple_clsag_type type = true
    · rw [if_pos hm] at h
      cases h
    · rw [if_neg hm] at h
      obtain ⟨ix, -, h⟩ := bind_eq_ok.1 h
      obtain ⟨r, -, h⟩ := bind_eq_ok.1 h
      by_cases hn : ¬ genRctSimple_clsag_type type = true
      · rw [if_pos hn] at h
        cases h
      · rw [if_neg hn] at h
        rw [ih _ _ _ _ h]
        simp only [List.length_append, List.length_cons, List.length_nil]
        omega

theorem genRctSimple_lengths {dev : device} {message : key} {inSk : List ctkey}
    {destinations : List key} {inamounts : List Nat} {inamounts_col_indices : List Nat}
    {onshore_col_amount : Nat} {in_asset_type : String} {outamounts : List outamount}
    {txnFee txnOffshoreFee : Nat} {mixRing : List (List ctkey)} {amount_keys : List key}
    {kLRki : Option (List multisig_kLRki)} {msout : Bool} {index : List Nat}
    {rct_config : RCTConfig} {pr : pricing_record} {tx_version : Nat}
    {aGen : Nat → key} {rand_a : Nat → key} {skGen : Nat → Nat → key}
    {r : genRctSimple_result}
    (h : genRctSimple L dev message inSk destinations inamounts inamounts_col_indices
      onshore_col_amount in_asset_type outamounts txnFee txnOffshoreFee mixRing amount_keys
      kLRki msout index rct_config pr tx_version aGen rand_a skGen = .ok r) :
    genRctSimple_type rct_config.bp_version = .ok r.rv.type ∧
    r.rv.p.CLSAGs.length = inamounts.length ∧
    r.rv.p.pseudoOuts.length = inamounts.length ∧
    r.rv.mixRing.length = inamounts.length ∧
    r.rv.p.MGs = [] := by
  have hty := genRctSimple_type_of_ok h
  unfold genRctSimple at h
  by_cases hchk : genRctSimple_checks inSk destinations inamounts outamounts mixRing
      amount_keys kLRki msout index = true
  · rw [if_neg (not_not.2 hchk)] at h
    obtain ⟨c, hc, h⟩ := bind_eq_ok.1 h
    obtain ⟨fm, -, h⟩ := bind_eq_ok.1 h
    obtain ⟨t, hsign, h⟩ := bind_eq_ok.1 h
    obtain ⟨sigs, cs, mus⟩ := t
    simp only [pure_eq_ok] at h
    subst h
    have hlen := genRctSimple_sign_length _ _ _ _ _ hsign
    obtain ⟨-, hpo, -⟩ := genRctSimple_core_closure L hc
    obtain ⟨-, htype, -⟩ := genRctSimple_core_eq_ok hc
    unfold genRctSimple_checks at hchk
    simp only [Bool.and_eq_true, decide_eq_true_eq] at hchk
    have hty2 : genRctSimple_clsag_type c.type = true := hty
    refine ⟨htype, ?_, hpo, ?_, ?_⟩
    · simpa using hlen
    · show mixRing.length = inamounts.length
      rw [hchk.1.1.1.2, hchk.1.1.1.1.1.1.1.2]
    · simp [genRctSimple_rv, hty2]
  · rw [if_pos hchk] at h
    cases h

/-- Every call of `genRctSimple` that returns has one of the types CLSAG, CLSAGN, Haven2
and Haven3, so a `bp_version` other than 1 and 2, and returns one CLSAG per input:
`rv.p.CLSAGs`, `rv.p.pseudoOuts` and `rv.mixRing` have the length of `inamounts`. -/
theorem gen_args.run_clsags (x : gen_args) (r : genRctSimple_result)
    (h : x.run L = .ok r) :
    genRctSimple_clsag_type r.rv.type = true ∧
    r.rv.p.CLSAGs.length = x.inamounts.length ∧
    r.rv.p.pseudoOuts.length = x.inamounts.length ∧
    r.rv.mixRing.length = x.inamounts.length ∧
    x.rct_config.bp_version ≠ 1 ∧ x.rct_config.bp_version ≠ 2 := by
  obtain ⟨htype, h1, h2, h3, -⟩ := genRctSimple_lengths h
  have hty := genRctSimple_type_of_ok h
  refine ⟨hty, h1, h2, h3, ?_, ?_⟩
  · intro hv
    rw [hv] at htype
    simp only [genRctSimple_type] at htype
    rw [← Except.ok.inj htype] at hty
    cases hty
  · intro hv
    rw [hv] at htype
    simp only [genRctSimple_type] at htype
    rw [← Except.ok.inj htype] at hty
    cases hty

end SignLoop

/-! ## Multisig: the accumulation of the shares -/

theorem acc_fold_cast (base : key) : ∀ (xs : List key) (s : key),
    ((acc_fold base xs s : ℕ) : ZMod ell) =
      (s : ZMod ell) + (xs.map (fun x => ((x : ℕ) : ZMod ell) - ((base : ℕ) : ZMod ell))).sum := by
  intro xs
  induction xs with
  | nil =>
    intro s
    simp [acc_fold]
  | cons x xs ih =>
    intro s
    have hb : base % ell ≤ ell := (Nat.mod_lt base ell_pos).le
    rw [acc_fold, ih, List.map_cons, List.sum_cons]
    simp only [sc_sub, sc_add, ZMod.natCast_mod, Nat.cast_add, Nat.cast_sub hb,
      ZMod.natCast_self, zero_sub]
    ring

theorem acc_fold_lt (base : key) : ∀ (xs : List key) (s : key), xs ≠ [] →
    acc_fold base xs s < ell := by
  intro xs
  induction xs with
  | nil =>
    intro s h
    exact absurd rfl h
  | cons x xs ih =>
    intro s _
    cases xs with
    | nil => exact Nat.mod_lt _ ell_pos
    | cons y ys => exact ih _ (by simp)

theorem set_getElem?_self {α : Type} {l : List α} {i : Nat} {x : α} (h : l[i]? = some x) :
    l.set i x = l := by
  apply List.ext_getElem?
  intro j
  by_cases hj : i = j
  · subst hj
    rw [List.getElem?_set_self (List.getElem?_eq_some.1 h).1, h]
  · rw [List.getElem?_set_ne hj]

theorem clsag_scalar_eq_some {r : rctSig} {n i : Nat} {x : key} :
    clsag_scalar r n i = some x ↔ ∃ sig, r.p.CLSAGs[n]? = some sig ∧ sig.s[i]? = some x := by
  unfold clsag_scalar
  cases r.p.CLSAGs[n]? <;> simp

theorem accSignMultisigCLSAG_shares_eq {rv0 : rctSig} {n i : Nat} {b : key}
    (hb : clsag_scalar rv0 n i = some b) :
    ∀ (shares : List rctSig) (CLSAGs : List clsag) (sig : clsag) (s : key),
      (∀ r ∈ shares, (clsag_scalar r n i).isSome = true) →
      CLSAGs[n]? = some sig → sig.s[i]? = some s →
      accSignMultisigCLSAG_shares rv0 n i shares CLSAGs =
        .ok (CLSAGs.set n { sig with
          s := sig.s.set i
            (acc_fold b (shares.map (fun r => (clsag_scalar r n i).getD 0)) s) }) := by
  obtain ⟨sig0, hsig0, hb0⟩ := clsag_scalar_eq_some.1 hb
  intro shares
  induction shares with
  | nil =>
    intro CLSAGs sig s _ hsig hs
    have e1 : sig.s.set i s = sig.s := set_getElem?_self hs
    have e2 : CLSAGs.set n sig = CLSAGs := set_getElem?_self hsig
    simp only [accSignMultisigCLSAG_shares, List.map_nil, acc_fold, e1, e2]
  | cons r rest ih =>
    intro CLSAGs sig s hall hsig hs
    have hr := hall r (List.mem_cons_self _ _)
    obtain ⟨x, hx⟩ := Option.isSome_iff_exists.1 hr
    obtain ⟨sigp, hsigp, hxp⟩ := clsag_scalar_eq_some.1 hx
    have hn : n < CLSAGs.length := (List.getElem?_eq_some.1 hsig).1
    have hi : i < sig.s.length := (List.getElem?_eq_some.1 hs).1
    simp only [accSignMultisigCLSAG_shares]
    rw [idx_eq_ok.2 hsig, ok_bind, idx_eq_ok.2 hs, ok_bind, idx_eq_ok.2 hsigp, ok_bind,
      idx_eq_ok.2 hxp, ok_bind, idx_eq_ok.2 hsig0, ok_bind, idx_eq_ok.2 hb0, ok_bind]
    rw [ih (CLSAGs.set n { sig with s := sig.s.set i (sc_sub (sc_add s x) b) })
      { sig with s := sig.s.set i (sc_sub (sc_add s x) b) } (sc_sub (sc_add s x) b)
      (fun r2 h2 => hall r2 (List.mem_cons_of_mem _ h2))
      (by rw [List.getElem?_set_self hn])
      (by simp only; rw [List.getElem?_set_self hi])]
    simp only [List.set_set, List.map_cons, acc_fold, hx, Option.getD_some]

/-- The outer loop of `accSignMultisigCLSAG`: the signature at each position
`n0 + t` gets the accumulated scalar at `indices[t]`, and nothing else changes. -/
theorem accSignMultisigCLSAG_loop_eq {rv0 : rctSig} {shares : List rctSig} :
    ∀ (is : List Nat) (n0 : Nat) (CLSAGs : List clsag),
      (∀ t i, is[t]? = some i → ∀ r ∈ rv0 :: shares,
        (clsag_scalar r (n0 + t) i).isSome = true) →
      (∀ t i, is[t]? = some i → ∃ sig, CLSAGs[n0 + t]? = some sig ∧ i < sig.s.length) →
      ∃ out, accSignMultisigCLSAG_loop rv0 shares is n0 CLSAGs = .ok out ∧
        out.length = CLSAGs.length ∧
        (∀ m, (m < n0 ∨ n0 + is.length ≤ m) → out[m]? = CLSAGs[m]?) ∧
        (∀ t i, is[t]? = some i → ∃ sig s, CLSAGs[n0 + t]? = some sig ∧ sig.s[i]? = some s ∧
          out[n0 + t]? = some { sig with
            s := sig.s.set i (acc_fold ((clsag_scalar rv0 (n0 + t) i).getD 0)
              (shares.map (fun r => (clsag_scalar r (n0 + t) i).getD 0)) s) }) := by
  intro is
  induction is with
  | nil =>
    intro n0 CLSAGs _ _
    exact ⟨CLSAGs, rfl, rfl, fun _ _ => rfl, fun t i h => by simp at h⟩
  | cons i rest ih =>
    intro n0 CLSAGs hsh hin
    obtain ⟨sig, hsig, hi⟩ := hin 0 i List.getElem?_cons_zero
    rw [Nat.add_zero] at hsig
    have hn : n0 < CLSAGs.length := (List.getElem?_eq_some.1 hsig).1
    obtain ⟨b, hb⟩ := Option.isSome_iff_exists.1 (hsh 0 i List.getElem?_cons_zero rv0 (List.mem_cons_self _ _))
    rw [Nat.add_zero] at hb
    have hs : sig.s[i]? = some sig.s[i] := List.getElem?_eq_getElem hi
    have h1 := accSignMultisigCLSAG_shares_eq hb shares CLSAGs sig sig.s[i]
      (fun r hr => by
        have := hsh 0 i List.getElem?_cons_zero r (List.mem_cons_of_mem _ hr)
        rwa [Nat.add_zero] at this) hsig hs
    obtain ⟨out, hout, hlen, hfar, hat⟩ := ih (n0 + 1)
      (CLSAGs.set n0 { sig with
        s := sig.s.set i (acc_fold b (shares.map (fun r => (clsag_scalar r n0 i).getD 0))
          sig.s[i]) })
      (fun t j ht r hr => by
        have := hsh (t + 1) j (by simpa using ht) r hr
        rwa [show n0 + (t + 1) = n0 + 1 + t by omega] at this)
      (fun t j ht => by
        obtain ⟨sg, hsg, hj⟩ := hin (t + 1) j (by simpa using ht)
        refine ⟨sg, ?_, hj⟩
        rw [List.getElem?_set_ne (by omega), ← hsg]
        congr 1
        omega)
    refine ⟨out, ?_, ?_, ?_, ?_⟩
    · simp only [accSignMultisigCLSAG_loop]
      rw [h1, ok_bind, hout]
    · rw [hlen, List.length_set]
    · intro m hm
      simp only [List.length_cons] at hm
      rcases hm with hm | hm
      · rw [hfar m (Or.inl (by omega)), List.getElem?_set_ne (by omega)]
      · rw [hfar m (Or.inr (by omega)), List.getElem?_set_ne (by omega)]
    · intro t j ht
      cases t with
      | zero =>
        simp only [List.getElem?_cons_zero, Option.some.injEq] at ht
        subst ht
        refine ⟨sig, sig.s[i], by rw [Nat.add_zero]; exact hsig, hs, ?_⟩
        rw [Nat.add_zero, hfar n0 (Or.inl (by omega)), List.getElem?_set_self hn, hb,
          Option.getD_some]
      | succ t =>
        obtain ⟨sg, s, hsg, hss, ho⟩ := hat t j (by simpa using ht)
        rw [List.getElem?_set_ne (by omega)] at hsg
        refine ⟨sg, s, ?_, hss, ?_⟩
        · rw [← hsg]
          congr 1
          omega
        · rw [show n0 + (t + 1) = n0 + 1 + t by omega]
          exact ho

theorem CLSAGs_index_range_eq {CLSAGs : List clsag} :
    ∀ (is : List Nat) (n0 : Nat),
      (∀ t i, is[t]? = some i → ∃ sig, CLSAGs[n0 + t]? = some sig ∧ i < sig.s.length) →
      CLSAGs_index_range CLSAGs is n0 = .ok true := by
  intro is
  induction is with
  | nil =>
    intro n0 _
    rfl
  | cons i rest ih =>
    intro n0 hin
    obtain ⟨sig, hsig, hi⟩ := hin 0 i List.getElem?_cons_zero
    rw [Nat.add_zero] at hsig
    simp only [CLSAGs_index_range]
    rw [idx_eq_ok.2 hsig, ok_bind, if_neg (not_not.2 hi)]
    exact ih (n0 + 1) (fun t j ht => by
      obtain ⟨sg, hsg, hj⟩ := hin (t + 1) j (by simpa using ht)
      exact ⟨sg, by rw [← hsg]; congr 1; omega, hj⟩)

theorem accSignMultisigCLSAG_eq {rv0 : rctSig} {rest : List rctSig} {rv2 : rctSig}
    {indices : List Nat}
    (ht : rv2.type = RCTTypeCLSAG ∨ rv2.type = RCTTypeCLSAGN ∨ rv2.type = RCTTypeHaven2)
    (hmg : rv2.p.MGs = [])
    (hin : ∀ n i, indices[n]? = some i → ∀ r ∈ rv2 :: rv0 :: rest.dropLast,
      (clsag_scalar r n i).isSome = true) :
    ∃ out, accMultisig (rv0 :: rest) rv2 indices =
        .ok (true, { rv2 with p := { rv2.p with CLSAGs := out } }) ∧
      accSignMultisigCLSAG_loop rv0 rest.dropLast indices 0 rv2.p.CLSAGs = .ok out := by
  have hin2 : ∀ t i, indices[t]? = some i →
      ∃ sig, rv2.p.CLSAGs[0 + t]? = some sig ∧ i < sig.s.length := by
    intro t i h
    obtain ⟨x, hx⟩ := Option.isSome_iff_exists.1 (hin t i h rv2 (List.mem_cons_self _ _))
    obtain ⟨sig, hsig, hs⟩ := clsag_scalar_eq_some.1 hx
    exact ⟨sig, by rw [Nat.zero_add]; exact hsig, (List.getElem?_eq_some.1 hs).1⟩
  obtain ⟨out, hout, -⟩ := accSignMultisigCLSAG_loop_eq indices 0 rv2.p.CLSAGs
    (fun t i h r hr => by
      rw [Nat.zero_add]
      exact hin t i h r (List.mem_cons_of_mem _ hr))
    hin2
  refine ⟨out, ?_, hout⟩
  unfold accMultisig
  rw [if_pos ht]
  unfold accSignMultisigCLSAG
  rw [if_neg (not_not.2 ht), hmg]
  simp only [List.isEmpty_nil, not_true_eq_false, if_false]
  rw [CLSAGs_index_range_eq indices 0 hin2, ok_bind]
  simp only [not_true_eq_false, if_false]
  rw [hout]
  rfl

/-! ## MLSAG: what the verifier accepts -/

theorem MLSAG_Ver_images_identity {Pt : Type} {L : CryptoLib Pt} : ∀ (II : List key),
    (∀ I ∈ II, (L.frombytes I).isSome = true) → identity ∈ II →
    MLSAG_Ver_images L II = .ok none := by
  intro II
  induction II with
  | nil =>
    intro _ h
    cases h
  | cons I rest ih =>
    intro hp hm
    by_cases hI : I = identity
    · have he : equalKeys I identity = true := by simp [equalKeys, hI]
      simp only [MLSAG_Ver_images, he, Bool.not_true, Bool.false_eq_true, not_false_eq_true,
        if_true]
    · have he : equalKeys I identity = false := by simp [equalKeys, hI]
      obtain ⟨Ip, hIp⟩ := Option.isSome_iff_exists.1 (hp I (List.mem_cons_self _ _))
      have hm2 : identity ∈ rest := by
        rcases List.mem_cons.1 hm with h | h
        · exact absurd h.symm hI
        · exact h
      simp only [MLSAG_Ver_images, he, Bool.not_false, not_true_eq_false, if_false, precomp]
      rw [point_eq_ok.2 hIp, ok_bind,
        ih (fun J hJ => hp J (List.mem_cons_of_mem _ hJ)) hm2, ok_bind]
      rfl

section MlsagFacts

variable {Pt : Type} [AddCommGroup Pt] {L : CryptoLib Pt}

theorem pt_eq_of_frombytes {k : key} {P : Pt} (h : L.frombytes k = some P) : L.pt k = P := by
  unfold CryptoLib.pt
  rw [h]
  rfl

theorem MLSAG_Ver_images_ok : ∀ (II : List key),
    (∀ I ∈ II, (L.frombytes I).isSome = true) → (∀ I ∈ II, I ≠ identity) →
    MLSAG_Ver_images L II = .ok (some (II.map L.pt)) := by
  intro II
  induction II with
  | nil =>
    intro _ _
    rfl
  | cons I rest ih =>
    intro hp hn
    obtain ⟨Ip, hIp⟩ := Option.isSome_iff_exists.1 (hp I (List.mem_cons_self _ _))
    have hne : I ≠ identity := hn I (List.mem_cons_self _ _)
    have he : equalKeys I identity = false := by simp [equalKeys, hne]
    simp only [MLSAG_Ver_images, he, Bool.not_false, not_true_eq_false, if_false, precomp]
    rw [point_eq_ok.2 hIp, ok_bind,
      ih (fun J hJ => hp J (List.mem_cons_of_mem _ hJ))
        (fun J hJ => hn J (List.mem_cons_of_mem _ hJ)), ok_bind]
    simp only [List.map_cons, pt_eq_of_frombytes hIp]
    rfl

theorem MLSAG_Ver_linkable_eq {pk_i ss_i II : List key} {c : key}
    (hpt : ∀ P ∈ pk_i, (L.frombytes P).isSome = true) :
    ∀ (k j : Nat), j + k ≤ ss_i.length → j + k ≤ pk_i.length → j + k ≤ II.length →
      MLSAG_Ver_linkable L pk_i ss_i (II.map L.pt) c k j =
        .ok (((List.range' j k).map (mlsag_linkable_row L pk_i ss_i II c)).flatten) := by
  intro k
  induction k with
  | zero =>
    intro j _ _ _
    rfl
  | succ k ih =>
    intro j h1 h2 h3
    have hs : j < ss_i.length := by omega
    have hp : j < pk_i.length := by omega
    have hi : j < II.length := by omega
    obtain ⟨Pp, hPp⟩ := Option.isSome_iff_exists.1 (hpt pk_i[j] (List.getElem_mem _))
    simp only [MLSAG_Ver_linkable]
    rw [idx_eq_ok.2 (List.getElem?_eq_getElem hs), ok_bind,
      idx_eq_ok.2 (List.getElem?_eq_getElem hp), ok_bind, point_eq_ok.2 hPp, ok_bind,
      idx_eq_ok.2 (by rw [List.getElem?_map, List.getElem?_eq_getElem hi]; rfl), ok_bind,
      ih (j + 1) (by omega) (by omega) (by omega), ok_bind]
    simp only [List.range'_succ, List.map_cons, List.flatten_cons, mlsag_linkable_row,
      List.getD_eq_getElem?_getD, List.getElem?_eq_getElem hs, List.getElem?_eq_getElem hp,
      List.getElem?_eq_getElem hi, Option.getD_some, pt_eq_of_frombytes hPp, addKeys2]
    rfl

theorem MLSAG_Ver_plain_eq {pk_i ss_i : List key} {c : key}
    (hpt : ∀ P ∈ pk_i, (L.frombytes P).isSome = true) :
    ∀ (k j : Nat), j + k ≤ ss_i.length → j + k ≤ pk_i.length →
      MLSAG_Ver_plain L pk_i ss_i c k j =
        .ok (((List.range' j k).map (mlsag_plain_row L pk_i ss_i c)).flatten) := by
  intro k
  induction k with
  | zero =>
    intro j _ _
    rfl
  | succ k ih =>
    intro j h1 h2
    have hs : j < ss_i.length := by omega
    have hp : j < pk_i.length := by omega
    obtain ⟨Pp, hPp⟩ := Option.isSome_iff_exists.1 (hpt pk_i[j] (List.getElem_mem _))
    simp only [MLSAG_Ver_plain]
    rw [idx_eq_ok.2 (List.getElem?_eq_getElem hs), ok_bind,
      idx_eq_ok.2 (List.getElem?_eq_getElem hp), ok_bind, point_eq_ok.2 hPp, ok_bind,
      ih (j + 1) (by omega) (by omega), ok_bind]
    simp only [List.range'_succ, List.map_cons, List.flatten_cons, mlsag_plain_row,
      List.getD_eq_getElem?_getD, List.getElem?_eq_getElem hs, List.getElem?_eq_getElem hp,
      Option.getD_some, pt_eq_of_frombytes hPp, addKeys2]
    rfl

theorem MLSAG_Ver_columns_eq {message : key} {pk : List (List key)} {rv : mgSig}
    {dsRows rows : Nat} (hpt : mlsag_points L pk)
    (hds : dsRows ≤ rows) (hII : rv.II.length = dsRows)
    (hpk : ∀ pk_i ∈ pk, pk_i.length = rows) (hss : ∀ ss_i ∈ rv.ss, ss_i.length = rows)
    (hlen : rv.ss.length = pk.length) :
    ∀ (k i : Nat), i + k = pk.length →
      MLSAG_Ver_columns L message pk rv dsRows rows (rv.II.map L.pt) k i
          (mlsag_challenge L message pk rv dsRows i) =
        .ok (if ∀ t, t < k → mlsag_challenge L message pk rv dsRows (i + t + 1) ≠ zero
          then some (mlsag_challenge L message pk rv dsRows (i + k)) else none) := by
  intro k
  induction k with
  | zero =>
    intro i _
    simp [MLSAG_Ver_columns]
  | succ k ih =>
    intro i hik
    have hi : i < pk.length := by omega
    have hi2 : i < rv.ss.length := by omega
    have hpi : pk[i].length = rows := hpk _ (List.getElem_mem _)
    have hsi : rv.ss[i].length = rows := hss _ (List.getElem_mem _)
    have hpts : ∀ P ∈ pk[i], (L.frombytes P).isSome = true := hpt _ (List.getElem_mem _)
    have hround : L.hash_to_scalar (message ::
        (((List.range' 0 dsRows).map (mlsag_linkable_row L pk[i] rv.ss[i] rv.II
            (mlsag_challenge L message pk rv dsRows i))).flatten ++
          ((List.range' dsRows (rows - dsRows)).map (mlsag_plain_row L pk[i] rv.ss[i]
            (mlsag_challenge L message pk rv dsRows i))).flatten)) =
        mlsag_challenge L message pk rv dsRows (i + 1) := by
      simp only [mlsag_challenge, mlsag_round, List.getD_eq_getElem?_getD,
        List.getElem?_eq_getElem hi, List.getElem?_eq_getElem hi2, Option.getD_some, hpi]
    simp only [MLSAG_Ver_columns]
    rw [idx_eq_ok.2 (List.getElem?_eq_getElem hi2), ok_bind,
      idx_eq_ok.2 (List.getElem?_eq_getElem hi), ok_bind,
      MLSAG_Ver_linkable_eq hpts dsRows 0 (by omega) (by omega) (by omega), ok_bind,
      MLSAG_Ver_plain_eq hpts (rows - dsRows) dsRows (by omega) (by omega), ok_bind]
    simp only [hround]
    by_cases hz : mlsag_challenge L message pk rv dsRows (i + 1) = zero
    · have he : equalKeys (mlsag_challenge L message pk rv dsRows (i + 1)) zero = true := by
        simp [equalKeys, hz]
      have hno : ¬ ∀ t, t < k + 1 →
          mlsag_challenge L message pk rv dsRows (i + t + 1) ≠ zero :=
        fun h => h 0 (by omega) hz
      simp only [he, Bool.not_true, Bool.false_eq_true, not_false_eq_true, if_true,
        if_neg hno]
      rfl
    · have he : equalKeys (mlsag_challenge L message pk rv dsRows (i + 1)) zero = false := by
        simp [equalKeys, hz]
      simp only [he, Bool.not_false, not_true_eq_false, if_false]
      rw [ih (i + 1) (by omega)]
      have hiff : (∀ t, t < k → mlsag_challenge L message pk rv dsRows (i + 1 + t + 1) ≠ zero)
          ↔ (∀ t, t < k + 1 → mlsag_challenge L message pk rv dsRows (i + t + 1) ≠ zero) := by
        constructor
        · intro h t ht
          cases t with
          | zero => exact hz
          | succ t =>
            have := h t (by omega)
            rwa [show i + 1 + t + 1 = i + (t + 1) + 1 by omega] at this
        · intro h t ht
          have := h (t + 1) (by omega)
          rwa [show i + (t + 1) + 1 = i + 1 + t + 1 by omega] at this
      simp only [hiff, show i + 1 + k = i + (k + 1) by omega]

end MlsagFacts

theorem MLSAG_Ver_images_points {Pt : Type} {L : CryptoLib Pt} : ∀ (II : List key) (Ip : List Pt),
    MLSAG_Ver_images L II = .ok (some Ip) →
    (∀ I ∈ II, (L.frombytes I).isSome = true) ∧ identity ∉ II := by
  intro II
  induction II with
  | nil =>
    intro _ _
    exact ⟨fun _ h => (by cases h), fun h => (by cases h)⟩
  | cons I rest ih =>
    intro Ip h
    by_cases hI : I = identity
    · have he : equalKeys I identity = true := by simp [equalKeys, hI]
      simp [MLSAG_Ver_images, he] at h
    · have he : equalKeys I identity = false := by simp [equalKeys, hI]
      simp only [MLSAG_Ver_images, he, Bool.not_false, not_true_eq_false, if_false,
        precomp] at h
      obtain ⟨P, hP, h⟩ := bind_eq_ok.1 h
      obtain ⟨r, hr, h⟩ := bind_eq_ok.1 h
      cases r with
      | none => simp [pure, Except.pure] at h
      | some Ips =>
        obtain ⟨h1, h2⟩ := ih Ips hr
        refine ⟨fun J hJ => ?_, fun hm => ?_⟩
        · rcases List.mem_cons.1 hJ with rfl | hJ
          · rw [point_eq_ok.1 hP]
            rfl
          · exact h1 J hJ
        · rcases List.mem_cons.1 hm with hm | hm
          · exact hI hm.symm
          · exact h2 hm

section MlsagChar

variable {Pt : Type} [AddCommGroup Pt] {L : CryptoLib Pt}

/-- The checks at the head of `MLSAG_Ver`: when one of them fails the answer is false,
and when all of them pass the verifier goes on to the key images and the columns. -/
theorem MLSAG_Ver_checks (message : key) (pk : List (List key)) (rv : mgSig)
    (dsRows : Nat) :
    (mlsag_rejected pk rv dsRows ∧ MLSAG_Ver L message pk rv dsRows = .ok false) ∨
    (¬ mlsag_rejected pk rv dsRows ∧
      MLSAG_Ver L message pk rv dsRows = (do
        match ← MLSAG_Ver_images L rv.II with
        | none => pure false
        | some Ip =>
          match ← MLSAG_Ver_columns L message pk rv dsRows (mlsag_rows pk) Ip pk.length 0
              rv.cc with
          | none => pure false
          | some c_old => pure (sc_isnonzero (sc_sub c_old rv.cc) == false))) := by
  unfold MLSAG_Ver
  simp only []
  by_cases h1 : pk.length ≥ 2
  swap
  · exact Or.inl ⟨Or.inl (by omega), by rw [if_pos h1]⟩
  rw [if_neg (not_not.2 h1)]
  obtain ⟨pk0, rest, rfl⟩ : ∃ pk0 rest, pk = pk0 :: rest := by
    cases pk with
    | nil => simp at h1
    | cons a b => exact ⟨a, b, rfl⟩
  have hrows : mlsag_rows (pk0 :: rest) = pk0.length := rfl
  rw [idx_eq_ok.2 (List.getElem?_cons_zero : (pk0 :: rest)[0]? = some pk0), ok_bind]
  simp only [List.drop_succ_cons, List.drop_zero, hrows]
  by_cases h2 : pk0.length ≥ 1
  swap
  · exact Or.inl ⟨Or.inr (Or.inl (by omega)), by rw [if_pos h2]; rfl⟩
  rw [if_neg (not_not.2 h2)]
  by_cases h3 : rest.all (fun pk_i => decide (pk_i.length = pk0.length)) = true
  swap
  · refine Or.inl ⟨Or.inr (Or.inr (Or.inl ?_)), by rw [if_pos h3]; rfl⟩
    simp only [List.all_eq_true, decide_eq_true_eq, not_forall] at h3
    obtain ⟨x, hx, hne⟩ := h3
    exact ⟨x, List.mem_cons_of_mem _ hx, hne⟩
  rw [if_neg (not_not.2 h3)]
  by_cases h4 : rv.II.length = dsRows
  swap
  · exact Or.inl ⟨Or.inr (Or.inr (Or.inr (Or.inl h4))), by rw [if_pos h4]; rfl⟩
  rw [if_neg (not_not.2 h4)]
  by_cases h5 : rv.ss.length = (pk0 :: rest).length
  swap
  · exact Or.inl ⟨Or.inr (Or.inr (Or.inr (Or.inr (Or.inl h5)))), by rw [if_pos h5]; rfl⟩
  rw [if_neg (not_not.2 h5)]
  by_cases h6 : rv.ss.all (fun ss_i => decide (ss_i.length = pk0.length)) = true
  swap
  · refine Or.inl ⟨Or.inr (Or.inr (Or.inr (Or.inr (Or.inr (Or.inl ?_))))),
      by rw [if_pos h6]; rfl⟩
    simp only [List.all_eq_true, decide_eq_true_eq, not_forall] at h6
    obtain ⟨x, hx, hne⟩ := h6
    exact ⟨x, hx, hne⟩
  rw [if_neg (not_not.2 h6)]
  by_cases h7 : dsRows ≤ pk0.length
  swap
  · exact Or.inl ⟨Or.inr (Or.inr (Or.inr (Or.inr (Or.inr (Or.inr (Or.inl (by omega))))))),
      by rw [if_pos h7]; rfl⟩
  rw [if_neg (not_not.2 h7)]
  by_cases h8 : rv.ss.all (fun ss_i => ss_i.all sc_check) = true
  swap
  · refine Or.inl ⟨Or.inr (Or.inr (Or.inr (Or.inr (Or.inr (Or.inr (Or.inr (Or.inl ?_))))))),
      by rw [if_pos h8]; rfl⟩
    simp only [List.all_eq_true, sc_check, decide_eq_true_eq, not_forall] at h8
    obtain ⟨x, hx, s, hs, hne⟩ := h8
    exact ⟨x, hx, s, hs, hne⟩
  rw [if_neg (not_not.2 h8)]
  by_cases h9 : sc_check rv.cc = true
  swap
  · refine Or.inl ⟨Or.inr (Or.inr (Or.inr (Or.inr (Or.inr (Or.inr (Or.inr (Or.inr ?_))))))),
      by rw [if_pos h9]; rfl⟩
    simpa [sc_check] using h9
  rw [if_neg (not_not.2 h9)]
  refine Or.inr ⟨?_, rfl⟩
  simp only [List.all_eq_true, decide_eq_true_eq, sc_check] at h3 h6 h8 h9
  rintro (h | h | ⟨x, hx, hne⟩ | h | h | ⟨x, hx, hne⟩ | h | ⟨x, hx, s, hs, hne⟩ | h)
  · omega
  · rw [hrows] at h
    omega
  · rcases List.mem_cons.1 hx with rfl | hx
    · exact hne rfl
    · exact hne (h3 x hx)
  · exact h h4
  · exact h h5
  · exact hne (h6 x hx)
  · rw [hrows] at h
    omega
  · exact hne (h8 x hx s hs)
  · exact h h9

theorem sc_sub_isnonzero {a b : ℕ} (ha : a < ell) (hb : b < ell) :
    (sc_isnonzero (sc_sub a b) == false) = decide (a = b) := by
  by_cases h : a = b
  · subst h
    have e : a + (ell - a) = ell := by omega
    simp [sc_sub, sc_isnonzero, Nat.mod_eq_of_lt ha, e]
  · have hne : (a + (ell - b)) % ell ≠ 0 := by
      rcases Nat.lt_or_gt_of_ne h with h1 | h1
      · rw [Nat.mod_eq_of_lt (by omega)]
        omega
      · have e : a + (ell - b) = (a - b) + ell := by omega
        rw [e, Nat.add_mod_right, Nat.mod_eq_of_lt (by omega)]
        omega
    simp [sc_sub, sc_isnonzero, Nat.mod_eq_of_lt ha, Nat.mod_eq_of_lt hb, hne, h]

/-- The verifier on a signature that passes the checks, over keys and key images
that are points, with no key image the identity: it answers whether the walk closes. -/
theorem MLSAG_Ver_walk (hH : ∀ ks : List key, L.hash_to_scalar ks < ell)
    {message : key} {pk : List (List key)} {rv : mgSig} {dsRows : Nat}
    (hr : ¬ mlsag_rejected pk rv dsRows) (hpt : mlsag_points L pk)
    (hI : ∀ I ∈ rv.II, (L.frombytes I).isSome = true) (hn : identity ∉ rv.II) :
    (mlsag_closes L message pk rv dsRows → MLSAG_Ver L message pk rv dsRows = .ok true) ∧
    (¬ mlsag_closes L message pk rv dsRows →
      MLSAG_Ver L message pk rv dsRows = .ok false) := by
  rcases MLSAG_Ver_checks (L := L) message pk rv dsRows with ⟨h, -⟩ | ⟨-, e⟩
  · exact absurd h hr
  simp only [mlsag_rejected, not_or, not_exists, not_and, not_not, gt_iff_lt] at hr
  obtain ⟨r1, r2, r3, r4, r5, r6, r7, r8, r9⟩ := hr
  have hcols := @MLSAG_Ver_columns_eq _ _ L message pk rv dsRows (mlsag_rows pk) hpt
    (Nat.le_of_not_lt r7) r4 r3 r6 r5 pk.length 0 (Nat.zero_add _)
  simp only [Nat.zero_add] at hcols
  have hc0 : mlsag_challenge L message pk rv dsRows 0 = rv.cc := rfl
  rw [hc0] at hcols
  rw [e, MLSAG_Ver_images_ok rv.II hI (fun I hI2 hid => hn (hid ▸ hI2)), ok_bind]
  simp only [hcols, ok_bind]
  have hlt : mlsag_challenge L message pk rv dsRows pk.length < ell := by
    obtain ⟨n, hn2⟩ := Nat.exists_eq_succ_of_ne_zero (by omega : pk.length ≠ 0)
    rw [hn2]
    exact hH _
  constructor
  · rintro ⟨hz, hend⟩
    rw [if_pos hz]
    show (pure (sc_isnonzero (sc_sub (mlsag_challenge L message pk rv dsRows pk.length)
      rv.cc) == false) : Res Bool) = .ok true
    rw [sc_sub_isnonzero hlt r9, decide_eq_true_iff.2 hend]
    rfl
  · intro hno
    by_cases hz : ∀ t, t < pk.length → mlsag_challenge L message pk rv dsRows (t + 1) ≠ zero
    · rw [if_pos hz]
      have hend : mlsag_challenge L message pk rv dsRows pk.length ≠ rv.cc :=
        fun h => hno ⟨hz, h⟩
      show (pure (sc_isnonzero (sc_sub (mlsag_challenge L message pk rv dsRows pk.length)
        rv.cc) == false) : Res Bool) = .ok false
      rw [sc_sub_isnonzero hlt r9, decide_eq_false_iff_not.2 hend]
      rfl
    · rw [if_neg hz]
      rfl

/-- The verifier on a signature that passes the checks and has the identity among its
key images, all of them points: the answer is false. -/
theorem MLSAG_Ver_identity {message : key} {pk : List (List key)} {rv : mgSig}
    {dsRows : Nat} (hr : ¬ mlsag_rejected pk rv dsRows)
    (hI : ∀ I ∈ rv.II, (L.frombytes I).isSome = true) (hn : identity ∈ rv.II) :
    MLSAG_Ver L message pk rv dsRows = .ok false := by
  rcases MLSAG_Ver_checks (L := L) message pk rv dsRows with ⟨h, -⟩ | ⟨-, e⟩
  · exact absurd h hr
  rw [e, MLSAG_Ver_images_identity rv.II hI hn]
  rfl

theorem MLSAG_Ver_linkable_points {pk_i ss_i : List key} {Ip : List Pt} {c : key} :
    ∀ (k j : Nat) (xs : List key), MLSAG_Ver_linkable L pk_i ss_i Ip c k j = .ok xs →
      ∀ t, t < k → ∃ P, pk_i[j + t]? = some P ∧ (L.frombytes P).isSome = true := by
  intro k
  induction k with
  | zero =>
    intro j xs _ t ht
    omega
  | succ k ih =>
    intro j xs h t ht
    simp only [MLSAG_Ver_linkable] at h
    obtain ⟨s, -, h⟩ := bind_eq_ok.1 h
    obtain ⟨P, hP, h⟩ := bind_eq_ok.1 h
    obtain ⟨Pp, hPp, h⟩ := bind_eq_ok.1 h
    obtain ⟨I, -, h⟩ := bind_eq_ok.1 h
    obtain ⟨rest, hrest, -⟩ := bind_eq_ok.1 h
    cases t with
    | zero =>
      refine ⟨P, idx_eq_ok.1 hP, ?_⟩
      rw [point_eq_ok.1 hPp]
      rfl
    | succ t =>
      obtain ⟨Q, hQ, hQp⟩ := ih (j + 1) rest hrest t (by omega)
      exact ⟨Q, by rw [← hQ]; congr 1; omega, hQp⟩

theorem MLSAG_Ver_plain_points {pk_i ss_i : List key} {c : key} :
    ∀ (k j : Nat) (xs : List key), MLSAG_Ver_plain L pk_i ss_i c k j = .ok xs →
      ∀ t, t < k → ∃ P, pk_i[j + t]? = some P ∧ (L.frombytes P).isSome = true := by
  intro k
  induction k with
  | zero =>
    intro j xs _ t ht
    omega
  | succ k ih =>
    intro j xs h t ht
    simp only [MLSAG_Ver_plain] at h
    obtain ⟨s, -, h⟩ := bind_eq_ok.1 h
    obtain ⟨P, hP, h⟩ := bind_eq_ok.1 h
    obtain ⟨Pp, hPp, h⟩ := bind_eq_ok.1 h
    obtain ⟨rest, hrest, -⟩ := bind_eq_ok.1 h
    cases t with
    | zero =>
      refine ⟨P, idx_eq_ok.1 hP, ?_⟩
      rw [point_eq_ok.1 hPp]
      rfl
    | succ t =>
      obtain ⟨Q, hQ, hQp⟩ := ih (j + 1) rest hrest t (by omega)
      exact ⟨Q, by rw [← hQ]; congr 1; omega, hQp⟩

theorem MLSAG_Ver_columns_points {message : key} {pk : List (List key)} {rv : mgSig}
    {dsRows rows : Nat} {Ip : List Pt} :
    ∀ (k i : Nat) (c c2 : key),
      MLSAG_Ver_columns L message pk rv dsRows rows Ip k i c = .ok (some c2) →
      ∀ t, t < k → ∃ pk_i, pk[i + t]? = some pk_i ∧
        ∀ j, j < rows → ∃ P, pk_i[j]? = some P ∧ (L.frombytes P).isSome = true := by
  intro k
  induction k with
  | zero =>
    intro i c c2 _ t ht
    omega
  | succ k ih =>
    intro i c c2 h t ht
    simp only [MLSAG_Ver_columns] at h
    obtain ⟨ss_i, -, h⟩ := bind_eq_ok.1 h
    obtain ⟨pk_i, hpk, h⟩ := bind_eq_ok.1 h
    obtain ⟨lk, hlk, h⟩ := bind_eq_ok.1 h
    obtain ⟨pl, hpl, h⟩ := bind_eq_ok.1 h
    split at h
    · simp [pure, Except.pure] at h
    · cases t with
      | zero =>
        refine ⟨pk_i, idx_eq_ok.1 hpk, fun j hj => ?_⟩
        by_cases hjd : j < dsRows
        · have := MLSAG_Ver_linkable_points dsRows 0 lk hlk j hjd
          rwa [Nat.zero_add] at this
        · have := MLSAG_Ver_plain_points (rows - dsRows) dsRows pl hpl (j - dsRows)
            (by omega)
          rwa [show dsRows + (j - dsRows) = j by omega] at this
      | succ t =>
        obtain ⟨q, hq, hqp⟩ := ih (i + 1) _ c2 h t (by omega)
        exact ⟨q, by rw [← hq]; congr 1; omega, hqp⟩

/-- A signature the verifier accepts passes the checks, and its keys and key images
are points, none of the key images the identity. -/
theorem MLSAG_Ver_eq_true {message : key} {pk : List (List key)} {rv : mgSig}
    {dsRows : Nat} (h : MLSAG_Ver L message pk rv dsRows = .ok true) :
    ¬ mlsag_rejected pk rv dsRows ∧ mlsag_points L pk ∧
      (∀ I ∈ rv.II, (L.frombytes I).isSome = true) ∧ identity ∉ rv.II := by
  rcases MLSAG_Ver_checks (L := L) message pk rv dsRows with ⟨-, e⟩ | ⟨hr, e⟩
  · rw [e] at h
    cases h
  rw [e] at h
  obtain ⟨r, hr1, h⟩ := bind_eq_ok.1 h
  cases r with
  | none => simp [pure, Except.pure] at h
  | some Ip =>
    obtain ⟨hI, hn⟩ := MLSAG_Ver_images_points rv.II Ip hr1
    simp only at h
    obtain ⟨r2, hr2, h⟩ := bind_eq_ok.1 h
    cases r2 with
    | none => simp [pure, Except.pure] at h
    | some c2 =>
      refine ⟨hr, fun pk_i hpk P hP => ?_, hI, hn⟩
      obtain ⟨i, hi, rfl⟩ := List.getElem_of_mem hpk
      obtain ⟨j, hj, rfl⟩ := List.getElem_of_mem hP
      obtain ⟨q, hq, hqp⟩ := MLSAG_Ver_columns_points pk.length 0 rv.cc c2 hr2 i hi
      rw [Nat.zero_add, List.getElem?_eq_getElem hi, Option.some.injEq] at hq
      subst hq
      have hrows : pk[i].length = mlsag_rows pk := by
        simp only [mlsag_rejected, not_or, not_exists, not_and, not_not] at hr
        exact hr.2.2.1 _ (List.getElem_mem _)
      obtain ⟨Q, hQ, hQp⟩ := hqp j (by omega)
      rw [List.getElem?_eq_getElem hj, Option.some.injEq] at hQ
      rw [hQ]
      exact hQp

end MlsagChar

set_option maxRecDepth 100000

/-! ## The order `l` is a prime -/

theorem powmod_eq (p : ℕ) : ∀ (fuel a k : ℕ), k < 2 ^ fuel → powmod p fuel a k = a ^ k % p := by
  intro fuel
  induction fuel with
  | zero =>
    intro a k hk
    have : k = 0 := by simpa using hk
    subst this
    simp [powmod]
  | succ fuel ih =>
    intro a k hk
    by_cases h0 : k = 0
    · subst h0
      simp [powmod]
    · have hk2 : k / 2 < 2 ^ fuel := by
        rw [Nat.div_lt_iff_lt_mul (by norm_num)]
        rw [pow_succ] at hk
        exact hk
      have hsq : (a * a % p) ^ (k / 2) % p = (a * a) ^ (k / 2) % p := by
        rw [Nat.pow_mod, Nat.mod_mod, ← Nat.pow_mod]
      simp only [powmod, if_neg h0, ih _ _ hk2, hsq]
      have hk' := Nat.div_add_mod k 2
      have hpow : (a * a) ^ (k / 2) = a ^ (2 * (k / 2)) := by
        rw [pow_mul, pow_two]
      by_cases h1 : k % 2 = 1
      · rw [if_pos h1, Nat.mul_mod, Nat.mod_mod, ← Nat.mul_mod, hpow, ← pow_succ']
        congr 2
        omega
      · rw [if_neg h1, hpow]
        congr 2
        omega

/-- Lucas' test over a list of the prime factors of `p - 1`: `a^(p-1) = 1` and
`a^((p-1)/q) ≠ 1` for every factor `q`, all modulo `p`. -/
theorem prime_of_lucas (p a : ℕ) (fs : List ℕ) (hp : 1 < p) (hlt : p < 2 ^ 256)
    (hprod : fs.prod = p - 1) (hprime : ∀ q ∈ fs, Nat.Prime q)
    (h1 : powmod p 256 a (p - 1) = 1)
    (hq : ∀ q ∈ fs, powmod p 256 a ((p - 1) / q) ≠ 1) : Nat.Prime p := by
  have hmod : ∀ k : ℕ, k < 2 ^ 256 → (((a : ZMod p)) ^ k = 1 ↔ powmod p 256 a k = 1) := by
    intro k hk
    rw [powmod_eq p 256 a k hk]
    have e : ((a : ZMod p)) ^ k = ((a ^ k : ℕ) : ZMod p) := by push_cast; rfl
    rw [e, ← Nat.cast_one, ZMod.natCast_eq_natCast_iff, Nat.ModEq, Nat.mod_eq_of_lt hp]
  refine lucas_primality p (a : ZMod p) ((hmod _ (by omega)).2 h1) ?_
  intro q hqp hdvd
  rw [← hprod] at hdvd
  obtain ⟨r, hr, hqr⟩ := (Prime.dvd_prod_iff hqp.prime).1 hdvd
  have hqr2 : q = r := (Nat.prime_dvd_prime_iff_eq hqp (hprime r hr)).1 hqr
  subst hqr2
  intro h
  have hle : (p - 1) / q ≤ p - 1 := Nat.div_le_self _ _
  exact hq q hr ((hmod _ (by omega)).1 h)

theorem prime_132667 : Nat.Prime 132667 :=
  prime_of_lucas 132667 5
    [2, 3, 22111]
    (by norm_num) (by norm_num) (by norm_num) (by
    intro q hq
    simp only [List.mem_cons, List.mem_singleton, List.not_mem_nil, or_false] at hq
    rcases hq with rfl | rfl | rfl
    · norm_num
    · norm_num
    · norm_num) (by decide) (by decide)

theorem prime_137849 : Nat.Prime 137849 :=
  prime_of_lucas 137849 3
    [2, 2, 2, 17231]
    (by norm_num) (by norm_num) (by norm_num) (by
    intro q hq
    simp only [List.mem_cons, List.mem_singleton, List.not_mem_nil, or_false] at hq
    rcases hq with rfl | rfl | rfl | rfl
    · norm_num
    · norm_num
    · norm_num
    · norm_num) (by decide) (by decide)

theorem prime_409477 : Nat.Prime 409477 :=
  prime_of_lucas 409477 2
    [2, 2, 3, 34123]
    (by norm_num) (by norm_num) (by norm_num) (by
    intro q hq
    simp only [List.mem_cons, List.mem_singleton, List.not_mem_nil, or_false] at hq
    rcases hq with rfl | rfl | rfl | rfl
    · norm_num
    · norm_num
    · norm_num
    · norm_num) (by decide) (by decide)

theorem prime_531581 : Nat.Prime 531581 :=
  prime_of_lucas 531581 2
    [2, 2, 5, 7, 3797]
    (by norm_num) (by norm_num) (by norm_num) (by
    intro q hq
    simp only [List.mem_cons, List.mem_singleton, List.not_mem_nil, or_false] at hq
    rcases hq with rfl | rfl | rfl | rfl | rfl
    · norm_num
    · norm_num
    · norm_num
    · norm_num
    · norm_num) (by decide) (by decide)

theorem prime_1224481 : Nat.Prime 1224481 :=
  prime_of_lucas 1224481 13
    [2, 2, 2, 2, 2, 3, 5, 2551]
    (by norm_num) (by norm_num) (by norm_num) (by
    intro q hq
    simp only [List.mem_cons, List.mem_singleton, List.not_mem_nil, or_false] at hq
    rcases hq with rfl | rfl | rfl | rfl | rfl | rfl | rfl | rfl
    · norm_num
    · norm_num
    · norm_num
    · norm_num
    · norm_num
    · norm_num
    · norm_num
    · norm_num) (by decide) (by decide)

theorem prime_14741173 : Nat.Prime 14741173 :=
  prime_of_lucas 14741173 2
    [2, 2, 3, 3, 409477]
    (by norm_num) (by norm_num) (by norm_num) (by
    intro q hq
    simp only [List.mem_cons, List.mem_singleton, List.not_mem_nil, or_false] at hq
    rcases hq with rfl | rfl | rfl | rfl | rfl
    · norm_num
    · norm_num
    · norm_num
    · norm_num
    · exact prime_409477) (by decide) (by decide)

theorem prime_58964693 : Nat.Prime 58964693 :=
  prime_of_lucas 58964693 2
    [2, 2, 14741173]
    (by norm_num) (by norm_num) (by norm_num) (by
    intro q hq
    simp only [List.mem_cons, List.mem_singleton, List.not_mem_nil, or_false] at hq
    rcases hq with rfl | rfl | rfl
    · norm_num
    · norm_num
    · exact prime_14741173) (by decide) (by decide)

theorem prime_292386187 : Nat.Prime 292386187 :=
  prime_of_lucas 292386187 2
    [2, 3, 3, 3, 3, 307, 5879]
    (by norm_num) (by norm_num) (by norm_num) (by
    intro q hq
    simp only [List.mem_cons, List.mem_singleton, List.not_mem_nil, or_false] at hq
    rcases hq with rfl | rfl | rfl | rfl | rfl | rfl | rfl
    · norm_num
    · norm_num
    · norm_num
    · norm_num
    · norm_num
    · norm_num
    · norm_num) (by decide) (by decide)

theorem prime_213441916511 : Nat.Prime 213441916511 :=
  prime_of_lucas 213441916511 13
    [2, 5, 73, 292386187]
    (by norm_num) (by norm_num) (by norm_num) (by
    intro q hq
    simp only [List.mem_cons, List.mem_singleton, List.not_mem_nil, or_false] at hq
    rcases hq with rfl | rfl | rfl | rfl
    · norm_num
    · norm_num
    · norm_num
    · exact prime_292386187) (by decide) (by decide)

theorem prime_1257559732178653 : Nat.Prime 1257559732178653 :=
  prime_of_lucas 1257559732178653 2
    [2, 2, 3, 7, 23, 531581, 1224481]
    (by norm_num) (by norm_num) (by norm_num) (by
    intro q hq
    simp only [List.mem_cons, List.mem_singleton, List.not_mem_nil, or_false] at hq
    rcases hq with rfl | rfl | rfl | rfl | rfl | rfl | rfl
    · norm_num
    · norm_num
    · norm_num
    · norm_num
    · norm_num
    · exact prime_531581
    · exact prime_1224481) (by decide) (by decide)

theorem prime_4434155615661930479 : Nat.Prime 4434155615661930479 :=
  prime_of_lucas 4434155615661930479 17
    [2, 41, 43, 1257559732178653]
    (by norm_num) (by norm_num) (by norm_num) (by
    intro q hq
    simp only [List.mem_cons, List.mem_singleton, List.not_mem_nil, or_false] at hq
    rcases hq with rfl | rfl | rfl | rfl
    · norm_num
    · norm_num
    · norm_num
    · exact prime_1257559732178653) (by decide) (by decide)

theorem prime_3044861653679985063343 : Nat.Prime 3044861653679985063343 :=
  prime_of_lucas 3044861653679985063343 5
    [2, 3, 11, 30703, 82163, 132667, 137849]
    (by norm_num) (by norm_num) (by norm_num) (by
    intro q hq
    simp only [List.mem_cons, List.mem_singleton, List.not_mem_nil, or_false] at hq
    rcases hq with rfl | rfl | rfl | rfl | rfl | rfl | rfl
    · norm_num
    · norm_num
    · norm_num
    · norm_num
    · norm_num
    · exact prime_132667
    · exact prime_137849) (by decide) (by decide)

theorem prime_172054593956031949258510691 : Nat.Prime 172054593956031949258510691 :=
  prime_of_lucas 172054593956031949258510691 2
    [2, 5, 1361, 2851, 4434155615661930479]
    (by norm_num) (by norm_num) (by norm_num) (by
    intro q hq
    simp only [List.mem_cons, List.mem_singleton, List.not_mem_nil, or_false] at hq
    rcases hq with rfl | rfl | rfl | rfl | rfl
    · norm_num
    · norm_num
    · norm_num
    · norm_num
    · exact prime_4434155615661930479) (by decide) (by decide)

theorem prime_198211423230930754013084525763697 : Nat.Prime 198211423230930754013084525763697 :=
  prime_of_lucas 198211423230930754013084525763697 5
    [2, 2, 2, 2, 3, 23, 58964693, 3044861653679985063343]
    (by norm_num) (by norm_num) (by norm_num) (by
    intro q hq
    simp only [List.mem_cons, List.mem_singleton, List.not_mem_nil, or_false] at hq
    rcases hq with rfl | rfl | rfl | rfl | rfl | rfl | rfl | rfl
    · norm_num
    · norm_num
    · norm_num
    · norm_num
    · norm_num
    · norm_num
    · exact prime_58964693
    · exact prime_3044861653679985063343) (by decide) (by decide)

theorem prime_19757330305831588566944191468367130476339 :
    Nat.Prime 19757330305831588566944191468367130476339 :=
  prime_of_lucas 19757330305831588566944191468367130476339 2
    [2, 269, 213441916511, 172054593956031949258510691]
    (by norm_num) (by norm_num) (by norm_num) (by
    intro q hq
    simp only [List.mem_cons, List.mem_singleton, List.not_mem_nil, or_false] at hq
    rcases hq with rfl | rfl | rfl | rfl
    · norm_num
    · norm_num
    · exact prime_213441916511
    · exact prime_172054593956031949258510691) (by decide) (by decide)

theorem prime_276602624281642239937218680557139826668747 :
    Nat.Prime 276602624281642239937218680557139826668747 :=
  prime_of_lucas 276602624281642239937218680557139826668747 2
    [2, 7, 19757330305831588566944191468367130476339]
    (by norm_num) (by norm_num) (by norm_num) (by
    intro q hq
    simp only [List.mem_cons, List.mem_singleton, List.not_mem_nil, or_false] at hq
    rcases hq with rfl | rfl | rfl
    · norm_num
    · norm_num
    · exact prime_19757330305831588566944191468367130476339) (by decide) (by decide)

theorem prime_7237005577332262213973186563042994240857116359379907606001950938285454250989 :
    Nat.Prime 7237005577332262213973186563042994240857116359379907606001950938285454250989 :=
  prime_of_lucas 7237005577332262213973186563042994240857116359379907606001950938285454250989 2
    [2, 2, 3, 11, 198211423230930754013084525763697, 276602624281642239937218680557139826668747]
    (by norm_num) (by norm_num) (by norm_num) (by
    intro q hq
    simp only [List.mem_cons, List.mem_singleton, List.not_mem_nil, or_false] at hq
    rcases hq with rfl | rfl | rfl | rfl | rfl | rfl
    · norm_num
    · norm_num
    · norm_num
    · norm_num
    · exact prime_198211423230930754013084525763697
    · exact prime_276602624281642239937218680557139826668747) (by decide) (by decide)

/-- The order `l` of the group is a prime, by a chain of Lucas tests. -/
theorem ell_prime : Nat.Prime ell := by
  have h : ell = 7237005577332262213973186563042994240857116359379907606001950938285454250989 := by norm_num [ell]
  rw [h]
  exact prime_7237005577332262213973186563042994240857116359379907606001950938285454250989

/-! ## The addition chain of `invert` -/

theorem sc_mul_pow (x a b : ℕ) : sc_mul (x ^ a % ell) (x ^ b % ell) = x ^ (a + b) % ell := by
  unfold sc_mul
  rw [← Nat.mul_mod, ← pow_add]

theorem sc_mul_pow_self (x : ℕ) : sc_mul x x = x ^ 2 % ell := by
  unfold sc_mul
  rw [pow_two]

theorem sc_mul_pow_right (x a : ℕ) : sc_mul (x ^ a % ell) x = x ^ (a + 1) % ell := by
  unfold sc_mul
  rw [Nat.mod_mul_mod, ← pow_succ]

theorem sm_pow (x : ℕ) : ∀ (n a b : ℕ),
    sm (x ^ a % ell) n (x ^ b % ell) = x ^ (a * 2 ^ n + b) % ell := by
  intro n
  induction n with
  | zero =>
    intro a b
    rw [sm, sc_mul_pow, pow_zero, Nat.mul_one]
  | succ n ih =>
    intro a b
    rw [sm, sc_mul_pow, ih]
    congr 2
    rw [pow_succ]
    ring

/-- The value of the chain: `x^(l-2) mod l`. -/
theorem invert_chain_eq (x : ℕ) : invert_chain x = x ^ (ell - 2) % ell := by
  have h2 : sc_mul x x = x ^ 2 % ell := sc_mul_pow_self x
  have hr : ∀ a : ℕ, sc_mul (x ^ a % ell) x = x ^ (a + 1) % ell := sc_mul_pow_right x
  have hp : ∀ a b : ℕ, sc_mul (x ^ a % ell) (x ^ b % ell) = x ^ (a + b) % ell := sc_mul_pow x
  have hs : ∀ n a b : ℕ, sm (x ^ a % ell) n (x ^ b % ell) = x ^ (a * 2 ^ n + b) % ell :=
    sm_pow x
  simp only [invert_chain, h2, hr, hp, hs]
  congr 2

/-- Fermat's congruence modulo `l`. -/
theorem pow_ell_sub_one {x : ℕ} (h : ¬ ell ∣ x) : x ^ (ell - 1) % ell = 1 := by
  haveI : Fact ell.Prime := ⟨ell_prime⟩
  have h0 : (x : ZMod ell) ≠ 0 := by
    rw [Ne, ZMod.natCast_zmod_eq_zero_iff_dvd]
    exact h
  have h1 := ZMod.pow_card_sub_one_eq_one h0
  have h2 : ((x ^ (ell - 1) : ℕ) : ZMod ell) = ((1 : ℕ) : ZMod ell) := by
    push_cast
    exact h1
  rw [ZMod.natCast_eq_natCast_iff, Nat.ModEq, Nat.mod_eq_of_lt ell_prime.one_lt] at h2
  exact h2

theorem sc_mul_invert_chain {x : ℕ} (h : ¬ ell ∣ x) : sc_mul (invert_chain x) x = identity := by
  have e : ell - 2 + 1 = ell - 1 := by
    have := ell_prime.two_le
    omega
  rw [invert_chain_eq, sc_mul_pow_right, e, pow_ell_sub_one h]
  rfl

theorem sc_mul_invert_chain_zero {x : ℕ} (h : ell ∣ x) :
    sc_mul (invert_chain x) x = 0 := by
  unfold sc_mul
  exact Nat.mod_eq_zero_of_dvd (Dvd.dvd.mul_left h _)

theorem invert_of_not_dvd {x : ℕ} (h : ¬ ell ∣ x) : invert x = .ok (invert_chain x) := by
  unfold invert
  simp only [sc_mul_invert_chain h, if_true]

theorem invert_of_dvd {x : ℕ} (h : ell ∣ x) : invert x = .error .thrown := by
  unfold invert
  have hne : sc_mul (invert_chain x) x ≠ identity := by
    rw [sc_mul_invert_chain_zero h]
    decide
  simp only [if_neg hne]

/-! ## The check of the burnt and minted amounts -/

theorem uint128_mul_lt {a b : ℕ} (ha : a < 2 ^ 64) (hb : b < 2 ^ 64) :
    uint128_mul a b = a * b := by
  unfold uint128_mul
  apply Nat.mod_eq_of_lt
  calc a * b < 2 ^ 64 * 2 ^ 64 := Nat.mul_lt_mul'' ha hb
    _ = 2 ^ 128 := by norm_num

theorem checkBurntAndMinted_offshore (W : uint128_ops) (rv : rctSig)
    (amount_burnt amount_minted : Nat) (pr : pricing_record) (version : Nat)
    (hb : amount_burnt < 2 ^ 64) (h1 : pr.unused1 < 2 ^ 64) :
    checkBurntAndMinted W rv amount_burnt amount_minted pr "XHV" "XUSD" version =
      .ok (decide (amount_minted = amount_burnt *
        (if version ≥ HF_PER_OUTPUT_UNLOCK_VERSION then min pr.unused1 pr.xUSD
          else pr.unused1) / COIN)) := by
  have hr : (if version ≥ HF_PER_OUTPUT_UNLOCK_VERSION then min pr.unused1 pr.xUSD
      else pr.unused1) < 2 ^ 64 := by
    split
    · exact lt_of_le_of_lt (min_le_left _ _) h1
    · exact h1
  have hcoin : COIN ≠ 0 := by decide
  unfold checkBurntAndMinted
  rw [if_pos (by decide)]
  simp only [uint128_div, if_neg hcoin, uint128_mul_lt hb hr]
  by_cases h : amount_burnt * (if version ≥ HF_PER_OUTPUT_UNLOCK_VERSION
      then min pr.unused1 pr.xUSD else pr.unused1) / COIN = amount_minted
  · rw [decide_eq_true_iff.2 h.symm]
    simp only [ok_bind, h, ne_eq, not_true_eq_false, if_false]
    rfl
  · rw [decide_eq_false_iff_not.2 (fun e => h e.symm)]
    simp only [ok_bind, ne_eq, h, not_false_eq_true, if_true]
    rfl

theorem checkBurntAndMinted_onshore (W : uint128_ops) (rv : rctSig)
    (amount_burnt amount_minted : Nat) (pr : pricing_record) (version : Nat)
    (hb : amount_burnt < 2 ^ 64)
    (hr : (if version ≥ HF_PER_OUTPUT_UNLOCK_VERSION then max pr.unused1 pr.xUSD
      else pr.unused1) ≠ 0) :
    checkBurntAndMinted W rv amount_burnt amount_minted pr "XUSD" "XHV" version =
      .ok (decide (W.to_uint64 (amount_burnt * COIN /
        (if version ≥ HF_PER_OUTPUT_UNLOCK_VERSION then max pr.unused1 pr.xUSD
          else pr.unused1)) = amount_minted)) := by
  have hcoin : COIN < 2 ^ 64 := by decide
  unfold checkBurntAndMinted
  rw [if_neg (by decide), if_pos (by decide)]
  simp only [uint128_div, if_neg hr, uint128_mul_lt hb hcoin]
  by_cases h : W.to_uint64 (amount_burnt * COIN /
      (if version ≥ HF_PER_OUTPUT_UNLOCK_VERSION then max pr.unused1 pr.xUSD
        else pr.unused1)) = amount_minted
  · rw [decide_eq_true_iff.2 h]
    simp only [ok_bind, h, ne_eq, not_true_eq_false, if_false]
    rfl
  · rw [decide_eq_false_iff_not.2 h]
    simp only [ok_bind, ne_eq, h, not_false_eq_true, if_true]
    rfl

theorem checkBurntAndMinted_other (W : uint128_ops) (rv : rctSig)
    (amount_burnt amount_minted : Nat) (pr : pricing_record) (source destination : String)
    (version : Nat)
    (c1 : ¬ (source = "XHV" ∧ destination = "XUSD"))
    (c2 : ¬ (source = "XUSD" ∧ destination = "XHV"))
    (c3 : ¬ (source = "XUSD" ∧ destination ≠ "XHV" ∧ destination ≠ "XUSD"))
    (c4 : ¬ (source ≠ "XHV" ∧ source ≠ "XUSD" ∧ destination = "XUSD")) :
    checkBurntAndMinted W rv amount_burnt amount_minted pr source destination version =
      .ok false := by
  unfold checkBurntAndMinted
  rw [if_neg c1, if_neg c2, if_neg c3, if_neg c4]
  rfl

/-! ## The dummy Bulletproof -/

theorem make_dummy_bulletproof_nrl_eq {n_outs : ℕ} (hn : n_outs ≤ 2 ^ 31) :
    ∀ (fuel nrl : ℕ), 33 ≤ nrl + fuel → nrl ≤ 31 → (∀ j, j < nrl → 2 ^ j < n_outs) →
      ∃ k, make_dummy_bulletproof_nrl n_outs fuel nrl = .ok k ∧ k ≤ 31 ∧ n_outs ≤ 2 ^ k ∧
        ∀ j, j < k → 2 ^ j < n_outs := by
  intro fuel
  induction fuel with
  | zero =>
    intro nrl h1 h2 _
    omega
  | succ fuel ih =>
    intro nrl h1 h2 hinv
    unfold make_dummy_bulletproof_nrl
    rw [if_neg (by omega)]
    by_cases hlt : 2 ^ nrl < n_outs
    · rw [if_pos hlt]
      have h31 : nrl < 31 := by
        by_contra hc
        have e : nrl = 31 := by omega
        rw [e] at hlt
        omega
      refine ih (nrl + 1) (by omega) (by omega) (fun j hj => ?_)
      rcases Nat.lt_succ_iff_lt_or_eq.1 hj with h | h
      · exact hinv j h
      · rw [h]
        exact hlt
    · rw [if_neg hlt]
      exact ⟨nrl, rfl, h2, Nat.le_of_not_lt hlt, hinv⟩

/-! ## The direction flags -/

theorem any_false_of_forall {α : Type} (l : List α) (p q : α → Bool)
    (h : ∀ o, o ∈ l → q o = true) (hpq : ∀ o, q o = true → p o = false) :
    l.any p = false := by
  rw [List.any_eq_false]
  intro o ho hp
  rw [hpq o (h o ho)] at hp
  exact Bool.false_ne_true hp

/-! ## The batches of the range-proof stage -/

theorem genRctSimple_batch_size_eq {amounts_proved n_amounts : ℕ} :
    ∀ (fuel e0 : ℕ), 5 ≤ fuel + e0 → e0 ≤ 4 → 2 ^ e0 + amounts_proved ≤ n_amounts →
      ∃ b, genRctSimple_batch_size amounts_proved n_amounts fuel (2 ^ e0) = .ok b ∧
        (∃ e, b = 2 ^ e) ∧ b ≤ n_amounts - amounts_proved ∧ b ≤ BULLETPROOF_MAX_OUTPUTS ∧
        ∀ e, 2 ^ e ≤ n_amounts - amounts_proved → 2 ^ e ≤ BULLETPROOF_MAX_OUTPUTS →
          2 ^ e ≤ b := by
  intro fuel
  induction fuel with
  | zero =>
    intro e0 h1 h2 _
    omega
  | succ fuel ih =>
    intro e0 h1 h2 h3
    unfold genRctSimple_batch_size
    have h16 : (2 : ℕ) ^ e0 ≤ 16 :=
      le_trans (Nat.pow_le_pow_right (by decide) h2) (by decide)
    by_cases hc : 2 ^ e0 * 2 + amounts_proved ≤ n_amounts ∧
        2 ^ e0 * 2 ≤ BULLETPROOF_MAX_OUTPUTS
    · rw [if_pos hc]
      have he : e0 + 1 ≤ 4 := by
        by_contra hcon
        have h5 : 5 ≤ e0 + 1 := by omega
        have h32 : (32 : ℕ) ≤ 2 ^ (e0 + 1) := Nat.pow_le_pow_right (show 0 < 2 by decide) h5
        have e1 : (2 : ℕ) ^ (e0 + 1) = 2 ^ e0 * 2 := pow_succ 2 e0
        rw [e1] at h32
        have hb := hc.2
        unfold BULLETPROOF_MAX_OUTPUTS at hb
        omega
      have := ih (e0 + 1) (by omega) he (by rw [Nat.pow_succ]; exact hc.1)
      rw [Nat.pow_succ] at this
      exact this
    · rw [if_neg hc]
      refine ⟨2 ^ e0, rfl, ⟨e0, rfl⟩, by omega, h16, fun e he1 he2 => ?_⟩
      by_contra hlt
      have hee : e0 + 1 ≤ e := by
        by_contra hcon
        exact hlt (Nat.pow_le_pow_right (by decide) (by omega))
      have := Nat.pow_le_pow_right (show 0 < 2 by decide) hee
      rw [Nat.pow_succ] at this
      exact hc ⟨by omega, le_trans this he2⟩

theorem genRctSimple_batch_spec (range_proof_type : RangeProofType)
    {amounts_proved n_amounts : ℕ} (h : amounts_proved < n_amounts) :
    ∃ b, (if range_proof_type = .RangeProofMultiOutputBulletproof then
          genRctSimple_batch_size amounts_proved n_amounts 5 1
        else pure 1) = .ok b ∧
      spec_batch_size range_proof_type (n_amounts - amounts_proved) b ∧
      1 ≤ b ∧ b + amounts_proved ≤ n_amounts := by
  unfold spec_batch_size
  by_cases hm : range_proof_type = .RangeProofMultiOutputBulletproof
  · simp only [if_pos hm]
    obtain ⟨b, h1, ⟨e, he⟩, h3, h4, h5⟩ :=
      @genRctSimple_batch_size_eq amounts_proved n_amounts 5 0 (by omega) (by omega)
        (by simp; omega)
    refine ⟨b, h1, ⟨⟨e, he⟩, h3, h4, h5⟩, ?_, by omega⟩
    rw [he]
    exact Nat.one_le_two_pow
  · simp only [if_neg hm]
    exact ⟨1, rfl, rfl, le_refl _, by omega⟩

theorem bind_ne_fuel {α β : Type} {x : Res α} {f : α → Res β} (hx : x ≠ .error .fuel)
    (hf : ∀ a, x = .ok a → f a ≠ .error .fuel) : (x >>= f) ≠ .error .fuel := by
  cases x with
  | ok a => exact hf a rfl
  | error e =>
    intro h
    apply hx
    cases e <;> first | rfl | cases h

theorem idx_ne_fuel {α : Type} (xs : List α) (i : ℕ) : idx xs i ≠ .error .fuel := by
  unfold idx
  cases xs[i]? <;> intro h <;> cases h

theorem updAt_ne_fuel {α : Type} (xs : List α) (i : ℕ) (f : α → α) :
    updAt xs i f ≠ .error .fuel := by
  unfold updAt
  cases xs[i]? <;> intro h <;> cases h

theorem make_dummy_bulletproof_nrl_ne_fuel (n_outs : ℕ) :
    ∀ (fuel nrl : ℕ), 33 ≤ nrl + fuel → 1 ≤ fuel →
      make_dummy_bulletproof_nrl n_outs fuel nrl ≠ .error .fuel := by
  intro fuel
  induction fuel with
  | zero =>
    intro nrl _ h
    omega
  | succ fuel ih =>
    intro nrl h _
    unfold make_dummy_bulletproof_nrl
    by_cases h32 : nrl ≥ 32
    · rw [if_pos h32]
      intro h
      cases h
    · rw [if_neg h32]
      by_cases hlt : 2 ^ nrl < n_outs
      · rw [if_pos hlt]
        exact ih (nrl + 1) (by omega) (by omega)
      · rw [if_neg hlt]
        intro h
        cases h

theorem pure_ne_fuel {α : Type} (a : α) : (pure a : Res α) ≠ .error .fuel := by
  intro h
  cases h

section BatchFacts

variable {Pt : Type} [AddCommGroup Pt] {L : CryptoLib Pt}

theorem scalarmult8_ne_fuel (P : key) : scalarmult8 L P ≠ .error .fuel := by
  unfold scalarmult8 CryptoLib.point
  cases L.frombytes P <;> intro h <;> cases h

theorem genRctSimple_prove_ne_fuel (dev : device) (amounts : List Nat)
    (amount_keys : List key) (first : ℕ) :
    genRctSimple_prove L dev amounts amount_keys first ≠ .error .fuel := by
  unfold genRctSimple_prove
  split_ifs
  · unfold make_dummy_bulletproof
    exact bind_ne_fuel (make_dummy_bulletproof_nrl_ne_fuel _ 33 0 (by omega) (by omega))
      fun _ _ => pure_ne_fuel _
  · refine bind_ne_fuel (idx_ne_fuel _ _) fun _ _ => ?_
    unfold proveRangeBulletproof
    split_ifs
    · intro h
      cases h
    · simp only []
      split
      · intro h
        cases h
      · split_ifs <;> intro h <;> cases h

theorem genRctSimple_publish_ne_fuel (type : RCTType) (d : direction)
    (use_onshore_col : Bool) (onshore_col_amount : Nat) (padded : Bool) (o : outamount)
    (Ci mask : key) (st : gen_outputs) :
    genRctSimple_publish L type d use_onshore_col onshore_col_amount padded o Ci mask st
      ≠ .error .fuel := by
  unfold genRctSimple_publish
  simp only []
  split_ifs <;>
    repeat' first
      | exact pure_ne_fuel _
      | exact updAt_ne_fuel _ _ _
      | exact scalarmult8_ne_fuel _
      | refine bind_ne_fuel ?_ (fun _ _ => ?_)

theorem genRctSimple_publish_loop_ne_fuel (type : RCTType) (d : direction)
    (use_onshore_col : Bool) (onshore_col_amount : Nat) (padded : Bool)
    (C masks : List key) :
    ∀ (os : List outamount) (i : ℕ) (st : gen_outputs),
      genRctSimple_publish_loop L type d use_onshore_col onshore_col_amount padded C masks
        os i st ≠ .error .fuel := by
  intro os
  induction os with
  | nil =>
    intro i st h
    cases h
  | cons o rest ih =>
    intro i st
    unfold genRctSimple_publish_loop
    exact bind_ne_fuel (idx_ne_fuel _ _) fun _ _ =>
      bind_ne_fuel (idx_ne_fuel _ _) fun _ _ =>
        bind_ne_fuel (genRctSimple_publish_ne_fuel _ _ _ _ _ _ _ _ _) fun _ _ => ih _ _

end BatchFacts

theorem batch_proofs_lengths {Pt : Type} [AddCommGroup Pt] {L : CryptoLib Pt} {dev : device}
    {outamounts : List outamount} {amount_keys : List key} :
    ∀ (sizes : List Nat) (proved : ℕ) (ps : List Bulletproof) (ms : List key),
      batch_proofs L dev outamounts amount_keys proved sizes ps ms →
      ps.length = sizes.length ∧ ms.length = sizes.sum := by
  intro sizes
  induction sizes with
  | nil =>
    intro proved ps ms h
    unfold batch_proofs at h
    rw [h.1, h.2]
    exact ⟨rfl, rfl⟩
  | cons b rest ih =>
    intro proved ps ms h
    cases ps with
    | nil =>
      unfold batch_proofs at h
      exact h.elim
    | cons p ps =>
      unfold batch_proofs at h
      obtain ⟨C, masks, ms2, -, hb, rfl, h⟩ := h
      obtain ⟨i1, i2⟩ := ih _ _ _ h
      refine ⟨by simp [i1], ?_⟩
      rw [List.length_append, List.length_take, i2, List.sum_cons]
      omega

theorem genRctSimple_batch_list_spec (range_proof_type : RangeProofType) (n : ℕ) :
    ∀ (fuel proved : ℕ), proved ≤ n → n ≤ proved + fuel →
      ∃ sizes, genRctSimple_batch_list range_proof_type n fuel proved = .ok sizes ∧
        spec_batches range_proof_type n proved sizes ∧ sizes.sum + proved = n := by
  intro fuel
  induction fuel with
  | zero =>
    intro proved h1 h2
    unfold genRctSimple_batch_list
    rw [if_neg (by omega)]
    exact ⟨[], rfl, by unfold spec_batches; omega, by simp; omega⟩
  | succ fuel ih =>
    intro proved h1 h2
    unfold genRctSimple_batch_list
    by_cases hlt : proved < n
    · rw [if_pos hlt]
      obtain ⟨b, hb, hs, hb1, hbn⟩ := genRctSimple_batch_spec range_proof_type hlt
      obtain ⟨rest, hr, hsr, hsum⟩ := ih (proved + b) (by omega) (by omega)
      refine ⟨b :: rest, ?_, ?_, ?_⟩
      · rw [hb, ok_bind, hr, ok_bind]
        rfl
      · unfold spec_batches
        exact ⟨hlt, hs, hsr⟩
      · rw [List.sum_cons]
        omega
    · rw [if_neg hlt]
      exact ⟨[], rfl, by unfold spec_batches; omega, by simp; omega⟩

section BatchRuns

variable {Pt : Type} [AddCommGroup Pt] {L : CryptoLib Pt}

theorem genRctSimple_batches_spec {dev : device} {range_proof_type : RangeProofType}
    {type : RCTType} {d : direction} {use_onshore_col : Bool} {onshore_col_amount : Nat}
    {outamounts : List outamount} {amount_keys : List key} :
    ∀ (fuel proved : ℕ) (st : gen_outputs) (sizes : List Nat),
      genRctSimple_batch_list range_proof_type outamounts.length fuel proved = .ok sizes →
      genRctSimple_batches L dev range_proof_type type d use_onshore_col
          onshore_col_amount outamounts amount_keys fuel proved st ≠ .error .fuel ∧
      ∀ st2, genRctSimple_batches L dev range_proof_type type d use_onshore_col
          onshore_col_amount outamounts amount_keys fuel proved st = .ok st2 →
        ∃ ps ms, st2.bulletproofs = st.bulletproofs ++ ps ∧
          st2.outSk = st.outSk ++ ms ∧
          batch_proofs L dev outamounts amount_keys proved sizes ps ms := by
  intro fuel
  induction fuel with
  | zero =>
    intro proved st sizes hs
    unfold genRctSimple_batch_list at hs
    unfold genRctSimple_batches
    by_cases hlt : proved < outamounts.length
    · rw [if_pos hlt] at hs
      cases hs
    · rw [if_neg hlt] at hs
      rw [if_neg hlt]
      cases hs
      refine ⟨fun h => (by cases h), fun st2 h => ?_⟩
      cases h
      exact ⟨[], [], by simp, by simp, by unfold batch_proofs; exact ⟨rfl, rfl⟩⟩
  | succ fuel ih =>
    intro proved st sizes hs
    unfold genRctSimple_batch_list at hs
    unfold genRctSimple_batches
    by_cases hlt : proved < outamounts.length
    · rw [if_pos hlt] at hs
      rw [if_pos hlt]
      obtain ⟨b, hb, hs⟩ := bind_eq_ok.1 hs
      obtain ⟨rest, hr, hs⟩ := bind_eq_ok.1 hs
      rw [pure_eq_ok] at hs
      subst hs
      obtain ⟨b2, hb2, -, -, hbn⟩ := genRctSimple_batch_spec range_proof_type hlt
      rw [hb] at hb2
      cases hb2
      rw [hb, ok_bind]
      have hlen : ((outamounts.drop proved).take b).length = b := by
        rw [List.length_take, List.length_drop]
        omega
      constructor
      · refine bind_ne_fuel (genRctSimple_prove_ne_fuel _ _ _ _) fun t _ => ?_
        obtain ⟨proof, C, masks⟩ := t
        refine bind_ne_fuel (genRctSimple_publish_loop_ne_fuel _ _ _ _ _ _ _ _ _ _)
          fun s2 _ => ?_
        exact (ih (proved + b) s2 rest hr).1
      · intro st2 h
        obtain ⟨t, h1, h⟩ := bind_eq_ok.1 h
        obtain ⟨proof, C, masks⟩ := t
        simp only at h
        obtain ⟨s2, h2, h⟩ := bind_eq_ok.1 h
        obtain ⟨ps, ms, e1, e2, e3⟩ := (ih (proved + b) s2 rest hr).2 st2 h
        obtain ⟨pks, -, -, c3, c4, -, -, -, c8, -⟩ :=
          genRctSimple_publish_loop_eq_ok _ _ _ _ h2
        rw [hlen, List.drop_zero] at c3 c8
        refine ⟨proof :: ps, masks.take b ++ ms, ?_, ?_, ?_⟩
        · rw [e1, c4]
          simp
        · rw [e2, c8]
          simp
        · unfold batch_proofs
          refine ⟨C, masks, ms, h1, ?_, rfl, e3⟩
          rw [List.length_take] at c3
          omega
    · rw [if_neg hlt] at hs
      rw [if_neg hlt]
      cases hs
      refine ⟨fun h => (by cases h), fun st2 h => ?_⟩
      cases h
      exact ⟨[], [], by simp, by simp, by unfold batch_proofs; exact ⟨rfl, rfl⟩⟩

end BatchRuns

theorem updAt_returns {α : Type} {xs : List α} {i : ℕ} (f : α → α) (h : i < xs.length) :
    ∃ ys, updAt xs i f = .ok ys ∧ ys.length = xs.length := by
  unfold updAt
  rw [List.getElem?_eq_getElem h]
  exact ⟨_, rfl, List.length_set _ _ _⟩

section BatchReturns

variable {Pt : Type} [AddCommGroup Pt] {L : CryptoLib Pt}

theorem genRctSimple_publish_returns {type : RCTType} {d : direction}
    {use_onshore_col : Bool} {onshore_col_amount : Nat} {o : outamount} {Ci mask : key}
    {st : gen_outputs} {p : Pt} (hp : L.frombytes Ci = some p)
    (hm : type = RCTTypeHaven2 ∨ type = RCTTypeHaven3 → 2 ≤ st.maskSums.length) :
    ∃ st2, genRctSimple_publish L type d use_onshore_col onshore_col_amount false o Ci mask st
        = .ok st2 ∧ st2.maskSums.length = st.maskSums.length := by
  have h8 : scalarmult8 L Ci = .ok (L.tobytes ((8 : ℕ) • p)) :=
    scalarmult8_eq_ok.2 ⟨p, hp, rfl⟩
  unfold genRctSimple_publish
  simp only [h8, ok_bind, Bool.false_eq_true, false_and, if_false]
  by_cases ht : type = RCTTypeHaven2 ∨ type = RCTTypeHaven3
  · rw [if_pos ht]
    obtain ⟨ys, hy, hl⟩ := @updAt_returns _ st.maskSums 1 (fun x => sc_add x mask)
      (by have := hm ht; omega)
    split_ifs <;> simp only [hy, ok_bind, pure, Except.pure] <;>
      first
        | exact ⟨_, rfl, hl⟩
        | exact ⟨_, rfl, rfl⟩
  · rw [if_neg ht]
    split_ifs <;> exact ⟨_, rfl, rfl⟩

theorem genRctSimple_publish_loop_returns {type : RCTType} {d : direction}
    {use_onshore_col : Bool} {onshore_col_amount : Nat} {C masks : List key}
    (hC : ∀ c, c ∈ C → ∃ p, L.frombytes c = some p) :
    ∀ (os : List outamount) (i : ℕ) (st : gen_outputs),
      i + os.length ≤ C.length → i + os.length ≤ masks.length →
      (type = RCTTypeHaven2 ∨ type = RCTTypeHaven3 → 2 ≤ st.maskSums.length) →
      ∃ st2, genRctSimple_publish_loop L type d use_onshore_col onshore_col_amount false
          C masks os i st = .ok st2 ∧ st2.maskSums.length = st.maskSums.length := by
  intro os
  induction os with
  | nil =>
    intro i st _ _ _
    exact ⟨st, rfl, rfl⟩
  | cons o rest ih =>
    intro i st h1 h2 hm
    simp only [List.length_cons] at h1 h2
    have hi1 : i < C.length := by omega
    have hi2 : i < masks.length := by omega
    obtain ⟨p, hp⟩ := hC (C[i]) (List.getElem_mem hi1)
    obtain ⟨s1, e1, l1⟩ := @genRctSimple_publish_returns Pt _ L type d use_onshore_col
      onshore_col_amount o (C[i]) (masks[i]) st p hp hm
    obtain ⟨s2, e2, l2⟩ := ih (i + 1) s1 (by omega) (by omega) (by rw [l1]; exact hm)
    refine ⟨s2, ?_, by rw [l2, l1]⟩
    unfold genRctSimple_publish_loop
    rw [idx_eq_ok.2 (List.getElem?_eq_getElem hi1), ok_bind,
      idx_eq_ok.2 (List.getElem?_eq_getElem hi2), ok_bind, e1, ok_bind]
    exact e2

theorem make_dummy_bulletproof_returns (outamounts : List Nat)
    (hn : outamounts.length ≤ 2 ^ 31) :
    ∃ proof, make_dummy_bulletproof L outamounts =
      .ok (proof,
        outamounts.map (fun amount =>
          addKeys2 L INV_EIGHT (sc_mul (amount % 2 ^ 64) INV_EIGHT) L.H),
        outamounts.map (fun _ => identity)) := by
  obtain ⟨k, hk, -⟩ :=
    make_dummy_bulletproof_nrl_eq hn 33 0 (by omega) (by omega) (fun j hj => by omega)
  unfold make_dummy_bulletproof
  simp only []
  rw [hk, ok_bind]
  exact ⟨_, rfl⟩

theorem genRctSimple_batches_returns (hL : L.Sound) {dev : device}
    {range_proof_type : RangeProofType} {type : RCTType} {d : direction}
    {use_onshore_col : Bool} {onshore_col_amount : Nat} {outamounts : List outamount}
    {amount_keys : List key} (hf : dev.fake = true) :
    ∀ (fuel proved : ℕ) (st : gen_outputs), proved ≤ outamounts.length →
      outamounts.length ≤ proved + fuel →
      (type = RCTTypeHaven2 ∨ type = RCTTypeHaven3 → 2 ≤ st.maskSums.length) →
      ∃ st2, genRctSimple_batches L dev range_proof_type type d use_onshore_col
          onshore_col_amount outamounts amount_keys fuel proved st = .ok st2 := by
  intro fuel
  induction fuel with
  | zero =>
    intro proved st h1 h2 _
    unfold genRctSimple_batches
    rw [if_neg (by omega)]
    exact ⟨st, rfl⟩
  | succ fuel ih =>
    intro proved st h1 h2 hm
    unfold genRctSimple_batches
    by_cases hlt : proved < outamounts.length
    · rw [if_pos hlt]
      obtain ⟨b, hb, hs, hb1, hbn⟩ := genRctSimple_batch_spec range_proof_type hlt
      rw [hb, ok_bind]
      have hb16 : b ≤ 16 := by
        unfold spec_batch_size at hs
        split_ifs at hs
        · exact hs.2.2.1
        · omega
      have hlen : (((outamounts.drop proved).take b).map (fun o => o.2.1)).length = b := by
        rw [List.length_map, List.length_take, List.length_drop]
        omega
      obtain ⟨proof, hpr⟩ :=
        @make_dummy_bulletproof_returns Pt _ L
          (((outamounts.drop proved).take b).map (fun o => o.2.1)) (by rw [hlen]; omega)
      have hprove : genRctSimple_prove L dev
          (((outamounts.drop proved).take b).map (fun o => o.2.1)) amount_keys proved =
          make_dummy_bulletproof L (((outamounts.drop proved).take b).map (fun o => o.2.1)) := by
        unfold genRctSimple_prove
        rw [if_pos hf]
      simp only []
      rw [hprove, hpr, ok_bind]
      simp only []
      obtain ⟨s2, e2, l2⟩ := @genRctSimple_publish_loop_returns Pt _ L type d use_onshore_col
        onshore_col_amount
        ((((outamounts.drop proved).take b).map (fun o => o.2.1)).map (fun amount =>
          addKeys2 L INV_EIGHT (sc_mul (amount % 2 ^ 64) INV_EIGHT) L.H))
        ((((outamounts.drop proved).take b).map (fun o => o.2.1)).map (fun _ => identity))
        (fun c hc => by
          obtain ⟨a, -, rfl⟩ := List.mem_map.1 hc
          exact ⟨_, hL.frombytes_tobytes _⟩)
        ((outamounts.drop proved).take b) 0
        { st with bulletproofs := st.bulletproofs ++ [proof] }
        (by simp only [List.length_map]; omega) (by simp only [List.length_map]; omega) hm
      rw [e2, ok_bind]
      exact ih (proved + b) s2 (by omega) (by omega) (by rw [l2]; exact hm)
    · rw [if_neg hlt]
      exact ⟨st, rfl⟩

end BatchReturns

/-! ## Claims -/

/-! ## The scaled masks of the specification -/

theorem WPt.nsmul_w (k : ℕ) (a : WPt) : (k • a).v = (k * a.v) % (8 * ell) := rfl

theorem WPt.eq_zero_iff_w (a : WPt) : a = 0 ↔ a.v = 0 :=
  ⟨fun h => by rw [h]; rfl, fun h => WPt.ext_w (by rw [h]; rfl)⟩

theorem wLib_sound : wLib.Sound where
  frombytes_tobytes := by
    intro P
    have h : 1 ≤ P.v + 1 ∧ P.v + 1 - 1 < 8 * ell := ⟨by omega, by simpa using P.h⟩
    show (if h : 1 ≤ P.v + 1 ∧ P.v + 1 - 1 < 8 * ell then some (⟨P.v + 1 - 1, h.2⟩ : WPt)
      else none) = some P
    rw [dif_pos h]
    exact congrArg some (WPt.ext_w (by simp))
  tobytes_zero := rfl

theorem mul_eight_mod (k m : ℕ) : k * (8 * m) % (8 * ell) = 0 ↔ ell ∣ k * m := by
  rw [← Nat.dvd_iff_mod_eq_zero, show k * (8 * m) = 8 * (k * m) by ring]
  exact Nat.mul_dvd_mul_iff_left (by decide)

theorem wLib_primeOrder : wLib.PrimeOrder where
  order_G := by
    intro k
    rw [WPt.eq_zero_iff_w, WPt.nsmul_w]
    show k * (8 % (8 * ell)) % (8 * ell) = 0 ↔ ell ∣ k
    rw [Nat.mod_eq_of_lt (by decide : 8 < 8 * ell)]
    have := mul_eight_mod k 1
    rwa [Nat.mul_one, Nat.mul_one] at this
  order_H := by
    intro k
    rw [WPt.eq_zero_iff_w, WPt.nsmul_w]
    show k * (56 % (8 * ell)) % (8 * ell) = 0 ↔ ell ∣ k
    rw [Nat.mod_eq_of_lt (by decide : 56 < 8 * ell)]
    have := mul_eight_mod k 7
    rw [show 8 * 7 = 56 by rfl] at this
    rw [this]
    have hc : Nat.Coprime ell 7 := by decide
    exact ⟨fun h => hc.dvd_of_dvd_mul_right h, fun h => Dvd.dvd.mul_right h 7⟩
  order_hash_to_p3 := by
    intro x
    rw [WPt.eq_zero_iff_w, WPt.nsmul_w]
    show ell * (8 * (x % 1000 + 1) % (8 * ell)) % (8 * ell) = 0
    rw [Nat.mul_mod, Nat.mod_mod, ← Nat.mul_mod, mul_eight_mod]
    exact Dvd.intro _ rfl
  hash_to_scalar_lt := by
    intro ks
    show ks.sum % 1000 + 1 < ell
    have h1 : ks.sum % 1000 < 1000 := Nat.mod_lt _ (by decide)
    have h2 : 1001 < ell := by decide
    exact Nat.lt_of_le_of_lt (Nat.succ_le_of_lt (Nat.lt_of_lt_of_le h1 (by decide))) h2

section Claims

variable {Pt : Type} [AddCommGroup Pt] {L : CryptoLib Pt}

/-- C1, as the code has it. CLSAG sign-then-verify: for a ring of points of size
`n ≥ 1`, an index `l < n`, a spend secret `p` with `P[l] = p·G` and `z = mask − a` with
`C_nonzero[l] − C_offset = z·G`, `proveRctCLSAGSimple` (non-multisig path) returns a
signature and `verRctCLSAGSimple` accepts it for the same message, ring and `C_offset`,
provided the key images `p·hash_to_point(P[l])` and `z·hash_to_point(P[l])` are not the
neutral point, the responses drawn for the decoys are canonical and no challenge of the
run is zero. -/
theorem C1_clsag_sign_verify (hL : L.Sound) (hP : L.PrimeOrder) (message : key)
    (pubs : List ctkey) (inSk : ctkey) (a Cout : key) (index : Nat) (rand_a : key)
    (skGen : Nat → key) (pk : ctkey)
    (hidx : pubs[index]? = some pk) (hv : ValidRing L pubs)
    (hC : (L.frombytes Cout).isSome = true)
    (hp : L.frombytes pk.dest = some (inSk.dest • L.G))
    (hz : L.pt pk.mask - L.pt Cout = sc_sub inSk.mask a • L.G)
    (hI : inSk.dest • L.hash_to_p3 pk.dest ≠ 0)
    (hD : sc_sub inSk.mask a • L.hash_to_p3 pk.dest ≠ 0)
    (hs : ∀ i, i < pubs.length → skGen i < ell)
    (hnz : ∀ c ∈ clsag_challenges L message pubs inSk a Cout index rand_a skGen, c ≠ 0) :
    ∃ r, proveRctCLSAGSimple L message pubs inSk a Cout none false false index rand_a skGen
        = .ok r ∧
      verRctCLSAGSimple L message r.sig pubs Cout = .ok true := by
  have h3 : pubs.getD index { dest := 0, mask := 0 } = pk := by
    simp [List.getD, hidx]
  refine ⟨_, proveRctCLSAGSimple_eq hL hidx hv hC, ?_⟩
  apply verRctCLSAGSimple_expected hL hP hidx hv hC hp hz _ _ hs hnz
  · unfold clsag_I
    rw [h3]
    exact hI
  · unfold clsag_D
    rw [h3]
    exact hD

/-- Witness of C1: the member at position 1 of the sample ring signs, with the
pseudo-output mask 2. -/
theorem C1_clsag_sign_verify_witness :
    exRing[1]? = some { dest := scalarmultBase zLib 3, mask := genC zLib 5 30 } ∧
    zLib.frombytes (scalarmultBase zLib 3) = some (exInSk.dest • zLib.G) ∧
    zLib.pt (genC zLib 5 30) - zLib.pt (genC zLib 2 30) = sc_sub exInSk.mask 2 • zLib.G ∧
    ∃ r, proveRctCLSAGSimple zLib 77 exRing exInSk 2 (genC zLib 2 30) none false false 1
        11 exSkGen = .ok r ∧
      verRctCLSAGSimple zLib 77 r.sig exRing (genC zLib 2 30) = .ok true :=
  ⟨by decide, by decide, by decide,
   C1_clsag_sign_verify zLib_sound zLib_primeOrder 77 exRing exInSk 2 (genC zLib 2 30) 1 11
     exSkGen { dest := scalarmultBase zLib 3, mask := genC zLib 5 30 }
     (by decide) (by unfold ValidRing; decide) (by decide) (by decide) (by decide)
     (by decide) (by decide) (by decide) (by decide)⟩

/-- Counterexample to C1 as stated: the member at position 1 of the sample ring signs
with the pseudo-output mask equal to the mask of its commitment, so that `z = 0` and
`C_nonzero[l] − C_offset = 0·G`; the prover returns a signature and the verifier
refuses it, its auxiliary key image being the neutral point. -/
theorem C1_counterexample :
    exRing[1]? = some { dest := scalarmultBase zLib 3, mask := genC zLib 5 30 } ∧
    zLib.frombytes (scalarmultBase zLib 3) = some (exInSk.dest • zLib.G) ∧
    zLib.pt (genC zLib 5 30) - zLib.pt (genC zLib 5 30) = sc_sub exInSk.mask 5 • zLib.G ∧
    (proveRctCLSAGSimple zLib 77 exRing exInSk 5 (genC zLib 5 30) none false false 1
        11 exSkGen >>= fun r => verRctCLSAGSimple zLib 77 r.sig exRing (genC zLib 5 30))
      = .ok false := by
  decide

/-- C2, as the code has it. If the verifier returns true for tx_type TRANSFER and
`vout` has one output for each entry of `rv.outPk`, then the sum of all
`rv.p.pseudoOuts` minus the sum of the masks of all entries of `rv.outPk` minus
`(txnFee + txnOffshoreFee)·H` is the neutral point. -/
theorem C2_transfer_balance (hL : L.Sound) (rv : rctSig) (pr : pricing_record)
    (strSource strDest : String) (amount_burnt : Nat)
    (vout : List tx_out) (vin : List txin_v) (version : Nat)
    (collateral_indices : List Nat) (amount_collateral : Nat)
    (hlen : vout.length = rv.outPk.length)
    (h : verRctSemanticsSimple2 L rv pr .TRANSFER strSource strDest amount_burnt vout vin
      version collateral_indices amount_collateral = .ok true) :
    ∃ (ps os : List Pt),
      L.points rv.p.pseudoOuts = some ps ∧
      L.points (rv.outPk.map ctkey.mask) = some os ∧
      ps.sum - os.sum - (rv.txnFee + rv.txnOffshoreFee) • L.H = 0 := by
  obtain ⟨-, sumC, sumColIns, Zi, hs, hd⟩ := body_eq_true h
  have hcol := sums_coloured hs
  obtain ⟨cs, ds, pin, cin, hcs, hds, hin, -, rfl, hZ⟩ := sums_eq_ok hL hs
  obtain ⟨rfl, -, -⟩ := decide_eq_true hd
  rw [onshore_excluded_of_ne _ _ (by decide)] at hcs hds hcol
  obtain ⟨ps, hps, rfl, -⟩ := hin.2 (by simp)
  simp only [calc_Zi] at hZ
  have hz := plain_Zi_eq_ok (hL.frombytes_tobytes _) (hL.frombytes_tobytes _) hZ
  have hz := hL.tobytes_eq_identity.1 hz.symm
  have hall : ∀ x ∈ companion_outputs rv.outPk vout,
      in_source (fun _ => false) strSource x = true ∨
      in_dest (fun _ => false) strSource strDest x = true := by
    intro x hx
    rcases hcol x hx with h0 | h0
    · simp at h0
    · exact h0
  obtain ⟨os, hos, hsum⟩ := partition_points hall hcs hds
  rw [companion_masks hlen] at hos
  refine ⟨ps, os, hps, hos, ?_⟩
  rw [hsum, add_nsmul]
  rw [← hz]
  abel

/-- Witness of C2: the sample transfer. -/
theorem C2_transfer_balance_witness :
    exTransferVout.length = exTransfer.outPk.length ∧
    verRctSemanticsSimple2 zLib exTransfer (exPrices 0 0) .TRANSFER "XHV" "XHV" 0
      exTransferVout [.txin_to_key] 20 [] 0 = .ok true ∧
    ∃ (ps os : List ZPt),
      zLib.points exTransfer.p.pseudoOuts = some ps ∧
      zLib.points (exTransfer.outPk.map ctkey.mask) = some os ∧
      ps.sum - os.sum - (exTransfer.txnFee + exTransfer.txnOffshoreFee) • zLib.H = 0 :=
  ⟨by decide, by decide,
   C2_transfer_balance zLib_sound exTransfer (exPrices 0 0) "XHV" "XHV" 0
     exTransferVout [.txin_to_key] 20 [] 0 (by decide) (by decide)⟩

/-- Counterexample to C2 as stated: with a `vout` that is shorter than `rv.outPk` the
verifier returns true for a TRANSFER, yet the pseudo-outs minus the masks of all
entries of `rv.outPk` minus the fees is not the neutral point: the second commitment
is never read. -/
theorem C2_counterexample :
    verRctSemanticsSimple2 zLib exUnpaired (exPrices 0 0) .TRANSFER "XHV" "XHV" 0
      [{ amount := 0, target := .txout_to_key }] [.txin_to_key] 18 [] 0 = .ok true ∧
    zLib.points exUnpaired.p.pseudoOuts = some [ZPt.ofNat 81] ∧
    zLib.points (exUnpaired.outPk.map ctkey.mask) = some [ZPt.ofNat 74, ZPt.ofNat 138] ∧
    [ZPt.ofNat 81].sum - [ZPt.ofNat 74, ZPt.ofNat 138].sum
      - (exUnpaired.txnFee + exUnpaired.txnOffshoreFee) • zLib.H ≠ 0 := by
  decide

/-- C3. For tx_type OFFSHORE the verifier returns true only if
`sumC + (COIN·sumD)·invert(r)` is the neutral point, where `sumC` is the sum of the
pseudo-outs minus `txnFee·H`, minus `txnOffshoreFee·H`, minus the source-colour masks,
`sumD` is minus the sum of the destination-colour masks, and `r` is
`min(pr.unused1, pr.xUSD)` from version `HF_PER_OUTPUT_UNLOCK_VERSION = 19` on and
`pr.unused1` before. -/
theorem C3_offshore_residual (hL : L.Sound) (rv : rctSig) (pr : pricing_record)
    (strSource strDest : String) (amount_burnt : Nat)
    (vout : List tx_out) (vin : List txin_v) (version : Nat)
    (collateral_indices : List Nat) (amount_collateral : Nat)
    (h : verRctSemanticsSimple2 L rv pr .OFFSHORE strSource strDest amount_burnt vout vin
      version collateral_indices amount_collateral = .ok true) :
    HF_PER_OUTPUT_UNLOCK_VERSION = 19 ∧
    ∃ (ps cs ds : List Pt) (y : key),
      L.points rv.p.pseudoOuts = some ps ∧
      L.points (source_masks rv.outPk vout (fun _ => false) strSource) = some cs ∧
      L.points (dest_masks rv.outPk vout (fun _ => false) strSource strDest) = some ds ∧
      invert (d2h (if version ≥ HF_PER_OUTPUT_UNLOCK_VERSION
        then min pr.unused1 pr.xUSD else pr.unused1)) = .ok y ∧
      (ps.sum - rv.txnFee • L.H - rv.txnOffshoreFee • L.H - cs.sum)
        + y • (COIN • (0 - ds.sum)) = 0 := by
  refine ⟨rfl, ?_⟩
  obtain ⟨-, sumC, sumColIns, Zi, hs, hd⟩ := body_eq_true h
  obtain ⟨cs, ds, pin, cin, hcs, hds, hin, -, rfl, hZ⟩ := sums_eq_ok hL hs
  obtain ⟨rfl, -, -⟩ := decide_eq_true hd
  rw [onshore_excluded_of_ne _ _ (by decide)] at hcs hds
  obtain ⟨ps, hps, rfl, -⟩ := hin.2 (by simp)
  simp only [calc_Zi] at hZ
  obtain ⟨y, hy, hz⟩ := scaled_Zi_eq_ok hL (hL.frombytes_tobytes _) (hL.frombytes_tobytes _) hZ
  exact ⟨ps, cs, ds, y, hps, hcs, hds, hy, hL.tobytes_eq_identity.1 hz.symm⟩

/-- Witness of C3: the sample offshore is accepted. -/
theorem C3_offshore_residual_witness :
    verRctSemanticsSimple2 zLib exOffshore (exPrices 500000000000000 500000000000000)
      .OFFSHORE "XHV" "XUSD" 10 exOffshoreVout [.txin_to_key] 20 [2, 1] 20 = .ok true ∧
    ∃ (ps cs ds : List ZPt) (y : key),
      zLib.points exOffshore.p.pseudoOuts = some ps ∧
      zLib.points (source_masks exOffshore.outPk exOffshoreVout (fun _ => false) "XHV")
        = some cs ∧
      zLib.points (dest_masks exOffshore.outPk exOffshoreVout (fun _ => false) "XHV" "XUSD")
        = some ds ∧
      invert (d2h (if 20 ≥ HF_PER_OUTPUT_UNLOCK_VERSION
        then min (exPrices 500000000000000 500000000000000).unused1
          (exPrices 500000000000000 500000000000000).xUSD
        else (exPrices 500000000000000 500000000000000).unused1)) = .ok y ∧
      (ps.sum - exOffshore.txnFee • zLib.H - exOffshore.txnOffshoreFee • zLib.H - cs.sum)
        + y • (COIN • (0 - ds.sum)) = 0 :=
  ⟨by decide,
   (C3_offshore_residual zLib_sound exOffshore (exPrices 500000000000000 500000000000000)
     "XHV" "XUSD" 10 exOffshoreVout [.txin_to_key] 20 [2, 1] 20 (by decide)).2⟩

/-- C4. For tx_type ONSHORE the verifier returns true only if
`sumC + (r·sumD)·invert(COIN)` is the neutral point, where `r` is
`max(pr.unused1, pr.xUSD)` from version `HF_PER_OUTPUT_UNLOCK_VERSION` on and
`pr.unused1` before; from version `HF_VERSION_USE_COLLATERAL` on, the pseudo-outs of
the collateral inputs (companion input `txin_to_key`) and the two collateral-indexed
outputs are left out of `sumC` and `sumD`. -/
theorem C4_onshore_residual (hL : L.Sound) (rv : rctSig) (pr : pricing_record)
    (strSource strDest : String) (amount_burnt : Nat)
    (vout : List tx_out) (vin : List txin_v) (version : Nat)
    (collateral_indices : List Nat) (amount_collateral : Nat)
    (h : verRctSemanticsSimple2 L rv pr .ONSHORE strSource strDest amount_burnt vout vin
      version collateral_indices amount_collateral = .ok true) :
    ∃ (ps cs ds : List Pt) (y : key),
      L.points (if version ≥ HF_VERSION_USE_COLLATERAL
        then converted_pseudo_outs rv.p.pseudoOuts vin else rv.p.pseudoOuts) = some ps ∧
      L.points (source_masks rv.outPk vout
        (fun i => decide (version ≥ HF_VERSION_USE_COLLATERAL) &&
          collateral_indexed collateral_indices i) strSource) = some cs ∧
      L.points (dest_masks rv.outPk vout
        (fun i => decide (version ≥ HF_VERSION_USE_COLLATERAL) &&
          collateral_indexed collateral_indices i) strSource strDest) = some ds ∧
      invert (d2h COIN) = .ok y ∧
      (ps.sum - rv.txnFee • L.H - rv.txnOffshoreFee • L.H - cs.sum)
        + y • ((if version ≥ HF_PER_OUTPUT_UNLOCK_VERSION
            then max pr.unused1 pr.xUSD else pr.unused1) • (0 - ds.sum)) = 0 := by
  obtain ⟨-, sumC, sumColIns, Zi, hs, hd⟩ := body_eq_true h
  obtain ⟨cs, ds, pin, cin, hcs, hds, hin, -, rfl, hZ⟩ := sums_eq_ok hL hs
  obtain ⟨rfl, -, -⟩ := decide_eq_true hd
  rw [onshore_excluded_onshore] at hcs hds
  obtain ⟨ps, hps, rfl⟩ := hin.converted
  simp only [true_and] at hps
  simp only [calc_Zi] at hZ
  obtain ⟨y, hy, hz⟩ := scaled_Zi_eq_ok hL (hL.frombytes_tobytes _) (hL.frombytes_tobytes _) hZ
  exact ⟨ps, cs, ds, y, hps, hcs, hds, hy, hL.tobytes_eq_identity.1 hz.symm⟩

/-- Witness of C4: the sample onshore at the rate `max(400, 500)` is accepted. -/
theorem C4_onshore_residual_witness :
    verRctSemanticsSimple2 zLib (exOnshore 500) (exPrices 400000000000000 500000000000000)
      .ONSHORE "XUSD" "XHV" 500 exOnshoreVout exOnshoreVin 20 [1, 2] 10 = .ok true ∧
    ∃ (ps cs ds : List ZPt) (y : key),
      zLib.points (if 20 ≥ HF_VERSION_USE_COLLATERAL
        then converted_pseudo_outs (exOnshore 500).p.pseudoOuts exOnshoreVin
        else (exOnshore 500).p.pseudoOuts) = some ps ∧
      zLib.points (source_masks (exOnshore 500).outPk exOnshoreVout
        (fun i => decide (20 ≥ HF_VERSION_USE_COLLATERAL) &&
          collateral_indexed [1, 2] i) "XUSD") = some cs ∧
      zLib.points (dest_masks (exOnshore 500).outPk exOnshoreVout
        (fun i => decide (20 ≥ HF_VERSION_USE_COLLATERAL) &&
          collateral_indexed [1, 2] i) "XUSD" "XHV") = some ds ∧
      invert (d2h COIN) = .ok y ∧
      (ps.sum - (exOnshore 500).txnFee • zLib.H - (exOnshore 500).txnOffshoreFee • zLib.H
          - cs.sum)
        + y • ((if 20 ≥ HF_PER_OUTPUT_UNLOCK_VERSION
            then max (exPrices 400000000000000 500000000000000).unused1
              (exPrices 400000000000000 500000000000000).xUSD
            else (exPrices 400000000000000 500000000000000).unused1) • (0 - ds.sum)) = 0 :=
  ⟨by decide,
   C4_onshore_residual zLib_sound (exOnshore 500) (exPrices 400000000000000 500000000000000)
     "XUSD" "XHV" 500 exOnshoreVout exOnshoreVin 20 [1, 2] 10 (by decide)⟩

/-- C5, as the code has it. Onshore max-price enforcement: for tx_type ONSHORE at
version `HF_PER_OUTPUT_UNLOCK_VERSION` or later, with `pr.unused1 ≠ pr.xUSD` and a
destination sum `sumD` whose order is a multiple of `l` (as is that of every point of
the prime-order subgroup other than the neutral one), a transaction whose commitments
balance under the rate `min(pr.unused1, pr.xUSD)`, that is with
`sumC + (min·sumD)·invert(COIN)` neutral, is refused: the verifier returns false
whenever its sums are computed without an access outside a vector. -/
theorem C5_onshore_max_price (hL : L.Sound) (rv : rctSig) (pr : pricing_record)
    (strSource strDest : String) (amount_burnt : Nat)
    (vout : List tx_out) (vin : List txin_v) (version : Nat)
    (collateral_indices : List Nat) (amount_collateral : Nat)
    (ps cs ds : List Pt) (y : key)
    (hv : version ≥ HF_PER_OUTPUT_UNLOCK_VERSION)
    (hpr : pr.unused1 ≠ pr.xUSD) (h1 : pr.unused1 < 2 ^ 64) (h2 : pr.xUSD < 2 ^ 64)
    (hdef : defined (verRctSemanticsSimple2_sums L rv pr .ONSHORE strSource strDest vout vin
      version collateral_indices) = true)
    (hps : L.points (if version ≥ HF_VERSION_USE_COLLATERAL
      then converted_pseudo_outs rv.p.pseudoOuts vin else rv.p.pseudoOuts) = some ps)
    (hcs : L.points (source_masks rv.outPk vout
      (fun i => decide (version ≥ HF_VERSION_USE_COLLATERAL) &&
        collateral_indexed collateral_indices i) strSource) = some cs)
    (hds : L.points (dest_masks rv.outPk vout
      (fun i => decide (version ≥ HF_VERSION_USE_COLLATERAL) &&
        collateral_indexed collateral_indices i) strSource strDest) = some ds)
    (hy : invert (d2h COIN) = .ok y)
    (hord : ∀ k : ℕ, k • (0 - ds.sum) = 0 → ell ∣ k)
    (hbal : (ps.sum - rv.txnFee • L.H - rv.txnOffshoreFee • L.H - cs.sum)
      + y • (min pr.unused1 pr.xUSD • (0 - ds.sum)) = 0) :
    verRctSemanticsSimple2 L rv pr .ONSHORE strSource strDest amount_burnt vout vin
      version collateral_indices amount_collateral = .ok false := by
  cases hsum : verRctSemanticsSimple2_sums L rv pr .ONSHORE strSource strDest vout vin
      version collateral_indices with
  | error f =>
    rw [hsum] at hdef
    have hf : f = .thrown := by
      cases f <;> simp [defined] at hdef ⊢
    subst hf
    unfold verRctSemanticsSimple2 verRctSemanticsSimple2_body
    by_cases hchk : verRctSemanticsSimple2_checks L rv pr .ONSHORE strSource strDest
        amount_burnt collateral_indices amount_collateral = true
    · simp only [hchk, not_true_eq_false, if_false, hsum]
      rfl
    · simp [hchk, catchFalse]
  | ok r =>
    cases r with
    | none =>
      unfold verRctSemanticsSimple2 verRctSemanticsSimple2_body
      by_cases hchk : verRctSemanticsSimple2_checks L rv pr .ONSHORE strSource strDest
          amount_burnt collateral_indices amount_collateral = true
      · simp only [hchk, not_true_eq_false, if_false, hsum]
        rfl
      · simp [hchk, catchFalse]
    | some t =>
      obtain ⟨sumC, sumColIns, Zi⟩ := t
      apply body_of_sums hsum
      obtain ⟨cs2, ds2, pin, cin, hcs2, hds2, hin, -, rfl, hZ⟩ := sums_eq_ok hL hsum
      rw [onshore_excluded_onshore] at hcs2 hds2
      obtain ⟨ps2, hps2, rfl⟩ := hin.converted
      simp only [true_and] at hps2
      rw [hps] at hps2
      rw [hcs] at hcs2
      rw [hds] at hds2
      cases hps2
      cases hcs2
      cases hds2
      simp only [calc_Zi, if_pos hv] at hZ
      obtain ⟨y2, hy2, hz⟩ :=
        scaled_Zi_eq_ok hL (hL.frombytes_tobytes _) (hL.frombytes_tobytes _) hZ
      rw [hy] at hy2
      cases hy2
      have hZne : Zi ≠ identity := by
        intro he
        rw [he] at hz
        have hmax := hL.tobytes_eq_identity.1 hz.symm
        have heq : y • (min pr.unused1 pr.xUSD • (0 - ds.sum))
            = y • (d2h (max pr.unused1 pr.xUSD) • (0 - ds.sum)) := by
          have h3 := hbal.trans hmax.symm
          exact add_left_cancel h3
        have hlt : max pr.unused1 pr.xUSD < ell :=
          lt_trans (max_lt h1 h2) two_pow_64_lt_ell
        have hmm := scaled_rate_eq hord (invert_eq_ok hy) (min_le_max) hlt heq
        rcases Nat.le_total pr.unused1 pr.xUSD with hle | hle
        · rw [min_eq_left hle, max_eq_right hle] at hmm
          exact hpr hmm
        · rw [min_eq_right hle, max_eq_left hle] at hmm
          exact hpr hmm.symm
      unfold verRctSemanticsSimple2_decide
      have hz2 : equalKeys Zi identity = false := by simp [equalKeys, hZne]
      simp only [hz2, Bool.false_eq_true, not_false_eq_true, if_true]
      rfl

/-- Witness of C5: with the prices 400·COIN and 500·COIN, the sample onshore that
balances at the rate 400 is refused. -/
theorem C5_onshore_max_price_witness :
    20 ≥ HF_PER_OUTPUT_UNLOCK_VERSION ∧
    (exPrices 400000000000000 500000000000000).unused1
      ≠ (exPrices 400000000000000 500000000000000).xUSD ∧
    (ZPt.ofNat 400 + ZPt.ofNat (7 * 400) - 0 • zLib.H - 0 • zLib.H - 0)
      + invert_chain COIN • (min 400000000000000 500000000000000
          • (0 - (ZPt.ofNat 1 + ZPt.ofNat 7))) = 0 ∧
    verRctSemanticsSimple2 zLib (exOnshore 400) (exPrices 400000000000000 500000000000000)
      .ONSHORE "XUSD" "XHV" 400 exOnshoreVout exOnshoreVin 20 [1, 2] 10 = .ok false :=
  ⟨by decide, by decide, by decide,
   C5_onshore_max_price zLib_sound (exOnshore 400)
     (exPrices 400000000000000 500000000000000) "XUSD" "XHV" 400 exOnshoreVout
     exOnshoreVin 20 [1, 2] 10
     [ZPt.ofNat 400 + ZPt.ofNat (7 * 400)] [] [ZPt.ofNat 1 + ZPt.ofNat 7]
     (invert_chain COIN)
     (by decide) (by decide) (by decide) (by decide) (by decide) (by decide) (by decide)
     (by decide) (by decide)
     (by
       intro k hk
       have h0 : (0 : ZPt) - [ZPt.ofNat 1 + ZPt.ofNat 7].sum = ZPt.ofNat (ell - 8) := by
         decide
       rw [h0, ZPt.eq_zero_iff, ZPt.nsmul_v] at hk
       have h8 : (ZPt.ofNat (ell - 8)).v = ell - 8 := by decide
       rw [h8] at hk
       have hc : Nat.Coprime ell (ell - 8) := by decide
       exact hc.dvd_of_dvd_mul_right (Nat.dvd_of_mod_eq_zero hk))
     (by decide)⟩

/-- Counterexample to C5 as stated, over the library `wLib`, whose group has the order
`8·l` of the whole curve: an onshore at version 19 with the prices 400·COIN and
500·COIN whose destination sum `sumD` is a torsion point, of order 8 and not the
neutral point. As both rates are multiples of 8, `min·sumD` and `max·sumD` are neutral:
the transaction balances under the rate `min` and under the rate `max`, and the verifier
accepts it. -/
theorem C5_counterexample :
    wLib.Sound ∧ wLib.PrimeOrder ∧
    19 ≥ HF_PER_OUTPUT_UNLOCK_VERSION ∧
    (exPrices (400 * COIN) (500 * COIN)).unused1 ≠ (exPrices (400 * COIN) (500 * COIN)).xUSD ∧
    wLib.points exTorsion.p.pseudoOuts = some [9 • wLib.G + 30 • wLib.H] ∧
    wLib.points (source_masks exTorsion.outPk exTorsionVout (fun _ => false) "XUSD") =
      some [9 • wLib.G + 30 • wLib.H] ∧
    wLib.points (dest_masks exTorsion.outPk exTorsionVout (fun _ => false) "XUSD" "XHV") =
      some [WPt.ofNat ell] ∧
    (0 : WPt) - [WPt.ofNat ell].sum ≠ 0 ∧
    8 • ((0 : WPt) - [WPt.ofNat ell].sum) = 0 ∧
    invert (d2h COIN) = .ok (invert_chain COIN) ∧
    ([9 • wLib.G + 30 • wLib.H].sum - exTorsion.txnFee • wLib.H
        - exTorsion.txnOffshoreFee • wLib.H - [9 • wLib.G + 30 • wLib.H].sum)
      + invert_chain COIN • (min (400 * COIN) (500 * COIN) •
          ((0 : WPt) - [WPt.ofNat ell].sum)) = 0 ∧
    verRctSemanticsSimple2 wLib exTorsion (exPrices (400 * COIN) (500 * COIN)) .ONSHORE
      "XUSD" "XHV" 1 exTorsionVout [.txin_offshore] 19 [] 0 = .ok true := by
  refine ⟨wLib_sound, wLib_primeOrder, ?_, ?_, ?_, ?_, ?_, ?_, ?_, ?_, ?_, ?_⟩ <;> decide

/-- C6. Burnt/mint equation: for every conversion (`strSource ≠ strDest`) that the
verifier accepts, `sumC + genC(maskSums[1], 0)` equals `genC(maskSums[0], b)`, where
`b` is `amount_burnt` after the burnt-fee adjustment; so the verifier does not accept
when the two commitments differ. -/
theorem C6_burnt_mint (hL : L.Sound) (rv : rctSig) (pr : pricing_record)
    (tx_type : transaction_type) (strSource strDest : String) (amount_burnt : Nat)
    (vout : List tx_out) (vin : List txin_v) (version : Nat)
    (collateral_indices : List Nat) (amount_collateral : Nat)
    (hconv : strSource ≠ strDest)
    (h : verRctSemanticsSimple2 L rv pr tx_type strSource strDest amount_burnt vout vin
      version collateral_indices amount_collateral = .ok true) :
    ∃ (ps cs : List Pt) (n m : key),
      L.points (if tx_type = .ONSHORE ∧ version ≥ HF_VERSION_USE_COLLATERAL
        then converted_pseudo_outs rv.p.pseudoOuts vin else rv.p.pseudoOuts) = some ps ∧
      L.points (source_masks rv.outPk vout
        (onshore_excluded tx_type version collateral_indices) strSource) = some cs ∧
      rv.maskSums[1]? = some n ∧ rv.maskSums[0]? = some m ∧
      addKeys L (L.tobytes (ps.sum - rv.txnFee • L.H - rv.txnOffshoreFee • L.H - cs.sum))
          (genC L n 0)
        = .ok (genC L m (burnt_adjusted rv tx_type version amount_burnt)) := by
  obtain ⟨-, sumC, sumColIns, Zi, hs, hd⟩ := body_eq_true h
  obtain ⟨cs, ds, pin, cin, hcs, hds, hin, -, rfl, hZ⟩ := sums_eq_ok hL hs
  obtain ⟨-, hb, -⟩ := decide_eq_true hd
  obtain ⟨ps, hps, rfl⟩ := hin.converted
  obtain ⟨n, m, hn, hm, heq⟩ := burnt_check_eq_true hconv hb
  exact ⟨ps, cs, n, m, hps, hcs, hn, hm, heq⟩

/-- Witness of C6: the sample offshore, which burns 10 XHV. -/
theorem C6_burnt_mint_witness :
    "XHV" ≠ "XUSD" ∧
    verRctSemanticsSimple2 zLib exOffshore (exPrices 500000000000000 500000000000000)
      .OFFSHORE "XHV" "XUSD" 10 exOffshoreVout [.txin_to_key] 20 [2, 1] 20 = .ok true ∧
    ∃ (ps cs : List ZPt) (n m : key),
      zLib.points (if transaction_type.OFFSHORE = .ONSHORE ∧ 20 ≥ HF_VERSION_USE_COLLATERAL
        then converted_pseudo_outs exOffshore.p.pseudoOuts [.txin_to_key]
        else exOffshore.p.pseudoOuts) = some ps ∧
      zLib.points (source_masks exOffshore.outPk exOffshoreVout
        (onshore_excluded .OFFSHORE 20 [2, 1]) "XHV") = some cs ∧
      exOffshore.maskSums[1]? = some n ∧ exOffshore.maskSums[0]? = some m ∧
      addKeys zLib (zLib.tobytes (ps.sum - exOffshore.txnFee • zLib.H
          - exOffshore.txnOffshoreFee • zLib.H - cs.sum)) (genC zLib n 0)
        = .ok (genC zLib m (burnt_adjusted exOffshore .OFFSHORE 20 10)) :=
  ⟨by decide, by decide,
   C6_burnt_mint zLib_sound exOffshore (exPrices 500000000000000 500000000000000)
     .OFFSHORE "XHV" "XUSD" 10 exOffshoreVout [.txin_to_key] 20 [2, 1] 20 (by decide)
     (by decide)⟩

/-- C7. The burnt amount is pinned by the commitments: for a conversion
(`strSource ≠ strDest`), if the verifier returns true with `amount_burnt = b`, then it
returns false with any other 64-bit value `b'` (with `b + 1` in particular), everything
else being the same. -/
theorem C7_burnt_pinned (hL : L.Sound) (hP : L.PrimeOrder) (rv : rctSig)
    (pr : pricing_record) (tx_type : transaction_type) (strSource strDest : String)
    (b b' : Nat) (vout : List tx_out) (vin : List txin_v) (version : Nat)
    (collateral_indices : List Nat) (amount_collateral : Nat)
    (hconv : strSource ≠ strDest) (hb : b < 2 ^ 64) (hb' : b' < 2 ^ 64) (hne : b' ≠ b)
    (h : verRctSemanticsSimple2 L rv pr tx_type strSource strDest b vout vin
      version collateral_indices amount_collateral = .ok true) :
    verRctSemanticsSimple2 L rv pr tx_type strSource strDest b' vout vin
      version collateral_indices amount_collateral = .ok false := by
  obtain ⟨-, sumC, sumColIns, Zi, hs, hd⟩ := body_eq_true h
  obtain ⟨hZ, hbc, -⟩ := decide_eq_true hd
  obtain ⟨n, m, hn, hm, hadd⟩ := burnt_check_eq_true hconv hbc
  apply body_of_sums hs
  have hdiff : genC L m (burnt_adjusted rv tx_type version b) ≠
      genC L m (burnt_adjusted rv tx_type version b') := by
    intro he
    have h1 := genC_amount_inj hL hP
      (lt_trans (burnt_adjusted_lt hb) two_pow_64_lt_ell)
      (lt_trans (burnt_adjusted_lt hb') two_pow_64_lt_ell) he
    exact hne (burnt_adjusted_inj hb hb' h1).symm
  have hbc' : burnt_check L rv tx_type strSource strDest version b' sumC = .ok false := by
    unfold burnt_check
    rw [if_pos hconv, idx_eq_ok.2 hn]
    show (addKeys L sumC (genC L n 0) >>= _) = _
    rw [hadd, idx_eq_ok.2 hm]
    show (Except.ok (equalKeys _ _) : Res Bool) = _
    simp [equalKeys, hdiff]
  unfold verRctSemanticsSimple2_decide
  have hz : equalKeys Zi identity = true := by simp [equalKeys, hZ]
  simp only [hz, not_true_eq_false, if_false, hbc']
  rfl

/-- Witness of C7: the sample offshore burns 10; with 11 it is refused. -/
theorem C7_burnt_pinned_witness :
    "XHV" ≠ "XUSD" ∧ 10 < 2 ^ 64 ∧ 10 + 1 < 2 ^ 64 ∧ 10 + 1 ≠ 10 ∧
    verRctSemanticsSimple2 zLib exOffshore (exPrices 500000000000000 500000000000000)
      .OFFSHORE "XHV" "XUSD" 10 exOffshoreVout [.txin_to_key] 20 [2, 1] 20 = .ok true ∧
    verRctSemanticsSimple2 zLib exOffshore (exPrices 500000000000000 500000000000000)
      .OFFSHORE "XHV" "XUSD" (10 + 1) exOffshoreVout [.txin_to_key] 20 [2, 1] 20
      = .ok false :=
  ⟨by decide, by decide, by decide, by decide, by decide,
   C7_burnt_pinned zLib_sound zLib_primeOrder exOffshore
     (exPrices 500000000000000 500000000000000) .OFFSHORE "XHV" "XUSD" 10 (10 + 1)
     exOffshoreVout [.txin_to_key] 20 [2, 1] 20 (by decide) (by decide) (by decide)
     (by decide) (by decide)⟩

/-- C8, as the code has it. Collateral equations: at version
`HF_VERSION_USE_COLLATERAL` or later and for tx_type OFFSHORE or ONSHORE, the verifier
returns true only if `genC(maskSums[2], amount_collateral)` equals
`rv.outPk[collateral_indices[0]].mask`, and for ONSHORE only if moreover
`outPk[collateral_indices[0]].mask + outPk[collateral_indices[1]].mask` equals the sum
of the pseudo-outs of the collateral inputs. -/
theorem C8_collateral (hL : L.Sound) (rv : rctSig) (pr : pricing_record)
    (tx_type : transaction_type) (strSource strDest : String) (amount_burnt : Nat)
    (vout : List tx_out) (vin : List txin_v) (version : Nat)
    (collateral_indices : List Nat) (amount_collateral : Nat)
    (hv : version ≥ HF_VERSION_USE_COLLATERAL)
    (htt : tx_type = .OFFSHORE ∨ tx_type = .ONSHORE)
    (h : verRctSemanticsSimple2 L rv pr tx_type strSource strDest amount_burnt vout vin
      version collateral_indices amount_collateral = .ok true) :
    ∃ (c0 : Nat) (pk0 : ctkey) (m : key),
      collateral_indices[0]? = some c0 ∧ rv.outPk[c0]? = some pk0 ∧
      rv.maskSums[2]? = some m ∧ genC L m amount_collateral = pk0.mask ∧
      (tx_type = .ONSHORE →
        ∃ (c1 : Nat) (pk1 : ctkey) (P0 P1 : Pt) (ins : List Pt),
          collateral_indices[1]? = some c1 ∧ rv.outPk[c1]? = some pk1 ∧
          L.frombytes pk0.mask = some P0 ∧ L.frombytes pk1.mask = some P1 ∧
          L.points (collateral_pseudo_outs rv.p.pseudoOuts vin) = some ins ∧
          P0 + P1 = ins.sum) := by
  obtain ⟨-, sumC, sumColIns, Zi, hs, hd⟩ := body_eq_true h
  obtain ⟨cs, ds, pin, cin, -, -, hin, hcin, -, -⟩ := sums_eq_ok hL hs
  obtain ⟨-, -, hc⟩ := decide_eq_true hd
  rcases htt with rfl | rfl
  · obtain ⟨c0, pk0, m, h0, hpk0, hm, he⟩ := collateral_check_offshore hv hc
    exact ⟨c0, pk0, m, h0, hpk0, hm, he, fun hne => by cases hne⟩
  · obtain ⟨c0, pk0, m, h0, hpk0, hm, he, c1, pk1, h1, hpk1, hadd⟩ :=
      collateral_check_onshore hv hc
    refine ⟨c0, pk0, m, h0, hpk0, hm, he, fun _ => ?_⟩
    obtain ⟨P0, P1, hP0, hP1, hsum⟩ := addKeys_eq_ok.1 hadd
    obtain ⟨ps, ins, -, hins, -, rfl⟩ := hin.1 ⟨rfl, hv⟩
    rw [hsum, hL.frombytes_tobytes] at hcin
    exact ⟨c1, pk1, P0, P1, ins, h1, hpk1, hP0, hP1, hins, Option.some.inj hcin⟩

/-- Witness of C8: the sample onshore at version 20. -/
theorem C8_collateral_witness :
    20 ≥ HF_VERSION_USE_COLLATERAL ∧
    verRctSemanticsSimple2 zLib (exOnshore 500) (exPrices 400000000000000 500000000000000)
      .ONSHORE "XUSD" "XHV" 500 exOnshoreVout exOnshoreVin 20 [1, 2] 10 = .ok true ∧
    ∃ (c0 : Nat) (pk0 : ctkey) (m : key),
      [1, 2][0]? = some c0 ∧ (exOnshore 500).outPk[c0]? = some pk0 ∧
      (exOnshore 500).maskSums[2]? = some m ∧ genC zLib m 10 = pk0.mask ∧
      (transaction_type.ONSHORE = .ONSHORE →
        ∃ (c1 : Nat) (pk1 : ctkey) (P0 P1 : ZPt) (ins : List ZPt),
          [1, 2][1]? = some c1 ∧ (exOnshore 500).outPk[c1]? = some pk1 ∧
          zLib.frombytes pk0.mask = some P0 ∧ zLib.frombytes pk1.mask = some P1 ∧
          zLib.points (collateral_pseudo_outs (exOnshore 500).p.pseudoOuts exOnshoreVin)
            = some ins ∧
          P0 + P1 = ins.sum) :=
  ⟨by decide, by decide,
   C8_collateral zLib_sound (exOnshore 500) (exPrices 400000000000000 500000000000000)
     .ONSHORE "XUSD" "XHV" 500 exOnshoreVout exOnshoreVin 20 [1, 2] 10 (by decide)
     (Or.inr rfl) (by decide)⟩

/-- Counterexample to C8 as stated: a Haven3 offshore verified at version 19 is
accepted although `genC(maskSums[2], amount_collateral)` differs from the mask of the
collateral output, because the collateral check is gated by the version and not by the
type of the signature. -/
theorem C8_counterexample :
    exOffshore.type = RCTTypeHaven3 ∧
    verRctSemanticsSimple2 zLib exOffshore (exPrices 500000000000000 500000000000000)
      .OFFSHORE "XHV" "XUSD" 10 exOffshoreVout [.txin_to_key] 19 [2, 1] 999 = .ok true ∧
    [2, 1][0]? = some 2 ∧
    exOffshore.maskSums[2]? = some 3 ∧
    (exOffshore.outPk[2]?).map ctkey.mask = some (genC zLib 3 20) ∧
    genC zLib 3 999 ≠ genC zLib 3 20 := by
  decide

/-- C9, as the code has it. Third-colour rejection: the verifier returns false for
every call in which some output `vout[j]`, with its commitment `rv.outPk[j]` present
and not one of the two collateral-indexed outputs that an onshore leaves out from
version `HF_VERSION_USE_COLLATERAL` on, has a colour that is neither `strSource` nor
`strDest` (the two collateral indices being present when the loop reads them). -/
theorem C9_third_colour (rv : rctSig) (pr : pricing_record)
    (tx_type : transaction_type) (strSource strDest : String) (amount_burnt : Nat)
    (vout : List tx_out) (vin : List txin_v) (version : Nat)
    (collateral_indices : List Nat) (amount_collateral : Nat)
    (j : Nat) (o : tx_out) (a : String)
    (hj : vout[j]? = some o) (ha : output_asset_type o = some a)
    (hs : a ≠ strSource) (hd : a ≠ strDest)
    (hex : onshore_excluded tx_type version collateral_indices j = false)
    (hpk : j < rv.outPk.length)
    (hcol : tx_type = .ONSHORE → version ≥ HF_VERSION_USE_COLLATERAL →
      2 ≤ collateral_indices.length) :
    verRctSemanticsSimple2 L rv pr tx_type strSource strDest amount_burnt vout vin version
      collateral_indices amount_collateral = .ok false := by
  have hloop : output_masks rv.outPk tx_type strSource strDest version collateral_indices
      vout 0 [] [] = .ok none :=
    output_masks_third_colour hcol hj ha hs hd (by rw [Nat.zero_add]; exact hex)
      (by rw [Nat.zero_add]; exact hpk)
  unfold verRctSemanticsSimple2 verRctSemanticsSimple2_body
  by_cases hchk : verRctSemanticsSimple2_checks L rv pr tx_type strSource strDest amount_burnt
      collateral_indices amount_collateral = true
  · simp only [hchk, not_true_eq_false, if_false, verRctSemanticsSimple2_sums, hloop]
    rfl
  · simp [hchk, catchFalse]

/-- Witness of C9: the sample offshore with its change output declared in `xAU`. -/
theorem C9_third_colour_witness :
    [{ amount := 0, target := .txout_offshore },
      { amount := 0, target := .txout_xasset "xAU" },
      { amount := 0, target := .txout_to_key }][1]?
        = some ({ amount := 0, target := .txout_xasset "xAU" } : tx_out) ∧
    output_asset_type { amount := 0, target := .txout_xasset "xAU" } = some "xAU" ∧
    "xAU" ≠ "XHV" ∧ "xAU" ≠ "XUSD" ∧
    onshore_excluded .OFFSHORE 20 [2, 1] 1 = false ∧
    1 < exOffshore.outPk.length ∧
    verRctSemanticsSimple2 zLib exOffshore (exPrices 500000000000000 500000000000000)
      .OFFSHORE "XHV" "XUSD" 10
      [{ amount := 0, target := .txout_offshore },
        { amount := 0, target := .txout_xasset "xAU" },
        { amount := 0, target := .txout_to_key }]
      [.txin_to_key] 20 [2, 1] 20 = .ok false :=
  ⟨by decide, by decide, by decide, by decide, by decide, by decide,
   C9_third_colour exOffshore (exPrices 500000000000000 500000000000000)
     .OFFSHORE "XHV" "XUSD" 10
     [{ amount := 0, target := .txout_offshore },
       { amount := 0, target := .txout_xasset "xAU" },
       { amount := 0, target := .txout_to_key }]
     [.txin_to_key] 20 [2, 1] 20 1 { amount := 0, target := .txout_xasset "xAU" } "xAU"
     (by decide) (by decide) (by decide) (by decide) (by decide) (by decide)
     (fun h => by cases h)⟩

/-- Counterexample to C9 as stated: in an onshore at version 20 the output at the
first collateral index is declared in the colour `xAU`, neither `XUSD` (source) nor
`XHV` (destination), and the verifier returns true: the loop skips the colour test
for the two collateral-indexed outputs. -/
theorem C9_counterexample :
    output_asset_type { amount := 0, target := .txout_xasset "xAU" } = some "xAU" ∧
    "xAU" ≠ "XUSD" ∧ "xAU" ≠ "XHV" ∧
    verRctSemanticsSimple2 zLib (exOnshore 500) (exPrices 400000000000000 500000000000000)
      .ONSHORE "XUSD" "XHV" 500
      [{ amount := 0, target := .txout_to_key },
        { amount := 0, target := .txout_xasset "xAU" },
        { amount := 0, target := .txout_to_key }]
      exOnshoreVin 20 [1, 2] 10 = .ok true := by
  decide

/-- C10. Conversion preconditions: with `strSource ≠ strDest`, the verifier returns
false when the pricing record is empty or `amount_burnt` is 0, and, for a Haven3
signature, also when `maskSums` has not 3 entries, `collateral_indices` has not 2
entries, or the type is OFFSHORE or ONSHORE and `amount_collateral` is 0. -/
theorem C10_conversion_preconditions (rv : rctSig) (pr : pricing_record)
    (tx_type : transaction_type) (strSource strDest : String) (amount_burnt : Nat)
    (vout : List tx_out) (vin : List txin_v) (version : Nat)
    (collateral_indices : List Nat) (amount_collateral : Nat)
    (hconv : strSource ≠ strDest)
    (hbad : pr.empty = true ∨ amount_burnt = 0 ∨
      (rv.type = RCTTypeHaven3 ∧
        (rv.maskSums.length ≠ 3 ∨ collateral_indices.length ≠ 2 ∨
          ((tx_type = .OFFSHORE ∨ tx_type = .ONSHORE) ∧ amount_collateral = 0)))) :
    verRctSemanticsSimple2 L rv pr tx_type strSource strDest amount_burnt vout vin version
      collateral_indices amount_collateral = .ok false := by
  have hchk : verRctSemanticsSimple2_checks L rv pr tx_type strSource strDest amount_burnt
      collateral_indices amount_collateral = false := by
    unfold verRctSemanticsSimple2_checks
    simp only [Bool.and_eq_false_iff, decide_eq_false_iff_not]
    right
    intro hall
    obtain ⟨h1, h2, h3⟩ := hall hconv
    rcases hbad with hb | hb | ⟨ht, hb⟩
    · rw [h1] at hb
      cases hb
    · exact h2 hb
    · obtain ⟨h4, h5, h6⟩ := h3 ht
      rcases hb with hb | hb | ⟨hb1, hb2⟩
      · exact hb h4
      · exact hb h5
      · exact h6 hb1 hb2
  simp [verRctSemanticsSimple2, verRctSemanticsSimple2_body, hchk, catchFalse]

/-- Witness of C10: the sample offshore with `amount_burnt = 0`. -/
theorem C10_conversion_preconditions_witness :
    "XHV" ≠ "XUSD" ∧
    verRctSemanticsSimple2 zLib exOffshore (exPrices 500000000000000 500000000000000)
      .OFFSHORE "XHV" "XUSD" 0 exOffshoreVout [.txin_to_key] 20 [2, 1] 20 = .ok false :=
  ⟨by decide,
   C10_conversion_preconditions exOffshore (exPrices 500000000000000 500000000000000)
     .OFFSHORE "XHV" "XUSD" 0 exOffshoreVout [.txin_to_key] 20 [2, 1] 20 (by decide)
     (Or.inr (Or.inl rfl))⟩

/-- C11, as the code has it. If the verifier returns true, then `rv.outPk` has as many
entries as `n_bulletproof_amounts` counts in `rv.p.bulletproofs`, and when that list is
not empty `verBulletproof` accepts it; the number of proofs in the list is not looked
at. -/
theorem C11_range_proofs (rv : rctSig) (pr : pricing_record)
    (tx_type : transaction_type) (strSource strDest : String) (amount_burnt : Nat)
    (vout : List tx_out) (vin : List txin_v) (version : Nat)
    (collateral_indices : List Nat) (amount_collateral : Nat)
    (h : verRctSemanticsSimple2 L rv pr tx_type strSource strDest amount_burnt vout vin
      version collateral_indices amount_collateral = .ok true) :
    rv.outPk.length = L.n_bulletproof_amounts rv.p.bulletproofs ∧
    (rv.p.bulletproofs ≠ [] → verBulletproof L rv.p.bulletproofs = true) := by
  obtain ⟨hchk, sumC, sumColIns, Zi, -, hd⟩ := body_eq_true h
  obtain ⟨hZ, hb, hc⟩ := decide_eq_true hd
  constructor
  · unfold verRctSemanticsSimple2_checks at hchk
    simp only [Bool.and_eq_true, decide_eq_true_eq] at hchk
    exact hchk.1.1.1.1.1.1.1.1.1.2
  · intro hne
    unfold verRctSemanticsSimple2_decide at hd
    simp only [hZ, equalKeys, decide_True, not_true_eq_false, if_false, hb, hc, ok_bind] at hd
    by_contra hv
    have he : rv.p.bulletproofs.isEmpty = false := by
      cases hbp : rv.p.bulletproofs with
      | nil => exact absurd hbp hne
      | cons b bs => rfl
    simp [he, hv, pure, Except.pure] at hd

/-- Witness of C11: the sample transfer, with its single proof. -/
theorem C11_range_proofs_witness :
    verRctSemanticsSimple2 zLib exTransfer (exPrices 0 0) .TRANSFER "XHV" "XHV" 0
      exTransferVout [.txin_to_key] 20 [] 0 = .ok true ∧
    exTransfer.outPk.length = zLib.n_bulletproof_amounts exTransfer.p.bulletproofs ∧
    (exTransfer.p.bulletproofs ≠ [] → verBulletproof zLib exTransfer.p.bulletproofs = true) :=
  ⟨by decide,
   C11_range_proofs exTransfer (exPrices 0 0) .TRANSFER "XHV" "XHV" 0
     exTransferVout [.txin_to_key] 20 [] 0 (by decide)⟩

/-- Counterexample to C11 as stated: the verifier returns true for a transfer that
carries two Bulletproofs, one for each output, and for a signature without outputs that
carries no Bulletproof at all. -/
theorem C11_counterexample :
    exTwoProofs.p.bulletproofs.length = 2 ∧
    verRctSemanticsSimple2 zLib exTwoProofs (exPrices 0 0) .TRANSFER "XHV" "XHV" 0
      exTransferVout [.txin_to_key] 20 [] 0 = .ok true ∧
    exNoProof.p.bulletproofs.length = 0 ∧
    verRctSemanticsSimple2 zLib exNoProof (exPrices 0 0) .TRANSFER "XHV" "XHV" 0
      [] [.txin_to_key] 20 [] 0 = .ok true := by
  decide

/-- C12. The verifier `verRctCLSAGSimple` returns false when the ring is empty, when
`sig.s` has not the size of the ring, when some `sig.s[i]` or `sig.c1` is no canonical
scalar, when `sig.I` is the identity and when `8·sig.D` is the neutral point. When none of
these holds, for keys that are points, it returns true if and only if the walk over the
positions `0 .. n-1` from `sig.c1` computes no zero challenge and ends on `sig.c1`. A
key that is no point is answered false as well. -/
theorem C12_clsag_rejections (hL : L.Sound) (hH : ∀ ks : List key, L.hash_to_scalar ks < ell)
    (message : key) (sig : clsag) (pubs : List ctkey) (C_offset : key) :
    (clsag_rejected L sig pubs →
      verRctCLSAGSimple L message sig pubs C_offset = .ok false) ∧
    (¬ clsag_rejected L sig pubs → clsag_points L sig pubs C_offset →
      (verRctCLSAGSimple L message sig pubs C_offset = .ok true ↔
        clsag_closes L message sig pubs C_offset)) ∧
    (¬ clsag_points L sig pubs C_offset →
      verRctCLSAGSimple L message sig pubs C_offset = .ok false) := by
  rcases verRctCLSAGSimple_char hL hH message sig pubs C_offset with ⟨e, h1, h2, h3⟩ | ⟨e, h⟩
  · refine ⟨fun hr => absurd hr h1, fun _ _ => ⟨fun _ => h3, fun _ => e⟩,
      fun hp => absurd h2 hp⟩
  · refine ⟨fun _ => e, fun hr hp => ⟨fun ht => ?_, fun hc => absurd ⟨hr, hp, hc⟩ h⟩,
      fun _ => e⟩
    rw [e] at ht
    cases ht

/-- Witness of C12: the signature made for the sample ring is accepted. -/
theorem C12_clsag_rejections_witness :
    verRctCLSAGSimple zLib 77 exSigned exRing (genC zLib 2 30) = .ok true ∧
    ((clsag_rejected zLib exSigned exRing →
      verRctCLSAGSimple zLib 77 exSigned exRing (genC zLib 2 30) = .ok false) ∧
    (¬ clsag_rejected zLib exSigned exRing →
      clsag_points zLib exSigned exRing (genC zLib 2 30) →
      (verRctCLSAGSimple zLib 77 exSigned exRing (genC zLib 2 30) = .ok true ↔
        clsag_closes zLib 77 exSigned exRing (genC zLib 2 30))) ∧
    (¬ clsag_points zLib exSigned exRing (genC zLib 2 30) →
      verRctCLSAGSimple zLib 77 exSigned exRing (genC zLib 2 30) = .ok false)) :=
  ⟨by decide,
   C12_clsag_rejections zLib_sound zLib_primeOrder.hash_to_scalar_lt 77 exSigned exRing
     (genC zLib 2 30)⟩

/-- C13. On the non-multisig path the key image `sig.I` that `CLSAG_Gen` returns is
`p · hash_to_point(P[l])`; two runs with the same spend secret `p` and the same real
public key return the same `sig.I`, whatever their messages, rings, positions,
commitments, offsets and drawn scalars. -/
theorem C13_key_image (hL : L.Sound) (p Pl : key)
    (message : key) (P : List key) (C : List key) (z : key) (C_nonzero : List key)
    (C_offset : key) (l : Nat) (mscout mspout : Bool) (rand_a : key) (skGen : Nat → key)
    (message2 : key) (P2 : List key) (C2 : List key) (z2 : key) (C_nonzero2 : List key)
    (C_offset2 : key) (l2 : Nat) (mscout2 mspout2 : Bool) (rand_a2 : key)
    (skGen2 : Nat → key) (r r2 : CLSAG_Gen_result)
    (hl : P[l]? = some Pl) (hl2 : P2[l2]? = some Pl)
    (h : CLSAG_Gen L message P p C z C_nonzero C_offset l none mscout mspout rand_a skGen
      = .ok r)
    (h2 : CLSAG_Gen L message2 P2 p C2 z2 C_nonzero2 C_offset2 l2 none mscout2 mspout2
      rand_a2 skGen2 = .ok r2) :
    r.sig.I = L.tobytes (p • L.hash_to_p3 Pl) ∧ r2.sig.I = r.sig.I := by
  have e1 := CLSAG_Gen_key_image hL hl h
  have e2 := CLSAG_Gen_key_image hL hl2 h2
  exact ⟨e1, e2.trans e1.symm⟩

/-- Witness of C13: a run over the sample ring and a run over a ring of one member,
both with the spend secret 3 and the real key `3·G`. -/
theorem C13_key_image_witness :
    (exRing.map ctkey.dest)[1]? = some (scalarmultBase zLib 3) ∧
    [scalarmultBase zLib 3][0]? = some (scalarmultBase zLib 3) ∧
    exRun1 = .ok (exRun1.value exBlank) ∧ exRun2 = .ok (exRun2.value exBlank) ∧
    (exRun1.value exBlank).sig.I
      = zLib.tobytes (3 • zLib.hash_to_p3 (scalarmultBase zLib 3)) ∧
    (exRun2.value exBlank).sig.I = (exRun1.value exBlank).sig.I :=
  ⟨by decide, by decide, by decide, by decide,
   C13_key_image zLib_sound 3 (scalarmultBase zLib 3)
     77 (exRing.map ctkey.dest) (exRing.map ctkey.mask) 4 (exRing.map ctkey.mask)
     (genC zLib 2 30) 1 false false 11 exSkGen
     5 [scalarmultBase zLib 3] [genC zLib 8 1] 6 [genC zLib 9 2]
     (genC zLib 1 2) 0 false true 23 (fun i => 7 + i)
     (exRun1.value exBlank) (exRun2.value exBlank)
     (by decide) (by decide) (by decide) (by decide)⟩

/-- C14. Take a signature of the type Haven2 or Haven3 that `genRctSimple` returns for
outputs that are all in the source colour and inputs none of which is listed in
`inamounts_col_indices`, with a prover that commits to every amount under its mask,
amounts of 64 bits and `sum(inamounts) = sum(output amounts) + txnFee + txnOffshoreFee`.
For each of the transfer types, and companion outputs in the colours of the outputs,
`verRctSemanticsSimple2` computes `sumC`, `sumColIns` and `Zi` without a throw, and each
of them is the identity. -/
theorem C14_transfer_balance (hL : L.Sound) (hP : L.PrimeOrder) (x : gen_args)
    (r : genRctSimple_result) (hpr : ProverCommits x.dev L)
    (ha : ∀ o ∈ x.outamounts, o.2.1 < 2 ^ 64) (h : x.run L = .ok r)
    (hH : r.rv.type = RCTTypeHaven2 ∨ r.rv.type = RCTTypeHaven3)
    (hcolour : ∀ o ∈ x.outamounts, o.1 = x.in_asset_type)
    (hcol : x.collateral = [])
    (hbal : x.inamounts.sum =
      (x.outamounts.map (fun o => o.2.1)).sum + x.txnFee + x.txnOffshoreFee)
    (pr : pricing_record) (tx_type : transaction_type)
    (htt : tx_type = .TRANSFER ∨ tx_type = .OFFSHORE_TRANSFER ∨ tx_type = .XASSET_TRANSFER)
    (vout : List tx_out)
    (hvout : vout.map output_asset_type = x.outamounts.map (fun o => some o.1))
    (vin : List txin_v) (version : Nat) (collateral_indices : List Nat) :
    verRctSemanticsSimple2_sums L r.rv pr tx_type x.in_asset_type x.in_asset_type vout vin
      version collateral_indices = .ok (some (identity, identity, identity)) := by
  obtain ⟨-, l1, -, l3, p1, -⟩ := gen_args.run_outputs hL hP hpr ha h
  obtain ⟨c, hc, la, hu, hps, hsum⟩ := gen_args.run_inputs h hcol
  obtain ⟨-, c2, hc2, -, ht, -, -, -, -, -, -, -, hfee⟩ := gen_args.run_eq_ok h
  rw [ht] at hH
  obtain ⟨hf1, hf2⟩ := hfee hH
  rw [← ht] at hH
  have hne : tx_type ≠ .ONSHORE := by
    rcases htt with e | e | e <;> rw [e] <;> decide
  have hvl : vout.length = r.rv.outPk.length := by
    have := congrArg List.length hvout
    rw [List.length_map, List.length_map] at this
    rw [this, l3]
  have hall : ∀ o ∈ vout, output_asset_type o = some x.in_asset_type := by
    intro o ho
    have hm : output_asset_type o ∈ vout.map output_asset_type := List.mem_map_of_mem _ ho
    rw [hvout] at hm
    obtain ⟨o2, ho2, e⟩ := List.mem_map.1 hm
    rw [← e, hcolour o2 ho2]
  have hom : output_masks r.rv.outPk tx_type x.in_asset_type x.in_asset_type version
      collateral_indices vout 0 [] [] = .ok (some (r.rv.outPk.map ctkey.mask, [])) :=
    output_masks_transfer hne hvl hall
  have hslot : (fun (o : outamount) (m : key) => (slots r.rv.type o (genC L m o.2.1)).1) =
      fun o m => genC L m o.2.1 := by
    funext o m
    simp [slots, hH]
  have hmask : r.rv.outPk.map ctkey.mask =
      List.zipWith (fun a m => genC L m a) (x.outamounts.map (fun o => o.2.1)) r.outSk := by
    rw [p1, hslot, List.zipWith_map_left]
  have hcs := points_commits hL (x.outamounts.map (fun o => o.2.1)) r.outSk
  have hpp := points_commits hL x.inamounts c.a
  rw [← hmask] at hcs
  rw [← hps] at hpp
  have hds : L.points [] = some ([] : List Pt) := rfl
  have hZ := fun (X : Pt) => (show calc_Zi L pr tx_type x.in_asset_type x.in_asset_type
      version (L.tobytes X) (L.tobytes (0 - ([] : List Pt).sum)) =
      .ok (some (L.tobytes (X + (0 - ([] : List Pt).sum)))) by
    rcases htt with e | e | e <;> rw [e] <;> exact plain_Zi hL _ _)
  rw [sums_forward hL hom hcs hds (fun e => hne e.1) hpp (hZ _)]
  have hown : c.use_onshore_col = false := by
    rw [hu]
    unfold gen_args.direction
    rw [direction_same_colour hcolour]
    rfl
  have hmasks : ((own_outputs c.use_onshore_col (x.outamounts.zip r.outSk)).map x.scaled)
      = r.outSk := by
    rw [hown]
    unfold own_outputs
    rw [List.filter_eq_self.2 (fun _ _ => by simp)]
    have : ∀ o ∈ x.outamounts.zip r.outSk, x.scaled o = Prod.snd o := by
      intro o ho
      obtain ⟨o1, m⟩ := o
      exact scaled_mask_same (o1, m) (hcolour o1 (List.of_mem_zip ho).1)
    rw [List.map_congr_left this, List.map_snd_zip]
    omega
  rw [hmasks] at hsum
  have hG : c.a.sum • L.G = r.outSk.sum • L.G :=
    nsmul_congr_ell ((hP.order_G ell).2 (dvd_refl _)) hsum
  have hzero : (List.zipWith (fun a m => m • L.G + a • L.H) x.inamounts c.a).sum
      - r.rv.txnFee • L.H - r.rv.txnOffshoreFee • L.H
      - (List.zipWith (fun a m => m • L.G + a • L.H) (x.outamounts.map (fun o => o.2.1))
          r.outSk).sum = 0 := by
    rw [sum_commits _ _ la.symm, sum_commits _ _ (by rw [List.length_map, l1]), hG, hbal,
      hf1, hf2, add_nsmul, add_nsmul]
    abel
  rw [hzero]
  simp [hL.tobytes_zero]


/-- Witness of C14: the transfer sample of 30 + 12 = 10 + 31 + 1 is assembled as
Haven3, and the verifier computes the identity for `Zi`. -/
theorem C14_transfer_balance_witness :
    exGenTransfer.run zLib = .ok ((exGenTransfer.run zLib).value exNone) ∧
    ((exGenTransfer.run zLib).value exNone).rv.type = RCTTypeHaven3 ∧
    verRctSemanticsSimple2_sums zLib ((exGenTransfer.run zLib).value exNone).rv
      (exPrices (500 * COIN) (500 * COIN)) .TRANSFER exGenTransfer.in_asset_type
      exGenTransfer.in_asset_type exGenTransferVout [.txin_to_key, .txin_to_key] 20 []
      = .ok (some (identity, identity, identity)) :=
  ⟨by decide, by decide,
   C14_transfer_balance zLib_sound zLib_primeOrder exGenTransfer
     ((exGenTransfer.run zLib).value exNone) exDev_commits (by decide) (by decide)
     (Or.inr (by decide)) (by decide) (by decide) (by decide)
     (exPrices (500 * COIN) (500 * COIN)) .TRANSFER (Or.inl rfl) exGenTransferVout
     (by decide) [.txin_to_key, .txin_to_key] 20 []⟩

/-- Counterexample to C14 as stated: the transfer 30 + 12 = 10 + 31 + 1 in XHV with its
second input listed in `inamounts_col_indices` is assembled as Haven3 over a library
that decompresses the all-zero key; the pseudo-out of the listed input is left all-zero,
`Zi` is not the identity and the verifier answers `false`. -/
theorem C14_counterexample :
    exGenTransferCol.run zLibZero = .ok ((exGenTransferCol.run zLibZero).value exNone) ∧
    ((exGenTransferCol.run zLibZero).value exNone).rv.type = RCTTypeHaven3 ∧
    (∀ o ∈ exGenTransferCol.outamounts, o.1 = exGenTransferCol.in_asset_type) ∧
    exGenTransferCol.inamounts.sum =
      (exGenTransferCol.outamounts.map (fun o => o.2.1)).sum + exGenTransferCol.txnFee
        + exGenTransferCol.txnOffshoreFee ∧
    exGenTransferCol.inamounts_col_indices = [1] ∧
    ((exGenTransferCol.run zLibZero).value exNone).rv.p.pseudoOuts[1]? = some zero ∧
    (∃ sumC sumColIns Zi,
      verRctSemanticsSimple2_sums zLibZero ((exGenTransferCol.run zLibZero).value exNone).rv
        (exPrices (500 * COIN) (500 * COIN)) .TRANSFER "XHV" "XHV" exGenTransferVout
        [.txin_to_key, .txin_to_key] 20 [] = .ok (some (sumC, sumColIns, Zi)) ∧
      Zi ≠ identity) ∧
    verRctSemanticsSimple2 zLibZero ((exGenTransferCol.run zLibZero).value exNone).rv
      (exPrices (500 * COIN) (500 * COIN)) .TRANSFER "XHV" "XHV" 0 exGenTransferVout
      [.txin_to_key, .txin_to_key] 20 [] 0 = .ok false :=
  ⟨by decide, by decide, by decide, by decide, by decide, by decide,
   ⟨7237005577332262213973186563042994240857116359379907606001950938285454250911, 1,
    7237005577332262213973186563042994240857116359379907606001950938285454250911,
    by decide, by decide⟩,
   by decide⟩

/-- C15. The offshore scenario with an input that covers the change, the burnt amount
and the fee: one XHV input of 101·COIN, `pr.unused1 = pr.xUSD = 500·COIN`, outputs of
90·COIN XHV and 5000·COIN XUSD, `txnOffshoreFee = 1·COIN` and no other fee. A Haven2 or
Haven3 signature that `genRctSimple` returns for it, with a prover that commits to every
amount under its mask, passes the balance check of `verRctSemanticsSimple2`, whose `Zi`
is the identity, and its burnt check with `amount_burnt = 10·COIN`. -/
theorem C15_offshore_scenario (hL : L.Sound) (hP : L.PrimeOrder) (x : gen_args)
    (r : genRctSimple_result) (hpr : ProverCommits x.dev L) (h : x.run L = .ok r)
    (hH : r.rv.type = RCTTypeHaven2 ∨ r.rv.type = RCTTypeHaven3)
    (hs : x.in_asset_type = "XHV") (hin : x.inamounts = [101 * COIN])
    (hout : x.outamounts = [("XHV", (90 * COIN, false)), ("XUSD", (5000 * COIN, false))])
    (hfee : x.txnFee = 0) (hoff : x.txnOffshoreFee = 1 * COIN)
    (hp1 : x.pr.unused1 = 500 * COIN) (hp2 : x.pr.xUSD = 500 * COIN)
    (vout : List tx_out) (hvout : vout.map output_asset_type = [some "XHV", some "XUSD"])
    (vin : List txin_v) (version : Nat) (collateral_indices : List Nat) :
    ∃ sumC, verRctSemanticsSimple2_sums L r.rv x.pr .OFFSHORE "XHV" "XUSD" vout vin version
        collateral_indices = .ok (some (sumC, identity, identity)) ∧
      burnt_check L r.rv .OFFSHORE "XHV" "XUSD" version (10 * COIN) sumC = .ok true := by
  have ha : ∀ o ∈ x.outamounts, o.2.1 < 2 ^ 64 := by
    intro o ho
    rw [hout] at ho
    simp only [List.mem_cons, List.mem_singleton, List.not_mem_nil, or_false] at ho
    rcases ho with rfl | rfl <;> decide
  obtain ⟨-, l1, -, l3, p1, -⟩ := gen_args.run_outputs hL hP hpr ha h
  rw [hout] at l1 l3 p1
  obtain ⟨m0, m1, hsk⟩ := List.length_eq_two.1 l1
  obtain ⟨pk0, pk1, hpk⟩ := List.length_eq_two.1 l3
  rw [hsk, hpk] at p1
  simp only [List.map_cons, List.map_nil, List.zipWith_cons_cons, List.zipWith_nil_right,
    slots, hH, if_true, List.cons.injEq, and_true] at p1
  obtain ⟨e0, e1⟩ := p1
  have hvl : vout.length = 2 := by
    have := congrArg List.length hvout
    simpa using this
  obtain ⟨v0, v1, hv⟩ := List.length_eq_two.1 hvl
  rw [hv] at hvout
  simp only [List.map_cons, List.map_nil, List.cons.injEq, and_true] at hvout
  obtain ⟨hv0, hv1⟩ := hvout
  have hom : output_masks r.rv.outPk .OFFSHORE "XHV" "XUSD" version collateral_indices
      vout 0 [] [] = .ok (some ([pk0.mask], [pk1.mask])) := by
    rw [hpk, hv]
    simp [output_masks, onshore_col_idx, idx, hv0, hv1, bind, Except.bind, pure, Except.pure]
  obtain ⟨c, hc, la, hu, hps, hsum⟩ := gen_args.run_inputs h (gen_args.single_input h hin)
  rw [hin] at la hps
  obtain ⟨a0, hca⟩ := List.length_eq_one.1 la
  rw [hca] at hps hsum
  simp only [List.zipWith_cons_cons, List.zipWith_nil_right, List.sum_cons, List.sum_nil,
    Nat.add_zero] at hps hsum
  obtain ⟨-, c2, hc2, ho, ht, hm, -, -, -, -, -, -, hfees⟩ := gen_args.run_eq_ok h
  have hcc : c2 = c := Except.ok.inj (hc2.symm.trans hc)
  rw [hcc] at ho ht hm hfees
  rw [ht] at hH
  obtain ⟨hf1, hf2⟩ := hfees hH
  rw [hfee] at hf1
  rw [hoff] at hf2
  obtain ⟨hd, -, -, -⟩ := genRctSimple_core_eq_ok hc
  obtain ⟨-, -, k3, -, -, -, k7, -⟩ := genRctSimple_core_closure L hc
  obtain ⟨-, -, m3, -⟩ := genRctSimple_core_maskSums hc
  obtain ⟨y, hy⟩ : ∃ y, invert (d2h (500 * COIN)) = .ok y :=
    ⟨invert_chain (d2h (500 * COIN)), by decide⟩
  have hyx : (y * (500 * COIN)) % ell = 1 := invert_eq_ok hy
  have hdir : genRctSimple_direction x.in_asset_type x.outamounts =
      { offshore := true, onshore := false, offshore_to_offshore := false,
        xasset_to_xusd := false, xusd_to_xasset := false, xasset_transfer := false,
        conversion_tx := true } := by
    rw [hs, hout]
    decide
  have hown : c.use_onshore_col = false := by
    rw [hu]
    unfold gen_args.direction
    rw [hdir]
    rfl
  have hsc0 : x.scaled (("XHV", (90 * COIN, false)), m0) = m0 :=
    scaled_mask_same (("XHV", (90 * COIN, false)), m0) hs.symm
  have hsc1 : x.scaled (("XUSD", (5000 * COIN, false)), m1) =
      sc_mul (sc_mul m1 (d2h COIN)) y := by
    unfold gen_args.scaled scaled_mask genRctSimple_scaled
    simp only [hs, hp1, hp2, if_true, min_self, ite_self, hy, ok_bind]
    rfl
  rw [hown, hout, hsk] at hsum
  have hzip : own_outputs false
      ((([("XHV", (90 * COIN, false)), ("XUSD", (5000 * COIN, false))] : List outamount)).zip
        [m0, m1]) =
      [(("XHV", (90 * COIN, false)), m0), (("XUSD", (5000 * COIN, false)), m1)] := rfl
  rw [hzip] at hsum
  simp only [List.map_cons, List.map_nil, List.sum_cons, List.sum_nil, Nat.add_zero,
    hsc0, hsc1] at hsum
  have hG : a0 • L.G = m0 • L.G + (y * (COIN * m1)) • L.G := by
    rw [← add_nsmul]
    apply nsmul_congr_ell ((hP.order_G ell).2 (dvd_refl _))
    rw [hsum, Nat.add_mod, sc_mul_scalar, ← Nat.add_mod]
  have hHr : (y * (COIN * (5000 * COIN))) • L.H = (10 * COIN) • L.H :=
    nsmul_congr_ell ((hP.order_H ell).2 (dvd_refl _)) (offshore_rate_scalar hyx)
  have hcs : L.points [pk0.mask] = some [m0 • L.G + (90 * COIN) • L.H] := by
    rw [e0]
    exact points_tobytes hL [m0 • L.G + (90 * COIN) • L.H]
  have hds : L.points [pk1.mask] = some [m1 • L.G + (5000 * COIN) • L.H] := by
    rw [e1]
    exact points_tobytes hL [m1 • L.G + (5000 * COIN) • L.H]
  have hpp : L.points r.rv.p.pseudoOuts = some [a0 • L.G + (101 * COIN) • L.H] := by
    rw [hps]
    exact points_tobytes hL [a0 • L.G + (101 * COIN) • L.H]
  have hZ := fun (X D : Pt) => (show calc_Zi L x.pr .OFFSHORE "XHV" "XUSD" version
      (L.tobytes X) (L.tobytes D) = .ok (some (L.tobytes (X + y • (d2h COIN • D)))) by
    unfold calc_Zi
    simp only [hp1, hp2, min_self, ite_self]
    exact scaled_Zi hL X D hy)
  have hfw : verRctSemanticsSimple2_sums L r.rv x.pr .OFFSHORE "XHV" "XUSD" vout vin version
      collateral_indices = _ :=
    sums_forward hL hom hcs hds (fun e => by cases e.1) hpp (hZ _ _)
  rw [hf1, hf2] at hfw
  have hamt : 101 * COIN = 10 * COIN + 1 * COIN + 90 * COIN := by omega
  have hX : [a0 • L.G + (101 * COIN) • L.H].sum - 0 • L.H - (1 * COIN) • L.H
      - [m0 • L.G + (90 * COIN) • L.H].sum
      = (y * (COIN * m1)) • L.G + (10 * COIN) • L.H := by
    simp only [List.sum_cons, List.sum_nil, add_zero, zero_nsmul, sub_zero]
    rw [hG, hamt, add_nsmul, add_nsmul]
    abel
  rw [hX] at hfw
  have hZi : (y * (COIN * m1)) • L.G + (10 * COIN) • L.H
      + y • (d2h COIN • (0 - [m1 • L.G + (5000 * COIN) • L.H].sum)) = 0 := by
    simp only [List.sum_cons, List.sum_nil, add_zero, zero_sub, d2h]
    rw [← hHr]
    simp only [mul_nsmul', smul_neg, smul_add]
    abel
  rw [hZi, hL.tobytes_zero] at hfw
  refine ⟨_, hfw, ?_⟩
  have hGl : ell • L.G = 0 := (hP.order_G ell).2 (dvd_refl _)
  have hms0 : r.rv.maskSums[0]? = some (a0 % ell) := by
    rw [hm, k7 (by rw [hd, hdir]) hH, k3, hown, hout, ← ho, hsk, hzip]
    simp only [List.map_cons, List.map_nil, List.sum_cons, List.sum_nil, Nat.add_zero]
    have e0s : scaled_mask x.in_asset_type x.pr x.tx_version
        (("XHV", (90 * COIN, false)), m0) = m0 := hsc0
    have e1s : scaled_mask x.in_asset_type x.pr x.tx_version
        (("XUSD", (5000 * COIN, false)), m1) = sc_mul (sc_mul m1 (d2h COIN)) y := hsc1
    rw [e0s, e1s, hsum]
  have hms1 : r.rv.maskSums[1]? = some (m0 % ell) := by
    have h1 : (genRctSimple_maskSums c.type c.d.conversion_tx)[1]? = some zero := by
      unfold genRctSimple_maskSums
      rw [hd, hdir]
      rcases hH with e | e
      · rw [if_neg (by rw [e]; simp), if_pos e]
        rfl
      · rw [if_pos ⟨e, rfl⟩]
        rfl
    rw [hm, m3 hH, h1, Option.map_some', change_sum_zero, hd, hdir, hout, ← ho, hsk]
    rfl
  have hba : burnt_adjusted r.rv .OFFSHORE version (10 * COIN) = 10 * COIN := by
    unfold burnt_adjusted
    simp
  have hne : ("XHV" : String) ≠ "XUSD" := by decide
  unfold burnt_check
  rw [if_pos hne, idx_eq_ok.2 hms1, ok_bind, hba]
  have hadd : addKeys L (L.tobytes ((y * (COIN * m1)) • L.G + (10 * COIN) • L.H))
      (genC L (m0 % ell) 0) =
      .ok (L.tobytes ((y * (COIN * m1)) • L.G + (10 * COIN) • L.H
        + ((m0 % ell) • L.G + d2h 0 • L.H))) :=
    addKeys_eq_ok.2 ⟨_, _, hL.frombytes_tobytes _, hL.frombytes_tobytes _, rfl⟩
  simp only [hadd, ok_bind, idx_eq_ok.2 hms0]
  have hfin : L.tobytes ((y * (COIN * m1)) • L.G + (10 * COIN) • L.H
        + ((m0 % ell) • L.G + d2h 0 • L.H)) = genC L (a0 % ell) (10 * COIN) := by
    unfold genC d2h
    rw [nsmul_mod_ell hGl, nsmul_mod_ell hGl, hG, zero_nsmul]
    congr 1
    abel
  rw [hfin]
  simp [equalKeys, pure, Except.pure]


/-- Witness of C15: the scenario with the input of 101·COIN over `zLib` is assembled as
Haven3 and passes both checks. -/
theorem C15_offshore_scenario_witness :
    (exGenOffshore (101 * COIN)).run zLib =
      .ok (((exGenOffshore (101 * COIN)).run zLib).value exNone) ∧
    (((exGenOffshore (101 * COIN)).run zLib).value exNone).rv.type = RCTTypeHaven3 ∧
    ∃ sumC,
      verRctSemanticsSimple2_sums zLib (((exGenOffshore (101 * COIN)).run zLib).value exNone).rv
        (exGenOffshore (101 * COIN)).pr .OFFSHORE "XHV" "XUSD" exGenOffshoreVout
        [.txin_to_key] 19 [0, 0] = .ok (some (sumC, identity, identity)) ∧
      burnt_check zLib (((exGenOffshore (101 * COIN)).run zLib).value exNone).rv .OFFSHORE
        "XHV" "XUSD" 19 (10 * COIN) sumC = .ok true :=
  ⟨by decide, by decide,
   C15_offshore_scenario zLib_sound zLib_primeOrder (exGenOffshore (101 * COIN))
     (((exGenOffshore (101 * COIN)).run zLib).value exNone) exDev_commits (by decide)
     (Or.inr (by decide)) rfl rfl rfl rfl rfl rfl rfl exGenOffshoreVout (by decide)
     [.txin_to_key] 19 [0, 0]⟩

/-- Counterexample to C15 as stated: with the input of 100·COIN the scenario is
assembled, `Zi` is not the identity, the burnt check with 10·COIN fails, and the
verifier answers `false`. -/
theorem C15_counterexample :
    (exGenOffshore (100 * COIN)).run zLib =
      .ok (((exGenOffshore (100 * COIN)).run zLib).value exNone) ∧
    (∃ sumC sumColIns Zi,
      verRctSemanticsSimple2_sums zLib (((exGenOffshore (100 * COIN)).run zLib).value exNone).rv
        (exPrices (500 * COIN) (500 * COIN)) .OFFSHORE "XHV" "XUSD" exGenOffshoreVout
        [.txin_to_key] 19 [0, 0] = .ok (some (sumC, sumColIns, Zi)) ∧
      Zi ≠ identity ∧
      burnt_check zLib (((exGenOffshore (100 * COIN)).run zLib).value exNone).rv .OFFSHORE
        "XHV" "XUSD" 19 (10 * COIN) sumC = .ok false) ∧
    verRctSemanticsSimple2 zLib (((exGenOffshore (100 * COIN)).run zLib).value exNone).rv
      (exPrices (500 * COIN) (500 * COIN)) .OFFSHORE "XHV" "XUSD" (10 * COIN)
      exGenOffshoreVout [.txin_to_key] 19 [0, 0] 1 = .ok false :=
  ⟨by decide,
   ⟨1403979082002458869510798193230340882726280573719702075564378545027378124693, 1,
    7237005577332262213973186563042994240857116359379907606001950931285454250990,
    by decide, by decide, by decide⟩,
   by decide⟩

/-- C16. For the source colour XUSD, outputs with one in XHV among them and a Haven3
configuration, a signature that `genRctSimple` returns has the type Haven3 and is
classified by the presence of an output in XUSD, whatever its amount. With one, `onshore`,
`conversion_tx` and the onshore-collateral mode are set, `rv.maskSums` has 3 entries and
`rv.maskSums[0]` is the sum, modulo `l`, of the scaled masks of the outputs that are not
flagged. With none, no direction flag is set, the onshore-collateral mode is off and
`rv.maskSums` is empty. -/
theorem C16_onshore_needs_change (x : gen_args) (r : genRctSimple_result)
    (hs : x.in_asset_type = "XUSD")
    (hv : x.rct_config.bp_version = 0 ∨ x.rct_config.bp_version = 6)
    (hx : ∃ o ∈ x.outamounts, o.1 = "XHV")
    (h : x.run L = .ok r) :
    r.rv.type = RCTTypeHaven3 ∧
    ∃ c, x.core L = .ok c ∧
      ((∃ o ∈ x.outamounts, o.1 = "XUSD") →
        x.direction.onshore = true ∧ x.direction.conversion_tx = true ∧
        c.use_onshore_col = true ∧ r.rv.maskSums.length = 3 ∧
        r.rv.maskSums[0]? = some
          (((own_outputs true (x.outamounts.zip r.outSk)).map x.scaled).sum % ell)) ∧
      ((¬ ∃ o ∈ x.outamounts, o.1 = "XUSD") →
        x.direction = exNoDirection ∧ c.use_onshore_col = false ∧ r.rv.maskSums = []) := by
  obtain ⟨-, c, hc, ho, ht, hm, -, -⟩ := gen_args.run_eq_ok h
  obtain ⟨hd, hty, hu, -⟩ := genRctSimple_core_eq_ok hc
  obtain ⟨-, -, k3, -, -, -, k7, -⟩ := genRctSimple_core_closure L hc
  obtain ⟨-, m2, -⟩ := genRctSimple_core_maskSums hc
  have hH : c.type = RCTTypeHaven3 := by
    unfold genRctSimple_type at hty
    rw [if_pos hv] at hty
    exact (Except.ok.inj hty).symm
  obtain ⟨o1, ho1, hc1⟩ := hx
  have hne : ("XUSD" : String) ≠ "XHV" := by decide
  refine ⟨ht.trans hH, c, hc, ?_, ?_⟩
  · rintro ⟨o2, ho2, hc2⟩
    have hon : (genRctSimple_direction x.in_asset_type x.outamounts).onshore = true := by
      unfold genRctSimple_direction
      simp only [hs, Bool.and_eq_true, Bool.not_eq_true', decide_eq_true_eq,
        decide_eq_false_iff_not, List.any_eq_true]
      exact ⟨⟨⟨⟨hne, trivial⟩, hne⟩, o2, ho2, by rw [hc2]; exact hne, hc2⟩, o1, ho1, hc1⟩
    have hcv : (genRctSimple_direction x.in_asset_type x.outamounts).conversion_tx = true := by
      have : (genRctSimple_direction x.in_asset_type x.outamounts).conversion_tx =
          ((genRctSimple_direction x.in_asset_type x.outamounts).offshore ||
           (genRctSimple_direction x.in_asset_type x.outamounts).onshore ||
           (genRctSimple_direction x.in_asset_type x.outamounts).xusd_to_xasset ||
           (genRctSimple_direction x.in_asset_type x.outamounts).xasset_to_xusd) := rfl
      rw [this, hon]
      simp
    have hcol : c.use_onshore_col = true := by
      rw [hu, hd, hon, hH]
      rfl
    have hs2 : x.scaled = scaled_mask x.in_asset_type x.pr x.tx_version := rfl
    refine ⟨hon, hcv, hcol, ?_, ?_⟩
    · rw [hm, m2, hd, hcv, hH]
      rfl
    · rw [hm, k7 (by rw [hd]; exact hcv) (Or.inr hH), k3, hcol, ho, hs2]
  · intro hno
    have hnu : ∀ o ∈ x.outamounts, o.1 ≠ "XUSD" := fun o ho2 hc2 => hno ⟨o, ho2, hc2⟩
    have hur : x.outamounts.any (fun o => !decide (o.1 = "XHV") && decide (o.1 = "XUSD"))
        = false := by
      rw [List.any_eq_false]
      intro o ho2
      simp [hnu o ho2]
    have hdir : genRctSimple_direction x.in_asset_type x.outamounts = exNoDirection := by
      unfold genRctSimple_direction exNoDirection
      simp only [hs, hur]
      simp
    have hcol : c.use_onshore_col = false := by
      rw [hu, hd, hdir]
      rfl
    refine ⟨hdir, hcol, ?_⟩
    rw [hm]
    apply List.eq_nil_of_length_eq_zero
    rw [m2, hd, hdir, hH]
    rfl

/-- Witness of C16: the onshore sample, whose change is in XUSD, is assembled with three
mask sums. -/
theorem C16_onshore_needs_change_witness :
    exGenOnshore.run zLib = .ok ((exGenOnshore.run zLib).value exNone) ∧
    ((exGenOnshore.run zLib).value exNone).rv.maskSums.length = 3 ∧
    (((exGenOnshore.run zLib).value exNone).rv.type = RCTTypeHaven3 ∧
    ∃ c, exGenOnshore.core zLib = .ok c ∧
      ((∃ o ∈ exGenOnshore.outamounts, o.1 = "XUSD") →
        exGenOnshore.direction.onshore = true ∧ exGenOnshore.direction.conversion_tx = true ∧
        c.use_onshore_col = true ∧
        ((exGenOnshore.run zLib).value exNone).rv.maskSums.length = 3 ∧
        ((exGenOnshore.run zLib).value exNone).rv.maskSums[0]? = some
          (((own_outputs true
            (exGenOnshore.outamounts.zip ((exGenOnshore.run zLib).value exNone).outSk)).map
              exGenOnshore.scaled).sum % ell)) ∧
      ((¬ ∃ o ∈ exGenOnshore.outamounts, o.1 = "XUSD") →
        exGenOnshore.direction = exNoDirection ∧ c.use_onshore_col = false ∧
        ((exGenOnshore.run zLib).value exNone).rv.maskSums = [])) :=
  ⟨by decide, by decide,
   C16_onshore_needs_change exGenOnshore ((exGenOnshore.run zLib).value exNone)
     (by decide) (Or.inr (by decide)) ⟨("XHV", (1, false)), by decide, rfl⟩ (by decide)⟩

/-- Counterexample to C16 as stated: from XUSD to the converted output, the collateral
and the collateral change, all three in XHV and none in XUSD, the Haven3 assembly
returns a signature, sets neither `onshore` nor `conversion_tx`, leaves the
onshore-collateral mode off and publishes no mask sum. -/
theorem C16_counterexample :
    exGenNoChange.in_asset_type = "XUSD" ∧
    exGenNoChange.outamounts =
      [("XHV", (1, false)), ("XHV", (10, true)), ("XHV", (2, true))] ∧
    exGenNoChange.rct_config.bp_version = 6 ∧
    exGenNoChange.run zLib = .ok ((exGenNoChange.run zLib).value exNone) ∧
    ((exGenNoChange.run zLib).value exNone).rv.type = RCTTypeHaven3 ∧
    exGenNoChange.direction.onshore = false ∧
    exGenNoChange.direction.conversion_tx = false ∧
    (exGenNoChange.core zLib).map gen_core.use_onshore_col = .ok false ∧
    ((exGenNoChange.run zLib).value exNone).rv.maskSums = [] := by
  decide

/-- C17. When the device opens what it sealed and derives canonical masks, the prover
commits to every amount under its mask, the amounts have 64 bits, and `genRctSimple`
returns a signature, every output `i` whose commitment `mask_i·G + amount_i·H` is not the
identity point is decoded under its amount key: `decodeRctSimple` returns `amount_i` and
sets `mask` to `outSk[i].mask`. -/
theorem C17_decode_round_trip (hL : L.Sound) (hP : L.PrimeOrder) (x : gen_args)
    (r : genRctSimple_result) (hdev : x.dev.Lawful) (hpr : ProverCommits x.dev L)
    (ha : ∀ o ∈ x.outamounts, o.2.1 < 2 ^ 64) (h : x.run L = .ok r)
    (i : Nat) (o : outamount) (ho : x.outamounts[i]? = some o)
    (hne : ∀ m, r.outSk[i]? = some m → genC L m o.2.1 ≠ identity) (mask0 : key) :
    ∃ ak m, x.amount_keys[i]? = some ak ∧ r.outSk[i]? = some m ∧
      decodeRctSimple L x.dev r.rv ak i mask0 = .ok (o.2.1, m) := by
  obtain ⟨hty, l1, l2, l3, p1, p2, p3, hmk, hblob⟩ := gen_args.run_outputs hL hP hpr ha h
  have hi : i < x.outamounts.length := by
    rcases Nat.lt_or_ge i x.outamounts.length with hl | hl
    · exact hl
    · rw [List.getElem?_eq_none hl] at ho
      cases ho
  have hm : r.outSk[i]? = some r.outSk[i] := List.getElem?_eq_getElem (by omega)
  obtain ⟨ak, hak, hb⟩ := hblob i o _ ho hm
  refine ⟨ak, r.outSk[i], hak, hm, ?_⟩
  have hlt : r.outSk[i] < ell := by
    rcases hmk _ (List.getElem?_mem hm) with e | ⟨k, e⟩
    · rw [e]
      decide
    · rw [e]
      exact hdev.mask_lt k
  have hz : ∀ (f : outamount → key → key),
      (List.zipWith f x.outamounts r.outSk)[i]? = some (f o r.outSk[i]) := by
    intro f
    rw [List.getElem?_zipWith, ho, hm]
  apply decodeRctSimple_opens L x.dev r.rv ak i mask0 o r.outSk[i] o.2.1 _ hty
    (by rw [l2, l3]) hb
  · exact hdev.decode_encode _ _ _ (ha o (List.getElem?_mem ho))
  · exact hlt
  · exact ha o (List.getElem?_mem ho)
  · rw [← List.getElem?_map, p1, hz]
  · rw [← List.getElem?_map, p2, hz]
  · rw [← List.getElem?_map, p3, hz]
  · exact hne _ hm

/-- Witness of C17: the first output of the onshore sample, of the amount 1 under the
mask 56, is decoded under its amount key. -/
theorem C17_decode_round_trip_witness :
    exGenOnshore.run zLib = .ok ((exGenOnshore.run zLib).value exNone) ∧
    ((exGenOnshore.run zLib).value exNone).outSk[0]? = some 56 ∧
    genC zLib 56 1 ≠ identity ∧
    ∃ ak m, exGenOnshore.amount_keys[0]? = some ak ∧
      ((exGenOnshore.run zLib).value exNone).outSk[0]? = some m ∧
      decodeRctSimple zLib exGenOnshore.dev ((exGenOnshore.run zLib).value exNone).rv ak 0 0
        = .ok (1, m) :=
  ⟨by decide, by decide, by decide,
   C17_decode_round_trip zLib_sound zLib_primeOrder exGenOnshore
     ((exGenOnshore.run zLib).value exNone) exDev_lawful exDev_commits (by decide)
     (by decide) 0 ("XHV", (1, false)) (by decide)
     (fun m hm => by
       have h56 : ((exGenOnshore.run zLib).value exNone).outSk[0]? = some 56 := by decide
       rw [h56] at hm
       rw [← Option.some.inj hm]
       decide) 0⟩

/-- Counterexample to C17 as stated. A device that opens what it sealed and whose prover
commits to every amount derives the mask `l - 70`: the commitment of the first output, of
the amount 10, is the identity point, and `decodeRctSimple` throws on it. Another such
device derives masks that are no canonical scalars, and `decodeRctSimple` throws on the
first output as well. -/
theorem C17_counterexample :
    exDevNeutral.Lawful ∧ ProverCommits exDevNeutral zLib ∧
    exGenNeutral.run zLib = .ok ((exGenNeutral.run zLib).value exNone) ∧
    exGenNeutral.outamounts[0]? = some ("XHV", (10, false)) ∧
    exGenNeutral.amount_keys[0]? = some 55 ∧
    ((exGenNeutral.run zLib).value exNone).outSk[0]? = some (ell - 70) ∧
    genC zLib (ell - 70) 10 = identity ∧
    decodeRctSimple zLib exDevNeutral ((exGenNeutral.run zLib).value exNone).rv 55 0 0
      = .error .thrown ∧
    (∀ (t : ecdhTuple) (k : key) (b : Bool),
      exDevWide.ecdhDecode (exDevWide.ecdhEncode t k b) k b = t) ∧
    ProverCommits exDevWide zLib ∧
    exGenWide.run zLib = .ok ((exGenWide.run zLib).value exNone) ∧
    ((exGenWide.run zLib).value exNone).outSk[0]? = some (ell + 55) ∧
    decodeRctSimple zLib exDevWide ((exGenWide.run zLib).value exNone).rv 55 0 0
      = .error .thrown :=
  ⟨exDevNeutral_lawful, exDev_commits, by decide, by decide, by decide, by decide,
   by decide, by decide,
   fun t k _ => by
     show ({ mask := t.mask + k - k, amount := t.amount + k - k } : ecdhTuple) = t
     simp,
   exDev_commits, by decide, by decide, by decide⟩

/-- C18. For a Haven2 or Haven3 signature `decodeRctSimple` returns an amount, the one
of the opened blob, exactly when `i` is in range, the stored commitment
`rv.outPk[i].mask` is not the identity, the opened mask and amount are canonical scalars
and `mask·G + amount·H` is the stored commitment; in every other case it throws. -/
theorem C18_decode_failure (dev : device) (rv : rctSig) (sk : key) (i : Nat) (mask0 : key)
    (ht : rv.type = RCTTypeHaven2 ∨ rv.type = RCTTypeHaven3) :
    (decoded_fits L dev rv sk i →
      decodeRctSimple L dev rv sk i mask0 =
        .ok (h2d (decoded_blob dev rv sk i).amount, (decoded_blob dev rv sk i).mask)) ∧
    (∀ r, decodeRctSimple L dev rv sk i mask0 = .ok r → decoded_fits L dev rv sk i) ∧
    (¬ decoded_fits L dev rv sk i →
      decodeRctSimple L dev rv sk i mask0 = .error .thrown) := by
  rcases decodeRctSimple_haven L dev rv sk i mask0 ht with ⟨h, e⟩ | ⟨h, e⟩
  · exact ⟨fun _ => e, fun _ _ => h, fun hn => absurd h hn⟩
  · refine ⟨fun hf => absurd hf h, fun r hr => ?_, fun _ => e⟩
    rw [e] at hr
    cases hr

/-- Witness of C18: the first output of the sealed transfer opens to the amount 10 and
the mask 4 under its amount key, and the call throws under another key. -/
theorem C18_decode_failure_witness :
    decodeRctSimple zLib exDev exSealed 55 0 0 = .ok (10, 4) ∧
    decodeRctSimple zLib exDev exSealed 54 0 0 = .error .thrown ∧
    ((decoded_fits zLib exDev exSealed 55 0 →
      decodeRctSimple zLib exDev exSealed 55 0 0 =
        .ok (h2d (decoded_blob exDev exSealed 55 0).amount,
          (decoded_blob exDev exSealed 55 0).mask)) ∧
    (∀ r, decodeRctSimple zLib exDev exSealed 55 0 0 = .ok r →
      decoded_fits zLib exDev exSealed 55 0) ∧
    (¬ decoded_fits zLib exDev exSealed 55 0 →
      decodeRctSimple zLib exDev exSealed 55 0 0 = .error .thrown)) :=
  ⟨by decide, by decide,
   C18_decode_failure exDev exSealed 55 0 0 (Or.inl (by decide))⟩

/-- C20. For a Haven2 or Haven3 conversion that `genRctSimple` returns,
`rv.maskSums[1]` is the sum, modulo `l`, of the masks of the outputs of the change
class, flagged as collateral or not: the XHV outputs of an offshore, the XUSD outputs of
an onshore and of a conversion from xUSD to an xAsset, the outputs in another colour than
XUSD of a conversion from an xAsset to xUSD. Under Haven3 with the padded layout
`rv.maskSums[2]` is, for an offshore, the sum of the masks of the flagged outputs; for
an onshore, the mask of the last flagged output of the amount `onshore_col_amount`, and
0 when there is none; and 0 for the other conversions. -/
theorem C20_mask_sums (x : gen_args) (r : genRctSimple_result)
    (h : x.run L = .ok r) (hcv : x.direction.conversion_tx = true)
    (hH : r.rv.type = RCTTypeHaven2 ∨ r.rv.type = RCTTypeHaven3) :
    r.rv.maskSums[1]? = some
      (((change_outputs x.direction (x.outamounts.zip r.outSk)).map Prod.snd).sum % ell) ∧
    (r.rv.type = RCTTypeHaven3 →
      x.rct_config.range_proof_type = .RangeProofPaddedBulletproof →
      (x.direction.offshore = true →
        r.rv.maskSums[2]? = some
          (((flagged_outputs (x.outamounts.zip r.outSk)).map Prod.snd).sum % ell)) ∧
      (x.direction.onshore = true →
        r.rv.maskSums[2]? = some
          ((((pledged_outputs x.onshore_col_amount (x.outamounts.zip r.outSk)).map
            Prod.snd).getLast?).getD 0)) ∧
      (x.direction.offshore = false → x.direction.onshore = false →
        r.rv.maskSums[2]? = some 0)) := by
  obtain ⟨-, c, hc, ho, ht, hm, -, -⟩ := gen_args.run_eq_ok h
  obtain ⟨hd, -, hu, -⟩ := genRctSimple_core_eq_ok hc
  obtain ⟨-, -, m3, m4, -⟩ := genRctSimple_core_maskSums hc
  have hdx : x.direction = c.d := hd.symm
  rw [hdx] at hcv ⊢
  rw [ht] at hH ⊢
  rw [hm, ho]
  have h1 : (genRctSimple_maskSums c.type c.d.conversion_tx)[1]? = some zero := by
    unfold genRctSimple_maskSums
    rcases hH with hH | hH
    · rw [if_neg (by rw [hH]; simp), if_pos hH]
      rfl
    · rw [if_pos ⟨hH, hcv⟩]
      rfl
  refine ⟨?_, ?_⟩
  · rw [m3 hH, h1, Option.map_some', change_sum_zero]
  · intro h3 hp
    have h2 : (genRctSimple_maskSums c.type c.d.conversion_tx)[2]? = some zero := by
      unfold genRctSimple_maskSums
      rw [if_pos ⟨h3, hcv⟩]
      rfl
    rw [m4 hp h3, h2, Option.map_some']
    have hon : c.d.onshore = true → c.d.offshore = false := by
      intro hon
      rw [hd] at hon ⊢
      have := (direction_onshore_sent hon).2
      unfold genRctSimple_direction
      simp [this]
    have hcol : c.use_onshore_col = c.d.onshore := by
      rw [hu, h3]
      simp
    refine ⟨?_, ?_, ?_⟩
    · intro hoff
      have hno : c.d.onshore = false := by
        cases hq : c.d.onshore with
        | false => rfl
        | true => rw [hon hq] at hoff; cases hoff
      rw [hcol, hno, (col_sum_offshore c.d x.onshore_col_amount hoff _ zero ell_pos).2]
      unfold zero
      rw [Nat.zero_add]
    · intro hq
      rw [hcol, hq, col_sum_onshore c.d x.onshore_col_amount (hon hq)]
      rfl
    · intro hoff hq
      rw [hcol, hq, col_sum_other c.d x.onshore_col_amount hoff]
      rfl

/-- Witness of C20: the onshore sample is a Haven3 conversion, and its mask sums are as
stated. -/
theorem C20_mask_sums_witness :
    exGenOnshore.run zLib = .ok ((exGenOnshore.run zLib).value exNone) ∧
    exGenOnshore.direction.conversion_tx = true ∧
    ((exGenOnshore.run zLib).value exNone).rv.type = RCTTypeHaven3 ∧
    (((exGenOnshore.run zLib).value exNone).rv.maskSums[1]? = some
      (((change_outputs exGenOnshore.direction
        (exGenOnshore.outamounts.zip ((exGenOnshore.run zLib).value exNone).outSk)).map
          Prod.snd).sum % ell) ∧
    (((exGenOnshore.run zLib).value exNone).rv.type = RCTTypeHaven3 →
      exGenOnshore.rct_config.range_proof_type = .RangeProofPaddedBulletproof →
      (exGenOnshore.direction.offshore = true →
        ((exGenOnshore.run zLib).value exNone).rv.maskSums[2]? = some
          (((flagged_outputs
            (exGenOnshore.outamounts.zip ((exGenOnshore.run zLib).value exNone).outSk)).map
              Prod.snd).sum % ell)) ∧
      (exGenOnshore.direction.onshore = true →
        ((exGenOnshore.run zLib).value exNone).rv.maskSums[2]? = some
          ((((pledged_outputs exGenOnshore.onshore_col_amount
            (exGenOnshore.outamounts.zip ((exGenOnshore.run zLib).value exNone).outSk)).map
              Prod.snd).getLast?).getD 0)) ∧
      (exGenOnshore.direction.offshore = false → exGenOnshore.direction.onshore = false →
        ((exGenOnshore.run zLib).value exNone).rv.maskSums[2]? = some 0))) :=
  ⟨by decide, by decide, by decide,
   C20_mask_sums exGenOnshore ((exGenOnshore.run zLib).value exNone)
     (by decide : exGenOnshore.run zLib = .ok ((exGenOnshore.run zLib).value exNone))
     (by decide) (Or.inr (by decide))⟩

/-- Counterexample to C20 as stated. In the Haven3 offshore with the outputs of 70 XHV,
5000 XUSD and a flagged collateral of 20 XHV, whose masks are 56, 67 and 78,
`rv.maskSums[1]` is 134: it counts the mask of the collateral with that of the change.
In the Haven3 onshore with a flagged collateral of 10 and a flagged collateral change of
2, whose masks are 78 and 89, `rv.maskSums[2]` is 78, not the sum 167 of the two. -/
theorem C20_counterexample :
    exGenOffshoreCol.run zLib = .ok ((exGenOffshoreCol.run zLib).value exNone) ∧
    exGenOffshoreCol.direction.conversion_tx = true ∧
    ((exGenOffshoreCol.run zLib).value exNone).rv.type = RCTTypeHaven3 ∧
    exGenOffshoreCol.outamounts.zip ((exGenOffshoreCol.run zLib).value exNone).outSk =
      [(("XHV", (70, false)), 56), (("XUSD", (5000, false)), 67), (("XHV", (20, true)), 78)] ∧
    ((exGenOffshoreCol.run zLib).value exNone).rv.maskSums[1]? = some 134 ∧
    exGenOnshore.run zLib = .ok ((exGenOnshore.run zLib).value exNone) ∧
    exGenOnshore.direction.conversion_tx = true ∧
    ((exGenOnshore.run zLib).value exNone).rv.type = RCTTypeHaven3 ∧
    exGenOnshore.outamounts.zip ((exGenOnshore.run zLib).value exNone).outSk =
      [(("XHV", (1, false)), 56), (("XUSD", (100, false)), 67), (("XHV", (10, true)), 78),
       (("XHV", (2, true)), 89)] ∧
    ((exGenOnshore.run zLib).value exNone).rv.maskSums[2]? = some 78 := by
  decide

/-- C22. For tx_type XUSD_TO_XASSET the verifier returns true only if
`sumC + (COIN·sumD)·invert(pr[strDest])` is the neutral point, and for tx_type
XASSET_TO_XUSD only if `sumC + (pr[strSource]·sumD)·invert(COIN)` is the neutral point;
`sumC` is the sum of the pseudo-outs minus `txnFee·H`, minus `txnOffshoreFee·H`, minus
the source-colour masks, and `sumD` is minus the sum of the destination-colour masks. -/
theorem C22_xasset_residual (hL : L.Sound) (rv : rctSig) (pr : pricing_record)
    (strSource strDest : String) (amount_burnt : Nat)
    (vout : List tx_out) (vin : List txin_v) (version : Nat)
    (collateral_indices : List Nat) (amount_collateral : Nat) :
    (verRctSemanticsSimple2 L rv pr .XUSD_TO_XASSET strSource strDest amount_burnt vout vin
        version collateral_indices amount_collateral = .ok true →
      ∃ (ps cs ds : List Pt) (y : key),
        L.points rv.p.pseudoOuts = some ps ∧
        L.points (source_masks rv.outPk vout (fun _ => false) strSource) = some cs ∧
        L.points (dest_masks rv.outPk vout (fun _ => false) strSource strDest) = some ds ∧
        invert (d2h (pr.rates strDest)) = .ok y ∧
        (ps.sum - rv.txnFee • L.H - rv.txnOffshoreFee • L.H - cs.sum)
          + y • (COIN • (0 - ds.sum)) = 0) ∧
    (verRctSemanticsSimple2 L rv pr .XASSET_TO_XUSD strSource strDest amount_burnt vout vin
        version collateral_indices amount_collateral = .ok true →
      ∃ (ps cs ds : List Pt) (y : key),
        L.points rv.p.pseudoOuts = some ps ∧
        L.points (source_masks rv.outPk vout (fun _ => false) strSource) = some cs ∧
        L.points (dest_masks rv.outPk vout (fun _ => false) strSource strDest) = some ds ∧
        invert (d2h COIN) = .ok y ∧
        (ps.sum - rv.txnFee • L.H - rv.txnOffshoreFee • L.H - cs.sum)
          + y • (pr.rates strSource • (0 - ds.sum)) = 0) := by
  constructor
  · intro h
    obtain ⟨-, sumC, sumColIns, Zi, hs, hd⟩ := body_eq_true h
    obtain ⟨cs, ds, pin, cin, hcs, hds, hin, -, rfl, hZ⟩ := sums_eq_ok hL hs
    obtain ⟨rfl, -, -⟩ := decide_eq_true hd
    rw [onshore_excluded_of_ne _ _ (by decide)] at hcs hds
    obtain ⟨ps, hps, rfl, -⟩ := hin.2 (by simp)
    simp only [calc_Zi] at hZ
    obtain ⟨y, hy, hz⟩ :=
      scaled_Zi_eq_ok hL (hL.frombytes_tobytes _) (hL.frombytes_tobytes _) hZ
    exact ⟨ps, cs, ds, y, hps, hcs, hds, hy, hL.tobytes_eq_identity.1 hz.symm⟩
  · intro h
    obtain ⟨-, sumC, sumColIns, Zi, hs, hd⟩ := body_eq_true h
    obtain ⟨cs, ds, pin, cin, hcs, hds, hin, -, rfl, hZ⟩ := sums_eq_ok hL hs
    obtain ⟨rfl, -, -⟩ := decide_eq_true hd
    rw [onshore_excluded_of_ne _ _ (by decide)] at hcs hds
    obtain ⟨ps, hps, rfl, -⟩ := hin.2 (by simp)
    simp only [calc_Zi] at hZ
    obtain ⟨y, hy, hz⟩ :=
      scaled_Zi_eq_ok hL (hL.frombytes_tobytes _) (hL.frombytes_tobytes _) hZ
    exact ⟨ps, cs, ds, y, hps, hcs, hds, hy, hL.tobytes_eq_identity.1 hz.symm⟩

/-- Witness of C22: the sample conversion of 100 XUSD to 200 `xAU` and the sample
conversion of 200 `xAU` to 100 XUSD, both at the rate 2, are accepted. -/
theorem C22_xasset_residual_witness :
    verRctSemanticsSimple2 zLib exToXasset exRates .XUSD_TO_XASSET "XUSD" "xAU" 100
      exToXassetVout [.txin_offshore] 20 [] 0 = .ok true ∧
    verRctSemanticsSimple2 zLib exFromXasset exRates .XASSET_TO_XUSD "xAU" "XUSD" 200
      exFromXassetVout [.txin_offshore] 20 [] 0 = .ok true ∧
    (∃ (ps cs ds : List ZPt) (y : key),
      zLib.points exToXasset.p.pseudoOuts = some ps ∧
      zLib.points (source_masks exToXasset.outPk exToXassetVout (fun _ => false) "XUSD")
        = some cs ∧
      zLib.points (dest_masks exToXasset.outPk exToXassetVout (fun _ => false) "XUSD" "xAU")
        = some ds ∧
      invert (d2h (exRates.rates "xAU")) = .ok y ∧
      (ps.sum - exToXasset.txnFee • zLib.H - exToXasset.txnOffshoreFee • zLib.H - cs.sum)
        + y • (COIN • (0 - ds.sum)) = 0) ∧
    (∃ (ps cs ds : List ZPt) (y : key),
      zLib.points exFromXasset.p.pseudoOuts = some ps ∧
      zLib.points (source_masks exFromXasset.outPk exFromXassetVout (fun _ => false) "xAU")
        = some cs ∧
      zLib.points (dest_masks exFromXasset.outPk exFromXassetVout (fun _ => false)
        "xAU" "XUSD") = some ds ∧
      invert (d2h COIN) = .ok y ∧
      (ps.sum - exFromXasset.txnFee • zLib.H - exFromXasset.txnOffshoreFee • zLib.H - cs.sum)
        + y • (exRates.rates "xAU" • (0 - ds.sum)) = 0) :=
  ⟨by decide, by decide,
   (C22_xasset_residual zLib_sound exToXasset exRates "XUSD" "xAU" 100 exToXassetVout
     [.txin_offshore] 20 [] 0).1 (by decide),
   (C22_xasset_residual zLib_sound exFromXasset exRates "xAU" "XUSD" 200 exFromXassetVout
     [.txin_offshore] 20 [] 0).2 (by decide)⟩

/-- C23. For tx_type TRANSFER, OFFSHORE_TRANSFER and XASSET_TRANSFER the verifier returns
true only if `sumC + sumD` is the neutral point, where `sumC` is the sum of the
pseudo-outs minus `txnFee·H`, minus `txnOffshoreFee·H`, minus the source-colour masks and
`sumD` is minus the sum of the destination-colour masks. The sums and the residual are
the same for any two pricing records, and so is the verdict, when
`strSource = strDest` or when the two records agree on `empty()`. -/
theorem C23_transfer_residual (hL : L.Sound) (rv : rctSig) (pr pr2 : pricing_record)
    (tx_type : transaction_type) (strSource strDest : String) (amount_burnt : Nat)
    (vout : List tx_out) (vin : List txin_v) (version : Nat)
    (collateral_indices : List Nat) (amount_collateral : Nat)
    (ht : tx_type = .TRANSFER ∨ tx_type = .OFFSHORE_TRANSFER ∨ tx_type = .XASSET_TRANSFER) :
    (verRctSemanticsSimple2 L rv pr tx_type strSource strDest amount_burnt vout vin
        version collateral_indices amount_collateral = .ok true →
      ∃ (ps cs ds : List Pt),
        L.points rv.p.pseudoOuts = some ps ∧
        L.points (source_masks rv.outPk vout (fun _ => false) strSource) = some cs ∧
        L.points (dest_masks rv.outPk vout (fun _ => false) strSource strDest) = some ds ∧
        (ps.sum - rv.txnFee • L.H - rv.txnOffshoreFee • L.H - cs.sum)
          + (0 - ds.sum) = 0) ∧
    verRctSemanticsSimple2_sums L rv pr tx_type strSource strDest vout vin version
        collateral_indices =
      verRctSemanticsSimple2_sums L rv pr2 tx_type strSource strDest vout vin version
        collateral_indices ∧
    (strSource = strDest ∨ pr.empty = pr2.empty →
      verRctSemanticsSimple2 L rv pr tx_type strSource strDest amount_burnt vout vin
          version collateral_indices amount_collateral =
        verRctSemanticsSimple2 L rv pr2 tx_type strSource strDest amount_burnt vout vin
          version collateral_indices amount_collateral) := by
  have hne : tx_type ≠ .ONSHORE := by
    rcases ht with rfl | rfl | rfl <;> decide
  refine ⟨fun h => ?_, sums_plain ht rv pr pr2 strSource strDest vout vin version
    collateral_indices, fun he => ?_⟩
  · obtain ⟨-, sumC, sumColIns, Zi, hs, hd⟩ := body_eq_true h
    obtain ⟨cs, ds, pin, cin, hcs, hds, hin, -, rfl, hZ⟩ := sums_eq_ok hL hs
    obtain ⟨rfl, -, -⟩ := decide_eq_true hd
    rw [onshore_excluded_of_ne _ _ hne] at hcs hds
    obtain ⟨ps, hps, rfl, -⟩ := hin.2 (fun hc => hne hc.1)
    have hZ2 : (do
        let Zi ← addKeys L (L.tobytes (ps.sum - rv.txnFee • L.H - rv.txnOffshoreFee • L.H
          - cs.sum)) (L.tobytes (0 - ds.sum))
        pure (some Zi)) = (.ok (some identity) : Res (Option key)) := by
      rcases ht with rfl | rfl | rfl <;> exact hZ
    have hz := plain_Zi_eq_ok (hL.frombytes_tobytes _) (hL.frombytes_tobytes _) hZ2
    exact ⟨ps, cs, ds, hps, hcs, hds, hL.tobytes_eq_identity.1 hz.symm⟩
  · unfold verRctSemanticsSimple2 verRctSemanticsSimple2_body
    rw [checks_plain rv pr pr2 tx_type strSource strDest amount_burnt collateral_indices
      amount_collateral he, sums_plain ht rv pr pr2]

/-- Witness of C23: the sample transfer is accepted, with a pricing record of no
price at all as with the sample prices. -/
theorem C23_transfer_residual_witness :
    verRctSemanticsSimple2 zLib exTransfer (exPrices 0 0) .TRANSFER "XHV" "XHV" 0
      exTransferVout [.txin_to_key] 20 [] 0 = .ok true ∧
    (∃ (ps cs ds : List ZPt),
      zLib.points exTransfer.p.pseudoOuts = some ps ∧
      zLib.points (source_masks exTransfer.outPk exTransferVout (fun _ => false) "XHV")
        = some cs ∧
      zLib.points (dest_masks exTransfer.outPk exTransferVout (fun _ => false) "XHV" "XHV")
        = some ds ∧
      (ps.sum - exTransfer.txnFee • zLib.H - exTransfer.txnOffshoreFee • zLib.H - cs.sum)
        + (0 - ds.sum) = 0) ∧
    verRctSemanticsSimple2 zLib exTransfer (exPrices 0 0) .TRANSFER "XHV" "XHV" 0
        exTransferVout [.txin_to_key] 20 [] 0 =
      verRctSemanticsSimple2 zLib exTransfer exRates .TRANSFER "XHV" "XHV" 0
        exTransferVout [.txin_to_key] 20 [] 0 :=
  ⟨by decide,
   (C23_transfer_residual zLib_sound exTransfer (exPrices 0 0) exRates .TRANSFER "XHV" "XHV"
     0 exTransferVout [.txin_to_key] 20 [] 0 (Or.inl rfl)).1 (by decide),
   (C23_transfer_residual zLib_sound exTransfer (exPrices 0 0) exRates .TRANSFER "XHV" "XHV"
     0 exTransferVout [.txin_to_key] 20 [] 0 (Or.inl rfl)).2.2 (Or.inl rfl)⟩

/-- C21. Burnt-fee convention in the verifier. Let `X = sumC + genC(maskSums[1], 0)` be
the commitment that the burnt/mint check of `verRctSemanticsSimple2` compares. For a
conversion that the verifier accepts with the 64-bit `amount_burnt`, a 64-bit value `v`
satisfies `X = genC(maskSums[0], v)` if and only if `v` is the value of the convention:
`amount_burnt − floor(4·txnOffshoreFee/5)`, the subtraction being that of 64-bit
integers, when `version < HF_VERSION_USE_COLLATERAL = 20` and tx_type is XUSD_TO_XASSET
or XASSET_TO_XUSD, and `amount_burnt` itself in every other case. So the fee is taken
off exactly in the first case, and for OFFSHORE and ONSHORE at every version the
equation holds with `amount_burnt` unchanged. -/
theorem C21_burnt_fee (hL : L.Sound) (hP : L.PrimeOrder) (rv : rctSig)
    (pr : pricing_record) (tx_type : transaction_type) (strSource strDest : String)
    (amount_burnt : Nat) (vout : List tx_out) (vin : List txin_v) (version : Nat)
    (collateral_indices : List Nat) (amount_collateral : Nat)
    (hb : amount_burnt < 2 ^ 64) (hf : rv.txnOffshoreFee < 2 ^ 64)
    (hconv : strSource ≠ strDest)
    (h : verRctSemanticsSimple2 L rv pr tx_type strSource strDest amount_burnt vout vin
      version collateral_indices amount_collateral = .ok true) :
    HF_VERSION_USE_COLLATERAL = 20 ∧
    ∃ (ps cs : List Pt) (n m : key),
      L.points (if tx_type = .ONSHORE ∧ version ≥ 20
        then converted_pseudo_outs rv.p.pseudoOuts vin else rv.p.pseudoOuts) = some ps ∧
      L.points (source_masks rv.outPk vout
        (onshore_excluded tx_type version collateral_indices) strSource) = some cs ∧
      rv.maskSums[1]? = some n ∧ rv.maskSums[0]? = some m ∧
      (∀ v, v < 2 ^ 64 →
        (addKeys L (L.tobytes (ps.sum - rv.txnFee • L.H - rv.txnOffshoreFee • L.H - cs.sum))
            (genC L n 0) = .ok (genC L m v) ↔
          v = if version < 20 ∧ (tx_type = .XUSD_TO_XASSET ∨ tx_type = .XASSET_TO_XUSD)
            then (amount_burnt + 2 ^ 64 - 4 * rv.txnOffshoreFee / 5) % 2 ^ 64
            else amount_burnt)) ∧
      (version < 20 ∧ (tx_type = .XUSD_TO_XASSET ∨ tx_type = .XASSET_TO_XUSD) →
        4 * rv.txnOffshoreFee / 5 ≤ amount_burnt →
        addKeys L (L.tobytes (ps.sum - rv.txnFee • L.H - rv.txnOffshoreFee • L.H - cs.sum))
            (genC L n 0) = .ok (genC L m (amount_burnt - 4 * rv.txnOffshoreFee / 5))) ∧
      (tx_type = .OFFSHORE ∨ tx_type = .ONSHORE →
        addKeys L (L.tobytes (ps.sum - rv.txnFee • L.H - rv.txnOffshoreFee • L.H - cs.sum))
            (genC L n 0) = .ok (genC L m amount_burnt)) := by
  have h20 : HF_VERSION_USE_COLLATERAL = 20 := rfl
  have hq : 4 * rv.txnOffshoreFee / 5 < 2 ^ 64 := by
    norm_num at hf ⊢
    omega
  obtain ⟨-, sumC, sumColIns, Zi, hs, hd⟩ := body_eq_true h
  obtain ⟨cs, ds, pin, cin, hcs, hds, hin, -, rfl, hZ⟩ := sums_eq_ok hL hs
  obtain ⟨-, hbc, -⟩ := decide_eq_true hd
  obtain ⟨ps, hps, rfl⟩ := hin.converted
  obtain ⟨n, m, hn, hm, heq⟩ := burnt_check_eq_true hconv hbc
  have hval : burnt_adjusted rv tx_type version amount_burnt =
      if version < 20 ∧ (tx_type = .XUSD_TO_XASSET ∨ tx_type = .XASSET_TO_XUSD)
        then (amount_burnt + 2 ^ 64 - 4 * rv.txnOffshoreFee / 5) % 2 ^ 64
        else amount_burnt := by
    by_cases hc : version < 20 ∧ (tx_type = .XUSD_TO_XASSET ∨ tx_type = .XASSET_TO_XUSD)
    · rw [if_pos hc]
      exact burnt_adjusted_cond hc hf
    · rw [if_neg hc]
      exact burnt_adjusted_else hc
  refine ⟨h20, ps, cs, n, m, hps, hcs, hn, hm, fun v hv => ⟨fun he => ?_, fun he => ?_⟩,
    fun hc hle => ?_, fun ht => ?_⟩
  · rw [heq] at he
    simp only [Except.ok.injEq] at he
    rw [← hval]
    exact (genC_amount_inj hL hP (lt_trans (burnt_adjusted_lt hb) two_pow_64_lt_ell)
      (lt_trans hv two_pow_64_lt_ell) he).symm
  · rw [heq, he, hval]
  · rw [heq, hval, if_pos hc]
    congr 2
    generalize 4 * rv.txnOffshoreFee / 5 = q at hq hle
    norm_num at hb hq ⊢
    omega
  · rw [heq, hval, if_neg]
    rintro ⟨-, h1 | h1⟩ <;> rcases ht with h2 | h2 <;> rw [h1] at h2 <;> cases h2

/-- Witness of C21. At version 19 the sample conversion of XUSD to `xAU` with an offshore
fee of 5 is accepted with `amount_burnt = 104`, and the equation holds with 100, the fee
taken off; at version 20 it is accepted with `amount_burnt = 100`, the equation holds
with 100 and not with 96; the sample offshore with an offshore fee of 5 is accepted
at version 19 with `amount_burnt = 10`, refused with 14, and the equation holds
with 10. -/
theorem C21_burnt_fee_witness :
    verRctSemanticsSimple2 zLib exToXassetFee exRates .XUSD_TO_XASSET "XUSD" "xAU" 104
      exToXassetVout [.txin_offshore] 19 [] 0 = .ok true ∧
    verRctSemanticsSimple2 zLib exToXassetFee exRates .XUSD_TO_XASSET "XUSD" "xAU" 100
      exToXassetVout [.txin_offshore] 19 [] 0 = .ok false ∧
    verRctSemanticsSimple2 zLib exToXassetFee exRates .XUSD_TO_XASSET "XUSD" "xAU" 100
      exToXassetVout [.txin_offshore] 20 [] 0 = .ok true ∧
    verRctSemanticsSimple2 zLib exToXassetFee exRates .XUSD_TO_XASSET "XUSD" "xAU" 104
      exToXassetVout [.txin_offshore] 20 [] 0 = .ok false ∧
    verRctSemanticsSimple2 zLib exOffshoreFee (exPrices 500000000000000 500000000000000)
      .OFFSHORE "XHV" "XUSD" 10 exOffshoreVout [.txin_to_key] 19 [2, 1] 20 = .ok true ∧
    verRctSemanticsSimple2 zLib exOffshoreFee (exPrices 500000000000000 500000000000000)
      .OFFSHORE "XHV" "XUSD" 14 exOffshoreVout [.txin_to_key] 19 [2, 1] 20 = .ok false ∧
    (∃ (ps cs : List ZPt) (n m : key),
      zLib.points exToXassetFee.p.pseudoOuts = some ps ∧
      zLib.points (source_masks exToXassetFee.outPk exToXassetVout
        (onshore_excluded .XUSD_TO_XASSET 19 []) "XUSD") = some cs ∧
      exToXassetFee.maskSums[1]? = some n ∧ exToXassetFee.maskSums[0]? = some m ∧
      addKeys zLib (zLib.tobytes (ps.sum - exToXassetFee.txnFee • zLib.H
          - exToXassetFee.txnOffshoreFee • zLib.H - cs.sum)) (genC zLib n 0)
        = .ok (genC zLib m (104 - 4 * exToXassetFee.txnOffshoreFee / 5)) ∧
      addKeys zLib (zLib.tobytes (ps.sum - exToXassetFee.txnFee • zLib.H
          - exToXassetFee.txnOffshoreFee • zLib.H - cs.sum)) (genC zLib n 0)
        ≠ .ok (genC zLib m 104)) ∧
    (∃ (ps cs : List ZPt) (n m : key),
      zLib.points exToXassetFee.p.pseudoOuts = some ps ∧
      zLib.points (source_masks exToXassetFee.outPk exToXassetVout
        (onshore_excluded .XUSD_TO_XASSET 20 []) "XUSD") = some cs ∧
      exToXassetFee.maskSums[1]? = some n ∧ exToXassetFee.maskSums[0]? = some m ∧
      addKeys zLib (zLib.tobytes (ps.sum - exToXassetFee.txnFee • zLib.H
          - exToXassetFee.txnOffshoreFee • zLib.H - cs.sum)) (genC zLib n 0)
        = .ok (genC zLib m 100) ∧
      addKeys zLib (zLib.tobytes (ps.sum - exToXassetFee.txnFee • zLib.H
          - exToXassetFee.txnOffshoreFee • zLib.H - cs.sum)) (genC zLib n 0)
        ≠ .ok (genC zLib m 96)) ∧
    (∃ (ps cs : List ZPt) (n m : key),
      zLib.points exOffshoreFee.p.pseudoOuts = some ps ∧
      zLib.points (source_masks exOffshoreFee.outPk exOffshoreVout
        (onshore_excluded .OFFSHORE 19 [2, 1]) "XHV") = some cs ∧
      exOffshoreFee.maskSums[1]? = some n ∧ exOffshoreFee.maskSums[0]? = some m ∧
      addKeys zLib (zLib.tobytes (ps.sum - exOffshoreFee.txnFee • zLib.H
          - exOffshoreFee.txnOffshoreFee • zLib.H - cs.sum)) (genC zLib n 0)
        = .ok (genC zLib m 10) ∧
      addKeys zLib (zLib.tobytes (ps.sum - exOffshoreFee.txnFee • zLib.H
          - exOffshoreFee.txnOffshoreFee • zLib.H - cs.sum)) (genC zLib n 0)
        ≠ .ok (genC zLib m 6)) := by
  refine ⟨by decide, by decide, by decide, by decide, by decide, by decide, ?_, ?_, ?_⟩
  · obtain ⟨ps, cs, n, m, h1, h2, h3, h4, h5, h6, -⟩ :=
      (C21_burnt_fee zLib_sound zLib_primeOrder exToXassetFee exRates .XUSD_TO_XASSET
        "XUSD" "xAU" 104 exToXassetVout [.txin_offshore] 19 [] 0 (by decide) (by decide)
        (by decide) (by decide)).2
    exact ⟨ps, cs, n, m, h1, h2, h3, h4, h6 (by decide) (by decide),
      fun he => absurd ((h5 104 (by decide)).1 he) (by decide)⟩
  · obtain ⟨ps, cs, n, m, h1, h2, h3, h4, h5, -, -⟩ :=
      (C21_burnt_fee zLib_sound zLib_primeOrder exToXassetFee exRates .XUSD_TO_XASSET
        "XUSD" "xAU" 100 exToXassetVout [.txin_offshore] 20 [] 0 (by decide) (by decide)
        (by decide) (by decide)).2
    exact ⟨ps, cs, n, m, h1, h2, h3, h4, (h5 100 (by decide)).2 (by decide),
      fun he => absurd ((h5 96 (by decide)).1 he) (by decide)⟩
  · obtain ⟨ps, cs, n, m, h1, h2, h3, h4, h5, -, h7⟩ :=
      (C21_burnt_fee zLib_sound zLib_primeOrder exOffshoreFee
        (exPrices 500000000000000 500000000000000) .OFFSHORE "XHV" "XUSD" 10
        exOffshoreVout [.txin_to_key] 19 [2, 1] 20 (by decide) (by decide) (by decide)
        (by decide)).2
    exact ⟨ps, cs, n, m, h1, h2, h3, h4, h7 (Or.inl rfl),
      fun he => absurd ((h5 6 (by decide)).1 he) (by decide)⟩

/-- C30. A zero rate is answered false. For tx_type OFFSHORE with the governing rate,
`min(pr.unused1, pr.xUSD)` from version `HF_PER_OUTPUT_UNLOCK_VERSION = 19` on and
`pr.unused1` before, equal to 0, and for tx_type XUSD_TO_XASSET with `pr[strDest] = 0`,
`invert` throws and the verifier never returns true; it returns false whenever the
outputs `vout` are no more than the commitments `rv.outPk`, so that the output loop stays
inside `rv.outPk`. -/
theorem C30_zero_rate (hL : L.Sound) (rv : rctSig) (pr : pricing_record)
    (tx_type : transaction_type) (strSource strDest : String) (amount_burnt : Nat)
    (vout : List tx_out) (vin : List txin_v) (version : Nat)
    (collateral_indices : List Nat) (amount_collateral : Nat)
    (hz : (tx_type = .OFFSHORE ∧
        (if version ≥ HF_PER_OUTPUT_UNLOCK_VERSION then min pr.unused1 pr.xUSD
          else pr.unused1) = 0) ∨
      (tx_type = .XUSD_TO_XASSET ∧ pr.rates strDest = 0)) :
    HF_PER_OUTPUT_UNLOCK_VERSION = 19 ∧
    invert (d2h 0) = .error .thrown ∧
    verRctSemanticsSimple2 L rv pr tx_type strSource strDest amount_burnt vout vin
      version collateral_indices amount_collateral ≠ .ok true ∧
    (vout.length ≤ rv.outPk.length →
      verRctSemanticsSimple2 L rv pr tx_type strSource strDest amount_burnt vout vin
        version collateral_indices amount_collateral = .ok false) := by
  have hne : tx_type ≠ .ONSHORE := by
    rcases hz with ⟨rfl, -⟩ | ⟨rfl, -⟩ <;> decide
  have hnt : verRctSemanticsSimple2_body L rv pr tx_type strSource strDest amount_burnt
      vout vin version collateral_indices amount_collateral ≠ .ok true := by
    intro h
    obtain ⟨-, sumC, sumColIns, Zi, hs, -⟩ := body_eq_true (catchFalse_eq_true.2 h)
    exact sums_rate_zero hL hz _ hs
  refine ⟨rfl, invert_zero, fun h => hnt (catchFalse_eq_true.1 h), fun hlen => ?_⟩
  refine catchFalse_defined ?_ hnt
  unfold verRctSemanticsSimple2_body
  split
  · rfl
  · refine defined_bind (defined_sums hne hlen) fun r hr => ?_
    cases r with
    | none => rfl
    | some x => exact absurd hr (sums_rate_zero hL hz x)

/-- Witness of C30: the sample offshore with `pr.unused1 = 0` and the sample conversion
to `xAU` with no price for `xAU` are answered false. -/
theorem C30_zero_rate_witness :
    ((transaction_type.OFFSHORE = .OFFSHORE ∧
        (if 20 ≥ HF_PER_OUTPUT_UNLOCK_VERSION
          then min (exPrices 0 500000000000000).unused1 (exPrices 0 500000000000000).xUSD
          else (exPrices 0 500000000000000).unused1) = 0) ∨
      (transaction_type.OFFSHORE = .XUSD_TO_XASSET ∧
        (exPrices 0 500000000000000).rates "XUSD" = 0)) ∧
    exOffshoreVout.length ≤ exOffshore.outPk.length ∧
    verRctSemanticsSimple2 zLib exOffshore (exPrices 0 500000000000000) .OFFSHORE "XHV" "XUSD"
      10 exOffshoreVout [.txin_to_key] 20 [2, 1] 20 = .ok false ∧
    ((transaction_type.XUSD_TO_XASSET = .OFFSHORE ∧
        (if 20 ≥ HF_PER_OUTPUT_UNLOCK_VERSION
          then min (exPrices 500 500).unused1 (exPrices 500 500).xUSD
          else (exPrices 500 500).unused1) = 0) ∨
      (transaction_type.XUSD_TO_XASSET = .XUSD_TO_XASSET ∧
        (exPrices 500 500).rates "xAU" = 0)) ∧
    exToXassetVout.length ≤ exToXasset.outPk.length ∧
    verRctSemanticsSimple2 zLib exToXasset (exPrices 500 500) .XUSD_TO_XASSET "XUSD" "xAU"
      100 exToXassetVout [.txin_offshore] 20 [] 0 = .ok false :=
  ⟨by decide, by decide,
   (C30_zero_rate zLib_sound exOffshore (exPrices 0 500000000000000) .OFFSHORE "XHV" "XUSD"
     10 exOffshoreVout [.txin_to_key] 20 [2, 1] 20 (by decide)).2.2.2 (by decide),
   by decide, by decide,
   (C30_zero_rate zLib_sound exToXasset (exPrices 500 500) .XUSD_TO_XASSET "XUSD" "xAU"
     100 exToXassetVout [.txin_offshore] 20 [] 0 (by decide)).2.2.2 (by decide)⟩

/-- C24, at the failing input. The sample transfer of two inputs under `bp_version = 2`
passes the sanity checks and takes the type `RCTTypeBulletproof2`; when the signing
loop starts, `rv.p.MGs` has two blank entries and `rv.p.CLSAGs` is empty, and the write
to `rv.p.CLSAGs[0]` is outside the vector. Under `bp_version = 6` the same call returns
two CLSAGs, two pseudo-outs and two rings for its two inputs. -/
theorem C24_bulletproof2_write :
    genRctSimple_checks exGenBulletproof2.inSk exGenBulletproof2.destinations
      exGenBulletproof2.inamounts exGenBulletproof2.outamounts exGenBulletproof2.mixRing
      exGenBulletproof2.amount_keys exGenBulletproof2.kLRki exGenBulletproof2.msout
      exGenBulletproof2.index = true ∧
    exGenBulletproof2.rct_config.bp_version = 2 ∧
    genRctSimple_type exGenBulletproof2.rct_config.bp_version = .ok RCTTypeBulletproof2 ∧
    (exGenBulletproof2.core zLib).map (fun c =>
      ((genRctSimple_rv c exGenBulletproof2.message exGenBulletproof2.destinations
          exGenBulletproof2.inamounts exGenBulletproof2.in_asset_type
          exGenBulletproof2.txnFee exGenBulletproof2.txnOffshoreFee
          exGenBulletproof2.mixRing).p.MGs.length,
       (genRctSimple_rv c exGenBulletproof2.message exGenBulletproof2.destinations
          exGenBulletproof2.inamounts exGenBulletproof2.in_asset_type
          exGenBulletproof2.txnFee exGenBulletproof2.txnOffshoreFee
          exGenBulletproof2.mixRing).p.CLSAGs.length)) = .ok (2, 0) ∧
    exGenBulletproof2.run zLib = .error .outOfBounds ∧
    exGenTransfer.rct_config.bp_version = 6 ∧
    (exGenTransfer.run zLib).map (fun r =>
      (r.rv.type, r.rv.p.CLSAGs.length, r.rv.p.pseudoOuts.length, r.rv.mixRing.length,
        r.rv.p.MGs.length)) = .ok (RCTTypeHaven3, 2, 2, 2, 0) := by
  decide

/-- C25, as the code has it for the type Haven3. `signMultisig` sends a signature of the
type Haven3 to the MLSAG variant, whose first check returns false, "unsupported rct
type": whatever the shares, the answer is false and the signature is left as it was. -/
theorem C25_haven3_refused (rv : rctSig) (indices : List Nat) (k : List key)
    (msout : multisig_out) (secret_key : key) (ht : rv.type = RCTTypeHaven3) :
    signMultisig rv indices k msout secret_key = .ok (false, rv) := by
  unfold signMultisig
  rw [if_neg (by rw [ht]; decide)]
  unfold signMultisigMLSAG
  rw [if_pos (by rw [ht]; decide)]

/-- Witness of C25 at the failing input: a Haven3 signature with two CLSAGs, the
positions 1 and 2, the nonces 1000 and 2000, `c = [3, 5]`, `mu_p = [7, 11]` and the key
share 13 meets every condition of the claim and is answered false; the same signature
with the type Haven2 is completed to `20 + 1000 - 3·7·13 = 747` and
`60 + 2000 - 5·11·13 = 1345`. The signing loop of `genRctSimple` takes Haven3 for a
type that carries CLSAGs. -/
theorem C25_haven3_refused_witness :
    (exMsClsag RCTTypeHaven3 20 60).type = RCTTypeHaven3 ∧
    [1, 2].length = [1000, 2000].length ∧
    [1000, 2000].length = (exMsClsag RCTTypeHaven3 20 60).p.CLSAGs.length ∧
    [1000, 2000].length = exMsout.c.length ∧ exMsout.c.length = exMsout.mu_p.length ∧
    (exMsClsag RCTTypeHaven3 20 60).p.MGs = [] ∧
    CLSAGs_index_range (exMsClsag RCTTypeHaven3 20 60).p.CLSAGs [1, 2] 0 = .ok true ∧
    genRctSimple_clsag_type RCTTypeHaven3 = true ∧
    signMultisig (exMsClsag RCTTypeHaven2 20 60) [1, 2] [1000, 2000] exMsout 13
      = .ok (true, exMsClsag RCTTypeHaven2 747 1345) ∧
    signMultisig (exMsClsag RCTTypeHaven3 20 60) [1, 2] [1000, 2000] exMsout 13
      = .ok (false, exMsClsag RCTTypeHaven3 20 60) :=
  ⟨by decide, by decide, by decide, by decide, by decide, by decide, by decide, by decide,
   by decide,
   C25_haven3_refused (exMsClsag RCTTypeHaven3 20 60) [1, 2] [1000, 2000] exMsout 13
     (by decide)⟩

/-- C27, as the code has it. `accSignMultisigMLSAG` returns false unless `rv2.p.MGs` is
empty: for `rv2` of an MLSAG type (Full, Simple, Bulletproof, Bulletproof2) that carries
an MLSAG, `accMultisig` returns false and leaves `rv2` as it was, whatever the shares
and the indices. -/
theorem C27_acc_mlsag_refused (rv : List rctSig) (rv2 : rctSig) (indices : List Nat)
    (ht : rv2.type = RCTTypeFull ∨ rv2.type = RCTTypeSimple ∨
      rv2.type = RCTTypeBulletproof ∨ rv2.type = RCTTypeBulletproof2)
    (hmg : rv2.p.MGs ≠ []) :
    accMultisig rv rv2 indices = .ok (false, rv2) := by
  have hne : ¬ (rv2.type = RCTTypeCLSAG ∨ rv2.type = RCTTypeCLSAGN ∨
      rv2.type = RCTTypeHaven2) := by
    rcases ht with h | h | h | h <;> rw [h] <;> decide
  have hemp : ¬ rv2.p.MGs.isEmpty = true := by
    rw [List.isEmpty_iff]
    exact hmg
  unfold accMultisig
  rw [if_neg hne]
  unfold accSignMultisigMLSAG
  rw [if_neg (not_not.2 ht), if_pos hemp]

/-- Witness of C27 at the failing input: a signature of the type Simple with one MLSAG
of three lines and the index 1 is answered false and left as it was, for each of the
four MLSAG types; `signMultisig` completes the same signature, at `ss[1][0]`. With the
MLSAG taken away, the range check reads `rv2.p.CLSAGs[0]` of an empty vector. -/
theorem C27_acc_mlsag_refused_witness :
    (exMsMlsag RCTTypeSimple 20).p.MGs ≠ [] ∧
    MGs_index_range (exMsMlsag RCTTypeSimple 20).p.MGs [1] 0 = .ok true ∧
    signMultisig (exMsMlsag RCTTypeSimple 20) [1] [1000] { c := [3], mu_p := [] } 13
      = .ok (true, exMsMlsag RCTTypeSimple 981) ∧
    (∀ t ∈ [RCTTypeFull, RCTTypeSimple, RCTTypeBulletproof, RCTTypeBulletproof2],
      accMultisig [exMsMlsag t 5, exMsMlsag t 25, exMsMlsag t 125] (exMsMlsag t 20) [1]
        = .ok (false, exMsMlsag t 20)) ∧
    accMultisig [exMsMlsag RCTTypeSimple 5, exMsMlsag RCTTypeSimple 25,
        exMsMlsag RCTTypeSimple 125]
      { exMsMlsag RCTTypeSimple 20 with
        p := { (exMsMlsag RCTTypeSimple 20).p with MGs := [] } } [1]
      = .error .outOfBounds ∧
    accMultisig [exMsMlsag RCTTypeSimple 5, exMsMlsag RCTTypeSimple 25,
        exMsMlsag RCTTypeSimple 125] (exMsMlsag RCTTypeSimple 20) [1]
      = .ok (false, exMsMlsag RCTTypeSimple 20) :=
  ⟨by decide, by decide, by decide, by decide, by decide,
   C27_acc_mlsag_refused [exMsMlsag RCTTypeSimple 5, exMsMlsag RCTTypeSimple 25,
     exMsMlsag RCTTypeSimple 125] (exMsMlsag RCTTypeSimple 20) [1] (Or.inr (Or.inl rfl))
     (by decide)⟩

/-- C26, as the code has it. For `rv2` of the type CLSAG, CLSAGN or Haven2 with no MLSAG
and a list `rv` with the base `rv[0]`, where `rv2` and the members `rv[0] .. rv[|rv|-2]`
have a scalar at `CLSAGs[n].s[indices[n]]` for every `n`, `accMultisig` returns true and
sets each `rv2.CLSAGs[n].s[indices[n]]` to its old value plus `rv[j].s - rv[0].s` at the
same position (mod l), for the members `rv[j]` with `1 ≤ j ≤ |rv| - 2`: the last member
of `rv` is not accumulated. Every other scalar of `rv2` keeps its value. -/
theorem C26_acc_clsag (rv0 : rctSig) (rest : List rctSig) (rv2 : rctSig)
    (indices : List Nat)
    (ht : rv2.type = RCTTypeCLSAG ∨ rv2.type = RCTTypeCLSAGN ∨ rv2.type = RCTTypeHaven2)
    (hmg : rv2.p.MGs = [])
    (hin : ∀ n i, indices[n]? = some i → ∀ r ∈ rv2 :: rv0 :: rest.dropLast,
      (clsag_scalar r n i).isSome = true) :
    ∃ out, accMultisig (rv0 :: rest) rv2 indices =
        .ok (true, { rv2 with p := { rv2.p with CLSAGs := out } }) ∧
      out.length = rv2.p.CLSAGs.length ∧
      (∀ n, indices.length ≤ n → out[n]? = rv2.p.CLSAGs[n]?) ∧
      (∀ n i, indices[n]? = some i →
        ∃ sig sig2 old new, rv2.p.CLSAGs[n]? = some sig ∧ sig.s[i]? = some old ∧
          out[n]? = some sig2 ∧ sig2.s[i]? = some new ∧
          sig2.c1 = sig.c1 ∧ sig2.I = sig.I ∧ sig2.D = sig.D ∧
          sig2.s.length = sig.s.length ∧
          (∀ j, j ≠ i → sig2.s[j]? = sig.s[j]?) ∧
          ((new : ℕ) : ZMod ell) = ((old : ℕ) : ZMod ell) +
            (rest.dropLast.map (fun r =>
              (((clsag_scalar r n i).getD 0 : ℕ) : ZMod ell) -
                (((clsag_scalar rv0 n i).getD 0 : ℕ) : ZMod ell))).sum ∧
          (rest.dropLast = [] → new = old) ∧ (rest.dropLast ≠ [] → new < ell)) := by
  obtain ⟨out, hacc, hloop⟩ := accSignMultisigCLSAG_eq ht hmg hin
  obtain ⟨out2, hout, hlen, hfar, hat⟩ := @accSignMultisigCLSAG_loop_eq rv0 rest.dropLast
    indices 0 rv2.p.CLSAGs
    (fun t i h r hr => by
      rw [Nat.zero_add]
      exact hin t i h r (List.mem_cons_of_mem _ hr))
    (fun t i h => by
      obtain ⟨x, hx⟩ := Option.isSome_iff_exists.1 (hin t i h rv2 (List.mem_cons_self _ _))
      obtain ⟨sig, hsig, hs⟩ := clsag_scalar_eq_some.1 hx
      exact ⟨sig, by rw [Nat.zero_add]; exact hsig, (List.getElem?_eq_some.1 hs).1⟩)
  rw [hloop] at hout
  cases hout
  refine ⟨out, hacc, hlen, fun n hn => hfar n (Or.inr (by omega)), fun n i h => ?_⟩
  obtain ⟨sig, old, hsig, hold, ho⟩ := hat n i h
  rw [Nat.zero_add] at hsig ho
  have hi : i < sig.s.length := (List.getElem?_eq_some.1 hold).1
  refine ⟨sig, _, old, _, hsig, hold, ho, List.getElem?_set_self hi, rfl, rfl, rfl,
    List.length_set _ _ _, fun j hj => List.getElem?_set_ne (Ne.symm hj), ?_, ?_, ?_⟩
  · rw [acc_fold_cast, List.map_map]
    rfl
  · intro he
    rw [he]
    rfl
  · intro hne
    exact acc_fold_lt _ _ _ (fun h => hne (List.map_eq_nil_iff.1 h))

/-- Witness of C26: over the base with the scalars 5 and 6, one share with 25 and 36 is
accumulated into the scalars 20 and 60; the last member of the list is left out. -/
theorem C26_acc_clsag_witness :
    accMultisig [exMsClsag RCTTypeCLSAG 5 6, exMsClsag RCTTypeCLSAG 25 36,
        exMsClsag RCTTypeCLSAG 125 236] (exMsClsag RCTTypeCLSAG 20 60) [1, 2]
      = .ok (true, exMsClsag RCTTypeCLSAG 40 90) ∧
    ∃ out, accMultisig [exMsClsag RCTTypeCLSAG 5 6, exMsClsag RCTTypeCLSAG 25 36,
        exMsClsag RCTTypeCLSAG 125 236] (exMsClsag RCTTypeCLSAG 20 60) [1, 2] =
        .ok (true, { exMsClsag RCTTypeCLSAG 20 60 with
          p := { (exMsClsag RCTTypeCLSAG 20 60).p with CLSAGs := out } }) ∧
      out.length = (exMsClsag RCTTypeCLSAG 20 60).p.CLSAGs.length ∧
      (∀ n, [1, 2].length ≤ n → out[n]? = (exMsClsag RCTTypeCLSAG 20 60).p.CLSAGs[n]?) ∧
      (∀ n i, [1, 2][n]? = some i →
        ∃ sig sig2 old new, (exMsClsag RCTTypeCLSAG 20 60).p.CLSAGs[n]? = some sig ∧
          sig.s[i]? = some old ∧
          out[n]? = some sig2 ∧ sig2.s[i]? = some new ∧
          sig2.c1 = sig.c1 ∧ sig2.I = sig.I ∧ sig2.D = sig.D ∧
          sig2.s.length = sig.s.length ∧
          (∀ j, j ≠ i → sig2.s[j]? = sig.s[j]?) ∧
          ((new : ℕ) : ZMod ell) = ((old : ℕ) : ZMod ell) +
            (([exMsClsag RCTTypeCLSAG 25 36, exMsClsag RCTTypeCLSAG 125 236].dropLast).map
              (fun r =>
                (((clsag_scalar r n i).getD 0 : ℕ) : ZMod ell) -
                  (((clsag_scalar (exMsClsag RCTTypeCLSAG 5 6) n i).getD 0 : ℕ)
                    : ZMod ell))).sum ∧
          ([exMsClsag RCTTypeCLSAG 25 36, exMsClsag RCTTypeCLSAG 125 236].dropLast = [] →
            new = old) ∧
          ([exMsClsag RCTTypeCLSAG 25 36, exMsClsag RCTTypeCLSAG 125 236].dropLast ≠ [] →
            new < ell)) :=
  ⟨by decide,
   C26_acc_clsag (exMsClsag RCTTypeCLSAG 5 6)
     [exMsClsag RCTTypeCLSAG 25 36, exMsClsag RCTTypeCLSAG 125 236]
     (exMsClsag RCTTypeCLSAG 20 60) [1, 2] (Or.inl rfl) rfl
     (fun n i h => by
       rcases n with _ | _ | n
       · cases h
         decide
       · cases h
         decide
       · cases h)⟩

/-- Counterexample to C26 as stated. With the base scalars 5 and 6 and the two cosigner
shares 25, 36 and 125, 236, the scalars 20 and 60 of `rv2` become 40 and 90: only the
first share is accumulated, where the sum over both shares gives 160 and 320. With one
share after the base, `rv2` is returned as it was. -/
theorem C26_counterexample :
    accMultisig [exMsClsag RCTTypeCLSAG 5 6, exMsClsag RCTTypeCLSAG 25 36,
        exMsClsag RCTTypeCLSAG 125 236] (exMsClsag RCTTypeCLSAG 20 60) [1, 2]
      = .ok (true, exMsClsag RCTTypeCLSAG 40 90) ∧
    (20 + (25 - 5) + (125 - 5)) % ell = 160 ∧ (60 + (36 - 6) + (236 - 6)) % ell = 320 ∧
    accMultisig [exMsClsag RCTTypeCLSAG 5 6, exMsClsag RCTTypeCLSAG 25 36]
        (exMsClsag RCTTypeCLSAG 20 60) [1, 2]
      = .ok (true, exMsClsag RCTTypeCLSAG 20 60) := by
  decide

/-- C29, as the code has it. For an onshore (XUSD to XHV) whose governing rate,
`max(pr.unused1, pr.xUSD)` from version `HF_PER_OUTPUT_UNLOCK_VERSION` on and
`pr.unused1` before, is 0, and for a conversion of an xAsset to XUSD whose rate
`pr[source]` is 0, `checkBurntAndMinted` ends as the quotient by zero of the 128-bit
library ends: with that library throwing, the exception leaves the function, which has
no handler, and no boolean is returned. On every other input a boolean is returned. -/
theorem C29_zero_rate_division (W : uint128_ops) (rv : rctSig)
    (amount_burnt amount_minted : Nat) (pr : pricing_record) (source destination : String)
    (version : Nat) :
    ((source = "XUSD" ∧ destination = "XHV" ∧
        (if version ≥ HF_PER_OUTPUT_UNLOCK_VERSION then max pr.unused1 pr.xUSD
          else pr.unused1) = 0) ∨
      (source ≠ "XHV" ∧ source ≠ "XUSD" ∧ destination = "XUSD" ∧ pr.rates source = 0) →
      (∃ a, checkBurntAndMinted W rv amount_burnt amount_minted pr source destination
        version = (W.div_zero a).bind (fun q =>
          if W.to_uint64 q ≠ amount_minted then pure false else pure true)) ∧
      ((∀ a, W.div_zero a = .error .thrown) →
        checkBurntAndMinted W rv amount_burnt amount_minted pr source destination version
          = .error .thrown)) ∧
    (¬ ((source = "XUSD" ∧ destination = "XHV" ∧
        (if version ≥ HF_PER_OUTPUT_UNLOCK_VERSION then max pr.unused1 pr.xUSD
          else pr.unused1) = 0) ∨
      (source ≠ "XHV" ∧ source ≠ "XUSD" ∧ destination = "XUSD" ∧ pr.rates source = 0)) →
      ∃ b, checkBurntAndMinted W rv amount_burnt amount_minted pr source destination
        version = .ok b) := by
  have hcoin : COIN ≠ 0 := by decide
  have hb : ∀ (x y : Nat), ∃ b, (if x ≠ y then (pure false : Res Bool) else pure true)
      = .ok b := fun x y => by
    by_cases h : x ≠ y
    · exact ⟨false, by rw [if_pos h]; rfl⟩
    · exact ⟨true, by rw [if_neg h]; rfl⟩
  constructor
  · intro hz
    have key : ∃ a, checkBurntAndMinted W rv amount_burnt amount_minted pr source
        destination version = (W.div_zero a).bind (fun q =>
          if W.to_uint64 q ≠ amount_minted then pure false else pure true) := by
      rcases hz with ⟨hs, hd, h0⟩ | ⟨hs1, hs2, hd, h0⟩
      · refine ⟨uint128_mul amount_burnt COIN, ?_⟩
        subst hs hd
        unfold checkBurntAndMinted
        rw [if_neg (by decide), if_pos (by decide), h0]
        simp only [uint128_div, if_true]
        rfl
      · refine ⟨uint128_mul
          (checkBurntAndMinted_net rv rv.txnOffshoreFee_xasset version amount_burnt) COIN, ?_⟩
        subst hd
        have h1 : ¬ (source = "XHV" ∧ "XUSD" = "XUSD") := fun h => hs1 h.1
        have h2 : ¬ (source = "XUSD" ∧ "XUSD" = "XHV") := fun h => hs2 h.1
        have h3 : ¬ (source = "XUSD" ∧ "XUSD" ≠ "XHV" ∧ "XUSD" ≠ "XUSD") := fun h => hs2 h.1
        have h4 : source ≠ "XHV" ∧ source ≠ "XUSD" ∧ "XUSD" = "XUSD" := ⟨hs1, hs2, rfl⟩
        unfold checkBurntAndMinted
        rw [if_neg h1, if_neg h2, if_neg h3, if_pos h4, h0]
        simp only [uint128_div, if_true]
        rfl
    refine ⟨key, fun hthrow => ?_⟩
    obtain ⟨a, ha⟩ := key
    rw [ha, hthrow]
    rfl
  · intro hnz
    unfold checkBurntAndMinted
    by_cases c1 : source = "XHV" ∧ destination = "XUSD"
    · rw [if_pos c1]
      simp only [uint128_div, if_neg hcoin]
      exact hb _ _
    · rw [if_neg c1]
      by_cases c2 : source = "XUSD" ∧ destination = "XHV"
      · rw [if_pos c2]
        have hr : ¬ (if version ≥ HF_PER_OUTPUT_UNLOCK_VERSION then max pr.unused1 pr.xUSD
            else pr.unused1) = 0 := fun h0 => hnz (Or.inl ⟨c2.1, c2.2, h0⟩)
        simp only [uint128_div, if_neg hr]
        exact hb _ _
      · rw [if_neg c2]
        by_cases c3 : source = "XUSD" ∧ destination ≠ "XHV" ∧ destination ≠ "XUSD"
        · rw [if_pos c3]
          simp only [uint128_div, if_neg hcoin]
          exact hb _ _
        · rw [if_neg c3]
          by_cases c4 : source ≠ "XHV" ∧ source ≠ "XUSD" ∧ destination = "XUSD"
          · rw [if_pos c4]
            have hr : ¬ pr.rates source = 0 :=
              fun h0 => hnz (Or.inr ⟨c4.1, c4.2.1, c4.2.2, h0⟩)
            simp only [uint128_div, if_neg hr]
            exact hb _ _
          · rw [if_neg c4]
            exact ⟨false, rfl⟩

/-- Witness of C29 at the failing input: an onshore of 100 XUSD at version 20 with
both XHV prices 0, and a conversion of 100 `xAG` to XUSD with no price for `xAG`, over
the operations of Boost: both end in the exception. The offshore of 100 XHV under the
same prices returns: true for 0 XUSD minted, false for 5. -/
theorem C29_zero_rate_division_witness :
    checkBurntAndMinted boost_uint128 exTransfer 100 0 (exPrices 0 0) "XHV" "XUSD" 20
      = .ok true ∧
    checkBurntAndMinted boost_uint128 exTransfer 100 5 (exPrices 0 0) "XHV" "XUSD" 20
      = .ok false ∧
    checkBurntAndMinted boost_uint128 exTransfer 100 0 exRates "xAG" "XUSD" 20
      = .error .thrown ∧
    checkBurntAndMinted boost_uint128 exTransfer 100 0 (exPrices 0 0) "XUSD" "XHV" 20
      = .error .thrown :=
  ⟨by decide, by decide,
   ((C29_zero_rate_division boost_uint128 exTransfer 100 0 exRates "xAG" "XUSD" 20).1
     (Or.inr (by decide))).2 (fun _ => rfl),
   ((C29_zero_rate_division boost_uint128 exTransfer 100 0 (exPrices 0 0) "XUSD" "XHV" 20).1
     (Or.inl (by decide))).2 (fun _ => rfl)⟩

/-- C28, as the code has it. `MLSAG_Ver` returns false when the key matrix has fewer
than 2 columns, has no row or is not rectangular, when `|II| ≠ dsRows`, when the scalar
matrix has other dimensions than the key matrix, when `dsRows > rows`, and when a scalar
of `ss` or `cc` is not canonical. Past these checks, with key images that are points, it
returns false when a key image is the identity; with keys and key images that are points
and no key image the identity, it returns true if the walk over the columns from `rv.cc`
computes no zero challenge and ends on `rv.cc`, and false if not. It returns true in no
other case: not for a key or a key image that is no point. -/
theorem C28_mlsag_ver (hH : ∀ ks : List key, L.hash_to_scalar ks < ell)
    (message : key) (pk : List (List key)) (rv : mgSig) (dsRows : Nat) :
    (mlsag_rejected pk rv dsRows → MLSAG_Ver L message pk rv dsRows = .ok false) ∧
    (¬ mlsag_rejected pk rv dsRows → (∀ I ∈ rv.II, (L.frombytes I).isSome = true) →
      identity ∈ rv.II → MLSAG_Ver L message pk rv dsRows = .ok false) ∧
    (¬ mlsag_rejected pk rv dsRows → mlsag_points L pk →
      (∀ I ∈ rv.II, (L.frombytes I).isSome = true) → identity ∉ rv.II →
      (mlsag_closes L message pk rv dsRows → MLSAG_Ver L message pk rv dsRows = .ok true) ∧
      (¬ mlsag_closes L message pk rv dsRows →
        MLSAG_Ver L message pk rv dsRows = .ok false)) ∧
    (MLSAG_Ver L message pk rv dsRows = .ok true →
      ¬ mlsag_rejected pk rv dsRows ∧ mlsag_points L pk ∧
      (∀ I ∈ rv.II, (L.frombytes I).isSome = true) ∧ identity ∉ rv.II ∧
      mlsag_closes L message pk rv dsRows) := by
  refine ⟨fun hr => ?_, fun hr hI hn => MLSAG_Ver_identity hr hI hn,
    fun hr hpt hI hn => MLSAG_Ver_walk hH hr hpt hI hn, fun h => ?_⟩
  · rcases MLSAG_Ver_checks (L := L) message pk rv dsRows with ⟨-, e⟩ | ⟨hn, -⟩
    · exact e
    · exact absurd hr hn
  · obtain ⟨hr, hpt, hI, hn⟩ := MLSAG_Ver_eq_true h
    refine ⟨hr, hpt, hI, hn, ?_⟩
    by_contra hc
    rw [(MLSAG_Ver_walk hH hr hpt hI hn).2 hc] at h
    cases h

/-- Witness of C28: the sample signature with `cc = 125` is accepted, so that it passes
the checks and its walk closes; with `cc = 126` it is refused. -/
theorem C28_mlsag_ver_witness :
    MLSAG_Ver zLib 77 exMlsagKeys (exMlsag 125) 1 = .ok true ∧
    MLSAG_Ver zLib 77 exMlsagKeys (exMlsag 126) 1 = .ok false ∧
    (¬ mlsag_rejected exMlsagKeys (exMlsag 125) 1 ∧ mlsag_points zLib exMlsagKeys ∧
      (∀ I ∈ (exMlsag 125).II, (zLib.frombytes I).isSome = true) ∧
      identity ∉ (exMlsag 125).II ∧
      mlsag_closes zLib 77 exMlsagKeys (exMlsag 125) 1) :=
  ⟨by decide, by decide,
   (C28_mlsag_ver zLib_primeOrder.hash_to_scalar_lt 77 exMlsagKeys (exMlsag 125) 1).2.2.2
     (by decide)⟩

/-- Counterexample to C28 as stated. Over a key matrix of two columns and no row, with
no key image and `dsRows = 0`, none of the rejections of the claim applies and the walk
from `cc = 78` closes, both challenges being the hash 78 of the message alone; the
verifier returns false, "Bad total row number". And where a key of the matrix or a key
image before an identity key image is no point, the verifier returns no boolean: it
throws. -/
theorem C28_counterexample :
    exMlsagNoRows.length ≥ 2 ∧ (∀ pk_i ∈ exMlsagNoRows, pk_i.length = 0) ∧
    exMlsagEmpty.II.length = 0 ∧ exMlsagEmpty.ss.length = exMlsagNoRows.length ∧
    (∀ ss_i ∈ exMlsagEmpty.ss, ss_i.length = 0) ∧ ¬ 0 > 0 ∧
    (∀ ss_i ∈ exMlsagEmpty.ss, ∀ s ∈ ss_i, s < ell) ∧ exMlsagEmpty.cc < ell ∧
    identity ∉ exMlsagEmpty.II ∧
    mlsag_challenge zLib 77 exMlsagNoRows exMlsagEmpty 0 1 = 78 ∧
    mlsag_challenge zLib 77 exMlsagNoRows exMlsagEmpty 0 2 = 78 ∧
    exMlsagEmpty.cc = 78 ∧
    MLSAG_Ver zLib 77 exMlsagNoRows exMlsagEmpty 0 = .ok false ∧
    zLib.frombytes 0 = none ∧
    MLSAG_Ver zLib 77 [[3, 4], [4, 0]] (exMlsag 125) 1 = .error .thrown ∧
    MLSAG_Ver zLib 77 [[3, 4], [4, 5]] { ss := [[3, 6], [3, 7]], cc := 125, II := [0, identity] }
      2 = .error .thrown := by
  decide

/-- C32. Addition-chain inversion: for every scalar `x`, the value that the chain of
`invert` computes before its sanity check is `x^(l-2) mod l`, where
`l = 2^252 + 27742317777372353535851937790883648493` is a prime; hence for every `x` not
congruent to 0 modulo `l`, `invert(x)` returns that value and `x · invert(x) = 1 mod l`. -/
theorem C32_addition_chain (x : key) :
    ell = 2 ^ 252 + 27742317777372353535851937790883648493 ∧ Nat.Prime ell ∧
    invert_chain x = x ^ (ell - 2) % ell ∧
    (¬ ell ∣ x → invert x = .ok (invert_chain x) ∧ (x * invert_chain x) % ell = 1) := by
  refine ⟨rfl, ell_prime, invert_chain_eq x, fun h => ⟨invert_of_not_dvd h, ?_⟩⟩
  have := sc_mul_invert_chain h
  unfold sc_mul at this
  rw [Nat.mul_comm]
  exact this

/-- Witness of C32: the inverse of `COIN = 10^12`. -/
theorem C32_addition_chain_witness :
    ¬ ell ∣ COIN ∧
    invert COIN = .ok (invert_chain COIN) ∧ (COIN * invert_chain COIN) % ell = 1 :=
  ⟨by decide, (C32_addition_chain COIN).2.2.2 (by decide)⟩

/-- C33. The function `invert` fails exactly on zero: `invert(x)` throws "invert failed"
if and only if `x` is 0 modulo `l`, which for a canonical scalar is `x = 0`; for every
other `x` it returns a canonical scalar `y` with `x · y = 1 (mod l)`. -/
theorem C33_invert_fails_on_zero (x : key) :
    (invert x = .error .thrown ↔ ell ∣ x) ∧
    (x < ell → (invert x = .error .thrown ↔ x = 0)) ∧
    (¬ ell ∣ x → ∃ y, invert x = .ok y ∧ y < ell ∧ (x * y) % ell = 1) := by
  have h1 : invert x = .error .thrown ↔ ell ∣ x := by
    constructor
    · intro h
      by_contra hn
      rw [invert_of_not_dvd hn] at h
      cases h
    · exact invert_of_dvd
  refine ⟨h1, fun hlt => ?_, fun hn => ⟨invert_chain x, invert_of_not_dvd hn, ?_, ?_⟩⟩
  · rw [h1]
    constructor
    · intro hd
      exact Nat.eq_zero_of_dvd_of_lt hd hlt
    · rintro rfl
      exact dvd_zero _
  · rw [invert_chain_eq]
    exact Nat.mod_lt _ ell_pos
  · have := sc_mul_invert_chain hn
    unfold sc_mul at this
    rw [Nat.mul_comm]
    exact this

/-- Witness of C33: `invert` throws on 0 and returns the inverse of `COIN`. -/
theorem C33_invert_fails_on_zero_witness :
    (0 : ℕ) < ell ∧ invert 0 = .error .thrown ∧ ¬ ell ∣ COIN ∧
    ∃ y, invert COIN = .ok y ∧ y < ell ∧ (COIN * y) % ell = 1 :=
  ⟨by decide, ((C33_invert_fails_on_zero 0).2.1 (by decide)).2 rfl, by decide,
   (C33_invert_fails_on_zero COIN).2.2 (by decide)⟩

/-- C31. Protocol-favourable rate in `checkBurntAndMinted`: at version
`HF_PER_OUTPUT_UNLOCK_VERSION` or later, with non-zero prices, every `amount_minted`
accepted for an offshore (XHV to XUSD) is at most `floor(burnt·pr.unused1/COIN)` and at
most `floor(burnt·pr.xUSD/COIN)`, and every `amount_minted` accepted for an onshore (XUSD
to XHV) is at most `floor(burnt·COIN/pr.unused1)` and at most `floor(burnt·COIN/pr.xUSD)`.
The conversion to 64 bits of the library is taken not to increase a value. -/
theorem C31_protocol_rate (W : uint128_ops) (rv : rctSig)
    (amount_burnt amount_minted : Nat) (pr : pricing_record) (version : Nat)
    (hW : ∀ a, W.to_uint64 a ≤ a) (hv : version ≥ HF_PER_OUTPUT_UNLOCK_VERSION)
    (hb : amount_burnt < 2 ^ 64) (h1 : pr.unused1 < 2 ^ 64)
    (hn1 : pr.unused1 ≠ 0) (hn2 : pr.xUSD ≠ 0) :
    (checkBurntAndMinted W rv amount_burnt amount_minted pr "XHV" "XUSD" version = .ok true →
      amount_minted ≤ amount_burnt * pr.unused1 / COIN ∧
      amount_minted ≤ amount_burnt * pr.xUSD / COIN) ∧
    (checkBurntAndMinted W rv amount_burnt amount_minted pr "XUSD" "XHV" version = .ok true →
      amount_minted ≤ amount_burnt * COIN / pr.unused1 ∧
      amount_minted ≤ amount_burnt * COIN / pr.xUSD) := by
  constructor
  · intro h
    rw [checkBurntAndMinted_offshore W rv amount_burnt amount_minted pr version hb h1,
      if_pos hv] at h
    have e : amount_minted = amount_burnt * min pr.unused1 pr.xUSD / COIN := by
      simpa using h
    rw [e]
    exact ⟨Nat.div_le_div_right (Nat.mul_le_mul_left _ (min_le_left _ _)),
      Nat.div_le_div_right (Nat.mul_le_mul_left _ (min_le_right _ _))⟩
  · intro h
    have hr : (if version ≥ HF_PER_OUTPUT_UNLOCK_VERSION then max pr.unused1 pr.xUSD
        else pr.unused1) ≠ 0 := by
      rw [if_pos hv]
      intro h0
      exact hn1 (Nat.le_zero.1 (h0 ▸ le_max_left _ _))
    rw [checkBurntAndMinted_onshore W rv amount_burnt amount_minted pr version hb hr,
      if_pos hv] at h
    have e : W.to_uint64 (amount_burnt * COIN / max pr.unused1 pr.xUSD) = amount_minted := by
      simpa using h
    rw [← e]
    refine ⟨le_trans (hW _) ?_, le_trans (hW _) ?_⟩
    · exact Nat.div_le_div_left (le_max_left _ _) (Nat.pos_of_ne_zero hn1)
    · exact Nat.div_le_div_left (le_max_right _ _) (Nat.pos_of_ne_zero hn2)

/-- Witness of C31: at the prices 400·COIN and 500·COIN, an offshore of 10 XHV mints
4000 XUSD, at the lower price, and an onshore of 1000 XUSD mints 2 XHV, at the higher
price. -/
theorem C31_protocol_rate_witness :
    checkBurntAndMinted boost_uint128 exTransfer 10 4000
      (exPrices (400 * COIN) (500 * COIN)) "XHV" "XUSD" 20 = .ok true ∧
    checkBurntAndMinted boost_uint128 exTransfer 1000 2
      (exPrices (400 * COIN) (500 * COIN)) "XUSD" "XHV" 20 = .ok true ∧
    (4000 ≤ 10 * (exPrices (400 * COIN) (500 * COIN)).unused1 / COIN ∧
      4000 ≤ 10 * (exPrices (400 * COIN) (500 * COIN)).xUSD / COIN) ∧
    (2 ≤ 1000 * COIN / (exPrices (400 * COIN) (500 * COIN)).unused1 ∧
      2 ≤ 1000 * COIN / (exPrices (400 * COIN) (500 * COIN)).xUSD) :=
  ⟨by decide, by decide,
   (C31_protocol_rate boost_uint128 exTransfer 10 4000 (exPrices (400 * COIN) (500 * COIN)) 20
     (fun a => Nat.mod_le a _) (by decide) (by decide) (by decide) (by decide)
     (by decide)).1 (by decide),
   (C31_protocol_rate boost_uint128 exTransfer 1000 2 (exPrices (400 * COIN) (500 * COIN)) 20
     (fun a => Nat.mod_le a _) (by decide) (by decide) (by decide) (by decide)
     (by decide)).2 (by decide)⟩

/-- C35. The offshore branch of `checkBurntAndMinted`: for the source "XHV" and the
destination "XUSD" it returns true if and only if
`amount_minted = floor(amount_burnt · r / 10^12)`, where `r` is
`min(pr.unused1, pr.xUSD)` at version 19 or later and `pr.unused1` before, the product of
the two 64-bit values staying below `2^128`; and for a pair of colours that is none of
XHV to XUSD, XUSD to XHV, XUSD to an xAsset and an xAsset to XUSD it returns false. -/
theorem C35_offshore_mint (W : uint128_ops) (rv : rctSig)
    (amount_burnt amount_minted : Nat) (pr : pricing_record) (source destination : String)
    (version : Nat)
    (hb : amount_burnt < 2 ^ 64) (h1 : pr.unused1 < 2 ^ 64) (h2 : pr.xUSD < 2 ^ 64) :
    COIN = 10 ^ 12 ∧ HF_PER_OUTPUT_UNLOCK_VERSION = 19 ∧
    amount_burnt * (if version ≥ 19 then min pr.unused1 pr.xUSD else pr.unused1) < 2 ^ 128 ∧
    checkBurntAndMinted W rv amount_burnt amount_minted pr "XHV" "XUSD" version =
      .ok (decide (amount_minted =
        amount_burnt * (if version ≥ 19 then min pr.unused1 pr.xUSD else pr.unused1)
          / 10 ^ 12)) ∧
    (¬ (source = "XHV" ∧ destination = "XUSD") → ¬ (source = "XUSD" ∧ destination = "XHV") →
      ¬ (source = "XUSD" ∧ destination ≠ "XHV" ∧ destination ≠ "XUSD") →
      ¬ (source ≠ "XHV" ∧ source ≠ "XUSD" ∧ destination = "XUSD") →
      checkBurntAndMinted W rv amount_burnt amount_minted pr source destination version =
        .ok false) := by
  have hr : (if version ≥ 19 then min pr.unused1 pr.xUSD else pr.unused1) < 2 ^ 64 := by
    split
    · exact lt_of_le_of_lt (min_le_right _ _) h2
    · exact h1
  refine ⟨by decide, rfl, ?_,
    checkBurntAndMinted_offshore W rv amount_burnt amount_minted pr version hb h1,
    checkBurntAndMinted_other W rv amount_burnt amount_minted pr source destination version⟩
  calc amount_burnt * (if version ≥ 19 then min pr.unused1 pr.xUSD else pr.unused1)
      < 2 ^ 64 * 2 ^ 64 := Nat.mul_lt_mul'' hb hr
    _ = 2 ^ 128 := by norm_num

/-- Witness of C35: at the prices 400·COIN and 500·COIN and version 20, an offshore
of 10 XHV is accepted with 4000 XUSD minted and refused with 5000; a request from XHV to
`xAU` is refused. -/
theorem C35_offshore_mint_witness :
    checkBurntAndMinted boost_uint128 exTransfer 10 4000
      (exPrices (400 * COIN) (500 * COIN)) "XHV" "XUSD" 20 = .ok true ∧
    checkBurntAndMinted boost_uint128 exTransfer 10 5000
      (exPrices (400 * COIN) (500 * COIN)) "XHV" "XUSD" 20 = .ok false ∧
    checkBurntAndMinted boost_uint128 exTransfer 10 4000
      (exPrices (400 * COIN) (500 * COIN)) "XHV" "xAU" 20 = .ok false :=
  ⟨by decide, by decide,
   (C35_offshore_mint boost_uint128 exTransfer 10 4000 (exPrices (400 * COIN) (500 * COIN))
     "XHV" "xAU" 20 (by decide) (by decide) (by decide)).2.2.2.2
     (by decide) (by decide) (by decide) (by decide)⟩

/-- C36, as the code has it. The onshore branch of `checkBurntAndMinted`: for the source
"XUSD", the destination "XHV", a 64-bit `amount_burnt` and a non-zero rate `r`,
`max(pr.unused1, pr.xUSD)` at version 19 or later and `pr.unused1` before, it returns true
if and only if `amount_minted` is the quotient `floor(amount_burnt · 10^12 / r)` after its
conversion to 64 bits. For a quotient below `2^64` that the conversion keeps, this is
`amount_minted = floor(amount_burnt · 10^12 / r)`; for a quotient of `2^64` or more, the
64-bit value it is converted to is accepted, and is not the quotient. -/
theorem C36_onshore_mint (W : uint128_ops) (rv : rctSig)
    (amount_burnt amount_minted : Nat) (pr : pricing_record) (version : Nat)
    (hb : amount_burnt < 2 ^ 64)
    (hr : (if version ≥ 19 then max pr.unused1 pr.xUSD else pr.unused1) ≠ 0) :
    checkBurntAndMinted W rv amount_burnt amount_minted pr "XUSD" "XHV" version =
      .ok (decide (W.to_uint64 (amount_burnt * 10 ^ 12 /
        (if version ≥ 19 then max pr.unused1 pr.xUSD else pr.unused1)) = amount_minted)) ∧
    (W.to_uint64 (amount_burnt * 10 ^ 12 /
        (if version ≥ 19 then max pr.unused1 pr.xUSD else pr.unused1)) =
      amount_burnt * 10 ^ 12 /
        (if version ≥ 19 then max pr.unused1 pr.xUSD else pr.unused1) →
      checkBurntAndMinted W rv amount_burnt amount_minted pr "XUSD" "XHV" version =
        .ok (decide (amount_minted = amount_burnt * 10 ^ 12 /
          (if version ≥ 19 then max pr.unused1 pr.xUSD else pr.unused1)))) ∧
    (2 ^ 64 ≤ amount_burnt * 10 ^ 12 /
        (if version ≥ 19 then max pr.unused1 pr.xUSD else pr.unused1) →
      W.to_uint64 (amount_burnt * 10 ^ 12 /
        (if version ≥ 19 then max pr.unused1 pr.xUSD else pr.unused1)) < 2 ^ 64 →
      checkBurntAndMinted W rv amount_burnt
        (W.to_uint64 (amount_burnt * 10 ^ 12 /
          (if version ≥ 19 then max pr.unused1 pr.xUSD else pr.unused1)))
        pr "XUSD" "XHV" version = .ok true ∧
      W.to_uint64 (amount_burnt * 10 ^ 12 /
          (if version ≥ 19 then max pr.unused1 pr.xUSD else pr.unused1)) ≠
        amount_burnt * 10 ^ 12 /
          (if version ≥ 19 then max pr.unused1 pr.xUSD else pr.unused1)) := by
  have hc : COIN = 10 ^ 12 := by decide
  have key : ∀ m, checkBurntAndMinted W rv amount_burnt m pr "XUSD" "XHV" version =
      .ok (decide (W.to_uint64 (amount_burnt * 10 ^ 12 /
        (if version ≥ 19 then max pr.unused1 pr.xUSD else pr.unused1)) = m)) := by
    intro m
    rw [← hc]
    exact checkBurntAndMinted_onshore W rv amount_burnt m pr version hb hr
  refine ⟨key _, fun he => ?_, fun hge hlt => ⟨?_, fun he => ?_⟩⟩
  · rw [key, he]
    congr 1
    exact decide_eq_decide.2 ⟨fun h => h.symm, fun h => h.symm⟩
  · rw [key, decide_eq_true_iff.2 rfl]
  · rw [he] at hlt
    exact absurd hge (Nat.not_le.2 hlt)

/-- Witness of C36 at the failing input: at version 20 with both XHV prices 10^8, of
0.0001 XUSD for 1 XHV, an onshore that burns 2·10^15 (2000 XUSD) has the quotient
2·10^19, above `2^64`. A library that keeps the low 64 bits accepts the amount
1553255926290448384 and one that stops at `2^64 - 1` accepts 18446744073709551615;
neither is the quotient. At the prices 400·COIN and 500·COIN, 1000 XUSD mint 2 XHV. -/
theorem C36_onshore_mint_witness :
    (2000000000000000 : ℕ) < 2 ^ 64 ∧
    (2 : ℕ) ^ 64 ≤ 2000000000000000 * 10 ^ 12 / 100000000 ∧
    checkBurntAndMinted boost_uint128 exTransfer 2000000000000000 1553255926290448384
      (exPrices 100000000 100000000) "XUSD" "XHV" 20 = .ok true ∧
    checkBurntAndMinted boost_uint128_max exTransfer 2000000000000000 18446744073709551615
      (exPrices 100000000 100000000) "XUSD" "XHV" 20 = .ok true ∧
    checkBurntAndMinted boost_uint128 exTransfer 1000 2
      (exPrices (400 * COIN) (500 * COIN)) "XUSD" "XHV" 20 = .ok true ∧
    (checkBurntAndMinted boost_uint128 exTransfer 2000000000000000
        (boost_uint128.to_uint64 (2000000000000000 * 10 ^ 12 /
          (if 20 ≥ 19 then max (exPrices 100000000 100000000).unused1
            (exPrices 100000000 100000000).xUSD
           else (exPrices 100000000 100000000).unused1)))
        (exPrices 100000000 100000000) "XUSD" "XHV" 20 = .ok true ∧
      boost_uint128.to_uint64 (2000000000000000 * 10 ^ 12 /
          (if 20 ≥ 19 then max (exPrices 100000000 100000000).unused1
            (exPrices 100000000 100000000).xUSD
           else (exPrices 100000000 100000000).unused1)) ≠
        2000000000000000 * 10 ^ 12 /
          (if 20 ≥ 19 then max (exPrices 100000000 100000000).unused1
            (exPrices 100000000 100000000).xUSD
           else (exPrices 100000000 100000000).unused1)) :=
  ⟨by decide, by decide, by decide, by decide, by decide,
   (C36_onshore_mint boost_uint128 exTransfer 2000000000000000 0
     (exPrices 100000000 100000000) 20 (by decide) (by decide)).2.2 (by decide) (by decide)⟩

/-- C37, as the code has it. Burnt fee of an XUSD/xAsset conversion at a version from
`HF_VERSION_HAVEN2` up to, and without, `HF_VERSION_USE_COLLATERAL`: the verifier
`verRctSemanticsSimple2` subtracts `floor(4·txnOffshoreFee/5)`, computed on 128 bits;
`checkBurntAndMinted` subtracts `((4·txnOffshoreFee) mod 2^64) / 5`, the product being
computed on 64 bits. The two agree for a fee below `2^62`, and for every 64-bit fee from
`2^62` on the second is the smaller one. -/
theorem C37_burnt_fee_agreement (rv : rctSig) (fee_old : Nat) (tx_type : transaction_type)
    (version amount : Nat)
    (hv1 : HF_VERSION_HAVEN2 ≤ version) (hv2 : version < HF_VERSION_USE_COLLATERAL)
    (ht : tx_type = .XUSD_TO_XASSET ∨ tx_type = .XASSET_TO_XUSD)
    (hf : rv.txnOffshoreFee < 2 ^ 64) :
    checkBurntAndMinted_net rv fee_old version amount =
      uint128_sub amount (((rv.txnOffshoreFee * 4) % 2 ^ 64) / 5) ∧
    burnt_adjusted rv tx_type version amount =
      (amount + 2 ^ 64 - 4 * rv.txnOffshoreFee / 5) % 2 ^ 64 ∧
    (rv.txnOffshoreFee < 2 ^ 62 →
      ((rv.txnOffshoreFee * 4) % 2 ^ 64) / 5 = 4 * rv.txnOffshoreFee / 5) ∧
    (2 ^ 62 ≤ rv.txnOffshoreFee →
      ((rv.txnOffshoreFee * 4) % 2 ^ 64) / 5 < 4 * rv.txnOffshoreFee / 5) := by
  refine ⟨?_, burnt_adjusted_cond ⟨hv2, ht⟩ hf, fun hlt => ?_, fun hge => ?_⟩
  · unfold checkBurntAndMinted_net
    rw [if_pos hv2, if_pos hv1]
  · generalize rv.txnOffshoreFee = f at hlt
    norm_num at hlt ⊢
    omega
  · generalize rv.txnOffshoreFee = f at hf hge
    norm_num at hf hge ⊢
    omega

/-- Witness of C37 at the failing input: with `txnOffshoreFee = 2^62` at version 19,
`checkBurntAndMinted` subtracts 0 and the verifier 3689348814741910323. A conversion of
XUSD to `xAU` at the rate 2 that burns 4·10^18 passes `checkBurntAndMinted` with 8·10^18
minted, the fee not taken off, and not with the 621302370516179354 that the amount net
of the fee converts to. -/
theorem C37_burnt_fee_agreement_witness :
    exHugeFee.txnOffshoreFee = 2 ^ 62 ∧
    4 * exHugeFee.txnOffshoreFee / 5 = 3689348814741910323 ∧
    ((exHugeFee.txnOffshoreFee * 4) % 2 ^ 64) / 5 = 0 ∧
    checkBurntAndMinted_net exHugeFee 0 19 4000000000000000000 = 4000000000000000000 ∧
    burnt_adjusted exHugeFee .XUSD_TO_XASSET 19 4000000000000000000 = 310651185258089677 ∧
    checkBurntAndMinted boost_uint128 exHugeFee 4000000000000000000 8000000000000000000
      exRates "XUSD" "xAU" 19 = .ok true ∧
    checkBurntAndMinted boost_uint128 exHugeFee 4000000000000000000 621302370516179354
      exRates "XUSD" "xAU" 19 = .ok false ∧
    ((exHugeFee.txnOffshoreFee * 4) % 2 ^ 64) / 5 < 4 * exHugeFee.txnOffshoreFee / 5 :=
  ⟨by decide, by decide, by decide, by decide, by decide, by decide, by decide,
   (C37_burnt_fee_agreement exHugeFee 0 .XUSD_TO_XASSET 19 0 (by decide) (by decide)
     (Or.inl rfl) (by decide)).2.2.2 (by decide)⟩

/-- C34, as the code has it. Dummy Bulletproof shape: for every list of `n ≤ 2^31` output
amounts, `make_dummy_bulletproof` returns a proof whose `V` has `n` entries, whose `L`
and `R` each have `6 + k` entries, where `k` is the least integer with `2^k ≥ n`, and in
which every field (`V, A, S, T1, T2, taux, mu, L, R, a, b, t`) is the identity encoding
`I`; and it resizes `C` and `masks` to `n`, every mask being `I`. -/
theorem C34_dummy_bulletproof (outamounts : List Nat) (hn : outamounts.length ≤ 2 ^ 31) :
    ∃ (k : ℕ) (C : List key),
      outamounts.length ≤ 2 ^ k ∧ (∀ j, j < k → 2 ^ j < outamounts.length) ∧
      make_dummy_bulletproof L outamounts =
        .ok ({ V := List.replicate outamounts.length identity, A := identity, S := identity,
               T1 := identity, T2 := identity, taux := identity, mu := identity,
               L := List.replicate (6 + k) identity, R := List.replicate (6 + k) identity,
               a := identity, b := identity, t := identity },
             C, List.replicate outamounts.length identity) ∧
      C.length = outamounts.length := by
  obtain ⟨k, hk, -, h1, h2⟩ :=
    make_dummy_bulletproof_nrl_eq hn 33 0 (by omega) (by omega) (fun j hj => by omega)
  refine ⟨k, outamounts.map (fun amount =>
    addKeys2 L INV_EIGHT (sc_mul (amount % 2 ^ 64) INV_EIGHT) L.H), h1, h2, ?_, ?_⟩
  · unfold make_dummy_bulletproof
    simp only []
    rw [hk, ok_bind, Nat.add_comm k 6]
    simp only [List.map_const', pure, Except.pure]
  · rw [List.length_map]

/-- Witness of C34: for three amounts the proof has `V` of three entries and `L`, `R`
of `6 + 2` entries. -/
theorem C34_dummy_bulletproof_witness :
    [5, 6, 7].length ≤ 2 ^ 31 ∧
    (make_dummy_bulletproof zLib [5, 6, 7]).map (fun r => (r.1, r.2.2)) =
      .ok ({ V := List.replicate 3 identity, A := identity, S := identity,
             T1 := identity, T2 := identity, taux := identity, mu := identity,
             L := List.replicate 8 identity, R := List.replicate 8 identity,
             a := identity, b := identity, t := identity }, List.replicate 3 identity) ∧
    ∃ (k : ℕ) (C : List key),
      [5, 6, 7].length ≤ 2 ^ k ∧ (∀ j, j < k → 2 ^ j < [5, 6, 7].length) ∧
      make_dummy_bulletproof zLib [5, 6, 7] =
        .ok ({ V := List.replicate [5, 6, 7].length identity, A := identity, S := identity,
               T1 := identity, T2 := identity, taux := identity, mu := identity,
               L := List.replicate (6 + k) identity, R := List.replicate (6 + k) identity,
               a := identity, b := identity, t := identity },
             C, List.replicate [5, 6, 7].length identity) ∧
      C.length = [5, 6, 7].length :=
  ⟨by decide, by decide, C34_dummy_bulletproof [5, 6, 7] (by decide)⟩

/-- Counterexample to C34 as stated: for `2^31 + 1` amounts the loop
`while ((1u << nrl) < n_outs) ++nrl` comes to `nrl = 32`, and the shift of the 32-bit
`1u` by 32 is undefined: no proof is returned. For `2^31` amounts the loop ends at 31. -/
theorem C34_counterexample :
    (List.replicate (2 ^ 31 + 1) (0 : ℕ)).length = 2 ^ 31 + 1 ∧
    make_dummy_bulletproof_nrl (2 ^ 31) 33 0 = .ok 31 ∧
    make_dummy_bulletproof_nrl (2 ^ 31 + 1) 33 0 = .error .undefined ∧
    (make_dummy_bulletproof zLib (List.replicate (2 ^ 31 + 1) 0)).map (fun r => r.1) =
      .error .undefined := by
  refine ⟨List.length_replicate _ _, by decide, by decide, ?_⟩
  unfold make_dummy_bulletproof
  simp only []
  rw [List.length_replicate, show make_dummy_bulletproof_nrl (2 ^ 31 + 1) 33 0 =
    .error .undefined by decide]
  rfl

/-- C38, as the code has it. Direction classification: for every source colour and every
output list, no three of the flags `offshore`, `onshore`, `offshore_to_offshore`,
`xusd_to_xasset`, `xasset_to_xusd`, `xasset_transfer` computed by `genRctSimple` are
true together, and the only pairs that can be true together are `xusd_to_xasset` with
`onshore` (exactly when XUSD is sent and XHV, XUSD and an xAsset are all received) and
`xusd_to_xasset` with `offshore_to_offshore` (exactly when XUSD is sent, XUSD and an
xAsset are received and no XHV is); every other pair is exclusive, and none of the
flags is true when every output has the colour XHV. -/
theorem C38_direction_flags (in_asset_type : String) (outamounts : List outamount) :
    let d := genRctSimple_direction in_asset_type outamounts
    let xhv_received := outamounts.any (fun o => decide (o.1 = "XHV"))
    let usd_received :=
      outamounts.any (fun o => !decide (o.1 = "XHV") && decide (o.1 = "XUSD"))
    let xasset_received :=
      outamounts.any (fun o => !decide (o.1 = "XHV") && !decide (o.1 = "XUSD"))
    ([d.offshore, d.onshore, d.offshore_to_offshore, d.xusd_to_xasset, d.xasset_to_xusd,
      d.xasset_transfer].count true ≤ 2) ∧
    ([d.offshore, d.onshore, d.offshore_to_offshore, d.xasset_to_xusd,
      d.xasset_transfer].count true ≤ 1) ∧
    ([d.offshore, d.xusd_to_xasset, d.xasset_to_xusd, d.xasset_transfer].count true ≤ 1) ∧
    ((d.xusd_to_xasset = true ∧ d.onshore = true) ↔
      (in_asset_type = "XUSD" ∧ xhv_received = true ∧ usd_received = true ∧
        xasset_received = true)) ∧
    ((d.xusd_to_xasset = true ∧ d.offshore_to_offshore = true) ↔
      (in_asset_type = "XUSD" ∧ xhv_received = false ∧ usd_received = true ∧
        xasset_received = true)) ∧
    ((∀ o, o ∈ outamounts → o.1 = "XHV") →
      d.offshore = false ∧ d.onshore = false ∧ d.offshore_to_offshore = false ∧
      d.xusd_to_xasset = false ∧ d.xasset_to_xusd = false ∧ d.xasset_transfer = false) := by
  have hx : in_asset_type = "XUSD" → in_asset_type ≠ "XHV" := by
    intro h
    rw [h]
    decide
  have hall : (∀ o, o ∈ outamounts → o.1 = "XHV") →
      outamounts.any (fun o => !decide (o.1 = "XHV") && decide (o.1 = "XUSD")) = false ∧
      outamounts.any (fun o => !decide (o.1 = "XHV") && !decide (o.1 = "XUSD")) = false := by
    intro h
    constructor
    · exact any_false_of_forall outamounts _ (fun o => decide (o.1 = "XHV"))
        (fun o ho => decide_eq_true_iff.2 (h o ho)) (fun o ho => by simp only [ho]; rfl)
    · exact any_false_of_forall outamounts _ (fun o => decide (o.1 = "XHV"))
        (fun o ho => decide_eq_true_iff.2 (h o ho)) (fun o ho => by simp only [ho]; rfl)
  simp only [genRctSimple_direction]
  by_cases h1 : in_asset_type = "XHV" <;> by_cases h2 : in_asset_type = "XUSD" <;>
    [exact absurd h1 (hx h2); skip; skip; skip] <;>
  · simp only [h1, h2, decide_True, decide_False]
    refine ⟨?_, ?_, ?_, ?_, ?_, fun h => ?_⟩
    iterate 5
      generalize outamounts.any (fun o => decide (o.1 = "XHV")) = r1
      generalize
        outamounts.any (fun o => !decide (o.1 = "XHV") && decide (o.1 = "XUSD")) = r2
      generalize
        outamounts.any (fun o => !decide (o.1 = "XHV") && !decide (o.1 = "XUSD")) = r3
      revert r1 r2 r3
      decide
    · rw [(hall h).1, (hall h).2]
      generalize outamounts.any (fun o => decide (o.1 = "XHV")) = r1
      revert r1
      decide

/-- Witness of C38: a transfer of XHV whose two outputs are XHV sets no flag. -/
theorem C38_direction_flags_witness :
    (∀ o, o ∈ [(("XHV", (5, false)) : outamount), ("XHV", (7, false))] → o.1 = "XHV") ∧
    genRctSimple_direction "XHV" [("XHV", (5, false)), ("XHV", (7, false))] =
      { offshore := false, onshore := false, offshore_to_offshore := false,
        xasset_to_xusd := false, xusd_to_xasset := false, xasset_transfer := false,
        conversion_tx := false } ∧
    (genRctSimple_direction "XHV" [("XHV", (5, false)), ("XHV", (7, false))]).offshore
      = false :=
  ⟨by decide, by decide,
   ((C38_direction_flags "XHV" [("XHV", (5, false)), ("XHV", (7, false))]).2.2.2.2.2
      (by decide)).1⟩

/-- Counterexample to C38 as stated: a conversion of XUSD to xAU with its change in
XUSD sets both `offshore_to_offshore` and `xusd_to_xasset`; and when XUSD is sent and
XHV, XUSD and xAU are received, both `onshore` and `xusd_to_xasset` are set. -/
theorem C38_counterexample :
    genRctSimple_direction "XUSD" [("XUSD", (5, false)), ("xAU", (7, false))] =
      { offshore := false, onshore := false, offshore_to_offshore := true,
        xasset_to_xusd := false, xusd_to_xasset := true, xasset_transfer := false,
        conversion_tx := true } ∧
    genRctSimple_direction "XUSD"
        [("XHV", (3, false)), ("XUSD", (5, false)), ("xAU", (7, false))] =
      { offshore := false, onshore := true, offshore_to_offshore := false,
        xasset_to_xusd := false, xusd_to_xasset := true, xasset_transfer := false,
        conversion_tx := true } := by
  constructor <;> decide

/-- C39. Index safety of the semantic verifier, evaluated where it fails: in each of five
calls of `verRctSemanticsSimple2` every precondition check passes and an index is out
of bounds. (1) The accepted sample offshore (type Haven3, version 20) with
`collateral_indices = [7, 1]`: `rv.outPk[collateral_indices[0]]` is read with three
outputs. (2) The sample transfer with a `vout` of three outputs and two `rv.outPk`:
`rv.outPk[2]`. (3) The sample onshore with one entry in `vin` and two pseudo-outs:
`vin[1]`. (4) An onshore of type Haven2 at version 20 with no collateral indices:
`collateral_indices[0]`. (5) An offshore of type Haven2 at version 20:
`rv.maskSums[2]` with two mask sums. With the arguments in range the sample offshore,
onshore and transfer are accepted. -/
theorem C39_index_safety :
    (verRctSemanticsSimple2_checks zLib exOffshore
        (exPrices 500000000000000 500000000000000) .OFFSHORE "XHV" "XUSD" 10 [7, 1] 20
        = true ∧
      exOffshoreVout.length = exOffshore.outPk.length ∧
      idx exOffshore.outPk 7 = .error .outOfBounds ∧
      verRctSemanticsSimple2 zLib exOffshore (exPrices 500000000000000 500000000000000)
        .OFFSHORE "XHV" "XUSD" 10 exOffshoreVout [.txin_to_key] 20 [7, 1] 20
        = .error .outOfBounds ∧
      verRctSemanticsSimple2 zLib exOffshore (exPrices 500000000000000 500000000000000)
        .OFFSHORE "XHV" "XUSD" 10 exOffshoreVout [.txin_to_key] 20 [2, 1] 20
        = .ok true) ∧
    (verRctSemanticsSimple2_checks zLib exTransfer (exPrices 0 0) .TRANSFER "XHV" "XHV" 0
        [] 0 = true ∧
      output_masks exTransfer.outPk .TRANSFER "XHV" "XHV" 20 [] exTransferVout3 0 [] []
        = .error .outOfBounds ∧
      verRctSemanticsSimple2 zLib exTransfer (exPrices 0 0) .TRANSFER "XHV" "XHV" 0
        exTransferVout3 [.txin_to_key] 20 [] 0 = .error .outOfBounds ∧
      verRctSemanticsSimple2 zLib exTransfer (exPrices 0 0) .TRANSFER "XHV" "XHV" 0
        exTransferVout [.txin_to_key] 20 [] 0 = .ok true) ∧
    (verRctSemanticsSimple2_checks zLib (exOnshore 500)
        (exPrices 400000000000000 500000000000000) .ONSHORE "XUSD" "XHV" 500 [1, 2] 10
        = true ∧
      input_sums zLib (exOnshore 500) .ONSHORE [.txin_offshore] 20 = .error .outOfBounds ∧
      verRctSemanticsSimple2 zLib (exOnshore 500) (exPrices 400000000000000 500000000000000)
        .ONSHORE "XUSD" "XHV" 500 exOnshoreVout [.txin_offshore] 20 [1, 2] 10
        = .error .outOfBounds ∧
      verRctSemanticsSimple2 zLib (exOnshore 500) (exPrices 400000000000000 500000000000000)
        .ONSHORE "XUSD" "XHV" 500 exOnshoreVout exOnshoreVin 20 [1, 2] 10 = .ok true) ∧
    (verRctSemanticsSimple2_checks zLib exOnshoreHaven2
        (exPrices 400000000000000 500000000000000) .ONSHORE "XUSD" "XHV" 500 [] 10
        = true ∧
      onshore_col_idx .ONSHORE 20 [] 0 = .error .outOfBounds ∧
      verRctSemanticsSimple2 zLib exOnshoreHaven2 (exPrices 400000000000000 500000000000000)
        .ONSHORE "XUSD" "XHV" 500 exOnshoreVout exOnshoreVin 20 [] 10
        = .error .outOfBounds) ∧
    (verRctSemanticsSimple2_checks zLib exOffshoreHaven2
        (exPrices 500000000000000 500000000000000) .OFFSHORE "XHV" "XUSD" 10 [2, 1] 20
        = true ∧
      idx exOffshoreHaven2.maskSums 2 = .error .outOfBounds ∧
      verRctSemanticsSimple2 zLib exOffshoreHaven2 (exPrices 500000000000000 500000000000000)
        .OFFSHORE "XHV" "XUSD" 10 exOffshoreVout [.txin_to_key] 20 [2, 1] 20
        = .error .outOfBounds ∧
      verRctSemanticsSimple2 zLib exOffshoreHaven2 (exPrices 500000000000000 500000000000000)
        .OFFSHORE "XHV" "XUSD" 10 exOffshoreVout [.txin_to_key] 19 [2, 1] 20
        = .ok true) := by
  refine ⟨⟨?_, ?_, ?_, ?_, ?_⟩, ⟨?_, ?_, ?_, ?_⟩, ⟨?_, ?_, ?_, ?_⟩, ⟨?_, ?_, ?_⟩,
    ⟨?_, ?_, ?_, ?_⟩⟩ <;> decide

/-- C40. Range-proof batching: in the non-padded mode of `genRctSimple` the batching
loop terminates for every number `n` of outputs, within `n` rounds, and splits them
into consecutive batches whose sizes sum to `n`; with `RangeProofMultiOutputBulletproof`
each batch size is the largest power of two that is at most the number of outputs still
unproved and at most `BULLETPROOF_MAX_OUTPUTS`, otherwise each batch has size 1; when
the loop completes, exactly one Bulletproof has been appended per batch, the one the
prover returns for the amounts of that batch, and the mask of every output has been
stored in `outSk`. With the stand-in prover of a device in the mode
`TRANSACTION_CREATE_FAKE` the loop completes. -/
theorem C40_batching (dev : device) (range_proof_type : RangeProofType) (type : RCTType)
    (d : direction) (use_onshore_col : Bool) (onshore_col_amount : Nat)
    (outamounts : List outamount) (amount_keys : List key) (st0 : gen_outputs) :
    ∃ sizes : List Nat,
      genRctSimple_batch_list range_proof_type outamounts.length outamounts.length 0
        = .ok sizes ∧
      spec_batches range_proof_type outamounts.length 0 sizes ∧
      sizes.sum = outamounts.length ∧
      genRctSimple_batches L dev range_proof_type type d use_onshore_col
        onshore_col_amount outamounts amount_keys outamounts.length 0 st0 ≠ .error .fuel ∧
      (∀ st, genRctSimple_batches L dev range_proof_type type d use_onshore_col
          onshore_col_amount outamounts amount_keys outamounts.length 0 st0 = .ok st →
        ∃ ps ms, st.bulletproofs = st0.bulletproofs ++ ps ∧ st.outSk = st0.outSk ++ ms ∧
          batch_proofs L dev outamounts amount_keys 0 sizes ps ms ∧
          ps.length = sizes.length ∧ ms.length = outamounts.length) ∧
      (L.Sound → dev.fake = true →
        (type = RCTTypeHaven2 ∨ type = RCTTypeHaven3 → 2 ≤ st0.maskSums.length) →
        ∃ st, genRctSimple_batches L dev range_proof_type type d use_onshore_col
          onshore_col_amount outamounts amount_keys outamounts.length 0 st0 = .ok st) := by
  obtain ⟨sizes, h1, h2, h3⟩ :=
    genRctSimple_batch_list_spec range_proof_type outamounts.length outamounts.length 0
      (Nat.zero_le _) (by omega)
  have h4 := @genRctSimple_batches_spec Pt _ L dev range_proof_type type d use_onshore_col
    onshore_col_amount outamounts amount_keys outamounts.length 0 st0 sizes h1
  refine ⟨sizes, h1, h2, by omega, h4.1, fun st hst => ?_, fun hL hf hm => ?_⟩
  · obtain ⟨ps, ms, e1, e2, e3⟩ := h4.2 st hst
    obtain ⟨l1, l2⟩ := batch_proofs_lengths _ _ _ _ e3
    exact ⟨ps, ms, e1, e2, e3, l1, by omega⟩
  · exact genRctSimple_batches_returns hL hf _ _ _ (Nat.zero_le _) (by omega) hm

/-- Witness of C40: five outputs are proved in the batches of 4 and 1 with
`RangeProofMultiOutputBulletproof`, and in five batches of 1 with
`RangeProofBulletproof`; the run with the stand-in prover completes with two
Bulletproofs and five masks. -/
theorem C40_batching_witness :
    genRctSimple_batch_list .RangeProofMultiOutputBulletproof 5 5 0 = .ok [4, 1] ∧
    genRctSimple_batch_list .RangeProofBulletproof 5 5 0 = .ok [1, 1, 1, 1, 1] ∧
    genRctSimple_batch_list .RangeProofMultiOutputBulletproof 39 39 0
      = .ok [16, 16, 4, 2, 1] ∧
    ((genRctSimple_batches zLib exDevFake .RangeProofMultiOutputBulletproof RCTTypeHaven3
        (genRctSimple_direction "XHV" exFiveOuts) false 0 exFiveOuts [] 5 0 exStage0).map
      (fun st => (st.bulletproofs.length, st.outSk))) = .ok (2, [1, 1, 1, 1, 1]) ∧
    zLib.Sound ∧ exDevFake.fake = true ∧ 2 ≤ exStage0.maskSums.length ∧
    (∃ st, genRctSimple_batches zLib exDevFake .RangeProofMultiOutputBulletproof
      RCTTypeHaven3 (genRctSimple_direction "XHV" exFiveOuts) false 0 exFiveOuts []
      exFiveOuts.length 0 exStage0 = .ok st) ∧
    ∃ sizes : List Nat,
      genRctSimple_batch_list .RangeProofMultiOutputBulletproof exFiveOuts.length
        exFiveOuts.length 0 = .ok sizes ∧
      spec_batches .RangeProofMultiOutputBulletproof exFiveOuts.length 0 sizes ∧
      sizes.sum = exFiveOuts.length ∧
      genRctSimple_batches zLib exDevFake .RangeProofMultiOutputBulletproof RCTTypeHaven3
        (genRctSimple_direction "XHV" exFiveOuts) false 0 exFiveOuts [] exFiveOuts.length 0
        exStage0 ≠ .error .fuel ∧
      (∀ st, genRctSimple_batches zLib exDevFake .RangeProofMultiOutputBulletproof
          RCTTypeHaven3 (genRctSimple_direction "XHV" exFiveOuts) false 0 exFiveOuts []
          exFiveOuts.length 0 exStage0 = .ok st →
        ∃ ps ms, st.bulletproofs = exStage0.bulletproofs ++ ps ∧
          st.outSk = exStage0.outSk ++ ms ∧
          batch_proofs zLib exDevFake exFiveOuts [] 0 sizes ps ms ∧
          ps.length = sizes.length ∧ ms.length = exFiveOuts.length) ∧
      (zLib.Sound → exDevFake.fake = true →
        (RCTTypeHaven3 = RCTTypeHaven2 ∨ RCTTypeHaven3 = RCTTypeHaven3 →
          2 ≤ exStage0.maskSums.length) →
        ∃ st, genRctSimple_batches zLib exDevFake .RangeProofMultiOutputBulletproof
          RCTTypeHaven3 (genRctSimple_direction "XHV" exFiveOuts) false 0 exFiveOuts []
          exFiveOuts.length 0 exStage0 = .ok st) :=
  ⟨by decide, by decide, by decide, by decide, zLib_sound, rfl, by decide,
   (C40_batching exDevFake .RangeProofMultiOutputBulletproof RCTTypeHaven3
     (genRctSimple_direction "XHV" exFiveOuts) false 0 exFiveOuts [] exStage0).elim
     (fun _ h => h.2.2.2.2.2 zLib_sound rfl (fun _ => (by decide))),
   C40_batching exDevFake .RangeProofMultiOutputBulletproof RCTTypeHaven3
     (genRctSimple_direction "XHV" exFiveOuts) false 0 exFiveOuts [] exStage0⟩

end Claims

end Rct
